import Mathlib

/-!
FeenoX algebraic expressions: parser and evaluator.

A shallow embedding of `src/math/expressions.c`.

* C strings are lists of characters; the end of the list plays the role of the
  terminating NUL.
* The C type `double` and the library operations the code applies to it are a
  parameter `A : Arith D`, so every result holds for whatever arithmetic the
  host provides; `exact` is an instance with exact rational arithmetic.
* `size_t` is 64 bits wide and `int` 32 bits wide; conversions are written out.
* Pointers into the symbol tables are the names of the entries.
* The error channel is a log of events: every `feenox_push_error_message`,
  `feenox_runtime_error` and `feenox_nan_error` call appends one entry.
-/

namespace Feenox

/-! ## Characters and C strings -/

/-- The character found at offset `i` of a C string: NUL at the terminator. -/
def char_at (s : List Char) (i : Nat) : Char := s.getD i (Char.ofNat 0)

/-- C `isdigit`. -/
def isdigit (c : Char) : Bool := decide (48 ≤ c.toNat) && decide (c.toNat ≤ 57)

/-- C `isblank`: space and horizontal tab. -/
def isblank (c : Char) : Bool := c == ' ' || c == '\t'

/-- C `tolower` on the ASCII letters. -/
def tolower (c : Char) : Char :=
  if 65 ≤ c.toNat ∧ c.toNat ≤ 90 then Char.ofNat (c.toNat + 32) else c

/-- C `isxdigit`. -/
def isxdigit (c : Char) : Bool :=
  isdigit c || (decide (97 ≤ (tolower c).toNat) && decide ((tolower c).toNat ≤ 102))

/-- Value of a decimal digit character. -/
def digit_value (c : Char) : Nat := c.toNat - 48

/-- Value of a hexadecimal digit character. -/
def xdigit_value (c : Char) : Nat :=
  if isdigit c then c.toNat - 48 else (tolower c).toNat - 87

/-- Value of a string of decimal digits. -/
def digits_value (ds : List Char) : Nat :=
  ds.foldl (fun acc c => 10 * acc + digit_value c) 0

/-- Value of a string of hexadecimal digits. -/
def xdigits_value (ds : List Char) : Nat :=
  ds.foldl (fun acc c => 16 * acc + xdigit_value c) 0

/-- C `strchr(table, c)` for a non-NUL `c`: offset of the first occurrence. -/
def strchr (table : List Char) (c : Char) : Option Nat :=
  match table with
  | [] => none
  | t :: ts => if t = c then some 0 else (strchr ts c).map (· + 1)

/-- Whether `pat` is an initial segment of `s`. -/
def starts_with (pat s : List Char) : Bool :=
  match pat, s with
  | [], _ => true
  | _ :: _, [] => false
  | p :: ps, c :: cs => p == c && starts_with ps cs

/-- C `strstr(s, pat)`: offset of the first occurrence of `pat` in `s`. -/
def strstr (s pat : List Char) : Option Nat :=
  if starts_with pat s then some 0 else
  match s with
  | [] => none
  | _ :: cs => (strstr cs pat).map (· + 1)

/-- C `strtok(s, seps)` on a fresh buffer: the leading separators are skipped and
the token runs up to the next separator; `none` is the NULL returned when nothing
but separators is left. -/
def strtok (s seps : List Char) : Option (List Char) :=
  let t := (s.dropWhile (fun c => seps.contains c)).takeWhile (fun c => !seps.contains c)
  if t = [] then none else some t

/-! ## The floating-point scan `sscanf(string, "%lf%n", ...)` -/

/-- What `%lf` has read: the subject sequences of `strtod`. -/
inductive scan_value where
  /-- `mant * 10 ^ (exp10 - frac_digits)`, negated when `neg`. -/
  | decimal (neg : Bool) (mant : Nat) (frac_digits : Nat) (exp10 : Int)
  /-- `mant * 2 ^ (exp2 - 4 * frac_digits)`, negated when `neg`. -/
  | hexadecimal (neg : Bool) (mant : Nat) (frac_digits : Nat) (exp2 : Int)
  | infinity (neg : Bool)
  | not_a_number (neg : Bool)
  deriving DecidableEq, Repr

/-- Optional exponent part after a mantissa: the marker (`e` or `p`, either case),
an optional sign and at least one decimal digit.  Returns the exponent and the
number of characters read; `none` when the marker is there but no digit follows,
which is a matching failure of the whole conversion. -/
def scan_exponent (marker : Char) (s : List Char) : Option (Int × Nat) :=
  match s with
  | [] => some (0, 0)
  | c :: r =>
    if tolower c = marker then
      match r with
      | '+' :: t =>
        if t.takeWhile isdigit = [] then none
        else some ((digits_value (t.takeWhile isdigit) : Int), 2 + (t.takeWhile isdigit).length)
      | '-' :: t =>
        if t.takeWhile isdigit = [] then none
        else some (-(digits_value (t.takeWhile isdigit) : Int), 2 + (t.takeWhile isdigit).length)
      | _ =>
        if r.takeWhile isdigit = [] then none
        else some ((digits_value (r.takeWhile isdigit) : Int), 1 + (r.takeWhile isdigit).length)
    else some (0, 0)

/-- Decimal floating constant: digits, optional point, digits (at least one digit
in all), optional exponent. -/
def scan_decimal (neg : Bool) (s : List Char) : Option (scan_value × Nat) :=
  let ip := s.takeWhile isdigit
  let r1 := s.dropWhile isdigit
  match r1 with
  | '.' :: t =>
    let fp := t.takeWhile isdigit
    if ip = [] ∧ fp = [] then none else
    match scan_exponent 'e' (t.dropWhile isdigit) with
    | none => none
    | some (e, k) =>
      some (scan_value.decimal neg (digits_value (ip ++ fp)) fp.length e,
            ip.length + 1 + fp.length + k)
  | _ =>
    if ip = [] then none else
    match scan_exponent 'e' r1 with
    | none => none
    | some (e, k) => some (scan_value.decimal neg (digits_value ip) 0 e, ip.length + k)

/-- Hexadecimal floating constant, `s` being what follows the `0x`. -/
def scan_hexadecimal (neg : Bool) (s : List Char) : Option (scan_value × Nat) :=
  let ip := s.takeWhile isxdigit
  let r1 := s.dropWhile isxdigit
  match r1 with
  | '.' :: t =>
    let fp := t.takeWhile isxdigit
    if ip = [] ∧ fp = [] then none else
    match scan_exponent 'p' (t.dropWhile isxdigit) with
    | none => none
    | some (e, k) =>
      some (scan_value.hexadecimal neg (xdigits_value (ip ++ fp)) fp.length e,
            2 + ip.length + 1 + fp.length + k)
  | _ =>
    if ip = [] then none else
    match scan_exponent 'p' r1 with
    | none => none
    | some (e, k) => some (scan_value.hexadecimal neg (xdigits_value ip) 0 e, 2 + ip.length + k)

/-- Number of leading characters of `s` that spell `word`, letter case ignored. -/
def spelled (word s : List Char) : Nat :=
  match word, s with
  | w :: ws, c :: cs => if tolower c = w then spelled ws cs + 1 else 0
  | _, _ => 0

/-- The characters allowed between the brackets of `nan(...)`. -/
def is_nchar (c : Char) : Bool :=
  isdigit c || c == '_' || (decide (97 ≤ (tolower c).toNat) && decide ((tolower c).toNat ≤ 122))

/-- The unsigned part of a floating-point input item.  The input item is the
longest run of characters that is an initial segment of a valid number; when it
is not itself a valid number the conversion fails (`none`). -/
def scan_unsigned (neg : Bool) (s : List Char) : Option (scan_value × Nat) :=
  match s with
  | [] => none
  | c :: t =>
    if tolower c = 'i' then
      if spelled "infinity".toList s = 8 then some (scan_value.infinity neg, 8)
      else if spelled "infinity".toList s = 3 then some (scan_value.infinity neg, 3)
      else none
    else if tolower c = 'n' then
      if spelled "nan".toList s = 3 then
        match s.drop 3 with
        | '(' :: u =>
          match u.dropWhile is_nchar with
          | ')' :: _ => some (scan_value.not_a_number neg, 5 + (u.takeWhile is_nchar).length)
          | _ => none
        | _ => some (scan_value.not_a_number neg, 3)
      else none
    else if c = '0' ∧ tolower (char_at t 0) = 'x' then scan_hexadecimal neg (t.drop 1)
    else scan_decimal neg s

/-- Model of `sscanf(string, "%lf%n", &constant, &n_int)` on a string whose first
character is not white space: `some (v, n)` when one item was converted, `v`
being what was read and `n` the number of characters consumed; `none` when the
call returns 0. -/
def sscanf_lf (s : List Char) : Option (scan_value × Nat) :=
  match s with
  | '-' :: t => (scan_unsigned true t).map (fun r => (r.1, r.2 + 1))
  | '+' :: t => (scan_unsigned false t).map (fun r => (r.1, r.2 + 1))
  | _ => scan_unsigned false s

/-! ## The `double` type -/

/-- The C type `double` with the operations `expressions.c` applies to it. -/
structure Arith (D : Type) where
  /-- The value `0.0` (also what `calloc` leaves in a `double`). -/
  zero : D
  /-- The value `1.0`. -/
  one : D
  /-- Conversion of a scanned number. -/
  strtod : scan_value → D
  add : D → D → D
  sub : D → D → D
  mul : D → D → D
  div : D → D → D
  /-- C `pow`. -/
  pow : D → D → D
  /-- The comparison `x < y`. -/
  lt : D → D → Bool
  /-- The comparison `x == 0`. -/
  is_zero : D → Bool
  fabs : D → D
  /-- The cast `(int)x`. -/
  to_int : D → Int
  /-- Conversion of an `int` to `double`. -/
  of_int : Int → D
  /-- C `lrint`, a `long`. -/
  lrint : D → Int
  /-- GSL `gsl_fcmp(x, y, epsilon)`. -/
  gsl_fcmp : D → D → D → Int
  gsl_isnan : D → Bool
  gsl_isinf : D → Bool

/-! ## The error channel -/

/-- One argument of a `printf`-style message. -/
inductive msg_arg where
  | str (s : List Char)
  | int (i : Int)
  | chr (c : Char)
  deriving DecidableEq, Repr

/-- The calls into the error channel, in the order they are made. -/
inductive Event where
  /-- `feenox_push_error_message(fmt, args...)` -/
  | push_error_message (fmt : String) (args : List msg_arg)
  /-- `feenox_runtime_error()` -/
  | runtime_error
  /-- `feenox_nan_error()` -/
  | nan_error
  deriving DecidableEq, Repr

/-- How a parsing routine ends: a result (`FEENOX_OK`, a non-NULL factor), a
failure (`FEENOX_ERROR`, a NULL factor), or the recursion bound of the model was
reached before the routine ended. -/
inductive Ret (α : Type) where
  | ok (a : α)
  | fail
  | out_of_fuel
  deriving Repr

/-- A return value together with the events of the call. -/
abbrev Res (α : Type) := List Event × Ret α

/-! ## Data model (`feenox.h`) -/

def EXPR_UNDEFINED : Nat := 0
def EXPR_OPERATOR : Nat := 1
def EXPR_CONSTANT : Nat := 2
def EXPR_VARIABLE : Nat := 3
def EXPR_VECTOR : Nat := 4
def EXPR_MATRIX : Nat := 5
def EXPR_BUILTIN_FUNCTION : Nat := 6
def EXPR_BUILTIN_VECTORFUNCTION : Nat := 7
def EXPR_BUILTIN_FUNCTIONAL : Nat := 8
def EXPR_FUNCTION : Nat := 9
def EXPR_BASICTYPE_MASK : Nat := 1023
def EXPR_CURRENT : Nat := 0
def EXPR_INITIAL_TRANSIENT : Nat := 2048
def EXPR_INITIAL_STATIC : Nat := 4096

/-- Number of values of a `size_t`, `2 ^ 64`. -/
def SIZE_MAX1 : Nat := 18446744073709551616

/-- Conversion of an `int` or `long` to `size_t`: the value modulo `2 ^ 64`. -/
def to_size_t : Int → Nat
  | Int.ofNat n => n % 18446744073709551616
  | Int.negSucc n => 18446744073709551615 - n % 18446744073709551616

/-- Conversion of a `size_t` to `int`: the low 32 bits, in two's complement. -/
def to_int32 (n : Nat) : Int :=
  if n % 4294967296 < 2147483648 then Int.ofNat (n % 4294967296)
  else Int.negSucc (4294967295 - n % 4294967296)

/-- User function: the fields the parser reads. -/
structure function_t where
  name : List Char
  n_arguments : Int
  deriving DecidableEq, Repr

structure builtin_function_t where
  name : List Char
  min_arguments : Int
  max_arguments : Int
  deriving DecidableEq, Repr

structure builtin_vectorfunction_t where
  name : List Char
  min_arguments : Int
  max_arguments : Int
  deriving DecidableEq, Repr

structure builtin_functional_t where
  name : List Char
  min_arguments : Int
  max_arguments : Int
  deriving DecidableEq, Repr

/-- Algebraic expression over factors of type `F`: `expr_t`. -/
structure expr_of (F : Type) where
  factors : List F
  /-- the original string (empty for an expression that was never parsed) -/
  string : List Char

/-- Individual factor of an algebraic expression.  Pointers to variables, vectors
and matrices are the names of the entries; `none` is NULL.  The field `var` is
the C field `variable`; the fields `sign` and `aux` are not used by
`expressions.c`. -/
structure expr_factor_t (D : Type) where
  n_chars : Nat
  type : Nat
  level : Nat
  tmp_level : Nat
  oper : Nat
  constant : D
  value : D
  builtin_function : Option builtin_function_t
  builtin_vectorfunction : Option builtin_vectorfunction_t
  builtin_functional : Option builtin_functional_t
  var : Option (List Char)
  vector : Option (List Char)
  matrix : Option (List Char)
  function : Option function_t
  vector_arg : List (Option (List Char))
  functional_var_arg : Option (List Char)
  arg : List (expr_of (expr_factor_t D))

abbrev expr_t (D : Type) := expr_of (expr_factor_t D)

/-- A factor as `calloc` returns it. -/
def calloc_factor {D : Type} (A : Arith D) : expr_factor_t D :=
  { n_chars := 0, type := 0, level := 0, tmp_level := 0, oper := 0,
    constant := A.zero, value := A.zero,
    builtin_function := none, builtin_vectorfunction := none, builtin_functional := none,
    var := none, vector := none, matrix := none, function := none,
    vector_arg := [], functional_var_arg := none, arg := [] }

/-- An expression structure filled with zeros. -/
def calloc_expr {D : Type} : expr_t D := { factors := [], string := [] }

/-- The registries of the symbol namespace, as the parser sees them. -/
structure Namespace where
  matrices : List (List Char)
  vectors : List (List Char)
  vars : List (List Char)
  functions : List function_t
  builtin_functions : List builtin_function_t
  builtin_vectorfunctions : List builtin_vectorfunction_t
  builtin_functionals : List builtin_functional_t

/-- Modelled from the spec: `feenox_get_matrix_ptr` is not in the sources; the
lookup by name in the uniquely-keyed registry of matrices, NULL when absent. -/
def feenox_get_matrix_ptr (ns : Namespace) (name : List Char) : Option (List Char) :=
  ns.matrices.find? (fun m => m == name)

/-- Modelled from the spec: `feenox_get_vector_ptr` is not in the sources; the
lookup by name in the registry of vectors. -/
def feenox_get_vector_ptr (ns : Namespace) (name : List Char) : Option (List Char) :=
  ns.vectors.find? (fun v => v == name)

/-- Modelled from the spec: `feenox_get_variable_ptr` is not in the sources; the
lookup by name in the registry of variables. -/
def feenox_get_variable_ptr (ns : Namespace) (name : List Char) : Option (List Char) :=
  ns.vars.find? (fun v => v == name)

/-- Modelled from the spec: `feenox_get_function_ptr` is not in the sources; the
lookup by name in the registry of user functions. -/
def feenox_get_function_ptr (ns : Namespace) (name : List Char) : Option function_t :=
  ns.functions.find? (fun f => f.name == name)

/-- Modelled from the spec: `feenox_get_builtin_function_ptr` is not in the
sources; the lookup by name in the table of builtin functions. -/
def feenox_get_builtin_function_ptr (ns : Namespace) (name : List Char) :
    Option builtin_function_t :=
  ns.builtin_functions.find? (fun f => f.name == name)

/-- Modelled from the spec: `feenox_get_builtin_vectorfunction_ptr` is not in the
sources; the lookup by name in the table of builtin vectorfunctions. -/
def feenox_get_builtin_vectorfunction_ptr (ns : Namespace) (name : List Char) :
    Option builtin_vectorfunction_t :=
  ns.builtin_vectorfunctions.find? (fun f => f.name == name)

/-- Modelled from the spec: `feenox_get_builtin_functional_ptr` is not in the
sources; the lookup by name in the table of builtin functionals. -/
def feenox_get_builtin_functional_ptr (ns : Namespace) (name : List Char) :
    Option builtin_functional_t :=
  ns.builtin_functionals.find? (fun f => f.name == name)

/-- Modelled from the spec: the table `operators` is declared `extern` and defined
outside the sources; the fixed single-character operators in precedence pairs,
bitwise and relational lowest, `^` highest, then the two brackets. -/
def operators : List Char := "&|=!<>+-*/^()".toList

/-- Modelled from the spec: the table `factorseparators` is declared `extern` and
defined outside the sources; operators, brackets, comma and white space. -/
def factorseparators : List Char := "&|=!<>+-*/^(), \t\n".toList

/-! ## Reserved suffixes -/

/-- Offset of the suffix when `strstr` finds `_0` and the name ends right after
it; `none` is NULL. -/
def feenox_ends_in_zero (name : List Char) : Option Nat :=
  match strstr name "_0".toList with
  | some k => if char_at name (k + 2) = Char.ofNat 0 then some k else none
  | none => none

/-- Offset of the suffix when `strstr` finds `_init` and the name ends, or a
bracket opens, right after it. -/
def feenox_ends_in_init (name : List Char) : Option Nat :=
  match strstr name "_init".toList with
  | some k =>
    if char_at name (k + 5) = Char.ofNat 0 ∨ char_at name (k + 5) = '(' then some k else none
  | none => none

/-- Same for `_dot`. -/
def feenox_ends_in_dot (name : List Char) : Option Nat :=
  match strstr name "_dot".toList with
  | some k =>
    if char_at name (k + 4) = Char.ofNat 0 ∨ char_at name (k + 4) = '(' then some k else none
  | none => none

/-! ## Argument lists -/

/-- What `feenox_count_arguments` leaves behind. -/
structure count_out where
  /-- the return value: the number of arguments, or -1 -/
  ret : Int
  /-- the value stored through `n_chars` (0 when nothing is stored) -/
  n_chars : Nat
  /-- the buffer `string` after the call -/
  string : List Char
  log : List Event

/-- The `while (level != 0)` loop of `feenox_count_arguments`, entered with `s`
at the current character; `none` when the terminator is met.  Returns
`n_arguments` and `n`. -/
def count_loop : List Char → Nat → Int → Int → Option (Int × Nat)
  | [], _, _, _ => none
  | c :: s, n, level, n_arguments =>
    let level1 := if c = '(' then level + 1 else if c = ')' then level - 1 else level
    let n_arguments1 := if c = ',' ∧ level1 = 1 then n_arguments + 1 else n_arguments
    if level1 ≠ 0 then count_loop s (n + 1) level1 n_arguments1
    else some (n_arguments1, n + 1)

def feenox_count_arguments (string : List Char) : count_out :=
  if char_at string 0 ≠ '(' then
    { ret := -1, n_chars := 0, string := string,
      log := [Event.push_error_message "argument list needs to start with ')'" []] }
  else
    match count_loop (string.drop 1) 1 1 1 with
    | none =>
      { ret := -1, n_chars := 0, string := string,
        log := [Event.push_error_message "argument list needs to be closed with ')'" []] }
    | some (n_arguments, n) =>
      { ret := n_arguments, n_chars := n, string := string.take n, log := [] }

/-- The inner `while (1)` loop of `feenox_read_arguments`: the text of one
argument and the string from the character that ends it; `none` when the
terminator is met. -/
def read_argument (last : Bool) : List Char → Int → Option (List Char × List Char)
  | [], _ => none
  | c :: s, level =>
    if level = 1 ∧ ((last = false ∧ c = ',') ∨ (last = true ∧ c = ')')) then some ([], c :: s)
    else
      match read_argument last s
          (if c = '(' then level + 1 else if c = ')' then level - 1 else level) with
      | none => none
      | some (a, rest) => some (c :: a, rest)

/-- The `for` loop of `feenox_read_arguments` with `todo` iterations left:
`dummy` is the string from the current position and `n` the running count. -/
def read_arguments_loop (n_arguments : Int) :
    Nat → Int → List Char → Nat → Option (List (List Char) × Nat)
  | 0, _, _, n => some ([], n)
  | todo + 1, i, dummy, n =>
    match read_argument (decide (i = n_arguments - 1)) (dummy.drop 1) 1 with
    | none => none
    | some (a, rest) =>
      match read_arguments_loop n_arguments todo (i + 1) rest (n + 1 + a.length) with
      | none => none
      | some (args, n1) => some (a :: args, n1)

/-- The events, and on `FEENOX_OK` the argument strings and `n_chars`; `none` is
`FEENOX_ERROR`.  (`calloc` and `strdup` are taken to succeed.) -/
def feenox_read_arguments (string : List Char) (n_arguments : Int) :
    List Event × Option (List (List Char) × Nat) :=
  if strchr string '(' = none then
    ([Event.push_error_message "arguments must start with a parenthesis" []], none)
  else
    match read_arguments_loop n_arguments n_arguments.toNat 0 string 0 with
    | none => ([Event.push_error_message "when parsing arguments" []], none)
    | some (arg, n) => ([], some (arg, n + 1))

/-! ## The factor parser -/

/-- The plural `s` of the arity messages. -/
def plural (k : Int) : List Char := if k = 1 then [] else ['s']

/-- The loop `for (i = 0; i < n_arguments; i++)` at the end of
`feenox_expression_parse_factor`, from index `i` on, over the argument strings
still to be handled. -/
def parse_arguments {D : Type} (ns : Namespace) (parse : List Char → Res (expr_t D)) :
    Nat → List (List Char) → expr_factor_t D → Res (expr_factor_t D)
  | _, [], factor => ([], Ret.ok factor)
  | i, a :: rest, factor =>
    if factor.type = EXPR_BUILTIN_VECTORFUNCTION then
      match feenox_get_vector_ptr ns a with
      | none => ([Event.push_error_message "undefined vector '%s'" [msg_arg.str a]], Ret.fail)
      | some v =>
        parse_arguments ns parse (i + 1) rest
          { factor with vector_arg := factor.vector_arg.set i (some v) }
    else if factor.type = EXPR_BUILTIN_FUNCTIONAL ∧ i = 1 then
      match feenox_get_variable_ptr ns a with
      | none => ([], Ret.fail)
      | some v => parse_arguments ns parse (i + 1) rest { factor with functional_var_arg := some v }
    else
      match parse a with
      | (log, Ret.ok e) =>
        let r := parse_arguments ns parse (i + 1) rest { factor with arg := factor.arg.set i e }
        (log ++ r.1, r.2)
      | (log, Ret.fail) => (log, Ret.fail)
      | (log, Ret.out_of_fuel) => (log, Ret.out_of_fuel)

/-- The arity checks by kind: the factor with its type and table entry set and
`n_arguments_max`, or the message of the failure (`none`: no message). -/
def check_arity {D : Type} (factor : expr_factor_t D) (token : List Char) (n_arguments : Int)
    (function : Option function_t) (builtin_function : Option builtin_function_t)
    (builtin_vectorfunction : Option builtin_vectorfunction_t)
    (builtin_functional : Option builtin_functional_t) :
    Except (Option Event) (expr_factor_t D × Int) :=
  match factor.vector, factor.matrix, builtin_function, builtin_vectorfunction,
      builtin_functional, function with
  | some v, _, _, _, _, _ =>
    if n_arguments < 1 ∨ n_arguments > 1 then
      Except.error (some (Event.push_error_message
        "vector '%s' takes exactly one subindex expression" [msg_arg.str v]))
    else Except.ok (factor, 1)
  | none, some m, _, _, _, _ =>
    if n_arguments < 2 ∨ n_arguments > 2 then
      Except.error (some (Event.push_error_message
        "matrix '%s' takes exactly two subindex expressions" [msg_arg.str m]))
    else Except.ok (factor, 2)
  | none, none, some b, _, _, _ =>
    if n_arguments < b.min_arguments then
      Except.error (some (Event.push_error_message
        "function '%s' takes at least %d argument%s instead of %d"
        [msg_arg.str token, msg_arg.int b.min_arguments, msg_arg.str (plural b.min_arguments),
         msg_arg.int n_arguments]))
    else if n_arguments > b.max_arguments then
      Except.error (some (Event.push_error_message
        "function '%s' takes at most %d argument%s instead of %d"
        [msg_arg.str token, msg_arg.int b.max_arguments, msg_arg.str (plural b.max_arguments),
         msg_arg.int n_arguments]))
    else
      Except.ok ({ factor with type := EXPR_BUILTIN_FUNCTION, builtin_function := some b },
        b.max_arguments)
  | none, none, none, some b, _, _ =>
    if n_arguments < b.min_arguments then
      Except.error (some (Event.push_error_message
        "function '%s' takes at least %d argument%s instead of %d"
        [msg_arg.str token, msg_arg.int b.min_arguments, msg_arg.str (plural b.min_arguments),
         msg_arg.int n_arguments]))
    else if n_arguments > b.max_arguments then
      Except.error (some (Event.push_error_message
        "function '%s' takes at most %d argument%s instead of %d"
        [msg_arg.str token, msg_arg.int b.max_arguments, msg_arg.str (plural b.max_arguments),
         msg_arg.int n_arguments]))
    else
      Except.ok ({ factor with type := EXPR_BUILTIN_VECTORFUNCTION,
                               builtin_vectorfunction := some b }, b.max_arguments)
  | none, none, none, none, some b, _ =>
    if n_arguments < b.min_arguments then
      Except.error (some (Event.push_error_message
        "functional '%s' takes at least %d argument%s instead of %d"
        [msg_arg.str token, msg_arg.int b.min_arguments, msg_arg.str (plural b.min_arguments),
         msg_arg.int n_arguments]))
    else if n_arguments > b.max_arguments then
      Except.error (some (Event.push_error_message
        "functional '%s' takes at most %d argument%s instead of %d"
        [msg_arg.str token, msg_arg.int b.max_arguments, msg_arg.str (plural b.max_arguments),
         msg_arg.int n_arguments]))
    else
      Except.ok ({ factor with type := EXPR_BUILTIN_FUNCTIONAL, builtin_functional := some b },
        b.max_arguments)
  | none, none, none, none, none, some f =>
    if n_arguments ≠ f.n_arguments then
      Except.error (some (Event.push_error_message
        "function '%s' takes exactly %d argument%s instead of %d"
        [msg_arg.str token, msg_arg.int f.n_arguments, msg_arg.str (plural f.n_arguments),
         msg_arg.int n_arguments]))
    else Except.ok ({ factor with type := EXPR_FUNCTION, function := some f }, f.n_arguments)
  | none, none, none, none, none, none => Except.error none

/-- Parse a factor within an expression (a constant, a variable or a function).
`parse` is `feenox_expression_parse` as called on the argument strings;
`Ret.fail` is the NULL return. -/
def feenox_expression_parse_factor {D : Type} (A : Arith D) (ns : Namespace)
    (parse : List Char → Res (expr_t D)) (string : List Char) : Res (expr_factor_t D) :=
  if isdigit (char_at string 0) ∨ char_at string 0 = '-' ∨ char_at string 0 = '+'
      ∨ char_at string 0 = '.' then
    -- a number
    match sscanf_lf string with
    | none => ([], Ret.fail)
    | some (constant, n) =>
      ([], Ret.ok { calloc_factor A with
                    type := EXPR_CONSTANT, constant := A.strtod constant, n_chars := n })
  else
    -- we got letters
    match strtok string factorseparators with
    | none => ([], Ret.fail)
    | some token0 =>
      let wants_initial_transient := (feenox_ends_in_zero token0).isSome
      let token1 := match feenox_ends_in_zero token0 with
        | some k => token0.take k
        | none => token0
      let wants_initial_static := (feenox_ends_in_init token1).isSome
      -- the token with the suffix cut off
      let token := match feenox_ends_in_init token1 with
        | some k => token1.take k
        | none => token1
      if wants_initial_transient ∧ wants_initial_static then
        ([Event.push_error_message "cannot ask for both _0 and _init" []], Ret.fail)
      else
      let matrix := feenox_get_matrix_ptr ns token
      let vector := if matrix.isSome then none else feenox_get_vector_ptr ns token
      let var := if matrix.isSome ∨ vector.isSome then none else feenox_get_variable_ptr ns token
      if var.isSome ∧ char_at string token.length = '(' then
        ([Event.push_error_message "variable '%s' does not take arguments (it is a variable)"
            [msg_arg.str token]], Ret.fail)
      else
      let found := matrix.isSome ∨ vector.isSome ∨ var.isSome
      let basic := if matrix.isSome then EXPR_MATRIX else if vector.isSome then EXPR_VECTOR
        else if var.isSome then EXPR_VARIABLE else EXPR_UNDEFINED
      let type1 := if found then
          (if wants_initial_transient then basic ||| EXPR_INITIAL_TRANSIENT
           else if wants_initial_static then basic ||| EXPR_INITIAL_STATIC else basic)
        else basic
      let n1 := if wants_initial_transient then token.length + 2
        else if wants_initial_static then token.length + 5 else token.length
      -- the token as the later lookups see it: the underscore is put back only
      -- when a matrix, vector or variable was found
      let token_now := if found then token0 else token
      let factor1 : expr_factor_t D :=
        { calloc_factor A with type := type1, matrix := matrix, vector := vector, var := var }
      let function := if matrix.isSome ∨ vector.isSome then none
        else feenox_get_function_ptr ns token_now
      let builtin_function := if matrix.isSome ∨ vector.isSome ∨ function.isSome then none
        else feenox_get_builtin_function_ptr ns token_now
      let builtin_vectorfunction :=
        if matrix.isSome ∨ vector.isSome ∨ function.isSome ∨ builtin_function.isSome then none
        else feenox_get_builtin_vectorfunction_ptr ns token_now
      let builtin_functional :=
        if matrix.isSome ∨ vector.isSome ∨ function.isSome ∨ builtin_function.isSome
            ∨ builtin_vectorfunction.isSome then none
        else feenox_get_builtin_functional_ptr ns token_now
      if matrix.isSome ∨ vector.isSome ∨ function.isSome ∨ builtin_function.isSome
          ∨ builtin_vectorfunction.isSome ∨ builtin_functional.isSome then
        -- copy into argument whatever is after the name
        let argument := string.drop token_now.length
        if char_at argument 0 ≠ '(' then
          ([Event.push_error_message "expected parenthesis after '%s'" [msg_arg.str token_now]],
            Ret.fail)
        else
        let counted := feenox_count_arguments argument
        if counted.ret ≤ 0 then (counted.log, Ret.fail) else
        match feenox_read_arguments counted.string counted.ret with
        | (log, none) => (counted.log ++ log, Ret.fail)
        | (log, some (arg, n_chars_parse)) =>
          if counted.n_chars ≠ n_chars_parse then
            (counted.log ++ log ++ [Event.push_error_message "internal parser mismatch" []],
              Ret.fail)
          else
          match check_arity factor1 token_now counted.ret function builtin_function
              builtin_vectorfunction builtin_functional with
          | Except.error (some e) => (counted.log ++ log ++ [e], Ret.fail)
          | Except.error none => (counted.log ++ log, Ret.fail)
          | Except.ok (factor2, n_arguments_max) =>
            let factor3 : expr_factor_t D :=
              if factor2.type ≠ EXPR_BUILTIN_VECTORFUNCTION then
                { factor2 with arg := List.replicate n_arguments_max.toNat calloc_expr }
              else
                { factor2 with vector_arg := List.replicate n_arguments_max.toNat none }
            match parse_arguments ns parse 0 arg factor3 with
            | (log2, Ret.ok factor4) =>
              (counted.log ++ log ++ log2,
                Ret.ok { factor4 with n_chars := token_now.length + counted.n_chars })
            | (log2, Ret.fail) => (counted.log ++ log ++ log2, Ret.fail)
            | (log2, Ret.out_of_fuel) => (counted.log ++ log ++ log2, Ret.out_of_fuel)
      else if type1 = EXPR_UNDEFINED then
        ([Event.push_error_message "unknown symbol '%s'" [msg_arg.str token_now]], Ret.fail)
      else ([], Ret.ok { factor1 with n_chars := n1 })

/-! ## The expression builder -/

/-- The operator factor built for the operator at offset `k` of `operators`. -/
def operator_factor {D : Type} (A : Arith D) (level : Nat) (k : Nat) : expr_factor_t D :=
  { calloc_factor A with
    type := EXPR_OPERATOR, oper := k + 1, level := (level + k / 2 * 2) % SIZE_MAX1 }

/-- The main loop of `feenox_expression_parse` and the checks that follow it.
`string` is the text from the current position; `skip` counts the characters of
the last factor that are still to be stepped over (`string += factor->n_chars`);
`oper` is the offset in `operators` of the last operator met (`none`: NULL);
`factors` is the list built so far.  `parse_factor` is
`feenox_expression_parse_factor`. -/
def parse_loop {D : Type} (A : Arith D) (parse_factor : List Char → Res (expr_factor_t D)) :
    List Char → Nat → Option Nat → Bool → Nat → List (expr_factor_t D) →
    Res (List (expr_factor_t D))
  | [], _, oper, _, level, factors =>
    if level ≠ 1 then
      ([Event.push_error_message "unmatched opening bracket in algebraic expression" []],
        Ret.fail)
    else
      match oper with
      | some k =>
        if char_at operators k ≠ ')' then
          ([Event.push_error_message "missing argument for operator '%c'"
              [msg_arg.chr (char_at operators k)]], Ret.fail)
        else ([], Ret.ok factors)
      | none => ([], Ret.ok factors)
  | _ :: rest, skip + 1, oper, last_was_an_op, level, factors =>
    parse_loop A parse_factor rest skip oper last_was_an_op level factors
  | c :: rest, 0, oper, last_was_an_op, level, factors =>
    if isblank c then
      -- blanks are ignored
      parse_loop A parse_factor rest 0 oper last_was_an_op level factors
    else
      match strchr operators c with
      | some k =>
        if c = '(' then
          parse_loop A parse_factor rest 0 (some k) true
            ((level + operators.length) % SIZE_MAX1) factors
        else if c = ')' then
          parse_loop A parse_factor rest 0 (some k) false
            ((level + SIZE_MAX1 - operators.length) % SIZE_MAX1) factors
        else if last_was_an_op then
          if c = '+' ∨ c = '-' then
            match parse_factor (c :: rest) with
            | (log, Ret.ok factor) =>
              if factor.n_chars = 0 then (log, Ret.out_of_fuel) else
              let r := parse_loop A parse_factor rest (factor.n_chars - 1) (some k) false level
                (factors ++ [{ factor with level := level }])
              (log ++ r.1, r.2)
            | (log, Ret.fail) => (log, Ret.fail)
            | (log, Ret.out_of_fuel) => (log, Ret.out_of_fuel)
          else ([Event.push_error_message "two adjacent operators" []], Ret.fail)
        else
          parse_loop A parse_factor rest 0 (some k) true level
            (factors ++ [operator_factor A level k])
      | none =>
        -- a constant, variable or function
        match parse_factor (c :: rest) with
        | (log, Ret.ok factor) =>
          if factor.n_chars = 0 then (log, Ret.fail) else
          let r := parse_loop A parse_factor rest (factor.n_chars - 1) none false level
            (factors ++ [{ factor with level := level }])
          (log ++ r.1, r.2)
        | (log, Ret.fail) => (log, Ret.fail)
        | (log, Ret.out_of_fuel) => (log, Ret.out_of_fuel)

/-- The routine `feenox_expression_parse` on a zeroed `expr_t`, with a bound on the
depth of nested argument lists. -/
def parse_depth {D : Type} (A : Arith D) (ns : Namespace) :
    Nat → List Char → Res (expr_t D)
  | 0, _ => ([], Ret.out_of_fuel)
  | depth + 1, orig_string =>
    if orig_string = [] then ([], Ret.ok calloc_expr)
    else
      match parse_loop A (feenox_expression_parse_factor A ns (parse_depth A ns depth))
          orig_string 0 none false 1 [] with
      | (log, Ret.ok factors) => (log, Ret.ok { factors := factors, string := orig_string })
      | (log, Ret.fail) => (log, Ret.fail)
      | (log, Ret.out_of_fuel) => (log, Ret.out_of_fuel)

/-- Parse a string with an algebraic expression and fill in the struct `expr`:
`Ret.ok` is `FEENOX_OK` with the structure filled, `Ret.fail` is `FEENOX_ERROR`.
An argument list is strictly shorter than the text it is part of, so the length
of the string bounds the depth of the nesting. -/
def feenox_expression_parse {D : Type} (A : Arith D) (ns : Namespace)
    (orig_string : List Char) : Res (expr_t D) :=
  parse_depth A ns (orig_string.length + 1) orig_string

/-! ## Run-time state -/

/-- The contents of the three cells a variable points to. -/
structure var_t (D : Type) where
  value : D
  initial_static : D
  initial_transient : D

/-- A vector: `value`, `initial_transient` and `initial_static` give the element
stored at each position (`gsl_vector_get`). -/
structure vector_t (D : Type) where
  initialized : Int
  size : Int
  value : Nat → D
  initial_transient : Nat → D
  initial_static : Nat → D

/-- A matrix: the element at each row and column position (`gsl_matrix_get`). -/
structure matrix_t (D : Type) where
  initialized : Int
  rows : Int
  cols : Int
  value : Nat → Nat → D
  initial_transient : Nat → Nat → D
  initial_static : Nat → Nat → D

/-- What the evaluator reads and writes besides the expression itself: the
entries behind the pointers of the factors, the content of the special variable
`zero`, and the log of the error channel. -/
structure World (D : Type) where
  var : List Char → var_t D
  vector : List Char → vector_t D
  matrix : List Char → matrix_t D
  special_var_zero : D
  log : List Event

/-- Routines the evaluator calls that are defined outside `expressions.c`: the
lazy initialisation of containers (returning `FEENOX_OK = 0` or an error code),
the native routines of the builtins and the evaluation of a user function. -/
structure Externals (D : Type) where
  feenox_vector_init : List Char → World D → Int × World D
  feenox_matrix_init : List Char → World D → Int × World D
  builtin_function_routine : builtin_function_t → expr_factor_t D → World D → D × World D
  builtin_vectorfunction_routine :
    builtin_vectorfunction_t → List (Option (List Char)) → World D → D × World D
  builtin_functional_routine :
    builtin_functional_t → expr_factor_t D → Option (List Char) → World D → D × World D
  feenox_factor_function_eval : expr_factor_t D → World D → D × World D

/-- Append events to the log. -/
def World.push {D : Type} (w : World D) (es : List Event) : World D :=
  { w with log := w.log ++ es }

/-! ## The evaluator: pass 2 -/

/-- The `switch (tmp_operator)` of pass 2: the new `P->value` and the events. -/
def apply_operator {D : Type} (A : Arith D) (zero : D) (tmp_operator : Char) (P E : D) :
    D × List Event :=
  if tmp_operator = '&' then (A.of_int (Int.land (A.to_int P) (A.to_int E)), [])
  else if tmp_operator = '|' then (A.of_int (Int.lor (A.to_int P) (A.to_int E)), [])
  else if tmp_operator = '=' then
    if A.lt (A.fabs P) A.one ∨ A.lt (A.fabs E) A.one then
      ((if A.lt (A.fabs (A.sub P E)) zero then A.one else A.zero), [])
    else ((if A.gsl_fcmp P E zero = 0 then A.one else A.zero), [])
  else if tmp_operator = '!' then
    if A.lt (A.fabs P) A.one ∨ A.lt (A.fabs E) A.one then
      ((if A.lt (A.fabs (A.sub P E)) zero then A.zero else A.one), [])
    else ((if A.gsl_fcmp P E zero = 0 then A.zero else A.one), [])
  else if tmp_operator = '<' then ((if A.lt P E then A.one else A.zero), [])
  else if tmp_operator = '>' then ((if A.lt E P then A.one else A.zero), [])
  else if tmp_operator = '+' then (A.add P E, [])
  else if tmp_operator = '-' then (A.sub P E, [])
  else if tmp_operator = '*' then (A.mul P E, [])
  else if tmp_operator = '/' then
    (A.div P E, if A.is_zero E then [Event.nan_error] else [])
  else if tmp_operator = '^' then
    (A.pow P E, if A.is_zero P ∧ A.is_zero E then [Event.nan_error] else [])
  else (P, [])

/-- The `for (E = P = this->factors; E != NULL; ...)` scan of pass 2 at one
level.  `P` and `E` are positions in the list of factors; `fuel` bounds the
number of iterations (each moves `E` forward, so the length of the list is
enough).  `none`: the factor after an operator does not exist and the code
dereferences NULL. -/
def pass2_scan {D : Type} (A : Arith D) (zero : D) (level : Nat) :
    Nat → Nat → Nat → List (expr_factor_t D) → List Event →
    Option (List (expr_factor_t D) × List Event)
  | 0, _, _, factors, log => some (factors, log)
  | fuel + 1, P, E, factors, log =>
    match factors.get? E with
    | none => some (factors, log)
    | some fE =>
      if fE.tmp_level = level ∧ fE.oper ≠ 0 then
        -- E = E->next; P->value = ...; E->tmp_level = 0;
        match factors.get? P, factors.get? (E + 1) with
        | some fP, some fN =>
          let r := apply_operator A zero (char_at operators (fE.oper - 1)) fP.value fN.value
          pass2_scan A zero level fuel P (E + 2)
            ((factors.set P { fP with value := r.1 }).set (E + 1) { fN with tmp_level := 0 })
            (log ++ r.2)
        | _, _ => none
      else
        pass2_scan A zero level fuel (if fE.tmp_level ≠ 0 ∧ fE.oper = 0 then E else P) (E + 1)
          factors log

/-- The `while (level > 0)` loop of pass 2. -/
def pass2 {D : Type} (A : Arith D) (zero : D) :
    Nat → List (expr_factor_t D) → List Event → Option (List (expr_factor_t D) × List Event)
  | 0, factors, log => some (factors, log)
  | level + 1, factors, log =>
    match pass2_scan A zero (level + 1) factors.length 0 0 factors log with
    | none => none
    | some (factors1, log1) => pass2 A zero level factors1 log1

/-- The `int level` computed between the passes. -/
def max_level {D : Type} (factors : List (expr_factor_t D)) : Int :=
  factors.foldl (fun level f => if f.level > to_size_t level then to_int32 f.level else level) 0

/-! ## The evaluator -/

/-- The value remaining on the first factor. -/
def first_value {D : Type} (A : Arith D) (factors : List (expr_factor_t D)) : D :=
  match factors with
  | [] => A.zero
  | f :: _ => f.value

mutual

/-- The routine `feenox_expression_eval`: the value returned, the expression with
the scratch fields as the call leaves them, and the state after the call.
`none`: the code dereferences a NULL pointer.  The routines of the error channel
are taken to return to their caller. -/
def feenox_expression_eval {D : Type} (A : Arith D) (X : Externals D) :
    expr_t D → World D → Option (D × expr_t D × World D)
  | ⟨factors, string⟩, w =>
    match factors with
    | [] => some (A.zero, ⟨[], string⟩, w)
    | f :: fs =>
      match pass1 A X (f :: fs) w with
      | none => none
      | some (factors1, w1, true) => some (A.zero, ⟨factors1, string⟩, w1)
      | some (factors1, w1, false) =>
        match pass2 A w1.special_var_zero (max_level factors1).toNat factors1 w1.log with
        | none => none
        | some (factors2, log2) =>
          some (first_value A factors2, ⟨factors2, string⟩,
            { w1 with log :=
                if A.gsl_isnan (first_value A factors2) ∨ A.gsl_isinf (first_value A factors2)
                then log2 ++ [Event.push_error_message "in '%s'" [msg_arg.str string],
                              Event.nan_error]
                else log2 })

/-- Pass 1, the first `LL_FOREACH` loop; the flag tells that the routine has
executed `return 0`. -/
def pass1 {D : Type} (A : Arith D) (X : Externals D) :
    List (expr_factor_t D) → World D → Option (List (expr_factor_t D) × World D × Bool)
  | [], w => some ([], w, false)
  | f :: fs, w =>
    match pass1_factor A X f w with
    | none => none
    | some (f1, w1, true) => some (f1 :: fs, w1, true)
    | some (f1, w1, false) =>
      match pass1 A X fs w1 with
      | none => none
      | some (fs1, w2, returned) => some (f1 :: fs1, w2, returned)

/-- The body of the first loop for one factor. -/
def pass1_factor {D : Type} (A : Arith D) (X : Externals D) :
    expr_factor_t D → World D → Option (expr_factor_t D × World D × Bool)
  | expr_factor_t.mk n_chars type level _ oper constant value builtin_function
      builtin_vectorfunction builtin_functional var vector matrix function vector_arg
      functional_var_arg arg, w =>
    -- factor->tmp_level = factor->level
    let factor : expr_factor_t D := expr_factor_t.mk n_chars type level level oper constant value
      builtin_function builtin_vectorfunction builtin_functional var vector matrix function
      vector_arg functional_var_arg arg
    if type &&& EXPR_BASICTYPE_MASK = EXPR_CONSTANT then
      some ({ factor with value := constant }, w, false)
    else if type &&& EXPR_BASICTYPE_MASK = EXPR_VARIABLE then
      if type = EXPR_VARIABLE ||| EXPR_CURRENT then
        match var with
        | none => none
        | some x => some ({ factor with value := (w.var x).value }, w, false)
      else if type = EXPR_VARIABLE ||| EXPR_INITIAL_TRANSIENT then
        match var with
        | none => none
        | some x => some ({ factor with value := (w.var x).initial_transient }, w, false)
      else if type = EXPR_VARIABLE ||| EXPR_INITIAL_STATIC then
        match var with
        | none => none
        | some x => some ({ factor with value := (w.var x).initial_static }, w, false)
      else some (factor, w, false)
    else if type &&& EXPR_BASICTYPE_MASK = EXPR_VECTOR then
      match vector with
      | none => none
      | some v =>
        -- we need to initialize here so we have the size for the check that follows
        let w1 :=
          if (w.vector v).initialized = 0 then
            if (X.feenox_vector_init v w).1 ≠ 0 then
              (X.feenox_vector_init v w).2.push
                [Event.push_error_message "initialization of vector '%s' failed" [msg_arg.str v],
                 Event.runtime_error]
            else (X.feenox_vector_init v w).2
          else w
        match eval_arg A X arg 0 w1 with
        | none => none
        | some (x, e0, w2) =>
          if to_size_t (A.lrint x) = 0 ∨ to_size_t (A.lrint x) > to_size_t (w2.vector v).size then
            some ({ factor with arg := arg.set 0 e0 },
              w2.push [Event.push_error_message "subindex %d out of range for vector %s"
                         [msg_arg.int (to_size_t (A.lrint x)), msg_arg.str v],
                       Event.runtime_error], true)
          else if type = EXPR_VECTOR ||| EXPR_CURRENT then
            some ({ factor with arg := arg.set 0 e0,
                                value := (w2.vector v).value (to_size_t (A.lrint x) - 1) },
              w2, false)
          else if type = EXPR_VECTOR ||| EXPR_INITIAL_TRANSIENT then
            some ({ factor with arg := arg.set 0 e0,
                                value := (w2.vector v).initial_transient
                                  (to_size_t (A.lrint x) - 1) }, w2, false)
          else if type = EXPR_VECTOR ||| EXPR_INITIAL_STATIC then
            some ({ factor with arg := arg.set 0 e0,
                                value := (w2.vector v).initial_static
                                  (to_size_t (A.lrint x) - 1) }, w2, false)
          else some ({ factor with arg := arg.set 0 e0 }, w2, false)
    else if type &&& EXPR_BASICTYPE_MASK = EXPR_MATRIX then
      match matrix with
      | none => none
      | some m =>
        let w1 : Option (World D) :=
          if (w.matrix m).initialized = 0 then
            if (X.feenox_matrix_init m w).1 ≠ 0 then
              -- the message reads factor->vector->name
              match vector with
              | none => none
              | some v => some ((X.feenox_matrix_init m w).2.push
                  [Event.push_error_message "initialization of vector '%s' failed"
                     [msg_arg.str v], Event.runtime_error])
            else some (X.feenox_matrix_init m w).2
          else some w
        match w1 with
        | none => none
        | some w1 =>
        match eval_arg A X arg 0 w1 with
        | none => none
        | some (x, e0, w2) =>
          if to_size_t (A.lrint x) = 0 ∨ to_size_t (A.lrint x) > to_size_t (w2.matrix m).rows then
            some ({ factor with arg := arg.set 0 e0 },
              w2.push [Event.push_error_message "row subindex %d out of range for matrix %s"
                         [msg_arg.int (to_size_t (A.lrint x)), msg_arg.str m],
                       Event.runtime_error], true)
          else
          match eval_arg A X arg 1 w2 with
          | none => none
          | some (y, e1, w3) =>
            if to_size_t (A.lrint y) = 0 ∨ to_size_t (A.lrint y) > to_size_t (w3.matrix m).cols
            then
              some ({ factor with arg := (arg.set 0 e0).set 1 e1 },
                w3.push [Event.push_error_message "column subindex %d out of range for matrix %s"
                           [msg_arg.int (to_size_t (A.lrint y)), msg_arg.str m],
                         Event.runtime_error], true)
            else if type = EXPR_MATRIX ||| EXPR_CURRENT then
              some ({ factor with arg := (arg.set 0 e0).set 1 e1,
                                  value := (w3.matrix m).value (to_size_t (A.lrint x) - 1)
                                    (to_size_t (A.lrint y) - 1) }, w3, false)
            else if type = EXPR_MATRIX ||| EXPR_INITIAL_TRANSIENT then
              some ({ factor with arg := (arg.set 0 e0).set 1 e1,
                                  value := (w3.matrix m).initial_transient (to_size_t (A.lrint x) - 1)
                                    (to_size_t (A.lrint y) - 1) }, w3, false)
            else if type = EXPR_MATRIX ||| EXPR_INITIAL_STATIC then
              some ({ factor with arg := (arg.set 0 e0).set 1 e1,
                                  value := (w3.matrix m).initial_static (to_size_t (A.lrint x) - 1)
                                    (to_size_t (A.lrint y) - 1) }, w3, false)
            else some ({ factor with arg := (arg.set 0 e0).set 1 e1 }, w3, false)
    else if type &&& EXPR_BASICTYPE_MASK = EXPR_BUILTIN_FUNCTION then
      match builtin_function with
      | none => none
      | some b =>
        some ({ factor with value := (X.builtin_function_routine b factor w).1 },
          (X.builtin_function_routine b factor w).2, false)
    else if type &&& EXPR_BASICTYPE_MASK = EXPR_BUILTIN_VECTORFUNCTION then
      match builtin_vectorfunction with
      | none => none
      | some b =>
        some ({ factor with value := (X.builtin_vectorfunction_routine b vector_arg w).1 },
          (X.builtin_vectorfunction_routine b vector_arg w).2, false)
    else if type &&& EXPR_BASICTYPE_MASK = EXPR_BUILTIN_FUNCTIONAL then
      match builtin_functional with
      | none => none
      | some b =>
        some ({ factor with
                value := (X.builtin_functional_routine b factor functional_var_arg w).1 },
          (X.builtin_functional_routine b factor functional_var_arg w).2, false)
    else if type &&& EXPR_BASICTYPE_MASK = EXPR_FUNCTION then
      some ({ factor with value := (X.feenox_factor_function_eval factor w).1 },
        (X.feenox_factor_function_eval factor w).2, false)
    else some (factor, w, false)

/-- The call `feenox_expression_eval(&(factor->arg[i]))`: the value, entry `i`
with its scratch fields as the call leaves them (the caller stores it back at
position `i`, the other entries are not touched), and the state; `none` when
there is no such entry. -/
def eval_arg {D : Type} (A : Arith D) (X : Externals D) :
    List (expr_t D) → Nat → World D → Option (D × expr_t D × World D)
  | [], _, _ => none
  | e :: _, 0, w => feenox_expression_eval A X e w
  | _ :: es, i + 1, w => eval_arg A X es i w

end

/-! ## An arithmetic with exact rational numbers -/

/-- The extended rationals: the finite values are exact, with the two infinities
and one not-a-number. -/
inductive XReal where
  | fin (q : ℚ)
  | pinf
  | ninf
  | nan
  deriving DecidableEq, Repr

namespace XReal

def neg : XReal → XReal
  | fin a => fin (-a)
  | pinf => ninf
  | ninf => pinf
  | nan => nan

def add : XReal → XReal → XReal
  | fin a, fin b => fin (a + b)
  | nan, _ => nan
  | _, nan => nan
  | pinf, ninf => nan
  | ninf, pinf => nan
  | pinf, _ => pinf
  | _, pinf => pinf
  | ninf, _ => ninf
  | _, ninf => ninf

def sub (x y : XReal) : XReal := add x (neg y)

/-- The infinity with the sign of `a`, not-a-number for `a = 0`. -/
def signed_inf (a : ℚ) : XReal := if a = 0 then nan else if 0 < a then pinf else ninf

def mul : XReal → XReal → XReal
  | fin a, fin b => fin (a * b)
  | nan, _ => nan
  | _, nan => nan
  | fin a, pinf => signed_inf a
  | fin a, ninf => signed_inf (-a)
  | pinf, fin b => signed_inf b
  | ninf, fin b => signed_inf (-b)
  | pinf, pinf => pinf
  | ninf, ninf => pinf
  | pinf, ninf => ninf
  | ninf, pinf => ninf

def div : XReal → XReal → XReal
  | fin a, fin b => if b = 0 then signed_inf a else fin (a / b)
  | nan, _ => nan
  | _, nan => nan
  | fin _, _ => fin 0
  | pinf, fin b => if 0 ≤ b then pinf else ninf
  | ninf, fin b => if 0 ≤ b then ninf else pinf
  | _, _ => nan

/-- Powers with an integer exponent are exact; the other cases are outside the
exact numbers and give not-a-number, but for a zero exponent. -/
def pow : XReal → XReal → XReal
  | fin a, fin b =>
    if b.den = 1 then
      if 0 ≤ b.num then fin (a ^ b.num.toNat)
      else if a = 0 then pinf else fin (1 / a ^ b.num.natAbs)
    else nan
  | _, _ => nan

def lt : XReal → XReal → Bool
  | fin a, fin b => decide (a < b)
  | fin _, pinf => true
  | ninf, fin _ => true
  | ninf, pinf => true
  | _, _ => false

def is_zero : XReal → Bool
  | fin a => decide (a = 0)
  | _ => false

def fabs : XReal → XReal
  | fin a => fin |a|
  | pinf => pinf
  | ninf => pinf
  | nan => nan

/-- Truncation toward zero. -/
def to_int : XReal → Int
  | fin a => if 0 ≤ a then ⌊a⌋ else ⌈a⌉
  | _ => 0

/-- Rounding to the nearest integer, ties to even. -/
def lrint : XReal → Int
  | fin a =>
    if a - ⌊a⌋ < 1 / 2 then ⌊a⌋
    else if 1 / 2 < a - ⌊a⌋ then ⌊a⌋ + 1
    else if ⌊a⌋ % 2 = 0 then ⌊a⌋ else ⌊a⌋ + 1
  | _ => 0

/-- The exponent `frexp` gives for a rational. -/
def frexp_exponent (a : ℚ) : Int :=
  if a = 0 then 0
  else
    let e : Int := (Nat.log2 a.num.natAbs : Int) - (Nat.log2 a.den : Int)
    if (2 : ℚ) ^ e ≤ |a| then e + 1 else e

/-- The comparison `gsl_fcmp` on finite values. -/
def fcmp : XReal → XReal → XReal → Int
  | fin x, fin y, fin eps =>
    let delta := eps * (2 : ℚ) ^ frexp_exponent (if |x| > |y| then x else y)
    if x - y > delta then 1 else if x - y < -delta then -1 else 0
  | _, _, _ => 0

def of_scan : scan_value → XReal
  | scan_value.decimal neg mant frac e =>
    fin ((if neg then -1 else 1) * (mant : ℚ) * (10 : ℚ) ^ (e - (frac : Int)))
  | scan_value.hexadecimal neg mant frac e =>
    fin ((if neg then -1 else 1) * (mant : ℚ) * (2 : ℚ) ^ (e - 4 * (frac : Int)))
  | scan_value.infinity neg => if neg then ninf else pinf
  | scan_value.not_a_number _ => nan

end XReal

/-- Exact arithmetic on the extended rationals. -/
def exact : Arith XReal :=
  { zero := XReal.fin 0, one := XReal.fin 1, strtod := XReal.of_scan,
    add := XReal.add, sub := XReal.sub, mul := XReal.mul, div := XReal.div, pow := XReal.pow,
    lt := XReal.lt, is_zero := XReal.is_zero, fabs := XReal.fabs, to_int := XReal.to_int,
    of_int := fun i => XReal.fin i, lrint := XReal.lrint, gsl_fcmp := XReal.fcmp,
    gsl_isnan := fun x => decide (x = XReal.nan),
    gsl_isinf := fun x => decide (x = XReal.pinf ∨ x = XReal.ninf) }

/-! ## Vocabulary of the statements -/

/-- A non-empty string of decimal digits. -/
def is_digits (ds : List Char) : Bool := !ds.isEmpty && ds.all isdigit

/-- The text after a run of digits does not continue the number. -/
def ends_number (rest : List Char) : Bool :=
  match rest with
  | [] => true
  | c :: _ => !isdigit c && c != '.' && tolower c != 'e' && tolower c != 'x'

/-- The value the scan gives for a string of decimal digits. -/
def literal {D : Type} (A : Arith D) (ds : List Char) : D :=
  A.strtod (scan_value.decimal false (digits_value ds) 0 0)

/-- The constant factor `feenox_expression_parse_factor` builds for a number. -/
def number_factor {D : Type} (A : Arith D) (v : scan_value) (n : Nat) : expr_factor_t D :=
  { calloc_factor A with type := EXPR_CONSTANT, constant := A.strtod v, n_chars := n }

/-- The constant factor of a number of `n` characters met at `level`. -/
def constant_factor {D : Type} (A : Arith D) (c : D) (n : Nat) (level : Nat) : expr_factor_t D :=
  { calloc_factor A with type := EXPR_CONSTANT, constant := c, n_chars := n, level := level }

/-- The factor the builder appends for a string of digits met at `level`. -/
def digits_factor {D : Type} (A : Arith D) (ds : List Char) (level : Nat) : expr_factor_t D :=
  constant_factor A (literal A ds) ds.length level

/-- A namespace with a variable `x`, a vector `v` and a user function `f` of two
arguments. -/
def sample_ns : Namespace :=
  { matrices := [], vectors := ["v".toList], vars := ["x".toList],
    functions := [{ name := "f".toList, n_arguments := 2 }],
    builtin_functions := [], builtin_vectorfunctions := [], builtin_functionals := [] }

/-- A state in which every variable has current value 5, initial-static value 1 and
initial-transient value 2, and every vector has size 3 and holds 1, 2, 3. -/
def sample_world : World XReal :=
  { var := fun _ => { value := XReal.fin 5, initial_static := XReal.fin 1,
                      initial_transient := XReal.fin 2 },
    vector := fun _ => { initialized := 1, size := 3,
                         value := fun k => XReal.fin (k + 1),
                         initial_transient := fun _ => XReal.fin 0,
                         initial_static := fun _ => XReal.fin 0 },
    matrix := fun _ => { initialized := 1, rows := 0, cols := 0,
                         value := fun _ _ => XReal.fin 0,
                         initial_transient := fun _ _ => XReal.fin 0,
                         initial_static := fun _ _ => XReal.fin 0 },
    special_var_zero := XReal.fin (1 / 1000000), log := [] }

/-- External routines that succeed, return 0 and leave the state alone. -/
def sample_externals : Externals XReal :=
  { feenox_vector_init := fun _ w => (0, w),
    feenox_matrix_init := fun _ w => (0, w),
    builtin_function_routine := fun _ _ w => (XReal.fin 0, w),
    builtin_vectorfunction_routine := fun _ _ w => (XReal.fin 0, w),
    builtin_functional_routine := fun _ _ _ w => (XReal.fin 0, w),
    feenox_factor_function_eval := fun _ w => (XReal.fin 0, w) }

/-- A factor without table entries or arguments, all the scalar fields given. -/
def plain_factor {D : Type} (A : Arith D) (type level tmp_level oper n_chars : Nat)
    (constant value : D) : expr_factor_t D :=
  { calloc_factor A with
    type := type, level := level, tmp_level := tmp_level, oper := oper, n_chars := n_chars,
    constant := constant, value := value }

/-- The factor of a reference to the variable `x`: `type` carries the time view. -/
def variable_factor {D : Type} (A : Arith D) (x : List Char) (type n_chars level : Nat) :
    expr_factor_t D :=
  { calloc_factor A with
    type := type, var := some x, n_chars := n_chars, level := level }

/-- The factor of a reference to the vector `v` with its subindex expression. -/
def vector_factor {D : Type} (A : Arith D) (v : List Char) (type n_chars level : Nat)
    (arg : List (expr_t D)) : expr_factor_t D :=
  { calloc_factor A with
    type := type, vector := some v, n_chars := n_chars, level := level, arg := arg }

/-- The state after the lazy initialisation of the vector `v` in pass 1. -/
def vector_ready {D : Type} (X : Externals D) (v : List Char) (w : World D) : World D :=
  if (w.vector v).initialized = 0 then
    if (X.feenox_vector_init v w).1 ≠ 0 then
      (X.feenox_vector_init v w).2.push
        [Event.push_error_message "initialization of vector '%s' failed" [msg_arg.str v],
         Event.runtime_error]
    else (X.feenox_vector_init v w).2
  else w

/-- A name token: not empty, free of separators, not starting like a number. -/
def is_name (x : List Char) : Bool :=
  !x.isEmpty && x.all (fun c => !factorseparators.contains c)
    && !(isdigit (char_at x 0) || char_at x 0 == '.')

/-- No user function and no builtin is registered under the name `t`. -/
def unclaimed (ns : Namespace) (t : List Char) : Bool :=
  (feenox_get_function_ptr ns t).isNone && (feenox_get_builtin_function_ptr ns t).isNone
    && (feenox_get_builtin_vectorfunction_ptr ns t).isNone
    && (feenox_get_builtin_functional_ptr ns t).isNone

/-- The variable `x` is declared under a name that is a name token without a
reserved suffix inside, no matrix or vector has that name, and no function or
builtin is registered under the name or under the name with a suffix. -/
def plain_variable (ns : Namespace) (x : List Char) : Bool :=
  is_name x && (strstr x "_0".toList).isNone && (strstr x "_init".toList).isNone
    && (feenox_get_matrix_ptr ns x).isNone && (feenox_get_vector_ptr ns x).isNone
    && (feenox_get_variable_ptr ns x).isSome
    && unclaimed ns x && unclaimed ns (x ++ "_0".toList) && unclaimed ns (x ++ "_init".toList)

/-- The nesting level after the text `a`, entered at `level`; `none` when the text
holds a comma at level 1 or a closing bracket that would leave level 1. -/
def depth_after : List Char → Int → Option Int
  | [], level => some level
  | c :: s, level =>
    if c = '(' then depth_after s (level + 1)
    else if c = ')' then (if level ≤ 1 then none else depth_after s (level - 1))
    else if c = ',' ∧ level = 1 then none
    else depth_after s level

/-- The text of one argument: brackets balanced, no comma outside brackets. -/
def is_argument (a : List Char) : Bool := depth_after a 1 == some 1

/-- The arguments separated by commas. -/
def join_arguments : List (List Char) → List Char
  | [] => []
  | [a] => a
  | a :: b :: rest => a ++ ',' :: join_arguments (b :: rest)

/-- The user function `f` is registered under a name that is a name token without a
reserved suffix, and no matrix, vector or variable has that name. -/
def plain_function (ns : Namespace) (f : function_t) : Bool :=
  is_name f.name && (feenox_ends_in_zero f.name).isNone && (feenox_ends_in_init f.name).isNone
    && (feenox_get_matrix_ptr ns f.name).isNone && (feenox_get_vector_ptr ns f.name).isNone
    && (feenox_get_variable_ptr ns f.name).isNone
    && (feenox_get_function_ptr ns f.name == some f)

/-- The factor of a call of the user function `f` with the argument expressions `es`. -/
def function_factor {D : Type} (A : Arith D) (f : function_t) (n_chars : Nat)
    (es : List (expr_t D)) : expr_factor_t D :=
  { calloc_factor A with type := EXPR_FUNCTION, function := some f, n_chars := n_chars, arg := es }

/-- The event pushed by the branch `n_chars_count != n_chars_parse` of the factor
parser. -/
def parser_mismatch : Event := Event.push_error_message "internal parser mismatch" []

/-- A namespace in which the variable `x` shares its name with a builtin function
of one argument. -/
def clash_ns : Namespace :=
  { matrices := [], vectors := [], vars := ["x".toList], functions := [],
    builtin_functions := [{ name := "x".toList, min_arguments := 1, max_arguments := 1 }],
    builtin_vectorfunctions := [], builtin_functionals := [] }

/-- The binary operators: the characters of the operator table but the brackets. -/
def binary_operators : List Char := "&|=!<>+-*/^".toList

/-- The precedence tier of a binary operator: 0 for `&` and `|`, 1 for `=` and `!`,
2 for `<` and `>`, 3 for `+` and `-`, 4 for `*` and `/`, 5 for `^`. -/
def tier (c : Char) : Nat :=
  if c = '&' ∨ c = '|' then 0
  else if c = '=' ∨ c = '!' then 1
  else if c = '<' ∨ c = '>' then 2
  else if c = '+' ∨ c = '-' then 3
  else if c = '*' ∨ c = '/' then 4
  else 5

/-- The operator factor as the tiers give it: code `oper`, level `level`. -/
def tier_factor {D : Type} (A : Arith D) (level oper : Nat) : expr_factor_t D :=
  plain_factor A EXPR_OPERATOR level 0 oper 0 A.zero A.zero

mutual

/-- The expression with the scratch fields of all its factors erased, at every
depth of the arguments. -/
def skeleton_expr {D : Type} (A : Arith D) : expr_t D → expr_t D
  | ⟨factors, string⟩ => ⟨skeleton_factors A factors, string⟩

/-- The factors with their scratch fields erased, in the same order. -/
def skeleton_factors {D : Type} (A : Arith D) : List (expr_factor_t D) → List (expr_factor_t D)
  | [] => []
  | f :: fs => skeleton_factor A f :: skeleton_factors A fs

/-- The factor with `value` and `tmp_level` erased, and so in its arguments. -/
def skeleton_factor {D : Type} (A : Arith D) : expr_factor_t D → expr_factor_t D
  | expr_factor_t.mk n_chars type level _ oper constant _ builtin_function
      builtin_vectorfunction builtin_functional var vector matrix function vector_arg
      functional_var_arg arg =>
    expr_factor_t.mk n_chars type level 0 oper constant A.zero builtin_function
      builtin_vectorfunction builtin_functional var vector matrix function vector_arg
      functional_var_arg (skeleton_args A arg)

/-- The argument expressions with the scratch fields erased. -/
def skeleton_args {D : Type} (A : Arith D) : List (expr_t D) → List (expr_t D)
  | [] => []
  | e :: es => skeleton_expr A e :: skeleton_args A es

end

/-- The number of opening brackets minus the number of closing brackets among the
characters of the source that the loop of the builder meets itself, that is
outside the texts consumed by the factor parser `pf`, from a state of the loop
(`skip` characters of the last factor still to step over, `last_was_an_op`);
`none` when the loop stops before the end of the source. -/
def top_level_brackets {D : Type} (pf : List Char → Res (expr_factor_t D)) :
    List Char → Nat → Bool → Option Int
  | [], _, _ => some 0
  | _ :: rest, skip + 1, last_was_an_op => top_level_brackets pf rest skip last_was_an_op
  | c :: rest, 0, last_was_an_op =>
    if isblank c then top_level_brackets pf rest 0 last_was_an_op
    else
      match strchr operators c with
      | some _ =>
        if c = '(' then (top_level_brackets pf rest 0 true).map (fun e => e + 1)
        else if c = ')' then (top_level_brackets pf rest 0 false).map (fun e => e - 1)
        else if last_was_an_op then
          if c = '+' ∨ c = '-' then
            match pf (c :: rest) with
            | (_, Ret.ok factor) =>
              if factor.n_chars = 0 then none
              else top_level_brackets pf rest (factor.n_chars - 1) false
            | (_, Ret.fail) => none
            | (_, Ret.out_of_fuel) => none
          else none
        else top_level_brackets pf rest 0 true
      | none =>
        match pf (c :: rest) with
        | (_, Ret.ok factor) =>
          if factor.n_chars = 0 then none
          else top_level_brackets pf rest (factor.n_chars - 1) false
        | (_, Ret.fail) => none
        | (_, Ret.out_of_fuel) => none

/-- The expression of the text `2+3*4`, as the builder leaves it. -/
def sample_sum : expr_t XReal :=
  ⟨[digits_factor exact "2".toList 1, operator_factor exact 1 6, digits_factor exact "3".toList 1,
    operator_factor exact 1 8, digits_factor exact "4".toList 1], "2+3*4".toList⟩

/-- A namespace with an entry of every kind: a matrix `m`, a vector `v`, a variable
`x`, the builtin functions `sin` (one argument) and `min` (two to four), the
builtin vectorfunction `vecdot` (two vectors) and the builtin functional
`integral` (four to seven arguments). -/
def builtin_ns : Namespace :=
  { matrices := ["m".toList], vectors := ["v".toList], vars := ["x".toList], functions := [],
    builtin_functions := [{ name := "sin".toList, min_arguments := 1, max_arguments := 1 },
                          { name := "min".toList, min_arguments := 2, max_arguments := 4 }],
    builtin_vectorfunctions :=
      [{ name := "vecdot".toList, min_arguments := 2, max_arguments := 2 }],
    builtin_functionals :=
      [{ name := "integral".toList, min_arguments := 4, max_arguments := 7 }] }

/-- A namespace whose only entry is the variable `x_01`. -/
def suffix_ns : Namespace :=
  { matrices := [], vectors := [], vars := ["x_01".toList], functions := [],
    builtin_functions := [], builtin_vectorfunctions := [], builtin_functionals := [] }

/-- Nesting depth after the first `i` characters of `s`: the opening brackets
minus the closing brackets among them. -/
def nesting_depth (s : List Char) (i : Nat) : Int :=
  ((s.take i).count '(' : Int) - ((s.take i).count ')' : Int)

/-- The `)` at position `p` matches the `(` at position 0: the depth is 0 right
after position `p` and is not 0 right after any earlier position. -/
def matching_bracket (s : List Char) (p : Nat) : Prop :=
  p < s.length ∧ nesting_depth s (p + 1) = 0 ∧ ∀ i, i < p → nesting_depth s (i + 1) ≠ 0

/-- Number of commas at nesting depth 1 among the first `p` characters. -/
def top_level_commas (s : List Char) (p : Nat) : Nat :=
  (List.range p).countP (fun i => decide (char_at s i = ',' ∧ nesting_depth s i = 1))

/-- The builtin function `b` is registered under a name that is a name token
without a reserved suffix, and no matrix, vector, variable or user function has
that name. -/
def plain_builtin_function (ns : Namespace) (b : builtin_function_t) : Bool :=
  is_name b.name && (feenox_ends_in_zero b.name).isNone && (feenox_ends_in_init b.name).isNone
    && (feenox_get_matrix_ptr ns b.name).isNone && (feenox_get_vector_ptr ns b.name).isNone
    && (feenox_get_variable_ptr ns b.name).isNone
    && (feenox_get_function_ptr ns b.name).isNone
    && (feenox_get_builtin_function_ptr ns b.name == some b)

/-- Same for a builtin vectorfunction: no builtin function has the name either. -/
def plain_builtin_vectorfunction (ns : Namespace) (b : builtin_vectorfunction_t) : Bool :=
  is_name b.name && (feenox_ends_in_zero b.name).isNone && (feenox_ends_in_init b.name).isNone
    && (feenox_get_matrix_ptr ns b.name).isNone && (feenox_get_vector_ptr ns b.name).isNone
    && (feenox_get_variable_ptr ns b.name).isNone
    && (feenox_get_function_ptr ns b.name).isNone
    && (feenox_get_builtin_function_ptr ns b.name).isNone
    && (feenox_get_builtin_vectorfunction_ptr ns b.name == some b)

/-- Same for a builtin functional: no builtin function or vectorfunction has the
name either. -/
def plain_builtin_functional (ns : Namespace) (b : builtin_functional_t) : Bool :=
  is_name b.name && (feenox_ends_in_zero b.name).isNone && (feenox_ends_in_init b.name).isNone
    && (feenox_get_matrix_ptr ns b.name).isNone && (feenox_get_vector_ptr ns b.name).isNone
    && (feenox_get_variable_ptr ns b.name).isNone
    && (feenox_get_function_ptr ns b.name).isNone
    && (feenox_get_builtin_function_ptr ns b.name).isNone
    && (feenox_get_builtin_vectorfunction_ptr ns b.name).isNone
    && (feenox_get_builtin_functional_ptr ns b.name == some b)

/-- The factor of a call of the builtin function `b`: `arg` has one entry for each
of the `max_arguments` slots. -/
def builtin_function_factor {D : Type} (A : Arith D) (b : builtin_function_t) (n_chars : Nat)
    (arg : List (expr_t D)) : expr_factor_t D :=
  { calloc_factor A with
    type := EXPR_BUILTIN_FUNCTION, builtin_function := some b, n_chars := n_chars, arg := arg }

/-- The factor of a call of the builtin vectorfunction `b`. -/
def builtin_vectorfunction_factor {D : Type} (A : Arith D) (b : builtin_vectorfunction_t)
    (n_chars : Nat) (vector_arg : List (Option (List Char))) : expr_factor_t D :=
  { calloc_factor A with
    type := EXPR_BUILTIN_VECTORFUNCTION, builtin_vectorfunction := some b, n_chars := n_chars,
    vector_arg := vector_arg }

/-- The factor of a call of the builtin functional `b` over the variable `x`. -/
def builtin_functional_factor {D : Type} (A : Arith D) (b : builtin_functional_t)
    (n_chars : Nat) (x : Option (List Char)) (arg : List (expr_t D)) : expr_factor_t D :=
  { calloc_factor A with
    type := EXPR_BUILTIN_FUNCTIONAL, builtin_functional := some b, n_chars := n_chars,
    functional_var_arg := x, arg := arg }

/-- The factor of a reference to the matrix `m` with its two subindex
expressions. -/
def matrix_factor {D : Type} (A : Arith D) (m : List Char) (type n_chars level : Nat)
    (arg : List (expr_t D)) : expr_factor_t D :=
  { calloc_factor A with
    type := type, matrix := some m, n_chars := n_chars, level := level, arg := arg }

/-- The state after the lazy initialisation of the matrix `m` in pass 1, when
it succeeds. -/
def matrix_ready {D : Type} (X : Externals D) (m : List Char) (w : World D) : World D :=
  if (w.matrix m).initialized = 0 then (X.feenox_matrix_init m w).2 else w

/-- A state like `sample_world` in which every matrix has 2 rows and 3 columns
and holds `10 i + j` at row `i`, column `j` (counted from 1). -/
def matrix_world : World XReal :=
  { sample_world with
    matrix := fun _ => { initialized := 1, rows := 2, cols := 3,
                         value := fun i j => XReal.fin (10 * (i + 1) + (j + 1)),
                         initial_transient := fun _ _ => XReal.fin 0,
                         initial_static := fun _ _ => XReal.fin 0 } }

/-- Expression tree: a literal, a bracketed tree, or an operator, given by its
offset in `operators`, between two trees. -/
inductive tree where
  | lit (ds : List Char)
  | group (t : tree)
  | bin (l : tree) (k : Nat) (r : tree)

/-- The text of a tree. -/
def tree_source : tree → List Char
  | tree.lit ds => ds
  | tree.group t => '(' :: (tree_source t ++ [')'])
  | tree.bin l k r => tree_source l ++ char_at operators k :: tree_source r

/-- The value of a tree, operator by operator. -/
def tree_value {D : Type} (A : Arith D) (zero : D) : tree → D
  | tree.lit ds => literal A ds
  | tree.group t => tree_value A zero t
  | tree.bin l k r =>
    (apply_operator A zero (char_at operators k) (tree_value A zero l) (tree_value A zero r)).1

/-- The depth of the nesting of brackets. -/
def tree_depth : tree → Nat
  | tree.lit _ => 0
  | tree.group t => tree_depth t + 1
  | tree.bin l _ r => max (tree_depth l) (tree_depth r)

/-- The literals are strings of digits and the operators are binary operators. -/
def tree_digits : tree → Bool
  | tree.lit ds => is_digits ds
  | tree.group t => tree_digits t
  | tree.bin l k r => tree_digits l && decide (k < 11) && tree_digits r

/-- The factors the builder appends for a tree met at level `L`. -/
def tree_factors {D : Type} (A : Arith D) : tree → Nat → List (expr_factor_t D)
  | tree.lit ds, L => [digits_factor A ds L]
  | tree.group t, L => tree_factors A t (L + 13)
  | tree.bin l k r, L => tree_factors A l L ++ operator_factor A L k :: tree_factors A r L

/-- The last operator the builder has met at the end of a tree: none after a
literal, the closing bracket after a bracketed tree. -/
def tree_last_oper : tree → Option Nat
  | tree.lit _ => none
  | tree.group _ => some 12
  | tree.bin _ _ r => tree_last_oper r

/-- Every operator of the tree, met at level `L`, has a level of at least `m`. -/
def ops_ge : tree → Nat → Nat → Bool
  | tree.lit _, _, _ => true
  | tree.group t, m, L => ops_ge t m (L + 13)
  | tree.bin l k r, m, L => decide (m ≤ L + k / 2 * 2) && ops_ge l m L && ops_ge r m L

/-- The tree is the one conventional precedence gives: below an operator, the
operators of the left operand have at least its level and the operators of the
right operand have a higher level. -/
def ordered : tree → Nat → Bool
  | tree.lit _, _ => true
  | tree.group t, L => ordered t (L + 13)
  | tree.bin l k r, L =>
    ordered l L && ordered r L && ops_ge l (L + k / 2 * 2) L && ops_ge r (L + k / 2 * 2 + 1) L

/-- The level of the first factor of a tree met at level `L`. -/
def head_level : tree → Nat → Nat
  | tree.lit _, L => L
  | tree.group t, L => head_level t (L + 13)
  | tree.bin l _ _, L => head_level l L

/-- The digits of the first factor of a tree. -/
def head_digits : tree → List Char
  | tree.lit ds => ds
  | tree.group t => head_digits t
  | tree.bin l _ _ => head_digits l

/-- The value on the first factor of a tree once the operators of a level above
`n` have been reduced. -/
def head_value {D : Type} (A : Arith D) (zero : D) : tree → Nat → Nat → D
  | tree.lit ds, _, _ => literal A ds
  | tree.group t, n, L => head_value A zero t n (L + 13)
  | tree.bin l k r, n, L =>
    if L + k / 2 * 2 > n then
      (apply_operator A zero (char_at operators k) (head_value A zero l n L)
        (head_value A zero r n L)).1
    else head_value A zero l n L

/-- The first factor of a tree once the operators of a level above `n` have been
reduced; `live` tells whether the factor has been consumed as a right operand. -/
def head_factor {D : Type} (A : Arith D) (zero : D) (t : tree) (n L : Nat) (live : Bool) :
    expr_factor_t D :=
  plain_factor A EXPR_CONSTANT (head_level t L) (if live then head_level t L else 0) 0
    (head_digits t).length (literal A (head_digits t)) (head_value A zero t n L)

/-- The factors of a tree after the first one, once the operators of a level
above `n` have been reduced. -/
def tail_factors {D : Type} (A : Arith D) (zero : D) : tree → Nat → Nat → List (expr_factor_t D)
  | tree.lit _, _, _ => []
  | tree.group t, n, L => tail_factors A zero t n (L + 13)
  | tree.bin l k r, n, L =>
    tail_factors A zero l n L
      ++ plain_factor A EXPR_OPERATOR (L + k / 2 * 2) (L + k / 2 * 2) (k + 1) 0 A.zero A.zero
      :: head_factor A zero r n L (decide (L + k / 2 * 2 ≤ n))
      :: tail_factors A zero r n L

/-- The scan of pass 2 at one level on lists: `front` holds the factors before
`P`, `mid` the factors between `P` and `E`, and the last argument the factors
from `E` on.  The result is the three parts at the end of the scan; `none` when
an operator of the level is the last factor. -/
def scan_list {D : Type} (A : Arith D) (zero : D) (level : Nat) :
    List (expr_factor_t D) → expr_factor_t D → List (expr_factor_t D) → List (expr_factor_t D) →
    Option (List (expr_factor_t D) × expr_factor_t D × List (expr_factor_t D))
  | front, p, mid, [] => some (front, p, mid)
  | front, p, mid, [e] =>
    if e.tmp_level = level ∧ e.oper ≠ 0 then none
    else if e.tmp_level ≠ 0 ∧ e.oper = 0 then some (front ++ p :: mid, e, [])
    else some (front, p, mid ++ [e])
  | front, p, mid, e :: n :: suf =>
    if e.tmp_level = level ∧ e.oper ≠ 0 then
      scan_list A zero level front
        { p with value := (apply_operator A zero (char_at operators (e.oper - 1))
                            p.value n.value).1 }
        (mid ++ [e, { n with tmp_level := 0 }]) suf
    else if e.tmp_level ≠ 0 ∧ e.oper = 0 then
      scan_list A zero level (front ++ p :: mid) e [] (n :: suf)
    else scan_list A zero level front p (mid ++ [e]) (n :: suf)

mutual

/-- Terms of the conventional grammar of arithmetic:
`T ::= unsigned-integer-literal | '(' E ')'`. -/
inductive arith_term where
  | lit (ds : List Char)
  | group (e : arith_sum)

/-- Products: `P ::= T | P '*' T | P '/' T`. -/
inductive arith_product where
  | term (t : arith_term)
  | mul (p : arith_product) (t : arith_term)
  | div (p : arith_product) (t : arith_term)

/-- Sums: `E ::= P | E '+' P | E '-' P`. -/
inductive arith_sum where
  | product (p : arith_product)
  | add (e : arith_sum) (p : arith_product)
  | sub (e : arith_sum) (p : arith_product)

end

mutual

/-- The text of a term. -/
def source_term : arith_term → List Char
  | arith_term.lit ds => ds
  | arith_term.group e => '(' :: (source_sum e ++ [')'])

/-- The text of a product. -/
def source_product : arith_product → List Char
  | arith_product.term t => source_term t
  | arith_product.mul p t => source_product p ++ '*' :: source_term t
  | arith_product.div p t => source_product p ++ '/' :: source_term t

/-- The text of a sum: the texts are those of `E ::= T (op T)*` with `op` one of
`+`, `-`, `*`, `/`. -/
def source_sum : arith_sum → List Char
  | arith_sum.product p => source_product p
  | arith_sum.add e p => source_sum e ++ '+' :: source_product p
  | arith_sum.sub e p => source_sum e ++ '-' :: source_product p

end

mutual

/-- The reference evaluator on terms: brackets group. -/
def reference_term {D : Type} (A : Arith D) : arith_term → D
  | arith_term.lit ds => literal A ds
  | arith_term.group e => reference_sum A e

/-- The reference evaluator on products: `*` and `/` from left to right. -/
def reference_product {D : Type} (A : Arith D) : arith_product → D
  | arith_product.term t => reference_term A t
  | arith_product.mul p t => A.mul (reference_product A p) (reference_term A t)
  | arith_product.div p t => A.div (reference_product A p) (reference_term A t)

/-- The reference evaluator on sums: `+` and `-` from left to right, over the
products. -/
def reference_sum {D : Type} (A : Arith D) : arith_sum → D
  | arith_sum.product p => reference_product A p
  | arith_sum.add e p => A.add (reference_sum A e) (reference_product A p)
  | arith_sum.sub e p => A.sub (reference_sum A e) (reference_product A p)

end

mutual

/-- Every literal of the term is a non-empty string of digits. -/
def literals_term : arith_term → Bool
  | arith_term.lit ds => is_digits ds
  | arith_term.group e => literals_sum e

/-- Every literal of the product is a non-empty string of digits. -/
def literals_product : arith_product → Bool
  | arith_product.term t => literals_term t
  | arith_product.mul p t => literals_product p && literals_term t
  | arith_product.div p t => literals_product p && literals_term t

/-- Every literal of the sum is a non-empty string of digits. -/
def literals_sum : arith_sum → Bool
  | arith_sum.product p => literals_product p
  | arith_sum.add e p => literals_sum e && literals_product p
  | arith_sum.sub e p => literals_sum e && literals_product p

end

mutual

/-- The depth of the nesting of brackets in a term. -/
def nesting_term : arith_term → Nat
  | arith_term.lit _ => 0
  | arith_term.group e => nesting_sum e + 1

/-- The depth of the nesting of brackets in a product. -/
def nesting_product : arith_product → Nat
  | arith_product.term t => nesting_term t
  | arith_product.mul p t => max (nesting_product p) (nesting_term t)
  | arith_product.div p t => max (nesting_product p) (nesting_term t)

/-- The depth of the nesting of brackets in a sum. -/
def nesting_sum : arith_sum → Nat
  | arith_sum.product p => nesting_product p
  | arith_sum.add e p => max (nesting_sum e) (nesting_product p)
  | arith_sum.sub e p => max (nesting_sum e) (nesting_product p)

end

mutual

/-- The tree of a term. -/
def term_tree : arith_term → tree
  | arith_term.lit ds => tree.lit ds
  | arith_term.group e => tree.group (sum_tree e)

/-- The tree of a product. -/
def product_tree : arith_product → tree
  | arith_product.term t => term_tree t
  | arith_product.mul p t => tree.bin (product_tree p) 8 (term_tree t)
  | arith_product.div p t => tree.bin (product_tree p) 9 (term_tree t)

/-- The tree of a sum. -/
def sum_tree : arith_sum → tree
  | arith_sum.product p => product_tree p
  | arith_sum.add e p => tree.bin (sum_tree e) 6 (product_tree p)
  | arith_sum.sub e p => tree.bin (sum_tree e) 7 (product_tree p)

end

mutual

/-- Terms of the flat grammar: `T ::= unsigned-integer-literal | '(' E ')'`. -/
inductive flat_term where
  | lit (ds : List Char)
  | group (e : flat_expr)

/-- Expressions of the flat grammar, `E ::= T (op T)*`: one term, or an
expression followed by an operator and a term. -/
inductive flat_expr where
  | single (t : flat_term)
  | more (e : flat_expr) (op : Char) (t : flat_term)

end

mutual

/-- The text of a term of the flat grammar. -/
def flat_source_term : flat_term → List Char
  | flat_term.lit ds => ds
  | flat_term.group e => '(' :: (flat_source e ++ [')'])

/-- The text of an expression of the flat grammar. -/
def flat_source : flat_expr → List Char
  | flat_expr.single t => flat_source_term t
  | flat_expr.more e op t => flat_source e ++ op :: flat_source_term t

end

mutual

/-- The literals of the term are non-empty strings of digits and its operators
are among `+`, `-`, `*`, `/`. -/
def flat_ok_term : flat_term → Bool
  | flat_term.lit ds => is_digits ds
  | flat_term.group e => flat_ok e

/-- The literals of the expression are non-empty strings of digits and its
operators are among `+`, `-`, `*`, `/`. -/
def flat_ok : flat_expr → Bool
  | flat_expr.single t => flat_ok_term t
  | flat_expr.more e op t => flat_ok e && "+-*/".toList.contains op && flat_ok_term t

end

mutual

/-- The depth of the nesting of brackets in a term of the flat grammar. -/
def flat_nesting_term : flat_term → Nat
  | flat_term.lit _ => 0
  | flat_term.group e => flat_nesting e + 1

/-- The depth of the nesting of brackets in an expression of the flat grammar. -/
def flat_nesting : flat_expr → Nat
  | flat_expr.single t => flat_nesting_term t
  | flat_expr.more e _ t => max (flat_nesting e) (flat_nesting_term t)

end

/-- A sum followed by `*` and a term: the term joins the last product. -/
def sum_times : arith_sum → arith_term → arith_sum
  | arith_sum.product p, t => arith_sum.product (arith_product.mul p t)
  | arith_sum.add e p, t => arith_sum.add e (arith_product.mul p t)
  | arith_sum.sub e p, t => arith_sum.sub e (arith_product.mul p t)

/-- A sum followed by `/` and a term: the term joins the last product. -/
def sum_over : arith_sum → arith_term → arith_sum
  | arith_sum.product p, t => arith_sum.product (arith_product.div p t)
  | arith_sum.add e p, t => arith_sum.add e (arith_product.div p t)
  | arith_sum.sub e p, t => arith_sum.sub e (arith_product.div p t)

mutual

/-- The term of the conventional grammar with the text of a term of the flat
grammar. -/
def conventional_term : flat_term → arith_term
  | flat_term.lit ds => arith_term.lit ds
  | flat_term.group e => arith_term.group (conventional e)

/-- The sum of the conventional grammar with the text of an expression of the
flat grammar. -/
def conventional : flat_expr → arith_sum
  | flat_expr.single t => arith_sum.product (arith_product.term (conventional_term t))
  | flat_expr.more e op t =>
    if op = '+' then arith_sum.add (conventional e) (arith_product.term (conventional_term t))
    else if op = '-' then
      arith_sum.sub (conventional e) (arith_product.term (conventional_term t))
    else if op = '*' then sum_times (conventional e) (conventional_term t)
    else sum_over (conventional e) (conventional_term t)

end

/-- The sum with the text `2*(3+4)-10/5`. -/
def sample_arith : arith_sum :=
  arith_sum.sub
    (arith_sum.product
      (arith_product.mul (arith_product.term (arith_term.lit "2".toList))
        (arith_term.group
          (arith_sum.add (arith_sum.product (arith_product.term (arith_term.lit "3".toList)))
            (arith_product.term (arith_term.lit "4".toList))))))
    (arith_product.div (arith_product.term (arith_term.lit "10".toList))
      (arith_term.lit "5".toList))

/-- The expression of the flat grammar with the text `2*(3+4)-10/5`. -/
def sample_flat : flat_expr :=
  flat_expr.more
    (flat_expr.more
      (flat_expr.more (flat_expr.single (flat_term.lit "2".toList)) '*'
        (flat_term.group
          (flat_expr.more (flat_expr.single (flat_term.lit "3".toList)) '+'
            (flat_term.lit "4".toList))))
      '-' (flat_term.lit "10".toList))
    '/' (flat_term.lit "5".toList)

/-! ## Further sample namespaces -/

/-- A namespace in which the user functions `T_0` and `f_init`, of one argument
each, are declared. -/
def initial_ns : Namespace :=
  { matrices := [], vectors := [], vars := [],
    functions := [{ name := "T_0".toList, n_arguments := 1 },
                  { name := "f_init".toList, n_arguments := 1 }],
    builtin_functions := [], builtin_vectorfunctions := [], builtin_functionals := [] }

/-- The functions `T_0` and `T`, of one argument each, as in a thermal problem with
an initial condition. -/
def initial_ns_T : Namespace :=
  { initial_ns with
    functions := [{ name := "T_0".toList, n_arguments := 1 },
                  { name := "T".toList, n_arguments := 1 }] }

/-- The functions of `initial_ns` and a variable `T`. -/
def initial_ns_var : Namespace :=
  { initial_ns with vars := ["T".toList] }

/-- A namespace whose only entry is the user function `f` of one argument. -/
def unary_ns : Namespace :=
  { matrices := [], vectors := [], vars := [],
    functions := [{ name := "f".toList, n_arguments := 1 }],
    builtin_functions := [], builtin_vectorfunctions := [], builtin_functionals := [] }

/-! ## The element range of a process -/

/-- The assignments to `feenox.pde.first_element` and `feenox.pde.last_element` in
`feenox_problem_init_runtime_general`: the pair of the two values for
`n_elements` (a `size_t`) and for the `int`s `n_procs` and `rank`, which the
arithmetic converts to `size_t`.  The two fields are taken to be `size_t`. -/
def element_range (n_elements : Nat) (n_procs rank : Int) : Nat × Nat :=
  let first_element := ((n_elements / to_size_t n_procs) * to_size_t rank) % SIZE_MAX1
  if n_elements % to_size_t n_procs > to_size_t rank then
    let first_element := (first_element + to_size_t rank) % SIZE_MAX1
    (first_element,
      ((first_element + n_elements / to_size_t n_procs) % SIZE_MAX1 + 1) % SIZE_MAX1)
  else
    let first_element := (first_element + n_elements % to_size_t n_procs) % SIZE_MAX1
    (first_element, (first_element + n_elements / to_size_t n_procs) % SIZE_MAX1)

/-- The value stored in `feenox.pde.first_element`. -/
def first_element (n_elements : Nat) (n_procs rank : Int) : Nat :=
  (element_range n_elements n_procs rank).1

/-- The value stored in `feenox.pde.last_element`. -/
def last_element (n_elements : Nat) (n_procs rank : Int) : Nat :=
  (element_range n_elements n_procs rank).2

/-! ## The run-time initialisation of the thermal problem -/

/-- The return value `FEENOX_OK`. -/
def FEENOX_OK : Int := 0

/-- The return value `FEENOX_ERROR`. -/
def FEENOX_ERROR : Int := 1

/-- The fields of a `distribution_t` that the thermal initialisation reads. -/
structure distribution_t where
  defined : Int
  full : Int
  deriving DecidableEq

/-- The distributions of `thermal_t`. -/
structure thermal_t where
  k : distribution_t
  q : distribution_t
  Q : distribution_t
  kappa : distribution_t
  rhocp : distribution_t
  rho : distribution_t
  cp : distribution_t
  deriving DecidableEq

/-- The routine `feenox_problem_init_runtime_thermal` as compiled with
`HAVE_PETSC`: the events, the value returned and the distributions it leaves.
`feenox_distribution_init` is a routine of another file: it is a parameter that
takes the distribution it is pointed at and the name, and gives its return value
and the distribution it leaves.  `dim` is `feenox.pde.dim` and `end_time` the
value of the special variable.  The assignments after the checks (sizes,
dependence on space, the choice of the solver) have no branch that returns and
are left out. -/
def feenox_problem_init_runtime_thermal {D : Type} (A : Arith D) (ns : Namespace) (dim : Int)
    (end_time : D) (feenox_distribution_init : distribution_t → List Char → Int × distribution_t)
    (thermal : thermal_t) : List Event × Int × thermal_t :=
  -- check if we were given an initial solution
  let mismatch : Option Int := match feenox_get_function_ptr ns "T_0".toList with
    | some initial_condition =>
      if initial_condition.n_arguments ≠ dim then some initial_condition.n_arguments else none
    | none => none
  match mismatch with
  | some n_arguments =>
    ([Event.push_error_message
        "initial condition function T_0 ought to have %d arguments instead of %d"
        [msg_arg.int dim, msg_arg.int n_arguments]], FEENOX_OK, thermal)
  | none =>
  let has_mass := A.lt A.zero end_time
  -- initialize distributions
  let r := feenox_distribution_init thermal.k "k".toList
  let thermal := { thermal with k := r.2 }
  if r.1 ≠ FEENOX_OK then ([], FEENOX_ERROR, thermal) else
  if thermal.k.defined = 0 then
    ([Event.push_error_message "undefined thermal conductivity 'k'" []], FEENOX_ERROR, thermal)
  else
  if thermal.k.full = 0 then
    ([Event.push_error_message "thermal conductivity 'k' is not defined over all volumes" []],
      FEENOX_ERROR, thermal)
  else
  let r := feenox_distribution_init thermal.q "q'''".toList
  let thermal := { thermal with q := r.2 }
  if r.1 ≠ FEENOX_OK then ([], FEENOX_ERROR, thermal) else
  let r := if thermal.q.defined = 0 then feenox_distribution_init thermal.q "q".toList
    else (FEENOX_OK, thermal.q)
  let thermal := { thermal with q := r.2 }
  if r.1 ≠ FEENOX_OK then ([], FEENOX_ERROR, thermal) else
  let r := feenox_distribution_init thermal.Q "Q".toList
  let thermal := { thermal with Q := r.2 }
  if r.1 ≠ FEENOX_OK then ([], FEENOX_ERROR, thermal) else
  if has_mass then
    let r := feenox_distribution_init thermal.kappa "kappa".toList
    let thermal := { thermal with kappa := r.2 }
    if r.1 ≠ FEENOX_OK then ([], FEENOX_ERROR, thermal) else
    if thermal.kappa.defined = 0 then
      let r := feenox_distribution_init thermal.rhocp "rhocp".toList
      let thermal := { thermal with rhocp := r.2 }
      if r.1 ≠ FEENOX_OK then ([], FEENOX_ERROR, thermal) else
      if thermal.rhocp.defined = 0 then
        let r := feenox_distribution_init thermal.rho "rho".toList
        let thermal := { thermal with rho := r.2 }
        if r.1 ≠ FEENOX_OK then ([], FEENOX_ERROR, thermal) else
        let r := feenox_distribution_init thermal.cp "cp".toList
        let thermal := { thermal with cp := r.2 }
        if r.1 ≠ FEENOX_OK then ([], FEENOX_ERROR, thermal) else
        if thermal.rhocp.defined = 0 ∨ thermal.cp.defined = 0 then
          ([Event.push_error_message
              "either 'kappa', 'rhocp' or both 'rho' and 'cp' are needed for transient" []],
            FEENOX_ERROR, thermal)
        else if thermal.rhocp.full = 0 ∨ thermal.cp.full = 0 then
          ([Event.push_error_message "either 'rho' or 'cp' is not defined over all volumes" []],
            FEENOX_ERROR, thermal)
        else ([], FEENOX_OK, thermal)
      else if thermal.rhocp.full = 0 then
        ([Event.push_error_message "product 'rhocp' is not defined over all volumes" []],
          FEENOX_ERROR, thermal)
      else ([], FEENOX_OK, thermal)
    else if thermal.kappa.full = 0 then
      ([Event.push_error_message
          "thermal diffusivity 'kappa' is not defined over all volumes" []],
        FEENOX_ERROR, thermal)
    else ([], FEENOX_OK, thermal)
  else ([], FEENOX_OK, thermal)

/-- Distributions all undefined, as the zeroed global `thermal`. -/
def thermal_zero : thermal_t :=
  { k := ⟨0, 0⟩, q := ⟨0, 0⟩, Q := ⟨0, 0⟩, kappa := ⟨0, 0⟩, rhocp := ⟨0, 0⟩, rho := ⟨0, 0⟩,
    cp := ⟨0, 0⟩ }

/-- A `feenox_distribution_init` for an input in which `k`, `rho` and `cp` are
given over all volumes and no other property is given. -/
def rho_cp_given (d : distribution_t) (name : List Char) : Int × distribution_t :=
  if name = "k".toList ∨ name = "rho".toList ∨ name = "cp".toList then (FEENOX_OK, ⟨1, 1⟩)
  else (FEENOX_OK, { d with defined := 0, full := 0 })

/-! ## Grouping brackets around the factors of a source -/

/-- The nesting level the builder holds inside `d` more opening than closing
brackets: `1 + 13 d` in the arithmetic of `size_t`. -/
def level_at (d : Int) : Nat := ((1 + 13 * d) % 18446744073709551616).toNat

/-- For every factor the loop of the builder appends, in the order of the list:
the offset in `operators` when the factor is an operator (`none` for an operand)
and the number of opening brackets minus the number of closing brackets that the
loop has met itself before it, that is, the grouping brackets around the factor;
the brackets inside the text that the factor parser `pf` consumes, those of a
call or of a subindex, are not among them.  `d` is the number on entry; the list
ends where the loop stops. -/
def grouping_depths {D : Type} (pf : List Char → Res (expr_factor_t D)) :
    List Char → Nat → Bool → Int → List (Option Nat × Int)
  | [], _, _, _ => []
  | _ :: rest, skip + 1, last_was_an_op, d => grouping_depths pf rest skip last_was_an_op d
  | c :: rest, 0, last_was_an_op, d =>
    if isblank c then grouping_depths pf rest 0 last_was_an_op d
    else
      match strchr operators c with
      | some k =>
        if c = '(' then grouping_depths pf rest 0 true (d + 1)
        else if c = ')' then grouping_depths pf rest 0 false (d - 1)
        else if last_was_an_op then
          if c = '+' ∨ c = '-' then
            match pf (c :: rest) with
            | (_, Ret.ok factor) =>
              if factor.n_chars = 0 then []
              else (none, d) :: grouping_depths pf rest (factor.n_chars - 1) false d
            | (_, Ret.fail) => []
            | (_, Ret.out_of_fuel) => []
          else []
        else (some k, d) :: grouping_depths pf rest 0 true d
      | none =>
        match pf (c :: rest) with
        | (_, Ret.ok factor) =>
          if factor.n_chars = 0 then []
          else (none, d) :: grouping_depths pf rest (factor.n_chars - 1) false d
        | (_, Ret.fail) => []
        | (_, Ret.out_of_fuel) => []

/-! ## Lemmas on characters and on the number scan -/

theorem isdigit_cases {c : Char} (h : isdigit c = true) : c ∈ "0123456789".toList := by
  have h1 : 48 ≤ c.toNat ∧ c.toNat ≤ 57 := by
    simpa [isdigit] using h
  have h2 : c = Char.ofNat c.toNat := by simp
  obtain ⟨a, b⟩ := h1
  generalize c.toNat = n at h2 a b
  subst h2
  interval_cases n <;> decide

theorem digit_facts {c : Char} (h : isdigit c = true) :
    isblank c = false ∧ strchr operators c = none ∧ c ≠ '-' ∧ c ≠ '+' ∧ c ≠ '.'
      ∧ tolower c ≠ 'i' ∧ tolower c ≠ 'n' ∧ tolower c ≠ 'x' ∧ tolower c ≠ 'e' := by
  have key : ∀ d ∈ "0123456789".toList,
      isblank d = false ∧ strchr operators d = none ∧ d ≠ '-' ∧ d ≠ '+' ∧ d ≠ '.'
      ∧ tolower d ≠ 'i' ∧ tolower d ≠ 'n' ∧ tolower d ≠ 'x' ∧ tolower d ≠ 'e' := by decide
  exact key c (isdigit_cases h)

theorem is_digits_all {ds : List Char} (h : is_digits ds = true) :
    ∀ c ∈ ds, isdigit c = true := by
  simp only [is_digits, Bool.and_eq_true, List.all_eq_true] at h
  exact h.2

theorem is_digits_ne_nil {ds : List Char} (h : is_digits ds = true) : ds ≠ [] := by
  intro hn
  subst hn
  simp [is_digits] at h

theorem ends_number_cons (c : Char) (t : List Char)
    (h : (!isdigit c && c != '.' && tolower c != 'e' && tolower c != 'x') = true) :
    ends_number (c :: t) = true := h

theorem takeWhile_digits (ds rest : List Char) (h : ∀ c ∈ ds, isdigit c = true)
    (hr : ∀ c t, rest = c :: t → isdigit c = false) :
    (ds ++ rest).takeWhile isdigit = ds ∧ (ds ++ rest).dropWhile isdigit = rest := by
  induction ds with
  | nil =>
    cases rest with
    | nil => simp
    | cons c t => simp [List.takeWhile, List.dropWhile, hr c t rfl]
  | cons d ds ih =>
    have hd : isdigit d = true := h d (List.mem_cons_self _ _)
    have := ih (fun c hc => h c (List.mem_cons_of_mem _ hc))
    simp [List.takeWhile, List.dropWhile, hd, this]

theorem scan_exponent_none (m : Char) (rest : List Char)
    (h : ∀ c t, rest = c :: t → tolower c ≠ m) : scan_exponent m rest = some (0, 0) := by
  cases rest with
  | nil => rfl
  | cons c t => simp [scan_exponent, h c t rfl]

theorem sscanf_lf_digits (ds rest : List Char) (hds : is_digits ds = true)
    (hr : ends_number rest = true) :
    sscanf_lf (ds ++ rest) = some (scan_value.decimal false (digits_value ds) 0 0, ds.length) := by
  cases ds with
  | nil => simp [is_digits] at hds
  | cons d ds =>
    have hall : ∀ c ∈ d :: ds, isdigit c = true := is_digits_all hds
    have hd : isdigit d = true := hall d (List.mem_cons_self _ _)
    obtain ⟨-, -, hm, hp, hdot, hi, hn, hx, he⟩ := digit_facts hd
    have hr0 : ∀ c t, rest = c :: t →
        isdigit c = false ∧ c ≠ '.' ∧ tolower c ≠ 'e' ∧ tolower c ≠ 'x' := by
      intro c t hct; subst hct
      simp only [ends_number, Bool.and_eq_true, Bool.not_eq_true', bne_iff_ne, ne_eq] at hr
      exact ⟨hr.1.1.1, hr.1.1.2, hr.1.2, hr.2⟩
    have hr1 : ∀ c t, rest = c :: t → isdigit c = false := fun c t h => (hr0 c t h).1
    have hr2 : ∀ c t, rest = c :: t → c ≠ '.' := fun c t h => (hr0 c t h).2.1
    have hr3 : ∀ c t, rest = c :: t → tolower c ≠ 'e' := fun c t h => (hr0 c t h).2.2.1
    have hr4 : ∀ c t, rest = c :: t → tolower c ≠ 'x' := fun c t h => (hr0 c t h).2.2.2
    have htd := takeWhile_digits (d :: ds) rest hall hr1
    have hx2 : tolower (char_at (ds ++ rest) 0) ≠ 'x' := by
      cases ds with
      | nil =>
        cases rest with
        | nil => decide
        | cons c t => simpa [char_at] using hr4 c t rfl
      | cons e es =>
        have he : isdigit e = true := hall e (by simp)
        simpa [char_at] using (digit_facts he).2.2.2.2.2.2.2.1
    have hsc : scan_decimal false (d :: ds ++ rest)
        = some (scan_value.decimal false (digits_value (d :: ds)) 0 0, (d :: ds).length) := by
      unfold scan_decimal
      rw [htd.1, htd.2]
      cases rest with
      | nil => simp [scan_exponent]
      | cons c t =>
        have : c ≠ '.' := hr2 c t rfl
        have h3 := scan_exponent_none 'e' (c :: t) (fun c2 t2 h => hr3 c2 t2 h)
        dsimp only
        split
        · next heq => simp at heq; exact absurd heq.1 this
        · simp [h3]
    show sscanf_lf (d :: (ds ++ rest)) = _
    unfold sscanf_lf
    split
    · next heq => simp at heq; exact absurd heq.1 hm
    · next heq => simp at heq; exact absurd heq.1 hp
    · unfold scan_unsigned
      simp only [hi, hn, if_false, hx2, and_false]
      exact hsc

/-! ## Lemmas on the expression builder -/

theorem parse_factor_digits {D : Type} (A : Arith D) (ns : Namespace)
    (parse : List Char → Res (expr_t D)) (ds rest : List Char)
    (hds : is_digits ds = true) (hr : ends_number rest = true) :
    feenox_expression_parse_factor A ns parse (ds ++ rest)
      = ([], Ret.ok (number_factor A (scan_value.decimal false (digits_value ds) 0 0)
          ds.length)) := by
  cases ds with
  | nil => simp [is_digits] at hds
  | cons d ds =>
    have hd : isdigit d = true := is_digits_all hds d (List.mem_cons_self _ _)
    have h0 : char_at (d :: ds ++ rest) 0 = d := rfl
    unfold feenox_expression_parse_factor
    rw [h0, sscanf_lf_digits (d :: ds) rest hds hr]
    simp [hd, number_factor]

theorem parse_loop_skip {D : Type} (A : Arith D) (pf : List Char → Res (expr_factor_t D))
    (xs rest : List Char) (oper : Option Nat) (last : Bool) (level : Nat)
    (fs : List (expr_factor_t D)) :
    parse_loop A pf (xs ++ rest) xs.length oper last level fs
      = parse_loop A pf rest 0 oper last level fs := by
  induction xs with
  | nil => rfl
  | cons x xs ih => simpa [parse_loop] using ih

/-- One turn of the loop on an operand: the factor parser succeeds without a
message on a token of `1 + xs.length` characters. -/
theorem parse_loop_operand {D : Type} (A : Arith D) (pf : List Char → Res (expr_factor_t D))
    (c : Char) (xs rest : List Char) (f : expr_factor_t D)
    (hb : isblank c = false) (hop : strchr operators c = none)
    (hpf : pf (c :: (xs ++ rest)) = ([], Ret.ok f)) (hn : f.n_chars = xs.length + 1)
    (oper : Option Nat) (last : Bool) (level : Nat) (fs : List (expr_factor_t D)) :
    parse_loop A pf (c :: (xs ++ rest)) 0 oper last level fs
      = parse_loop A pf rest 0 none false level (fs ++ [{ f with level := level }]) := by
  rw [parse_loop]
  simp only [hb, hop, hpf, hn]
  simp only [Nat.add_sub_cancel, List.nil_append, Nat.succ_ne_zero, if_false, Bool.false_eq_true]
  rw [parse_loop_skip]

theorem parse_loop_digits {D : Type} (A : Arith D) (ns : Namespace)
    (parse : List Char → Res (expr_t D)) (ds rest : List Char)
    (hds : is_digits ds = true) (hr : ends_number rest = true)
    (oper : Option Nat) (last : Bool) (level : Nat) (fs : List (expr_factor_t D)) :
    parse_loop A (feenox_expression_parse_factor A ns parse) (ds ++ rest) 0 oper last level fs
      = parse_loop A (feenox_expression_parse_factor A ns parse) rest 0 none false level
          (fs ++ [digits_factor A ds level]) := by
  have hpf := parse_factor_digits A ns parse ds rest hds hr
  cases ds with
  | nil => simp [is_digits] at hds
  | cons d ds =>
    have hd : isdigit d = true := is_digits_all hds d (List.mem_cons_self _ _)
    obtain ⟨hb, hop, -⟩ := digit_facts hd
    exact parse_loop_operand A _ d ds rest _ hb hop hpf rfl oper last level fs

theorem parse_loop_digits_end {D : Type} (A : Arith D) (ns : Namespace)
    (parse : List Char → Res (expr_t D)) (ds : List Char) (hds : is_digits ds = true)
    (oper : Option Nat) (last : Bool) (level : Nat) (fs : List (expr_factor_t D)) :
    parse_loop A (feenox_expression_parse_factor A ns parse) ds 0 oper last level fs
      = parse_loop A (feenox_expression_parse_factor A ns parse) [] 0 none false level
          (fs ++ [digits_factor A ds level]) := by
  have := parse_loop_digits A ns parse ds [] hds rfl oper last level fs
  rwa [List.append_nil] at this

theorem parse_loop_binop {D : Type} (A : Arith D) (pf : List Char → Res (expr_factor_t D))
    (c : Char) (rest : List Char) (k : Nat) (oper : Option Nat) (level : Nat)
    (fs : List (expr_factor_t D))
    (hb : isblank c = false) (hk : strchr operators c = some k) (h1 : c ≠ '(') (h2 : c ≠ ')') :
    parse_loop A pf (c :: rest) 0 oper false level fs
      = parse_loop A pf rest 0 (some k) true level (fs ++ [operator_factor A level k]) := by
  rw [parse_loop]
  simp [hb, hk, h1, h2]

theorem parse_loop_open {D : Type} (A : Arith D) (pf : List Char → Res (expr_factor_t D))
    (rest : List Char) (oper : Option Nat) (last : Bool) (level : Nat)
    (fs : List (expr_factor_t D)) :
    parse_loop A pf ('(' :: rest) 0 oper last level fs
      = parse_loop A pf rest 0 (some 11) true ((level + 13) % SIZE_MAX1) fs := by
  rw [parse_loop]
  simp [isblank, strchr, operators]

theorem parse_loop_close {D : Type} (A : Arith D) (pf : List Char → Res (expr_factor_t D))
    (rest : List Char) (oper : Option Nat) (last : Bool) (level : Nat)
    (fs : List (expr_factor_t D)) :
    parse_loop A pf (')' :: rest) 0 oper last level fs
      = parse_loop A pf rest 0 (some 12) false ((level + SIZE_MAX1 - 13) % SIZE_MAX1) fs := by
  rw [parse_loop]
  simp [isblank, strchr, operators]

theorem parse_depth_succ {D : Type} (A : Arith D) (ns : Namespace) (depth : Nat)
    (s : List Char) (hs : s ≠ []) :
    parse_depth A ns (depth + 1) s
      = match parse_loop A (feenox_expression_parse_factor A ns (parse_depth A ns depth))
          s 0 none false 1 [] with
        | (log, Ret.ok factors) => (log, Ret.ok { factors := factors, string := s })
        | (log, Ret.fail) => (log, Ret.fail)
        | (log, Ret.out_of_fuel) => (log, Ret.out_of_fuel) := by
  rw [parse_depth]
  simp [hs]

/-! ## Lemmas on the exact arithmetic -/

theorem literal_exact (ds : List Char) : literal exact ds = XReal.fin (digits_value ds) := by
  simp [literal, exact, XReal.of_scan]

/-! ## Precedence and associativity -/

theorem parse_sum_product {D : Type} (A : Arith D) (ns : Namespace)
    (da db dc : List Char) (ha : is_digits da = true) (hb : is_digits db = true)
    (hc : is_digits dc = true) :
    feenox_expression_parse A ns (da ++ '+' :: (db ++ '*' :: dc))
      = ([], Ret.ok ⟨[digits_factor A da 1, operator_factor A 1 6, digits_factor A db 1,
                      operator_factor A 1 8, digits_factor A dc 1],
                     da ++ '+' :: (db ++ '*' :: dc)⟩) := by
  have hne : da ++ '+' :: (db ++ '*' :: dc) ≠ [] := by
    simp [is_digits_ne_nil ha]
  unfold feenox_expression_parse
  rw [parse_depth_succ A ns _ _ hne]
  rw [parse_loop_digits A ns _ da _ ha (ends_number_cons _ _ (by decide))]
  rw [parse_loop_binop A _ '+' _ 6 _ _ _ (by decide) (by decide) (by decide) (by decide)]
  rw [parse_loop_digits A ns _ db _ hb (ends_number_cons _ _ (by decide))]
  rw [parse_loop_binop A _ '*' _ 8 _ _ _ (by decide) (by decide) (by decide) (by decide)]
  rw [parse_loop_digits_end A ns _ dc hc]
  simp only [parse_loop]
  rfl

theorem parse_bracket_sum_product {D : Type} (A : Arith D) (ns : Namespace)
    (da db dc : List Char) (ha : is_digits da = true) (hb : is_digits db = true)
    (hc : is_digits dc = true) :
    feenox_expression_parse A ns ('(' :: (da ++ '+' :: (db ++ ')' :: '*' :: dc)))
      = ([], Ret.ok ⟨[digits_factor A da 14, operator_factor A 14 6, digits_factor A db 14,
                      operator_factor A 1 8, digits_factor A dc 1],
                     '(' :: (da ++ '+' :: (db ++ ')' :: '*' :: dc))⟩) := by
  unfold feenox_expression_parse
  rw [parse_depth_succ A ns _ _ (by simp)]
  rw [parse_loop_open]
  rw [parse_loop_digits A ns _ da _ ha (ends_number_cons _ _ (by decide))]
  rw [parse_loop_binop A _ '+' _ 6 _ _ _ (by decide) (by decide) (by decide) (by decide)]
  rw [parse_loop_digits A ns _ db _ hb (ends_number_cons _ _ (by decide))]
  rw [parse_loop_close]
  rw [parse_loop_binop A _ '*' _ 8 _ _ _ (by decide) (by decide) (by decide) (by decide)]
  rw [parse_loop_digits_end A ns _ dc hc]
  simp only [parse_loop]
  rfl

/-- C1: for all non-negative integer literals `a`, `b`, `c` (non-empty strings of
decimal digits), the text `a+b*c` is parsed without any message and evaluates to
`a + (b*c)`, and the text `(a+b)*c` is parsed without any message and evaluates to
`(a+b)*c`, in every arithmetic, namespace and state. -/
theorem C1_precedence {D : Type} (A : Arith D) (X : Externals D) (ns : Namespace)
    (w : World D) (da db dc : List Char) (ha : is_digits da = true)
    (hb : is_digits db = true) (hc : is_digits dc = true) :
    (∃ e, feenox_expression_parse A ns (da ++ '+' :: (db ++ '*' :: dc)) = ([], Ret.ok e)
      ∧ (feenox_expression_eval A X e w).map (fun r => r.1)
          = some (A.add (literal A da) (A.mul (literal A db) (literal A dc))))
    ∧ (∃ e, feenox_expression_parse A ns ('(' :: (da ++ '+' :: (db ++ ')' :: '*' :: dc)))
          = ([], Ret.ok e)
      ∧ (feenox_expression_eval A X e w).map (fun r => r.1)
          = some (A.mul (A.add (literal A da) (literal A db)) (literal A dc))) :=
  ⟨⟨_, parse_sum_product A ns da db dc ha hb hc, rfl⟩,
   ⟨_, parse_bracket_sum_product A ns da db dc ha hb hc, rfl⟩⟩

/-- Witness of C1: in exact arithmetic `2+3*4` gives 14 and `(2+3)*4` gives 20. -/
theorem C1_precedence_witness :
    is_digits "2".toList = true ∧ is_digits "3".toList = true ∧ is_digits "4".toList = true
    ∧ (∃ e, feenox_expression_parse exact sample_ns "2+3*4".toList = ([], Ret.ok e)
        ∧ (feenox_expression_eval exact sample_externals e sample_world).map (fun r => r.1)
            = some (XReal.fin 14))
    ∧ (∃ e, feenox_expression_parse exact sample_ns "(2+3)*4".toList = ([], Ret.ok e)
        ∧ (feenox_expression_eval exact sample_externals e sample_world).map (fun r => r.1)
            = some (XReal.fin 20)) := by
  obtain ⟨⟨e1, hp1, he1⟩, ⟨e2, hp2, he2⟩⟩ :=
    C1_precedence exact sample_externals sample_ns sample_world "2".toList "3".toList "4".toList
      (by decide) (by decide) (by decide)
  refine ⟨by decide, by decide, by decide, ⟨e1, hp1, ?_⟩, ⟨e2, hp2, ?_⟩⟩
  · rw [he1, literal_exact, literal_exact, literal_exact]
    have h2 : digits_value "2".toList = 2 := by decide
    have h3 : digits_value "3".toList = 3 := by decide
    have h4 : digits_value "4".toList = 4 := by decide
    rw [h2, h3, h4]
    simp only [exact, XReal.add, XReal.mul]
    norm_num
  · rw [he2, literal_exact, literal_exact, literal_exact]
    have h2 : digits_value "2".toList = 2 := by decide
    have h3 : digits_value "3".toList = 3 := by decide
    have h4 : digits_value "4".toList = 4 := by decide
    rw [h2, h3, h4]
    simp only [exact, XReal.add, XReal.mul]
    norm_num

/-- The builder on `a op1 b op2 c` for two binary operators: five factors. -/
theorem parse_two_operators {D : Type} (A : Arith D) (ns : Namespace)
    (da db dc : List Char) (ha : is_digits da = true) (hb : is_digits db = true)
    (hc : is_digits dc = true) (c1 c2 : Char) (k1 k2 : Nat)
    (h1 : isblank c1 = false ∧ strchr operators c1 = some k1 ∧ c1 ≠ '(' ∧ c1 ≠ ')'
      ∧ ends_number [c1] = true)
    (h2 : isblank c2 = false ∧ strchr operators c2 = some k2 ∧ c2 ≠ '(' ∧ c2 ≠ ')'
      ∧ ends_number [c2] = true) :
    feenox_expression_parse A ns (da ++ c1 :: (db ++ c2 :: dc))
      = ([], Ret.ok ⟨[digits_factor A da 1, operator_factor A 1 k1, digits_factor A db 1,
                      operator_factor A 1 k2, digits_factor A dc 1],
                     da ++ c1 :: (db ++ c2 :: dc)⟩) := by
  have hne : da ++ c1 :: (db ++ c2 :: dc) ≠ [] := by
    simp [is_digits_ne_nil ha]
  unfold feenox_expression_parse
  rw [parse_depth_succ A ns _ _ hne]
  rw [parse_loop_digits A ns _ da (c1 :: (db ++ c2 :: dc)) ha h1.2.2.2.2]
  rw [parse_loop_binop A _ c1 _ k1 _ _ _ h1.1 h1.2.1 h1.2.2.1 h1.2.2.2.1]
  rw [parse_loop_digits A ns _ db (c2 :: dc) hb h2.2.2.2.2]
  rw [parse_loop_binop A _ c2 _ k2 _ _ _ h2.1 h2.2.1 h2.2.2.1 h2.2.2.2.1]
  rw [parse_loop_digits_end A ns _ dc hc]
  simp only [parse_loop]
  rfl

/-- C2: operators of the same precedence tier at the same bracket depth are
reduced left to right: for all literals `a`, `b`, `c`, the text `a^b^c` evaluates
to `(a^b)^c`, `a-b-c` to `(a-b)-c` and `a/b*c` to `(a/b)*c`. -/
theorem C2_left_to_right {D : Type} (A : Arith D) (X : Externals D) (ns : Namespace)
    (w : World D) (da db dc : List Char) (ha : is_digits da = true)
    (hb : is_digits db = true) (hc : is_digits dc = true) :
    (∃ e, feenox_expression_parse A ns (da ++ '^' :: (db ++ '^' :: dc)) = ([], Ret.ok e)
      ∧ (feenox_expression_eval A X e w).map (fun r => r.1)
          = some (A.pow (A.pow (literal A da) (literal A db)) (literal A dc)))
    ∧ (∃ e, feenox_expression_parse A ns (da ++ '-' :: (db ++ '-' :: dc)) = ([], Ret.ok e)
      ∧ (feenox_expression_eval A X e w).map (fun r => r.1)
          = some (A.sub (A.sub (literal A da) (literal A db)) (literal A dc)))
    ∧ (∃ e, feenox_expression_parse A ns (da ++ '/' :: (db ++ '*' :: dc)) = ([], Ret.ok e)
      ∧ (feenox_expression_eval A X e w).map (fun r => r.1)
          = some (A.mul (A.div (literal A da) (literal A db)) (literal A dc))) :=
  ⟨⟨_, parse_two_operators A ns da db dc ha hb hc '^' '^' 10 10 (by decide) (by decide), rfl⟩,
   ⟨_, parse_two_operators A ns da db dc ha hb hc '-' '-' 7 7 (by decide) (by decide), rfl⟩,
   ⟨_, parse_two_operators A ns da db dc ha hb hc '/' '*' 9 8 (by decide) (by decide), rfl⟩⟩

/-- Witness of C2: in exact arithmetic `2^2^3` gives 64, `7-2-1` gives 4 and
`8/2*3` gives 12. -/
theorem C2_left_to_right_witness :
    (∃ e, feenox_expression_parse exact sample_ns "2^2^3".toList = ([], Ret.ok e)
        ∧ (feenox_expression_eval exact sample_externals e sample_world).map (fun r => r.1)
            = some (XReal.fin 64))
    ∧ (∃ e, feenox_expression_parse exact sample_ns "7-2-1".toList = ([], Ret.ok e)
        ∧ (feenox_expression_eval exact sample_externals e sample_world).map (fun r => r.1)
            = some (XReal.fin 4))
    ∧ (∃ e, feenox_expression_parse exact sample_ns "8/2*3".toList = ([], Ret.ok e)
        ∧ (feenox_expression_eval exact sample_externals e sample_world).map (fun r => r.1)
            = some (XReal.fin 12)) := by
  have d1 : digits_value "1".toList = 1 := by decide
  have d2 : digits_value "2".toList = 2 := by decide
  have d3 : digits_value "3".toList = 3 := by decide
  have d7 : digits_value "7".toList = 7 := by decide
  have d8 : digits_value "8".toList = 8 := by decide
  obtain ⟨⟨e1, hp1, he1⟩, -, -⟩ :=
    C2_left_to_right exact sample_externals sample_ns sample_world "2".toList "2".toList
      "3".toList (by decide) (by decide) (by decide)
  obtain ⟨-, ⟨e2, hp2, he2⟩, -⟩ :=
    C2_left_to_right exact sample_externals sample_ns sample_world "7".toList "2".toList
      "1".toList (by decide) (by decide) (by decide)
  obtain ⟨-, -, ⟨e3, hp3, he3⟩⟩ :=
    C2_left_to_right exact sample_externals sample_ns sample_world "8".toList "2".toList
      "3".toList (by decide) (by decide) (by decide)
  refine ⟨⟨e1, hp1, ?_⟩, ⟨e2, hp2, ?_⟩, ⟨e3, hp3, ?_⟩⟩
  · rw [he1, literal_exact, literal_exact, d2, d3]
    simp only [exact, XReal.pow]
    norm_num [Int.toNat]
  · rw [he2, literal_exact, literal_exact, literal_exact, d1, d2, d7]
    simp only [exact, XReal.sub, XReal.add, XReal.neg]
    norm_num
  · rw [he3, literal_exact, literal_exact, literal_exact, d2, d3, d8]
    simp only [exact, XReal.div, XReal.mul]
    norm_num

/-! ## Signs -/

set_option maxHeartbeats 4000000 in
/-- Two evaluations in a row of the factors built for `-3+5`, in any arithmetic:
the first factor is the operator `-`, pass 1 does not touch its value and pass 2
accumulates into it. -/
theorem eval_twice_leading_sign {D : Type} (A : Arith D) (X : Externals D) (w : World D) :
    ∃ e1 w1 e2 w2,
      feenox_expression_eval A X
          ⟨[operator_factor A 1 7, digits_factor A "3".toList 1, operator_factor A 1 6,
            digits_factor A "5".toList 1], "-3+5".toList⟩ w
        = some (A.add (A.sub A.zero (literal A "3".toList)) (literal A "5".toList), e1, w1)
      ∧ feenox_expression_eval A X e1 w1
        = some (A.add (A.sub (A.add (A.sub A.zero (literal A "3".toList))
            (literal A "5".toList)) (literal A "3".toList)) (literal A "5".toList), e2, w2) :=
  ⟨⟨[plain_factor A 1 7 7 8 0 A.zero
        (A.add (A.sub A.zero (literal A "3".toList)) (literal A "5".toList)),
      plain_factor A 2 1 0 0 1 (literal A "3".toList) (literal A "3".toList),
      plain_factor A 1 7 7 7 0 A.zero A.zero,
      plain_factor A 2 1 0 0 1 (literal A "5".toList) (literal A "5".toList)],
     "-3+5".toList⟩, _, _, _, rfl, rfl⟩

/-- C3 (code bug): the text `-3+5` is accepted by `feenox_expression_parse`; the
first call of `feenox_expression_eval` returns 2 and the second call, on the same
expression in the state the first call left, returns 4. -/
theorem C3_second_evaluation_differs :
    ∃ e e1 w1 e2 w2,
      feenox_expression_parse exact sample_ns "-3+5".toList = ([], Ret.ok e)
      ∧ feenox_expression_eval exact sample_externals e sample_world
          = some (XReal.fin 2, e1, w1)
      ∧ feenox_expression_eval exact sample_externals e1 w1 = some (XReal.fin 4, e2, w2) := by
  obtain ⟨e1, w1, e2, w2, h1, h2⟩ :=
    eval_twice_leading_sign exact sample_externals sample_world
  have d3 : digits_value "3".toList = 3 := by decide
  have d5 : digits_value "5".toList = 5 := by decide
  have v1 : exact.add (exact.sub exact.zero (literal exact "3".toList))
      (literal exact "5".toList) = XReal.fin 2 := by
    rw [literal_exact, literal_exact, d3, d5]
    simp only [exact, XReal.sub, XReal.add, XReal.neg]
    norm_num
  have v2 : exact.add (exact.sub (XReal.fin 2) (literal exact "3".toList))
      (literal exact "5".toList) = XReal.fin 4 := by
    rw [literal_exact, literal_exact, d3, d5]
    simp only [exact, XReal.sub, XReal.add, XReal.neg]
    norm_num
  rw [v1] at h1 h2
  rw [v2] at h2
  exact ⟨_, e1, w1, e2, w2, rfl, h1, h2⟩

/-- C4 (code bug): the text `3*-2` is rejected by `feenox_expression_parse` with
the message "missing argument for operator '-'", in every arithmetic and
namespace: the sign is folded into the constant, but the check after the loop
still sees the sign as the last operator.  The text `-3+5` is accepted, and its
first evaluation gives `(0 - 3) + 5`. -/
theorem C4_sign_after_operator_rejected {D : Type} (A : Arith D) (X : Externals D)
    (ns : Namespace) (w : World D) :
    feenox_expression_parse A ns "3*-2".toList
      = ([Event.push_error_message "missing argument for operator '%c'" [msg_arg.chr '-']],
         Ret.fail)
    ∧ ∃ e, feenox_expression_parse A ns "-3+5".toList = ([], Ret.ok e)
      ∧ (feenox_expression_eval A X e w).map (fun r => r.1)
          = some (A.add (A.sub A.zero (literal A "3".toList)) (literal A "5".toList)) :=
  ⟨rfl, ⟨[operator_factor A 1 7, digits_factor A "3".toList 1, operator_factor A 1 6,
      digits_factor A "5".toList 1], "-3+5".toList⟩, rfl, rfl⟩

/-- C5 (code bug): with a declared variable `x`, the text `3*-x` is rejected by
`feenox_expression_parse` (without any message): a sign is only ever folded into
a number.  The text `3*x` is accepted and evaluates to 3 times the value of `x`. -/
theorem C5_sign_before_symbol_rejected {D : Type} (A : Arith D) (X : Externals D)
    (w : World D) :
    feenox_get_variable_ptr sample_ns "x".toList = some "x".toList
    ∧ feenox_expression_parse A sample_ns "3*-x".toList = ([], Ret.fail)
    ∧ ∃ e, feenox_expression_parse A sample_ns "3*x".toList = ([], Ret.ok e)
      ∧ (feenox_expression_eval A X e w).map (fun r => r.1)
          = some (A.mul (literal A "3".toList) (w.var "x".toList).value) :=
  ⟨rfl, rfl, ⟨[digits_factor A "3".toList 1, operator_factor A 1 8,
      variable_factor A "x".toList EXPR_VARIABLE 1 1], "3*x".toList⟩, rfl, rfl⟩

/-! ## Decimal literals -/

theorem scan_decimal_point (ip fp : List Char) (hip : ∀ c ∈ ip, isdigit c = true)
    (hfp : ∀ c ∈ fp, isdigit c = true) (hne : ip ≠ [] ∨ fp ≠ []) :
    scan_decimal false (ip ++ '.' :: fp)
      = some (scan_value.decimal false (digits_value (ip ++ fp)) fp.length 0,
              (ip ++ '.' :: fp).length) := by
  have h1 := takeWhile_digits ip ('.' :: fp) hip (by
    intro c t h; simp at h; rw [← h.1]; decide)
  have h2 := takeWhile_digits fp [] hfp (by intro c t h; simp at h)
  rw [List.append_nil] at h2
  unfold scan_decimal
  rw [h1.1, h1.2]
  simp only [h2.1, h2.2, scan_exponent]
  have : ¬ (ip = [] ∧ fp = []) := by
    intro h; cases hne with
    | inl h1 => exact h1 h.1
    | inr h2 => exact h2 h.2
  simp [this]
  omega

theorem sscanf_lf_point (ip fp : List Char) (hip : ∀ c ∈ ip, isdigit c = true)
    (hfp : ∀ c ∈ fp, isdigit c = true) (hne : ip ≠ [] ∨ fp ≠ []) :
    sscanf_lf (ip ++ '.' :: fp)
      = some (scan_value.decimal false (digits_value (ip ++ fp)) fp.length 0,
              (ip ++ '.' :: fp).length) := by
  have hsc := scan_decimal_point ip fp hip hfp hne
  cases ip with
  | nil =>
    simp only [List.nil_append] at hsc ⊢
    have e1 : tolower '.' ≠ 'i' := by decide
    have e2 : tolower '.' ≠ 'n' := by decide
    have e3 : ('.' : Char) ≠ '0' := by decide
    unfold sscanf_lf
    split
    · next heq => simp at heq
    · next heq => simp at heq
    · unfold scan_unsigned
      simp only [e1, e2, e3, if_false, false_and]
      exact hsc
  | cons d ds =>
    have hd : isdigit d = true := hip d (List.mem_cons_self _ _)
    obtain ⟨-, -, hm, hp, hdot, hi, hn, hx, he⟩ := digit_facts hd
    have hx2 : tolower (char_at (ds ++ '.' :: fp) 0) ≠ 'x' := by
      cases ds with
      | nil =>
        show tolower '.' ≠ 'x'
        decide
      | cons e es =>
        have he : isdigit e = true := hip e (by simp)
        simpa [char_at] using (digit_facts he).2.2.2.2.2.2.2.1
    show sscanf_lf (d :: (ds ++ '.' :: fp)) = _
    unfold sscanf_lf
    split
    · next heq => simp at heq; exact absurd heq.1 hm
    · next heq => simp at heq; exact absurd heq.1 hp
    · unfold scan_unsigned
      simp only [hi, hn, if_false, hx2, and_false]
      exact hsc

/-- The builder on a text that is one number: one constant factor at level 1. -/
theorem parse_single_number {D : Type} (A : Arith D) (ns : Namespace) (c : Char)
    (xs : List Char) (v : scan_value)
    (hc : isdigit c = true ∨ c = '.')
    (hs : sscanf_lf (c :: xs) = some (v, (c :: xs).length)) :
    feenox_expression_parse A ns (c :: xs)
      = ([], Ret.ok ⟨[constant_factor A (A.strtod v) (c :: xs).length 1], c :: xs⟩) := by
  have hb : isblank c = false ∧ strchr operators c = none := by
    cases hc with
    | inl h => exact ⟨(digit_facts h).1, (digit_facts h).2.1⟩
    | inr h => subst h; decide
  have hpf : ∀ parse : List Char → Res (expr_t D),
      feenox_expression_parse_factor A ns parse (c :: (xs ++ []))
        = ([], Ret.ok (number_factor A v (c :: xs).length)) := by
    intro parse
    rw [List.append_nil]
    unfold feenox_expression_parse_factor
    have h0 : char_at (c :: xs) 0 = c := rfl
    rw [h0, hs]
    cases hc with
    | inl h => simp [h, number_factor]
    | inr h => simp [h, number_factor]
  unfold feenox_expression_parse
  rw [parse_depth_succ A ns _ _ (by simp)]
  have := parse_loop_operand A (feenox_expression_parse_factor A ns
      (parse_depth A ns (c :: xs).length)) c xs [] _ hb.1 hb.2 (hpf _) rfl none false 1 []
  rw [List.append_nil] at this
  rw [this]
  simp only [parse_loop]
  rfl

/-- C6: every unsigned decimal literal `L`, digits `ip` alone or digits with a
fractional part `ip.fp` (one of the two runs of digits may be empty in the latter
form), is parsed without any message into exactly one constant factor whose
`n_chars` is the length of `L`, and evaluates to the value of `L`. -/
theorem C6_decimal_literal {D : Type} (A : Arith D) (X : Externals D) (ns : Namespace)
    (w : World D) (ip fp : List Char) (hip : ∀ c ∈ ip, isdigit c = true)
    (hfp : ∀ c ∈ fp, isdigit c = true) (hne : ip ≠ [] ∨ fp ≠ []) :
    (ip ≠ [] →
      feenox_expression_parse A ns ip
        = ([], Ret.ok ⟨[constant_factor A (literal A ip) ip.length 1], ip⟩)
      ∧ (feenox_expression_eval A X ⟨[constant_factor A (literal A ip) ip.length 1], ip⟩ w).map
          (fun r => r.1) = some (literal A ip))
    ∧ (feenox_expression_parse A ns (ip ++ '.' :: fp)
        = ([], Ret.ok ⟨[constant_factor A
              (A.strtod (scan_value.decimal false (digits_value (ip ++ fp)) fp.length 0))
              (ip ++ '.' :: fp).length 1], ip ++ '.' :: fp⟩)
      ∧ (feenox_expression_eval A X ⟨[constant_factor A
              (A.strtod (scan_value.decimal false (digits_value (ip ++ fp)) fp.length 0))
              (ip ++ '.' :: fp).length 1], ip ++ '.' :: fp⟩ w).map (fun r => r.1)
          = some (A.strtod (scan_value.decimal false (digits_value (ip ++ fp)) fp.length 0))) := by
  refine ⟨fun h => ⟨?_, rfl⟩, ?_, rfl⟩
  · cases ip with
    | nil => exact absurd rfl h
    | cons d ds =>
      have hdig : is_digits (d :: ds) = true := by
        simp only [is_digits, List.isEmpty_cons, Bool.not_false, Bool.true_and,
          List.all_eq_true]
        exact hip
      have hs := sscanf_lf_digits (d :: ds) [] hdig rfl
      rw [List.append_nil] at hs
      exact parse_single_number A ns d ds _ (Or.inl (hip d (List.mem_cons_self _ _))) hs
  · have hs := sscanf_lf_point ip fp hip hfp hne
    cases ip with
    | nil => exact parse_single_number A ns '.' fp _ (Or.inr rfl) hs
    | cons d ds =>
      exact parse_single_number A ns d (ds ++ '.' :: fp) _
        (Or.inl (hip d (List.mem_cons_self _ _))) hs

/-- Witness of C6: in exact arithmetic `12.5` is one factor of 4 characters and
evaluates to 25/2. -/
theorem C6_decimal_literal_witness :
    (∃ f, feenox_expression_parse exact sample_ns "12.5".toList
            = ([], Ret.ok ⟨[f], "12.5".toList⟩)
      ∧ f.type = EXPR_CONSTANT ∧ f.n_chars = 4
      ∧ (feenox_expression_eval exact sample_externals ⟨[f], "12.5".toList⟩ sample_world).map
          (fun r => r.1) = some (XReal.fin (25 / 2))) := by
  obtain ⟨-, hp, he⟩ := C6_decimal_literal exact sample_externals sample_ns sample_world
    "12".toList "5".toList (by decide) (by decide) (Or.inl (by decide))
  refine ⟨_, hp, rfl, rfl, he.trans ?_⟩
  have d : digits_value ("12".toList ++ "5".toList) = 125 := by decide
  have l : "5".toList.length = 1 := rfl
  rw [d, l]
  simp only [exact, XReal.of_scan]
  norm_num

/-! ## Vector subindices -/

theorem to_size_t_range (k n : Int) (hk : -9223372036854775808 ≤ k ∧ k < 9223372036854775808)
    (hn : 0 ≤ n ∧ n < 2147483648) :
    ((to_size_t k = 0 ∨ to_size_t k > to_size_t n) ↔ ¬ (1 ≤ k ∧ k ≤ n))
    ∧ (1 ≤ k → to_size_t k - 1 = k.toNat - 1) := by
  cases k with
  | ofNat a =>
    cases n with
    | ofNat b =>
      simp only [to_size_t]
      have ha : (a : Int) < 9223372036854775808 := hk.2
      have hb : (b : Int) < 2147483648 := hn.2
      have ha2 : a < 9223372036854775808 := by exact_mod_cast ha
      have hb2 : b < 2147483648 := by exact_mod_cast hb
      have e1 : a % 18446744073709551616 = a := Nat.mod_eq_of_lt (by omega)
      have e2 : b % 18446744073709551616 = b := Nat.mod_eq_of_lt (by omega)
      rw [e1, e2]
      constructor
      · constructor
        · intro h hh
          have h1 : (1 : Int) ≤ (a : Int) := hh.1
          have h2 : (a : Int) ≤ (b : Int) := hh.2
          omega
        · intro h
          by_cases h0 : a = 0
          · exact Or.inl h0
          · right
            by_contra hle
            apply h
            constructor
            · show (1 : Int) ≤ (a : Int); omega
            · show (a : Int) ≤ (b : Int); omega
      · intro _
        simp
    | negSucc b =>
      exfalso
      have := hn.1
      simp at this
  | negSucc a =>
    cases n with
    | ofNat b =>
      simp only [to_size_t]
      have ha : -9223372036854775808 ≤ Int.negSucc a := hk.1
      have hb : (b : Int) < 2147483648 := hn.2
      have hb2 : b < 2147483648 := by exact_mod_cast hb
      have ha2 : a < 9223372036854775808 := by
        have : Int.negSucc a = -((a : Int) + 1) := by simp [Int.negSucc_eq]
        omega
      have e1 : a % 18446744073709551616 = a := Nat.mod_eq_of_lt (by omega)
      have e2 : b % 18446744073709551616 = b := Nat.mod_eq_of_lt (by omega)
      rw [e1, e2]
      constructor
      · constructor
        · intro _ hh
          have h1 : (1 : Int) ≤ Int.negSucc a := hh.1
          have : Int.negSucc a < 0 := Int.negSucc_lt_zero a
          omega
        · intro _
          right
          omega
      · intro h
        have : Int.negSucc a < 0 := Int.negSucc_lt_zero a
        omega
    | negSucc b =>
      exfalso
      have := hn.1
      simp at this

/-- Pass 1 on a reference to a vector whose subindex expression evaluates to `x`. -/
theorem pass1_factor_vector {D : Type} (A : Arith D) (X : Externals D) (w : World D)
    (v : List Char) (sub : expr_t D) (n_chars level : Nat) (x : D) (sub1 : expr_t D)
    (w1 : World D)
    (hsub : feenox_expression_eval A X sub (vector_ready X v w) = some (x, sub1, w1)) :
    pass1_factor A X (vector_factor A v EXPR_VECTOR n_chars level [sub]) w
      = if to_size_t (A.lrint x) = 0 ∨ to_size_t (A.lrint x) > to_size_t (w1.vector v).size then
          some ({ vector_factor A v EXPR_VECTOR n_chars level [sub1] with tmp_level := level },
            w1.push [Event.push_error_message "subindex %d out of range for vector %s"
                       [msg_arg.int (to_size_t (A.lrint x)), msg_arg.str v],
                     Event.runtime_error], true)
        else
          some ({ vector_factor A v EXPR_VECTOR n_chars level [sub1] with
                  tmp_level := level,
                  value := (w1.vector v).value (to_size_t (A.lrint x) - 1) }, w1, false) := by
  have h : pass1_factor A X (vector_factor A v EXPR_VECTOR n_chars level [sub]) w
      = match feenox_expression_eval A X sub (vector_ready X v w) with
        | none => none
        | some (x, e0, w2) =>
          if to_size_t (A.lrint x) = 0 ∨ to_size_t (A.lrint x) > to_size_t (w2.vector v).size then
            some ({ vector_factor A v EXPR_VECTOR n_chars level [e0] with tmp_level := level },
              w2.push [Event.push_error_message "subindex %d out of range for vector %s"
                         [msg_arg.int (to_size_t (A.lrint x)), msg_arg.str v],
                       Event.runtime_error], true)
          else
            some ({ vector_factor A v EXPR_VECTOR n_chars level [e0] with
                    tmp_level := level,
                    value := (w2.vector v).value (to_size_t (A.lrint x) - 1) }, w2, false) := rfl
  rw [h, hsub]

/-- The evaluator on an expression of one factor on which pass 1 returns early. -/
theorem eval_single_returned {D : Type} (A : Arith D) (X : Externals D) (w : World D)
    (f f1 : expr_factor_t D) (s : List Char) (w1 : World D)
    (h : pass1_factor A X f w = some (f1, w1, true)) :
    feenox_expression_eval A X ⟨[f], s⟩ w = some (A.zero, ⟨[f1], s⟩, w1) := by
  have e1 : pass1 A X [f] w = some ([f1], w1, true) := by
    have : pass1 A X [f] w
        = match pass1_factor A X f w with
          | none => none
          | some (f1, w1, true) => some ([f1], w1, true)
          | some (f1, w1, false) =>
            match pass1 A X [] w1 with
            | none => none
            | some (fs1, w2, returned) => some (f1 :: fs1, w2, returned) := rfl
    rw [this, h]
  have e2 : feenox_expression_eval A X ⟨[f], s⟩ w
      = match pass1 A X [f] w with
        | none => none
        | some (factors1, w1, true) => some (A.zero, ⟨factors1, s⟩, w1)
        | some (factors1, w1, false) =>
          match pass2 A w1.special_var_zero (max_level factors1).toNat factors1 w1.log with
          | none => none
          | some (factors2, log2) =>
            some (first_value A factors2, ⟨factors2, s⟩,
              { w1 with log :=
                  if A.gsl_isnan (first_value A factors2) ∨ A.gsl_isinf (first_value A factors2)
                  then log2 ++ [Event.push_error_message "in '%s'" [msg_arg.str s],
                                Event.nan_error]
                  else log2 }) := rfl
  rw [e2, e1]

/-- Pass 2 leaves an expression of one operand alone. -/
theorem pass2_single {D : Type} (A : Arith D) (zero : D) (f : expr_factor_t D)
    (hf : f.oper = 0) (log : List Event) (level : Nat) :
    pass2 A zero level [f] log = some ([f], log) := by
  induction level with
  | zero => rfl
  | succ n ih =>
    have : pass2_scan A zero (n + 1) [f].length 0 0 [f] log = some ([f], log) := by
      simp [pass2_scan, hf]
    rw [pass2, this]
    exact ih

/-- The evaluator on an expression of one operand that pass 1 resolves. -/
theorem eval_single_value {D : Type} (A : Arith D) (X : Externals D) (w : World D)
    (f f1 : expr_factor_t D) (s : List Char) (w1 : World D)
    (h : pass1_factor A X f w = some (f1, w1, false)) (hf : f1.oper = 0) :
    (feenox_expression_eval A X ⟨[f], s⟩ w).map (fun r => r.1) = some f1.value := by
  have e1 : pass1 A X [f] w = some ([f1], w1, false) := by
    have : pass1 A X [f] w
        = match pass1_factor A X f w with
          | none => none
          | some (f1, w1, true) => some ([f1], w1, true)
          | some (f1, w1, false) =>
            match pass1 A X [] w1 with
            | none => none
            | some (fs1, w2, returned) => some (f1 :: fs1, w2, returned) := rfl
    rw [this, h]
    rfl
  have e2 : feenox_expression_eval A X ⟨[f], s⟩ w
      = match pass1 A X [f] w with
        | none => none
        | some (factors1, w1, true) => some (A.zero, ⟨factors1, s⟩, w1)
        | some (factors1, w1, false) =>
          match pass2 A w1.special_var_zero (max_level factors1).toNat factors1 w1.log with
          | none => none
          | some (factors2, log2) =>
            some (first_value A factors2, ⟨factors2, s⟩,
              { w1 with log :=
                  if A.gsl_isnan (first_value A factors2) ∨ A.gsl_isinf (first_value A factors2)
                  then log2 ++ [Event.push_error_message "in '%s'" [msg_arg.str s],
                                Event.nan_error]
                  else log2 }) := rfl
  rw [e2, e1]
  simp only [pass2_single A _ f1 hf]
  rfl

/-- C7: vector indexing is 1-based and bounds-checked.  For a reference to the
vector `v` whose subindex expression evaluates to a value that rounds to `k` (a
`long`), `v` having size `n` (a non-negative `int`): if `1 ≤ k ≤ n` the
evaluation returns the element stored at position `k - 1`; for every other `k`
it pushes the out-of-range message, calls `feenox_runtime_error` and returns 0,
the state being otherwise the one the subindex evaluation left. -/
theorem C7_vector_indexing {D : Type} (A : Arith D) (X : Externals D) (w : World D)
    (v : List Char) (sub : expr_t D) (n_chars : Nat) (s : List Char) (x : D)
    (sub1 : expr_t D) (w1 : World D) (k n : Int)
    (hsub : feenox_expression_eval A X sub (vector_ready X v w) = some (x, sub1, w1))
    (hk : A.lrint x = k)
    (hlong : -9223372036854775808 ≤ k ∧ k < 9223372036854775808)
    (hn : (w1.vector v).size = n) (hint : 0 ≤ n ∧ n < 2147483648) :
    (1 ≤ k ∧ k ≤ n →
      (feenox_expression_eval A X ⟨[vector_factor A v EXPR_VECTOR n_chars 1 [sub]], s⟩ w).map
        (fun r => r.1) = some ((w1.vector v).value (k.toNat - 1)))
    ∧ (¬ (1 ≤ k ∧ k ≤ n) →
      ∃ e1, feenox_expression_eval A X ⟨[vector_factor A v EXPR_VECTOR n_chars 1 [sub]], s⟩ w
        = some (A.zero, e1,
            w1.push [Event.push_error_message "subindex %d out of range for vector %s"
                       [msg_arg.int (to_size_t k), msg_arg.str v],
                     Event.runtime_error])) := by
  have hp := pass1_factor_vector A X w v sub n_chars 1 x sub1 w1 hsub
  rw [hk, hn] at hp
  obtain ⟨hr1, hr2⟩ := to_size_t_range k n hlong hint
  constructor
  · intro hin
    have hc : ¬ (to_size_t k = 0 ∨ to_size_t k > to_size_t n) := fun h => (hr1.mp h) hin
    rw [if_neg hc] at hp
    rw [eval_single_value A X w _ _ s w1 hp rfl]
    show some ((w1.vector v).value (to_size_t k - 1)) = _
    rw [hr2 hin.1]
  · intro hout
    have hc : to_size_t k = 0 ∨ to_size_t k > to_size_t n := hr1.mpr hout
    rw [if_pos hc] at hp
    exact ⟨_, eval_single_returned A X w _ _ s _ hp⟩

theorem lrint_literal_exact (ds : List Char) :
    exact.lrint (literal exact ds) = (digits_value ds : Int) := by
  rw [literal_exact]
  simp [exact, XReal.lrint]

/-- Witness of C7, through the parser, with a vector of size 3 holding 1, 2, 3:
`v(2)` gives 2, `v(0)` and `v(4)` are reported out of range and give 0. -/
theorem C7_vector_indexing_witness :
    (feenox_expression_parse exact sample_ns "v(2)".toList
        = ([], Ret.ok ⟨[vector_factor exact "v".toList EXPR_VECTOR 4 1
            [⟨[digits_factor exact "2".toList 1], "2".toList⟩]], "v(2)".toList⟩)
      ∧ (feenox_expression_eval exact sample_externals
          ⟨[vector_factor exact "v".toList EXPR_VECTOR 4 1
            [⟨[digits_factor exact "2".toList 1], "2".toList⟩]], "v(2)".toList⟩
          sample_world).map (fun r => r.1) = some (XReal.fin 2))
    ∧ (feenox_expression_parse exact sample_ns "v(0)".toList
        = ([], Ret.ok ⟨[vector_factor exact "v".toList EXPR_VECTOR 4 1
            [⟨[digits_factor exact "0".toList 1], "0".toList⟩]], "v(0)".toList⟩)
      ∧ ∃ e1, feenox_expression_eval exact sample_externals
          ⟨[vector_factor exact "v".toList EXPR_VECTOR 4 1
            [⟨[digits_factor exact "0".toList 1], "0".toList⟩]], "v(0)".toList⟩ sample_world
          = some (XReal.fin 0, e1,
              sample_world.push [Event.push_error_message
                "subindex %d out of range for vector %s" [msg_arg.int 0, msg_arg.str "v".toList],
                Event.runtime_error]))
    ∧ (feenox_expression_parse exact sample_ns "v(4)".toList
        = ([], Ret.ok ⟨[vector_factor exact "v".toList EXPR_VECTOR 4 1
            [⟨[digits_factor exact "4".toList 1], "4".toList⟩]], "v(4)".toList⟩)
      ∧ ∃ e1, feenox_expression_eval exact sample_externals
          ⟨[vector_factor exact "v".toList EXPR_VECTOR 4 1
            [⟨[digits_factor exact "4".toList 1], "4".toList⟩]], "v(4)".toList⟩ sample_world
          = some (XReal.fin 0, e1,
              sample_world.push [Event.push_error_message
                "subindex %d out of range for vector %s" [msg_arg.int 4, msg_arg.str "v".toList],
                Event.runtime_error])) := by
  have hsub : ∀ ds : List Char, is_digits ds = true →
      feenox_expression_eval exact sample_externals ⟨[digits_factor exact ds 1], ds⟩
          (vector_ready sample_externals "v".toList sample_world)
        = some (literal exact ds,
            ⟨[plain_factor exact 2 1 1 0 ds.length (literal exact ds) (literal exact ds)], ds⟩,
            sample_world) := by
    intro ds _
    rfl
  have h2 := C7_vector_indexing exact sample_externals sample_world "v".toList
    ⟨[digits_factor exact "2".toList 1], "2".toList⟩ 4 "v(2)".toList _ _ _ 2 3
    (hsub "2".toList (by decide)) (lrint_literal_exact "2".toList) (by decide) rfl (by decide)
  have h0 := C7_vector_indexing exact sample_externals sample_world "v".toList
    ⟨[digits_factor exact "0".toList 1], "0".toList⟩ 4 "v(0)".toList _ _ _ 0 3
    (hsub "0".toList (by decide)) (lrint_literal_exact "0".toList) (by decide) rfl (by decide)
  have h4 := C7_vector_indexing exact sample_externals sample_world "v".toList
    ⟨[digits_factor exact "4".toList 1], "4".toList⟩ 4 "v(4)".toList _ _ _ 4 3
    (hsub "4".toList (by decide)) (lrint_literal_exact "4".toList) (by decide) rfl (by decide)
  refine ⟨⟨rfl, ?_⟩, ⟨rfl, ?_⟩, ⟨rfl, ?_⟩⟩
  · rw [h2.1 (by decide)]
    simp only [sample_world]
    norm_num [Int.toNat]
  · exact h0.2 (by decide)
  · exact h4.2 (by decide)

/-! ## Lemmas on tokens and suffixes -/

theorem strchr_none_of_not_mem (table : List Char) (c : Char) (h : c ∉ table) :
    strchr table c = none := by
  induction table with
  | nil => rfl
  | cons t ts ih =>
    have h1 : t ≠ c := fun e => h (by simp [e])
    have h2 : c ∉ ts := fun e => h (by simp [e])
    simp [strchr, h1, ih h2]

theorem not_separator_facts {c : Char} (h : factorseparators.contains c = false) :
    isblank c = false ∧ strchr operators c = none := by
  have hm : c ∉ factorseparators := by
    intro hc
    have : factorseparators.contains c = true := by simpa using hc
    rw [h] at this
    exact absurd this (by decide)
  constructor
  · cases hb : isblank c with
    | false => rfl
    | true =>
      exfalso
      apply hm
      simp only [isblank, Bool.or_eq_true, beq_iff_eq] at hb
      cases hb with
      | inl e => rw [e]; decide
      | inr e => rw [e]; decide
  · apply strchr_none_of_not_mem
    intro hc
    apply hm
    have : ∀ d ∈ operators, d ∈ factorseparators := by decide
    exact this c hc

theorem strtok_whole (s : List Char) (hne : s ≠ [])
    (h : ∀ c ∈ s, factorseparators.contains c = false) :
    strtok s factorseparators = some s := by
  have hm : ∀ c ∈ s, c ∉ factorseparators := by
    intro c hc hin
    have : factorseparators.contains c = true := by simpa using hin
    rw [h c hc] at this
    exact absurd this (by decide)
  have h1 : s.dropWhile (fun c => factorseparators.contains c) = s := by
    cases s with
    | nil => rfl
    | cons c t => simp [List.dropWhile, hm c (List.mem_cons_self _ _)]
  have h2 : s.takeWhile (fun c => !factorseparators.contains c) = s := by
    rw [List.takeWhile_eq_self_iff]
    intro c hc
    simp [hm c hc]
  unfold strtok
  simp only [h1, h2]
  simp [hne]

theorem strstr_eq_none_iff (s pat : List Char) :
    strstr s pat = none ↔ starts_with pat s = false ∧
      (match s with | [] => True | _ :: cs => strstr cs pat = none) := by
  cases s with
  | nil =>
    unfold strstr
    cases h : starts_with pat [] <;> simp
  | cons c cs =>
    rw [strstr]
    cases h : starts_with pat (c :: cs) <;> simp

theorem strstr_append_zero (x : List Char) (h : strstr x "_0".toList = none) :
    strstr (x ++ "_0".toList) "_0".toList = some x.length := by
  induction x with
  | nil => rfl
  | cons c cs ih =>
    obtain ⟨h1, h2⟩ := (strstr_eq_none_iff _ _).mp h
    have h3 : starts_with "_0".toList (c :: cs ++ "_0".toList) = false := by
      cases cs with
      | nil =>
        show ('_' == c && ('0' == '_' && true)) = false
        simp
      | cons d ds => exact h1
    show strstr (c :: (cs ++ "_0".toList)) "_0".toList = _
    rw [strstr]
    have h3b : starts_with "_0".toList (c :: (cs ++ "_0".toList)) = false := h3
    simp only [h3b, ih h2]
    simp

theorem strstr_append_init (x : List Char) (h : strstr x "_init".toList = none) :
    strstr (x ++ "_init".toList) "_init".toList = some x.length := by
  induction x with
  | nil => rfl
  | cons c cs ih =>
    obtain ⟨h1, h2⟩ := (strstr_eq_none_iff _ _).mp h
    have h3 : starts_with "_init".toList (c :: (cs ++ "_init".toList)) = false := by
      rcases cs with _ | ⟨c2, _ | ⟨c3, _ | ⟨c4, _ | ⟨c5, cs⟩⟩⟩⟩
      · show ('_' == c && ('i' == '_' && _)) = false
        simp
      · show ('_' == c && ('i' == c2 && ('n' == '_' && _))) = false
        simp
      · show ('_' == c && ('i' == c2 && ('n' == c3 && ('i' == '_' && _)))) = false
        simp
      · show ('_' == c && ('i' == c2 && ('n' == c3 && ('i' == c4 && ('t' == '_' && _))))) = false
        simp
      · exact h1
    rw [List.cons_append, strstr]
    simp only [h3, ih h2]
    simp

theorem strstr_zero_append_init (x : List Char) (h : strstr x "_0".toList = none) :
    strstr (x ++ "_init".toList) "_0".toList = none := by
  induction x with
  | nil => rfl
  | cons c cs ih =>
    obtain ⟨h1, h2⟩ := (strstr_eq_none_iff _ _).mp h
    have h3 : starts_with "_0".toList (c :: (cs ++ "_init".toList)) = false := by
      cases cs with
      | nil =>
        show ('_' == c && ('0' == '_' && true)) = false
        simp
      | cons d ds => exact h1
    rw [List.cons_append, strstr]
    simp only [h3, ih h2]
    simp

theorem char_at_length_append (x : List Char) (c : Char) (t : List Char) :
    char_at (x ++ c :: t) x.length = c := by
  induction x with
  | nil => rfl
  | cons a x ih => exact ih

theorem char_at_beyond (x : List Char) (n : Nat) (h : x.length ≤ n) :
    char_at x n = Char.ofNat 0 := by
  induction x generalizing n with
  | nil => rfl
  | cons a x ih =>
    cases n with
    | zero => simp at h
    | succ m => exact ih m (by simpa using h)

theorem is_name_facts {x : List Char} (h : is_name x = true) :
    x ≠ [] ∧ (∀ c ∈ x, factorseparators.contains c = false)
      ∧ isdigit (char_at x 0) = false ∧ char_at x 0 ≠ '.' := by
  simp only [is_name, Bool.and_eq_true] at h
  obtain ⟨⟨h1, h2⟩, h3⟩ := h
  refine ⟨?_, ?_, ?_, ?_⟩
  · intro e
    subst e
    simp at h1
  · intro c hc
    have := List.all_eq_true.mp h2 c hc
    simpa using this
  · simp only [Bool.not_eq_true', Bool.or_eq_false_iff] at h3
    exact h3.1
  · simp only [Bool.not_eq_true', Bool.or_eq_false_iff] at h3
    simpa using h3.2

/-- What `plain_variable` says, in pieces. -/
theorem plain_variable_facts {ns : Namespace} {x : List Char} (h : plain_variable ns x = true) :
    is_name x = true
    ∧ strstr x "_0".toList = none ∧ strstr x "_init".toList = none
    ∧ feenox_get_matrix_ptr ns x = none ∧ feenox_get_vector_ptr ns x = none
    ∧ feenox_get_variable_ptr ns x = some x
    ∧ unclaimed ns x = true ∧ unclaimed ns (x ++ "_0".toList) = true
    ∧ unclaimed ns (x ++ "_init".toList) = true := by
  simp only [plain_variable, Bool.and_eq_true] at h
  obtain ⟨⟨⟨⟨⟨⟨⟨⟨h1, h2⟩, h3⟩, h4⟩, h5⟩, h6⟩, h7⟩, h8⟩, h9⟩ := h
  refine ⟨h1, by simpa using h2, by simpa using h3, by simpa using h4, by simpa using h5,
    ?_, h7, h8, h9⟩
  cases hv : feenox_get_variable_ptr ns x with
  | none => rw [hv] at h6; simp at h6
  | some y =>
    simp only [feenox_get_variable_ptr] at hv
    have := List.find?_some hv
    simp at this
    rw [this]

theorem unclaimed_facts {ns : Namespace} {t : List Char} (h : unclaimed ns t = true) :
    feenox_get_function_ptr ns t = none ∧ feenox_get_builtin_function_ptr ns t = none
    ∧ feenox_get_builtin_vectorfunction_ptr ns t = none
    ∧ feenox_get_builtin_functional_ptr ns t = none := by
  simp only [unclaimed, Bool.and_eq_true] at h
  obtain ⟨⟨⟨h1, h2⟩, h3⟩, h4⟩ := h
  exact ⟨by simpa using h1, by simpa using h2, by simpa using h3, by simpa using h4⟩

theorem name_first_char {x : List Char} (h : is_name x = true) (t : List Char) :
    ¬ (isdigit (char_at (x ++ t) 0) = true ∨ char_at (x ++ t) 0 = '-'
        ∨ char_at (x ++ t) 0 = '+' ∨ char_at (x ++ t) 0 = '.')
    ∧ isblank (char_at (x ++ t) 0) = false ∧ strchr operators (char_at (x ++ t) 0) = none := by
  obtain ⟨hne, hsep, hd, hdot⟩ := is_name_facts h
  cases x with
  | nil => exact absurd rfl hne
  | cons c cs =>
    have hc : factorseparators.contains c = false := hsep c (List.mem_cons_self _ _)
    have e : char_at (c :: cs ++ t) 0 = c := rfl
    have e2 : char_at (c :: cs) 0 = c := rfl
    rw [e]
    rw [e2] at hd hdot
    have hm : c ∉ factorseparators := by
      intro hin
      have : factorseparators.contains c = true := by simpa using hin
      rw [hc] at this
      exact absurd this (by decide)
    refine ⟨?_, (not_separator_facts hc).1, (not_separator_facts hc).2⟩
    rintro (h1 | h1 | h1 | h1)
    · rw [hd] at h1; exact absurd h1 (by decide)
    · apply hm; rw [h1]; decide
    · apply hm; rw [h1]; decide
    · exact hdot h1

theorem ends_in_zero_none {x : List Char} (h : strstr x "_0".toList = none) :
    feenox_ends_in_zero x = none := by
  unfold feenox_ends_in_zero
  rw [h]

theorem ends_in_init_none {x : List Char} (h : strstr x "_init".toList = none) :
    feenox_ends_in_init x = none := by
  unfold feenox_ends_in_init
  rw [h]

theorem ends_in_zero_suffix {x : List Char} (h : strstr x "_0".toList = none) :
    feenox_ends_in_zero (x ++ "_0".toList) = some x.length := by
  have e : char_at (x ++ "_0".toList) (x.length + 2) = Char.ofNat 0 :=
    char_at_beyond _ _ (by simp)
  unfold feenox_ends_in_zero
  rw [strstr_append_zero x h]
  exact if_pos e

theorem ends_in_init_suffix {x : List Char} (h : strstr x "_init".toList = none) :
    feenox_ends_in_init (x ++ "_init".toList) = some x.length := by
  have e : char_at (x ++ "_init".toList) (x.length + 5) = Char.ofNat 0 :=
    char_at_beyond _ _ (by simp)
  unfold feenox_ends_in_init
  rw [strstr_append_init x h]
  exact if_pos (Or.inl e)

theorem ends_in_zero_init_suffix {x : List Char} (h : strstr x "_0".toList = none) :
    feenox_ends_in_zero (x ++ "_init".toList) = none := by
  unfold feenox_ends_in_zero
  rw [strstr_zero_append_init x h]

theorem parse_factor_variable_current {D : Type} (A : Arith D) (ns : Namespace)
    (parse : List Char → Res (expr_t D)) (x : List Char) (h : plain_variable ns x = true) :
    feenox_expression_parse_factor A ns parse x
      = ([], Ret.ok (variable_factor A x EXPR_VARIABLE x.length 0)) := by
  obtain ⟨hname, hz, hi, hm, hv, hvar, hu, -, -⟩ := plain_variable_facts h
  obtain ⟨hne, hsep, -, -⟩ := is_name_facts hname
  obtain ⟨hf, hbf, hbv, hbl⟩ := unclaimed_facts hu
  have h0 := (name_first_char hname []).1
  rw [List.append_nil] at h0
  have htok := strtok_whole x hne hsep
  have hend : char_at x x.length ≠ '(' := by
    rw [char_at_beyond x x.length (Nat.le_refl _)]; decide
  unfold feenox_expression_parse_factor
  rw [if_neg h0]
  simp only [htok, ends_in_zero_none hz, ends_in_init_none hi, hm, hv, hvar, hf, hbf, hbv, hbl,
    hend]
  simp [variable_factor, calloc_factor, EXPR_VARIABLE, EXPR_UNDEFINED, hf, hbf, hbv, hbl]

theorem parse_factor_variable_transient {D : Type} (A : Arith D) (ns : Namespace)
    (parse : List Char → Res (expr_t D)) (x : List Char) (h : plain_variable ns x = true) :
    feenox_expression_parse_factor A ns parse (x ++ "_0".toList)
      = ([], Ret.ok (variable_factor A x (EXPR_VARIABLE ||| EXPR_INITIAL_TRANSIENT)
          (x.length + 2) 0)) := by
  obtain ⟨hname, hz, hi, hm, hv, hvar, -, hu, -⟩ := plain_variable_facts h
  obtain ⟨hne, hsep, -, -⟩ := is_name_facts hname
  obtain ⟨hf, hbf, hbv, hbl⟩ := unclaimed_facts hu
  have h0 := (name_first_char hname "_0".toList).1
  have hsep2 : ∀ c ∈ x ++ "_0".toList, factorseparators.contains c = false := by
    intro c hc
    rcases List.mem_append.mp hc with h1 | h1
    · exact hsep c h1
    · have : ∀ d ∈ "_0".toList, factorseparators.contains d = false := by decide
      exact this c h1
  have htok := strtok_whole (x ++ "_0".toList) (by simp [hne]) hsep2
  have hend : char_at (x ++ "_0".toList) x.length ≠ '(' := by
    rw [show "_0".toList = '_' :: ['0'] from rfl, char_at_length_append]; decide
  have htake : (x ++ "_0".toList).take x.length = x := List.take_left' rfl
  have hf2 : feenox_get_function_ptr ns (x ++ ['_', '0']) = none := hf
  have hbf2 : feenox_get_builtin_function_ptr ns (x ++ ['_', '0']) = none := hbf
  have hbv2 : feenox_get_builtin_vectorfunction_ptr ns (x ++ ['_', '0']) = none := hbv
  have hbl2 : feenox_get_builtin_functional_ptr ns (x ++ ['_', '0']) = none := hbl
  unfold feenox_expression_parse_factor
  rw [if_neg h0]
  simp only [htok, ends_in_zero_suffix hz, htake, ends_in_init_none hi, hm, hv, hvar, hend]
  simp [variable_factor, calloc_factor, EXPR_VARIABLE, EXPR_UNDEFINED, EXPR_INITIAL_TRANSIENT,
    hf2, hbf2, hbv2, hbl2]

theorem parse_factor_variable_static {D : Type} (A : Arith D) (ns : Namespace)
    (parse : List Char → Res (expr_t D)) (x : List Char) (h : plain_variable ns x = true) :
    feenox_expression_parse_factor A ns parse (x ++ "_init".toList)
      = ([], Ret.ok (variable_factor A x (EXPR_VARIABLE ||| EXPR_INITIAL_STATIC)
          (x.length + 5) 0)) := by
  obtain ⟨hname, hz, hi, hm, hv, hvar, -, -, hu⟩ := plain_variable_facts h
  obtain ⟨hne, hsep, -, -⟩ := is_name_facts hname
  obtain ⟨hf, hbf, hbv, hbl⟩ := unclaimed_facts hu
  have h0 := (name_first_char hname "_init".toList).1
  have hsep2 : ∀ c ∈ x ++ "_init".toList, factorseparators.contains c = false := by
    intro c hc
    rcases List.mem_append.mp hc with h1 | h1
    · exact hsep c h1
    · have : ∀ d ∈ "_init".toList, factorseparators.contains d = false := by decide
      exact this c h1
  have htok := strtok_whole (x ++ "_init".toList) (by simp [hne]) hsep2
  have hend : char_at (x ++ "_init".toList) x.length ≠ '(' := by
    rw [show "_init".toList = '_' :: "init".toList from rfl, char_at_length_append]; decide
  have htake : (x ++ "_init".toList).take x.length = x := List.take_left' rfl
  have hf2 : feenox_get_function_ptr ns (x ++ ['_', 'i', 'n', 'i', 't']) = none := hf
  have hbf2 : feenox_get_builtin_function_ptr ns (x ++ ['_', 'i', 'n', 'i', 't']) = none := hbf
  have hbv2 : feenox_get_builtin_vectorfunction_ptr ns (x ++ ['_', 'i', 'n', 'i', 't']) = none :=
    hbv
  have hbl2 : feenox_get_builtin_functional_ptr ns (x ++ ['_', 'i', 'n', 'i', 't']) = none := hbl
  unfold feenox_expression_parse_factor
  rw [if_neg h0]
  simp only [htok, ends_in_zero_init_suffix hz, ends_in_init_suffix hi, htake, hm, hv, hvar,
    hend]
  simp [variable_factor, calloc_factor, EXPR_VARIABLE, EXPR_UNDEFINED, EXPR_INITIAL_STATIC,
    hf2, hbf2, hbv2, hbl2]

/-- The builder on a text that is one operand: one factor at level 1. -/
theorem parse_single_operand {D : Type} (A : Arith D) (ns : Namespace) (s : List Char)
    (f f1 : expr_factor_t D) (hne : s ≠ [])
    (hb : isblank (char_at s 0) = false) (hop : strchr operators (char_at s 0) = none)
    (hpf : ∀ parse : List Char → Res (expr_t D),
      feenox_expression_parse_factor A ns parse s = ([], Ret.ok f))
    (hn : f.n_chars = s.length) (hf1 : { f with level := 1 } = f1) :
    feenox_expression_parse A ns s = ([], Ret.ok ⟨[f1], s⟩) := by
  cases s with
  | nil => exact absurd rfl hne
  | cons c xs =>
    have e : char_at (c :: xs) 0 = c := rfl
    rw [e] at hb hop
    unfold feenox_expression_parse
    rw [parse_depth_succ A ns _ _ (by simp)]
    have hpf2 : feenox_expression_parse_factor A ns (parse_depth A ns (c :: xs).length)
        (c :: (xs ++ [])) = ([], Ret.ok f) := by
      rw [List.append_nil]; exact hpf _
    have := parse_loop_operand A (feenox_expression_parse_factor A ns
        (parse_depth A ns (c :: xs).length)) c xs [] f hb hop hpf2 (by simpa using hn)
        none false 1 []
    rw [List.append_nil] at this
    rw [this, hf1]
    simp only [parse_loop]
    rfl

/-- Time-view suffixes of a variable `x` declared under a name token that holds no
reserved suffix and that no other entry claims: the text `x` evaluates to the
content of the current cell of `x`, `x_0` to the content of its initial-transient
cell and `x_init` to the content of its initial-static cell. -/
theorem time_views_of_plain_variable {D : Type} (A : Arith D) (X : Externals D) (ns : Namespace)
    (w : World D) (x : List Char) (h : plain_variable ns x = true) :
    (∃ e, feenox_expression_parse A ns x = ([], Ret.ok e)
      ∧ (feenox_expression_eval A X e w).map (fun r => r.1) = some (w.var x).value)
    ∧ (∃ e, feenox_expression_parse A ns (x ++ "_0".toList) = ([], Ret.ok e)
      ∧ (feenox_expression_eval A X e w).map (fun r => r.1) = some (w.var x).initial_transient)
    ∧ (∃ e, feenox_expression_parse A ns (x ++ "_init".toList) = ([], Ret.ok e)
      ∧ (feenox_expression_eval A X e w).map (fun r => r.1) = some (w.var x).initial_static) := by
  obtain ⟨hname, -⟩ := plain_variable_facts h
  obtain ⟨hne, -⟩ := is_name_facts hname
  have hc := name_first_char hname []
  rw [List.append_nil] at hc
  refine ⟨⟨⟨[variable_factor A x EXPR_VARIABLE x.length 1], x⟩,
      parse_single_operand A ns x _ _ hne hc.2.1 hc.2.2
        (fun p => parse_factor_variable_current A ns p x h) rfl rfl, ?_⟩,
    ⟨⟨[variable_factor A x (EXPR_VARIABLE ||| EXPR_INITIAL_TRANSIENT) (x.length + 2) 1],
        x ++ "_0".toList⟩,
      parse_single_operand A ns (x ++ "_0".toList) _ _ (by simp [hne])
        (name_first_char hname _).2.1 (name_first_char hname _).2.2
        (fun p => parse_factor_variable_transient A ns p x h) (by simp [variable_factor]) rfl,
      ?_⟩,
    ⟨⟨[variable_factor A x (EXPR_VARIABLE ||| EXPR_INITIAL_STATIC) (x.length + 5) 1],
        x ++ "_init".toList⟩,
      parse_single_operand A ns (x ++ "_init".toList) _ _ (by simp [hne])
        (name_first_char hname _).2.1 (name_first_char hname _).2.2
        (fun p => parse_factor_variable_static A ns p x h) (by simp [variable_factor]) rfl,
      ?_⟩⟩
  · exact eval_single_value A X w _
      { variable_factor A x EXPR_VARIABLE x.length 1 with
        tmp_level := 1, value := (w.var x).value } x w rfl rfl
  · exact eval_single_value A X w _
      { variable_factor A x (EXPR_VARIABLE ||| EXPR_INITIAL_TRANSIENT) (x.length + 2) 1 with
        tmp_level := 1, value := (w.var x).initial_transient } _ w rfl rfl
  · exact eval_single_value A X w _
      { variable_factor A x (EXPR_VARIABLE ||| EXPR_INITIAL_STATIC) (x.length + 5) 1 with
        tmp_level := 1, value := (w.var x).initial_static } _ w rfl rfl

/-! ## Division by zero and zero to the zero -/

/-- The builder on `a op b` for one binary operator: three factors. -/
theorem parse_one_operator {D : Type} (A : Arith D) (ns : Namespace)
    (da db : List Char) (ha : is_digits da = true) (hb : is_digits db = true)
    (c : Char) (k : Nat)
    (h : isblank c = false ∧ strchr operators c = some k ∧ c ≠ '(' ∧ c ≠ ')'
      ∧ ends_number [c] = true) :
    feenox_expression_parse A ns (da ++ c :: db)
      = ([], Ret.ok ⟨[digits_factor A da 1, operator_factor A 1 k, digits_factor A db 1],
                     da ++ c :: db⟩) := by
  have hne : da ++ c :: db ≠ [] := by
    simp [is_digits_ne_nil ha]
  unfold feenox_expression_parse
  rw [parse_depth_succ A ns _ _ hne]
  rw [parse_loop_digits A ns _ da (c :: db) ha h.2.2.2.2]
  rw [parse_loop_binop A _ c _ k _ _ _ h.1 h.2.1 h.2.2.1 h.2.2.2.1]
  rw [parse_loop_digits_end A ns _ db hb]
  simp only [parse_loop]
  rfl

/-- The evaluation of `a/b`, with the events of the division and of the final
check. -/
theorem eval_quotient {D : Type} (A : Arith D) (X : Externals D) (w : World D)
    (da db s : List Char) :
    ∃ e1, feenox_expression_eval A X
        ⟨[digits_factor A da 1, operator_factor A 1 9, digits_factor A db 1], s⟩ w
      = some (A.div (literal A da) (literal A db), e1,
          { w with log :=
              if A.gsl_isnan (A.div (literal A da) (literal A db))
                  ∨ A.gsl_isinf (A.div (literal A da) (literal A db))
              then (w.log ++ if A.is_zero (literal A db) then [Event.nan_error] else [])
                ++ [Event.push_error_message "in '%s'" [msg_arg.str s], Event.nan_error]
              else w.log ++ if A.is_zero (literal A db) then [Event.nan_error] else [] }) :=
  ⟨_, rfl⟩

/-- The evaluation of `a^b`, with the events of the power and of the final check. -/
theorem eval_power {D : Type} (A : Arith D) (X : Externals D) (w : World D)
    (da db s : List Char) :
    ∃ e1, feenox_expression_eval A X
        ⟨[digits_factor A da 1, operator_factor A 1 10, digits_factor A db 1], s⟩ w
      = some (A.pow (literal A da) (literal A db), e1,
          { w with log :=
              if A.gsl_isnan (A.pow (literal A da) (literal A db))
                  ∨ A.gsl_isinf (A.pow (literal A da) (literal A db))
              then (w.log ++ if A.is_zero (literal A da) ∧ A.is_zero (literal A db)
                  then [Event.nan_error] else [])
                ++ [Event.push_error_message "in '%s'" [msg_arg.str s], Event.nan_error]
              else w.log ++ if A.is_zero (literal A da) ∧ A.is_zero (literal A db)
                  then [Event.nan_error] else [] }) :=
  ⟨_, rfl⟩

theorem apply_operator_div {D : Type} (A : Arith D) (zero P E : D) :
    apply_operator A zero (char_at operators (10 - 1)) P E
      = (A.div P E, if A.is_zero E then [Event.nan_error] else []) := rfl

theorem apply_operator_pow {D : Type} (A : Arith D) (zero P E : D) :
    apply_operator A zero (char_at operators (11 - 1)) P E
      = (A.pow P E, if A.is_zero P ∧ A.is_zero E then [Event.nan_error] else []) := rfl

/-- C9: whenever pass 2 reduces a `/` whose right operand value is 0, or a `^`
whose two operand values are both 0, the step appends a call of
`feenox_nan_error` to the log.  In particular, in an arithmetic where the literal
`0` compares equal to 0, the text `a/0` for every literal `a`, and the text `0^0`,
are accepted and their evaluation returns with `feenox_nan_error` called. -/
theorem C9_nan_error {D : Type} (A : Arith D) (X : Externals D) (ns : Namespace)
    (w : World D) (hz : A.is_zero (literal A "0".toList) = true) :
    (∀ (zero : D) (level fuel P E : Nat) (fs : List (expr_factor_t D)) (log : List Event)
        (fE fP fN : expr_factor_t D),
        fs.get? E = some fE → fE.tmp_level = level → fs.get? P = some fP →
        fs.get? (E + 1) = some fN →
        (fE.oper = 10 → A.is_zero fN.value = true →
          pass2_scan A zero level (fuel + 1) P E fs log
            = pass2_scan A zero level fuel P (E + 2)
                ((fs.set P { fP with value := A.div fP.value fN.value }).set (E + 1)
                  { fN with tmp_level := 0 }) (log ++ [Event.nan_error]))
        ∧ (fE.oper = 11 → A.is_zero fP.value = true → A.is_zero fN.value = true →
          pass2_scan A zero level (fuel + 1) P E fs log
            = pass2_scan A zero level fuel P (E + 2)
                ((fs.set P { fP with value := A.pow fP.value fN.value }).set (E + 1)
                  { fN with tmp_level := 0 }) (log ++ [Event.nan_error])))
    ∧ (∀ da : List Char, is_digits da = true →
        ∃ e v e1 w1, feenox_expression_parse A ns (da ++ "/0".toList) = ([], Ret.ok e)
          ∧ feenox_expression_eval A X e w = some (v, e1, w1)
          ∧ Event.nan_error ∈ w1.log)
    ∧ (∃ e v e1 w1, feenox_expression_parse A ns "0^0".toList = ([], Ret.ok e)
          ∧ feenox_expression_eval A X e w = some (v, e1, w1)
          ∧ Event.nan_error ∈ w1.log) := by
  refine ⟨?_, ?_, ?_⟩
  · intro zero level fuel P E fs log fE fP fN hE hl hP hN
    constructor
    · intro ho hzero
      rw [pass2_scan]
      simp only [hE, hP, hN, ho, apply_operator_div, hzero, if_true]
      exact if_pos ⟨hl, by decide⟩
    · intro ho hzp hzn
      rw [pass2_scan]
      simp only [hE, hP, hN, ho, apply_operator_pow, hzp, hzn, and_self, if_true]
      exact if_pos ⟨hl, by decide⟩
  · intro da hda
    obtain ⟨e1, he⟩ := eval_quotient A X w da "0".toList (da ++ "/0".toList)
    refine ⟨_, _, e1, _, parse_one_operator A ns da "0".toList hda (by decide) '/' 9
      (by decide), he, ?_⟩
    simp only [hz, if_true]
    split_ifs <;> simp
  · obtain ⟨e1, he⟩ := eval_power A X w "0".toList "0".toList "0^0".toList
    refine ⟨_, _, e1, _, parse_one_operator A ns "0".toList "0".toList (by decide) (by decide)
      '^' 10 (by decide), he, ?_⟩
    simp only [hz, and_self, if_true]
    split_ifs <;> simp

/-- Witness of C9: exact arithmetic, where the literal 0 is zero. -/
theorem C9_nan_error_witness :
    exact.is_zero (literal exact "0".toList) = true
    ∧ (∃ e v e1 w1, feenox_expression_parse exact sample_ns "1/0".toList = ([], Ret.ok e)
          ∧ feenox_expression_eval exact sample_externals e sample_world = some (v, e1, w1)
          ∧ Event.nan_error ∈ w1.log)
    ∧ (∃ e v e1 w1, feenox_expression_parse exact sample_ns "0^0".toList = ([], Ret.ok e)
          ∧ feenox_expression_eval exact sample_externals e sample_world = some (v, e1, w1)
          ∧ Event.nan_error ∈ w1.log) := by
  have hz : exact.is_zero (literal exact "0".toList) = true := by
    rw [literal_exact]
    simp [exact, XReal.is_zero, digits_value, digit_value]
  have h := C9_nan_error exact sample_externals sample_ns sample_world hz
  exact ⟨hz, h.2.1 "1".toList (by decide), h.2.2⟩

/-! ## Lemmas on argument lists -/

theorem depth_after_pos (a : List Char) (level l1 : Int) (h : depth_after a level = some l1)
    (hl : 1 ≤ level) : 1 ≤ l1 := by
  induction a generalizing level with
  | nil =>
    simp only [depth_after, Option.some.injEq] at h
    omega
  | cons c s ih =>
    rw [depth_after] at h
    split_ifs at h with h1 h2 h3 h4
    · exact ih _ h (by omega)
    · exact ih _ h (by omega)
    · exact ih _ h hl

theorem count_loop_text (a tail : List Char) (n : Nat) (level l1 k : Int)
    (h : depth_after a level = some l1) (hl : 1 ≤ level) :
    count_loop (a ++ tail) n level k = count_loop tail (n + a.length) l1 k := by
  induction a generalizing level n with
  | nil =>
    simp only [depth_after, Option.some.injEq] at h
    subst h
    rfl
  | cons c s ih =>
    rw [depth_after] at h
    rw [List.cons_append, count_loop]
    split_ifs at h with h1 h2 h3 h4
    · subst h1
      have e : ¬ (('(' : Char) = ',' ∧ level + 1 = 1) := by
        intro hh; exact absurd hh.1 (by decide)
      have e0 : level + 1 ≠ 0 := by omega
      simp only [if_true, e, if_false, e0, ne_eq, not_false_eq_true]
      rw [ih _ _ h (by omega)]
      simp [Nat.add_assoc, Nat.add_comm 1]
    · subst h2
      have e : ¬ ((')' : Char) = ',' ∧ level - 1 = 1) := by
        intro hh; exact absurd hh.1 (by decide)
      have e0 : level - 1 ≠ 0 := by omega
      have e1 : ¬ ((')' : Char) = '(') := by decide
      simp only [e1, if_true, e, if_false, e0, ne_eq, not_false_eq_true]
      rw [ih _ _ h (by omega)]
      simp [Nat.add_assoc, Nat.add_comm 1]
    · have e : ¬ (c = ',' ∧ level = 1) := h4
      have e0 : level ≠ 0 := by omega
      simp only [h1, h2, e, if_false, e0, ne_eq, not_false_eq_true, if_true]
      rw [ih _ _ h hl]
      simp [Nat.add_assoc, Nat.add_comm 1]

theorem is_argument_depth {a : List Char} (h : is_argument a = true) :
    depth_after a 1 = some 1 := by
  simpa [is_argument] using h

theorem count_loop_arguments (args : List (List Char)) (rest : List Char) (n : Nat) (k : Int)
    (hne : args ≠ []) (hargs : ∀ a ∈ args, is_argument a = true) :
    count_loop (join_arguments args ++ ')' :: rest) n 1 k
      = some (k + ((args.length : Int) - 1), n + (join_arguments args).length + 1) := by
  induction args generalizing n k with
  | nil => exact absurd rfl hne
  | cons a as ih =>
    have ha := is_argument_depth (hargs a (List.mem_cons_self _ _))
    cases as with
    | nil =>
      simp only [join_arguments]
      rw [count_loop_text a _ n 1 1 k ha (Int.le_refl 1), count_loop]
      simp
    | cons b bs =>
      simp only [join_arguments]
      rw [List.append_assoc, count_loop_text a _ n 1 1 k ha (Int.le_refl 1)]
      rw [List.cons_append, count_loop]
      have e1 : ¬ ((',' : Char) = '(') := by decide
      have e2 : ¬ ((',' : Char) = ')') := by decide
      simp only [e1, e2, if_false, and_self, if_true, ne_eq, one_ne_zero, not_false_eq_true]
      rw [ih _ _ (by simp) (fun x hx => hargs x (List.mem_cons_of_mem _ hx))]
      simp only [List.length_cons, List.length_append, Option.some.injEq, Prod.mk.injEq]
      constructor
      · push_cast; ring
      · omega

theorem read_argument_stop (last : Bool) (a tail : List Char) (c : Char) (level : Int)
    (h : depth_after a level = some 1) (hl : 1 ≤ level)
    (hc : (last = false ∧ c = ',') ∨ (last = true ∧ c = ')')) :
    read_argument last (a ++ c :: tail) level = some (a, c :: tail) := by
  induction a generalizing level with
  | nil =>
    simp only [depth_after, Option.some.injEq] at h
    subst h
    rw [List.nil_append, read_argument]
    exact if_pos ⟨rfl, hc⟩
  | cons d s ih =>
    rw [depth_after] at h
    rw [List.cons_append, read_argument]
    split_ifs at h with h1 h2 h3 h4
    · subst h1
      have e : ¬ (level = 1 ∧ ((last = false ∧ '(' = ',') ∨ (last = true ∧ '(' = ')'))) := by
        rintro ⟨-, ⟨-, h5⟩ | ⟨-, h5⟩⟩
        · exact absurd h5 (by decide)
        · exact absurd h5 (by decide)
      rw [if_neg e]
      simp only [if_true]
      rw [ih _ h (by omega)]
    · subst h2
      have e : ¬ (level = 1 ∧ ((last = false ∧ ')' = ',') ∨ (last = true ∧ ')' = ')'))) := by
        rintro ⟨h5, -⟩
        omega
      have e1 : ¬ ((')' : Char) = '(') := by decide
      rw [if_neg e]
      simp only [e1, if_false, if_true]
      rw [ih _ h (by omega)]
    · have e : ¬ (level = 1 ∧ ((last = false ∧ d = ',') ∨ (last = true ∧ d = ')'))) := by
        rintro ⟨h5, ⟨-, h6⟩ | ⟨-, h6⟩⟩
        · exact h4 ⟨h6, h5⟩
        · exact h2 h6
      rw [if_neg e]
      simp only [h1, h2, if_false]
      rw [ih _ h hl]

theorem read_arguments_loop_arguments (N : Int) (args : List (List Char)) (c0 : Char)
    (i : Int) (n : Nat) (hne : args ≠ []) (hargs : ∀ a ∈ args, is_argument a = true)
    (hi : i + (args.length : Int) = N) :
    read_arguments_loop N args.length i (c0 :: (join_arguments args ++ [')'])) n
      = some (args, n + (join_arguments args).length + 1) := by
  induction args generalizing i n c0 with
  | nil => exact absurd rfl hne
  | cons a as ih =>
    have ha := is_argument_depth (hargs a (List.mem_cons_self _ _))
    cases as with
    | nil =>
      have hlast : decide (i = N - 1) = true := by
        simp only [List.length_cons, List.length_nil] at hi
        simp only [decide_eq_true_eq]
        push_cast at hi
        omega
      simp only [join_arguments, List.length_cons, List.length_nil, Nat.zero_add]
      rw [read_arguments_loop, hlast]
      simp only [List.drop_succ_cons, List.drop_zero]
      rw [read_argument_stop true a [] ')' 1 ha (Int.le_refl 1) (Or.inr ⟨rfl, rfl⟩)]
      simp only [read_arguments_loop]
      simp [Nat.add_assoc, Nat.add_comm 1]
    | cons b bs =>
      have hlast : decide (i = N - 1) = false := by
        simp only [List.length_cons] at hi
        simp only [decide_eq_false_iff_not]
        push_cast at hi
        omega
      simp only [join_arguments, List.length_cons]
      rw [read_arguments_loop, hlast]
      simp only [List.drop_succ_cons, List.drop_zero, List.append_assoc, List.cons_append]
      rw [read_argument_stop false a _ ',' 1 ha (Int.le_refl 1) (Or.inl ⟨rfl, rfl⟩)]
      have := ih ',' (i + 1) (n + 1 + a.length) (by simp)
        (fun x hx => hargs x (List.mem_cons_of_mem _ hx))
        (by simp only [List.length_cons] at hi ⊢; push_cast at hi ⊢; omega)
      simp only [List.length_cons] at this
      simp only [this]
      simp only [List.length_append, List.length_cons, Option.some.injEq, Prod.mk.injEq, true_and]
      omega

theorem count_arguments_call (args : List (List Char)) (rest : List Char)
    (hne : args ≠ []) (hargs : ∀ a ∈ args, is_argument a = true) :
    feenox_count_arguments ('(' :: (join_arguments args ++ ')' :: rest))
      = { ret := (args.length : Int), n_chars := (join_arguments args).length + 2,
          string := '(' :: (join_arguments args ++ [')']), log := [] } := by
  have h0 : ¬ (char_at ('(' :: (join_arguments args ++ ')' :: rest)) 0 ≠ '(') := by
    intro h; exact h rfl
  unfold feenox_count_arguments
  rw [if_neg h0]
  simp only [List.drop_succ_cons, List.drop_zero]
  rw [count_loop_arguments args rest 1 1 hne hargs]
  have e1 : (1 : Int) + ((args.length : Int) - 1) = (args.length : Int) := by ring
  have e2 : 1 + (join_arguments args).length + 1 = (join_arguments args).length + 2 := by omega
  have e3 : ('(' :: (join_arguments args ++ ')' :: rest)).take ((join_arguments args).length + 2)
      = '(' :: (join_arguments args ++ [')']) := by
    rw [List.take_succ_cons]
    rw [show join_arguments args ++ ')' :: rest = (join_arguments args ++ [')']) ++ rest by simp]
    have hl : (join_arguments args ++ [')']).length = (join_arguments args).length + 1 := by
      simp
    rw [List.take_left' hl]
  simp only [e1, e2, e3]

theorem read_arguments_call (args : List (List Char))
    (hne : args ≠ []) (hargs : ∀ a ∈ args, is_argument a = true) :
    feenox_read_arguments ('(' :: (join_arguments args ++ [')'])) (args.length : Int)
      = ([], some (args, (join_arguments args).length + 2)) := by
  have h0 : ¬ (strchr ('(' :: (join_arguments args ++ [')'])) '(' = none) := by
    simp [strchr]
  unfold feenox_read_arguments
  rw [if_neg h0]
  simp only [Int.toNat_ofNat]
  rw [read_arguments_loop_arguments (args.length : Int) args '(' 0 0 hne hargs (by simp)]
  simp

theorem strtok_prefix (x : List Char) (c : Char) (t : List Char) (hne : x ≠ [])
    (h : ∀ d ∈ x, factorseparators.contains d = false)
    (hc : factorseparators.contains c = true) :
    strtok (x ++ c :: t) factorseparators = some x := by
  have h1 : (x ++ c :: t).dropWhile (fun d => factorseparators.contains d) = x ++ c :: t := by
    cases x with
    | nil => exact absurd rfl hne
    | cons d ds =>
      have := h d (List.mem_cons_self _ _)
      rw [List.cons_append, List.dropWhile_cons_of_neg]
      rw [this]
      decide
  have h2 : (x ++ c :: t).takeWhile (fun d => !factorseparators.contains d) = x := by
    rw [List.takeWhile_append_of_pos]
    · rw [List.takeWhile_cons_of_neg]
      · simp
      · rw [hc]; decide
    · intro d hd
      rw [h d hd]
      rfl
  unfold strtok
  simp only [h1, h2]
  exact if_neg hne

theorem plain_function_facts {ns : Namespace} {f : function_t} (h : plain_function ns f = true) :
    is_name f.name = true
    ∧ feenox_ends_in_zero f.name = none ∧ feenox_ends_in_init f.name = none
    ∧ feenox_get_matrix_ptr ns f.name = none ∧ feenox_get_vector_ptr ns f.name = none
    ∧ feenox_get_variable_ptr ns f.name = none
    ∧ feenox_get_function_ptr ns f.name = some f := by
  simp only [plain_function, Bool.and_eq_true] at h
  obtain ⟨⟨⟨⟨⟨⟨h1, h2⟩, h3⟩, h4⟩, h5⟩, h6⟩, h7⟩ := h
  exact ⟨h1, by simpa using h2, by simpa using h3, by simpa using h4, by simpa using h5,
    by simpa using h6, by simpa using h7⟩

theorem parse_arguments_function {D : Type} (ns : Namespace)
    (parse : List Char → Res (expr_t D)) (args : List (List Char)) (es : List (expr_t D))
    (h : List.Forall₂ (fun a e => (parse a).2 = Ret.ok e) args es)
    (factor : expr_factor_t D) (done : List (expr_t D)) (htype : factor.type = EXPR_FUNCTION)
    (harg : factor.arg = done ++ List.replicate args.length calloc_expr) :
    (parse_arguments ns parse done.length args factor).2
      = Ret.ok { factor with arg := done ++ es } := by
  induction h generalizing factor done with
  | nil =>
    simp only [List.length_nil, List.replicate_zero] at harg
    rw [parse_arguments, ← harg]
    cases factor
    rfl
  | @cons a e as es1 hp _ ih =>
    have t1 : ¬ (factor.type = EXPR_BUILTIN_VECTORFUNCTION) := by
      rw [htype]; decide
    have t2 : ¬ (factor.type = EXPR_BUILTIN_FUNCTIONAL ∧ done.length = 1) := by
      rw [htype]; intro hh; exact absurd hh.1 (by decide)
    rw [parse_arguments, if_neg t1, if_neg t2]
    cases hpa : parse a with
    | mk log r =>
      rw [hpa] at hp
      simp only at hp
      subst hp
      simp only
      have hset : factor.arg.set done.length e
          = (done ++ [e]) ++ List.replicate as.length calloc_expr := by
        rw [harg, List.length_cons, List.replicate_succ]
        simp
      have := ih { factor with arg := factor.arg.set done.length e } (done ++ [e]) htype hset
      simp only [List.length_append, List.length_singleton] at this
      rw [this]
      simp

theorem parse_factor_function_call {D : Type} (A : Arith D) (ns : Namespace)
    (parse : List Char → Res (expr_t D)) (f : function_t) (args : List (List Char))
    (rest : List Char) (hf : plain_function ns f = true) (hne : args ≠ [])
    (hargs : ∀ a ∈ args, is_argument a = true) :
    feenox_expression_parse_factor A ns parse
        (f.name ++ '(' :: (join_arguments args ++ ')' :: rest))
      = (if (args.length : Int) ≠ f.n_arguments then
          ([Event.push_error_message "function '%s' takes exactly %d argument%s instead of %d"
              [msg_arg.str f.name, msg_arg.int f.n_arguments, msg_arg.str (plural f.n_arguments),
               msg_arg.int args.length]], Ret.fail)
        else
          match parse_arguments ns parse 0 args
              { calloc_factor A with
                type := EXPR_FUNCTION, function := some f,
                arg := List.replicate f.n_arguments.toNat calloc_expr } with
          | (log2, Ret.ok factor4) =>
            (log2, Ret.ok { factor4 with
                            n_chars := f.name.length + ((join_arguments args).length + 2) })
          | (log2, Ret.fail) => (log2, Ret.fail)
          | (log2, Ret.out_of_fuel) => (log2, Ret.out_of_fuel)) := by
  obtain ⟨hname, hz, hi, hm, hv, hvar, hfun⟩ := plain_function_facts hf
  obtain ⟨hnn, hsep, -, -⟩ := is_name_facts hname
  have h0 := (name_first_char hname ('(' :: (join_arguments args ++ ')' :: rest))).1
  have htok := strtok_prefix f.name '(' (join_arguments args ++ ')' :: rest) hnn hsep (by decide)
  have hdrop : (f.name ++ '(' :: (join_arguments args ++ ')' :: rest)).drop f.name.length
      = '(' :: (join_arguments args ++ ')' :: rest) := List.drop_left' rfl
  have hcount := count_arguments_call args rest hne hargs
  have hread := read_arguments_call args hne hargs
  unfold feenox_expression_parse_factor
  rw [if_neg h0]
  simp only [htok, hz, hi, hm, hv, hvar, Option.isSome_none, Bool.false_eq_true, false_or,
    or_false, false_and, and_false, if_false, ite_self, hfun, Option.isSome_some, true_or,
    or_true, if_true, hdrop]
  have hp : ¬ (char_at ('(' :: (join_arguments args ++ ')' :: rest)) 0 ≠ '(') := fun h => h rfl
  have hpos : ¬ ((args.length : Int) ≤ 0) := by
    cases args with
    | nil => exact absurd rfl hne
    | cons a as => simp only [List.length_cons]; push_cast; omega
  rw [if_neg hp, hcount]
  simp only [hpos, if_false, hread, ne_eq, not_true_eq_false, List.append_nil, List.nil_append]
  by_cases hn : (args.length : Int) = f.n_arguments
  · simp only [check_arity, calloc_factor, hn, ne_eq, not_true_eq_false, if_false]
    have ht : ¬ (EXPR_FUNCTION = EXPR_BUILTIN_VECTORFUNCTION) := by decide
    rw [if_pos ht]
  · simp only [check_arity, calloc_factor, hn, ne_eq, not_false_eq_true, if_true]

/-! ## Calls of user functions -/

/-- Arity of a user function `f` of `n` arguments declared under a name token
without a reserved suffix: on a call text `f(a1,...,am)` whose arguments are
balanced and free of top-level commas, the factor parser fails with the message
"function '%s' takes exactly %d argument%s instead of %d" carrying `n` when
`m ≠ n`; when `m = n` and the argument parser `parse` accepts every argument, it
returns a user-function factor bound to `f` whose `arg` holds the `m` parsed
expressions and whose `n_chars` is the length of the call. -/
theorem arity_of_plain_function {D : Type} (A : Arith D) (ns : Namespace)
    (parse : List Char → Res (expr_t D)) (f : function_t) (args : List (List Char))
    (rest : List Char) (hf : plain_function ns f = true) (hne : args ≠ [])
    (hargs : ∀ a ∈ args, is_argument a = true) :
    ((args.length : Int) ≠ f.n_arguments →
      feenox_expression_parse_factor A ns parse
          (f.name ++ '(' :: (join_arguments args ++ ')' :: rest))
        = ([Event.push_error_message "function '%s' takes exactly %d argument%s instead of %d"
              [msg_arg.str f.name, msg_arg.int f.n_arguments, msg_arg.str (plural f.n_arguments),
               msg_arg.int args.length]], Ret.fail))
    ∧ ((args.length : Int) = f.n_arguments →
        ∀ es, List.Forall₂ (fun a e => (parse a).2 = Ret.ok e) args es →
          (feenox_expression_parse_factor A ns parse
              (f.name ++ '(' :: (join_arguments args ++ ')' :: rest))).2
            = Ret.ok (function_factor A f (f.name.length + ((join_arguments args).length + 2))
                es)) := by
  constructor
  · intro hn
    rw [parse_factor_function_call A ns parse f args rest hf hne hargs, if_pos hn]
  · intro hn es hes
    have hlen : f.n_arguments.toNat = args.length := by
      rw [← hn]; simp
    have h := parse_arguments_function ns parse args es hes
      { calloc_factor A with
        type := EXPR_FUNCTION, function := some f,
        arg := List.replicate f.n_arguments.toNat calloc_expr } [] rfl
      (by rw [hlen]; rfl)
    rw [parse_factor_function_call A ns parse f args rest hf hne hargs, if_neg (not_not.2 hn)]
    simp only [List.length_nil, List.nil_append] at h
    rcases hpa : parse_arguments ns parse 0 args
      { calloc_factor A with
        type := EXPR_FUNCTION, function := some f,
        arg := List.replicate f.n_arguments.toNat calloc_expr } with ⟨log2, r⟩
    rw [hpa] at h
    simp only at h
    subst h
    rfl

/-! ## The counting pass and the splitting pass -/

theorem count_loop_grows (s : List Char) (n : Nat) (level k k1 : Int) (n1 : Nat)
    (h : count_loop s n level k = some (k1, n1)) : n + 1 ≤ n1 := by
  induction s generalizing n level k with
  | nil => simp [count_loop] at h
  | cons c t ih =>
    rw [count_loop] at h
    split_ifs at h <;>
      first
      | (have hh := ih _ _ _ h; omega)
      | (simp only [Option.some.injEq, Prod.mk.injEq] at h; omega)

/-- The splitting pass follows the counting pass: when the counting loop, in the
middle of an argument at `level`, ends with `k1 - k` further commas at level 1
after `n1 - n` characters, the splitting loop reads the rest of the current
argument and the arguments after it and ends at the same closing bracket. -/
theorem read_follows_count (s : List Char) (n : Nat) (level k k1 : Int) (n1 : Nat)
    (h : count_loop s n level k = some (k1, n1)) (hl : 1 ≤ level) :
    ∃ m : Nat, k1 = k + m ∧ ∀ (N i : Int) (n0 : Nat), i + m + 1 = N →
      ∃ a rest args, read_argument (decide (i = N - 1)) (s.take (n1 - n)) level = some (a, rest)
        ∧ read_arguments_loop N m (i + 1) rest (n0 + a.length)
            = some (args, n0 + (n1 - n) - 1)
        ∧ args.length = m := by
  induction s generalizing n level k with
  | nil => simp [count_loop] at h
  | cons c t ih =>
    have hg := count_loop_grows _ _ _ _ _ _ h
    rw [count_loop] at h
    have htake : (c :: t).take (n1 - n) = c :: t.take (n1 - (n + 1)) := by
      rw [show n1 - n = (n1 - (n + 1)) + 1 by omega, List.take_succ_cons]
    rw [htake]
    by_cases h0 : (if c = '(' then level + 1 else if c = ')' then level - 1 else level) ≠ 0
    · rw [if_pos h0] at h
      have hg2 := count_loop_grows _ _ _ _ _ _ h
      by_cases hc : c = ',' ∧ level = 1
      · -- a separator at level 1
        obtain ⟨hc1, hc2⟩ := hc
        subst hc1
        subst hc2
        have e1 : ¬ ((',' : Char) = '(') := by decide
        have e2 : ¬ ((',' : Char) = ')') := by decide
        simp only [e1, e2, if_false, and_self, if_true] at h
        obtain ⟨m, hm, hread⟩ := ih _ _ _ h (Int.le_refl 1)
        refine ⟨m + 1, by rw [hm]; push_cast; ring, ?_⟩
        intro N i n0 hi
        have hlast : decide (i = N - 1) = false := by
          simp only [decide_eq_false_iff_not]
          push_cast at hi
          omega
        obtain ⟨a, rest, args, hra, hrl, hlen⟩ :=
          hread N (i + 1) (n0 + 1) (by push_cast at hi ⊢; omega)
        refine ⟨[], ',' :: t.take (n1 - (n + 1)), a :: args, ?_, ?_, by simp [hlen]⟩
        · rw [hlast, read_argument]
          exact if_pos ⟨rfl, Or.inl ⟨rfl, rfl⟩⟩
        · rw [read_arguments_loop]
          simp only [List.drop_succ_cons, List.drop_zero]
          rw [hra]
          simp only [List.length_nil, Nat.add_zero]
          rw [hrl]
          simp only [Option.some.injEq, Prod.mk.injEq, true_and]
          omega
      · -- a character inside the current argument
        have hk : (if c = ',' ∧ (if c = '(' then level + 1 else if c = ')' then level - 1
            else level) = 1 then k + 1 else k) = k := by
          apply if_neg
          rintro ⟨hc1, hc2⟩
          apply hc
          refine ⟨hc1, ?_⟩
          subst hc1
          simpa using hc2
        rw [hk] at h
        have hl1 : 1 ≤ (if c = '(' then level + 1 else if c = ')' then level - 1 else level) := by
          split_ifs at h0 ⊢ <;> omega
        obtain ⟨m, hm, hread⟩ := ih _ _ _ h hl1
        refine ⟨m, hm, ?_⟩
        intro N i n0 hi
        obtain ⟨a, rest, args, hra, hrl, hlen⟩ := hread N i (n0 + 1) hi
        refine ⟨c :: a, rest, args, ?_, ?_, hlen⟩
        · rw [read_argument]
          have hbr : ¬ (level = 1 ∧ ((decide (i = N - 1) = false ∧ c = ',')
              ∨ (decide (i = N - 1) = true ∧ c = ')'))) := by
            rintro ⟨hl2, ⟨-, hc2⟩ | ⟨-, hc2⟩⟩
            · exact hc ⟨hc2, hl2⟩
            · apply h0
              subst hc2
              subst hl2
              decide
          rw [if_neg hbr, hra]
        · have e1 : n0 + (c :: a).length = n0 + 1 + a.length := by
            simp only [List.length_cons]; omega
          have e2 : n0 + (n1 - n) - 1 = n0 + 1 + (n1 - (n + 1)) - 1 := by omega
          rw [e1, e2]
          exact hrl
    · -- the closing bracket of the list
      rw [if_neg h0] at h
      simp only [Option.some.injEq, Prod.mk.injEq] at h
      obtain ⟨hk1, hn1⟩ := h
      have hcl : c = ')' ∧ level = 1 := by
        simp only [ne_eq, not_not] at h0
        split_ifs at h0 with h1 h2
        · omega
        · exact ⟨h2, by omega⟩
        · omega
      obtain ⟨hc1, hc2⟩ := hcl
      subst hc1
      subst hc2
      have e3 : ¬ ((')' : Char) = ',' ∧ (if (')' : Char) = '(' then (1 : Int) + 1
          else if (')' : Char) = ')' then 1 - 1 else 1) = 1) := by
        rintro ⟨hh, -⟩
        exact absurd hh (by decide)
      rw [if_neg e3] at hk1
      refine ⟨0, by rw [← hk1]; simp, ?_⟩
      intro N i n0 hi
      have hlast : decide (i = N - 1) = true := by
        simp only [decide_eq_true_eq]
        push_cast at hi
        omega
      refine ⟨[], ')' :: t.take (n1 - (n + 1)), [], ?_, ?_, rfl⟩
      · rw [hlast, read_argument]
        exact if_pos ⟨rfl, Or.inr ⟨rfl, rfl⟩⟩
      · rw [read_arguments_loop]
        simp only [List.length_nil, Option.some.injEq, Prod.mk.injEq, true_and]
        omega

/-- The splitting pass succeeds wherever the counting pass does, and stops at the
same character. -/
theorem count_read_consistent (s : List Char) (h : (feenox_count_arguments s).ret ≠ -1) :
    ∃ args, feenox_read_arguments (feenox_count_arguments s).string (feenox_count_arguments s).ret
        = ([], some (args, (feenox_count_arguments s).n_chars))
      ∧ (args.length : Int) = (feenox_count_arguments s).ret := by
  unfold feenox_count_arguments at h ⊢
  by_cases h0 : char_at s 0 ≠ '('
  · rw [if_pos h0] at h
    exact absurd rfl h
  · rw [if_neg h0] at h ⊢
    cases s with
    | nil => exact absurd (not_not.1 h0) (by decide)
    | cons c t =>
      have hc : c = '(' := not_not.1 h0
      subst hc
      simp only [List.drop_succ_cons, List.drop_zero] at h ⊢
      cases hcl : count_loop t 1 1 1 with
      | none =>
        rw [hcl] at h
        exact absurd rfl h
      | some r =>
        obtain ⟨k1, n1⟩ := r
        simp only
        have hg := count_loop_grows _ _ _ _ _ _ hcl
        obtain ⟨m, hm, hread⟩ := read_follows_count t 1 1 1 k1 n1 hcl (Int.le_refl 1)
        obtain ⟨a, rest, args, hra, hrl, hlen⟩ := hread k1 0 1 (by rw [hm]; ring)
        have hnat : k1.toNat = m + 1 := by rw [hm]; omega
        have hst : strchr (('(' :: t).take n1) '(' ≠ none := by
          rw [show n1 = (n1 - 1) + 1 by omega, List.take_succ_cons]
          simp [strchr]
        refine ⟨a :: args, ?_, by simp [hlen, hm]; ring⟩
        unfold feenox_read_arguments
        rw [if_neg hst, hnat, read_arguments_loop]
        have hdrop : (('(' :: t).take n1).drop 1 = t.take (n1 - 1) := by
          rw [show n1 = (n1 - 1) + 1 by omega, List.take_succ_cons]
          simp
        rw [hdrop, hra]
        rw [Int.zero_add] at hrl
        simp only [Int.zero_add, Nat.zero_add]
        rw [hrl]
        simp only [Prod.mk.injEq, Option.some.injEq, true_and]
        omega

theorem count_log_no_mismatch (s : List Char) :
    parser_mismatch ∉ (feenox_count_arguments s).log := by
  unfold feenox_count_arguments
  split
  · simp [parser_mismatch]
  · split <;> simp [parser_mismatch]

theorem read_log_no_mismatch (s : List Char) (k : Int) :
    parser_mismatch ∉ (feenox_read_arguments s k).1 := by
  unfold feenox_read_arguments
  split
  · simp [parser_mismatch]
  · split <;> simp [parser_mismatch]

theorem check_arity_no_mismatch {D : Type} (factor : expr_factor_t D) (token : List Char)
    (n : Int) (fn : Option function_t) (bf : Option builtin_function_t)
    (bv : Option builtin_vectorfunction_t) (bl : Option builtin_functional_t) (e : Event)
    (h : check_arity factor token n fn bf bv bl = Except.error (some e)) :
    e ≠ parser_mismatch := by
  unfold check_arity at h
  split at h <;> (try split_ifs at h) <;>
    simp only [Except.error.injEq, Option.some.injEq, reduceCtorEq] at h <;>
    subst h <;> simp [parser_mismatch]

theorem parse_arguments_no_mismatch {D : Type} (ns : Namespace)
    (parse : List Char → Res (expr_t D)) (hp : ∀ t, parser_mismatch ∉ (parse t).1)
    (args : List (List Char)) (i : Nat) (factor : expr_factor_t D) :
    parser_mismatch ∉ (parse_arguments ns parse i args factor).1 := by
  induction args generalizing i factor with
  | nil => simp [parse_arguments]
  | cons a as ih =>
    rw [parse_arguments]
    split
    · split
      · simp [parser_mismatch]
      · exact ih _ _
    · split
      · split
        · simp
        · exact ih _ _
      · have := hp a
        split
        · rename_i log e heq
          rw [heq] at this
          simp only [List.mem_append, not_or]
          exact ⟨this, ih _ _⟩
        · rename_i log heq
          rw [heq] at this
          exact this
        · rename_i log heq
          rw [heq] at this
          exact this

theorem parse_factor_no_mismatch {D : Type} (A : Arith D) (ns : Namespace)
    (parse : List Char → Res (expr_t D)) (hp : ∀ t, parser_mismatch ∉ (parse t).1)
    (s : List Char) :
    parser_mismatch ∉ (feenox_expression_parse_factor A ns parse s).1 := by
  unfold feenox_expression_parse_factor
  split
  · split <;> simp
  · split
    · simp
    · rename_i token0 htok
      lift_lets
      intro wants_initial_transient token1 wants_initial_static token matrix vector var found
        basic type1 n1 token_now src factor1 function builtin_function builtin_vectorfunction
        builtin_functional argument counted
      split
      · simp [parser_mismatch]
      · split
        · simp [parser_mismatch]
        · split
          · split
            · simp [parser_mismatch]
            · split
              · exact count_log_no_mismatch _
              · rename_i hret
                have hc := count_log_no_mismatch argument
                have hr := read_log_no_mismatch counted.string counted.ret
                obtain ⟨args, hcons, -⟩ := count_read_consistent argument
                  (fun h => hret (by rw [show counted.ret = -1 from h]; decide))
                split
                · rename_i log heq
                  rw [heq] at hr
                  simp only [List.mem_append, not_or]
                  exact ⟨hc, hr⟩
                · rename_i log arg n_chars_parse heq
                  rw [heq] at hr
                  have hn : counted.n_chars = n_chars_parse := by
                    have := heq.symm.trans hcons
                    simp only [Prod.mk.injEq, Option.some.injEq] at this
                    exact this.2.2.symm
                  split
                  · rename_i hne
                    exact absurd hn hne
                  · split
                    · rename_i e he
                      have := check_arity_no_mismatch _ _ _ _ _ _ _ _ he
                      simp only [List.mem_append, List.mem_singleton, not_or]
                      exact ⟨⟨hc, hr⟩, fun h => this h.symm⟩
                    · simp only [List.mem_append, not_or]
                      exact ⟨hc, hr⟩
                    · have hpa := parse_arguments_no_mismatch ns parse hp
                      lift_lets
                      intro factor3
                      have := hpa arg 0 factor3
                      split <;> rename_i heq2 <;> rw [heq2] at this <;>
                        simp only [List.mem_append, not_or] <;> exact ⟨⟨hc, hr⟩, this⟩
          · split <;> simp [parser_mismatch]

theorem parse_loop_no_mismatch {D : Type} (A : Arith D)
    (pf : List Char → Res (expr_factor_t D)) (hp : ∀ t, parser_mismatch ∉ (pf t).1)
    (s : List Char) (skip : Nat) (oper : Option Nat) (last : Bool) (level : Nat)
    (fs : List (expr_factor_t D)) :
    parser_mismatch ∉ (parse_loop A pf s skip oper last level fs).1 := by
  induction s generalizing skip oper last level fs with
  | nil =>
    unfold parse_loop
    split
    · simp [parser_mismatch]
    · split
      · split <;> simp [parser_mismatch]
      · simp
  | cons c rest ih =>
    cases skip with
    | succ k =>
      simp only [parse_loop]
      exact ih _ _ _ _ _
    | zero =>
      rw [parse_loop]
      split
      · exact ih _ _ _ _ _
      · have hpf := hp (c :: rest)
        split
        · split
          · exact ih _ _ _ _ _
          · split
            · exact ih _ _ _ _ _
            · split
              · split
                · split
                  · rename_i log factor heq
                    rw [heq] at hpf
                    split
                    · exact hpf
                    · simp only [List.mem_append, not_or]
                      exact ⟨hpf, ih _ _ _ _ _⟩
                  · rename_i log heq
                    rw [heq] at hpf
                    exact hpf
                  · rename_i log heq
                    rw [heq] at hpf
                    exact hpf
                · simp [parser_mismatch]
              · exact ih _ _ _ _ _
        · split
          · rename_i log factor heq
            rw [heq] at hpf
            split
            · exact hpf
            · simp only [List.mem_append, not_or]
              exact ⟨hpf, ih _ _ _ _ _⟩
          · rename_i log heq
            rw [heq] at hpf
            exact hpf
          · rename_i log heq
            rw [heq] at hpf
            exact hpf

theorem parse_depth_no_mismatch {D : Type} (A : Arith D) (ns : Namespace) (depth : Nat)
    (s : List Char) : parser_mismatch ∉ (parse_depth A ns depth s).1 := by
  induction depth generalizing s with
  | zero => simp [parse_depth]
  | succ d ih =>
    rw [parse_depth]
    split
    · simp
    · have := parse_loop_no_mismatch A (feenox_expression_parse_factor A ns (parse_depth A ns d))
        (parse_factor_no_mismatch A ns _ ih) s 0 none false 1 []
      split <;> rename_i heq <;> rw [heq] at this <;> exact this

/-- C11: wherever `feenox_count_arguments` succeeds on a string, with `k` arguments
and `n` characters, `feenox_read_arguments` on the string as the counting pass
leaves it and `k` succeeds without a message, returns `k` arguments and reports the
same `n`; hence the factor parser never pushes "internal parser mismatch", whatever
the argument parser is provided it does not push it itself, and neither does
`feenox_expression_parse` on any source. -/
theorem C11_count_read_agree {D : Type} (A : Arith D) (ns : Namespace) :
    (∀ s : List Char, (feenox_count_arguments s).ret ≠ -1 →
      ∃ args, feenox_read_arguments (feenox_count_arguments s).string
            (feenox_count_arguments s).ret
          = ([], some (args, (feenox_count_arguments s).n_chars))
        ∧ (args.length : Int) = (feenox_count_arguments s).ret)
    ∧ (∀ (parse : List Char → Res (expr_t D)) (s : List Char),
        (∀ t, parser_mismatch ∉ (parse t).1) →
        parser_mismatch ∉ (feenox_expression_parse_factor A ns parse s).1)
    ∧ (∀ s : List Char, parser_mismatch ∉ (feenox_expression_parse A ns s).1) :=
  ⟨fun s h => count_read_consistent s h,
   fun parse s hp => parse_factor_no_mismatch A ns parse hp s,
   fun s => parse_depth_no_mismatch A ns _ s⟩

/-- Witness of C11: on `(1,(2,3),4)+5` the counting pass finds 3 arguments in 11
characters and the splitting pass agrees; parsing `f(1,2)` pushes no mismatch. -/
theorem C11_count_read_agree_witness :
    (feenox_count_arguments "(1,(2,3),4)+5".toList).ret = 3
    ∧ (feenox_count_arguments "(1,(2,3),4)+5".toList).n_chars = 11
    ∧ (∃ args, feenox_read_arguments (feenox_count_arguments "(1,(2,3),4)+5".toList).string
            (feenox_count_arguments "(1,(2,3),4)+5".toList).ret
          = ([], some (args, (feenox_count_arguments "(1,(2,3),4)+5".toList).n_chars))
        ∧ (args.length : Int) = (feenox_count_arguments "(1,(2,3),4)+5".toList).ret)
    ∧ parser_mismatch ∉ (feenox_expression_parse exact sample_ns "f(1,2)".toList).1 :=
  ⟨by decide, by decide,
   (C11_count_read_agree exact sample_ns).1 "(1,(2,3),4)+5".toList (by decide),
   (C11_count_read_agree exact sample_ns).2.2 "f(1,2)".toList⟩

/-! ## Names with entries of several kinds -/

/-- C12 (code bug): with a variable `x` whose name is also the name of a builtin
function, the bare reference `x` yields no factor: the variable is found, the
lookups of the later kinds go on all the same, the builtin function is found and
the text after the name is required to be an argument list. -/
theorem C12_variable_with_builtin_name_rejected {D : Type} (A : Arith D)
    (parse : List Char → Res (expr_t D)) :
    feenox_get_variable_ptr clash_ns "x".toList = some "x".toList
    ∧ feenox_expression_parse_factor A clash_ns parse "x".toList
      = ([Event.push_error_message "expected parenthesis after '%s'" [msg_arg.str "x".toList]],
         Ret.fail)
    ∧ feenox_expression_parse A clash_ns "x".toList
      = ([Event.push_error_message "expected parenthesis after '%s'" [msg_arg.str "x".toList]],
         Ret.fail) :=
  ⟨rfl, rfl, rfl⟩

/-! ## A variable followed by an opening bracket -/

/-- C13 (code bug): with a declared variable `x`, the text `x(1)` is rejected with
"variable '%s' does not take arguments (it is a variable)", but `x_0(1)` and
`x_init(1)` yield the variable factor of 3 and 6 characters: the test for the
bracket looks at the character after the name without its suffix. -/
theorem C13_suffixed_variable_with_bracket_accepted {D : Type} (A : Arith D)
    (parse : List Char → Res (expr_t D)) :
    feenox_expression_parse_factor A sample_ns parse "x(1)".toList
      = ([Event.push_error_message "variable '%s' does not take arguments (it is a variable)"
            [msg_arg.str "x".toList]], Ret.fail)
    ∧ feenox_expression_parse_factor A sample_ns parse "x_0(1)".toList
      = ([], Ret.ok (variable_factor A "x".toList (EXPR_VARIABLE ||| EXPR_INITIAL_TRANSIENT) 3 0))
    ∧ feenox_expression_parse_factor A sample_ns parse "x_init(1)".toList
      = ([], Ret.ok (variable_factor A "x".toList (EXPR_VARIABLE ||| EXPR_INITIAL_STATIC) 6 0))
    ∧ feenox_expression_parse A sample_ns "x_0(1)".toList
      = ([], Ret.ok ⟨[variable_factor A "x".toList (EXPR_VARIABLE ||| EXPR_INITIAL_TRANSIENT) 3 1,
            digits_factor A "1".toList 14], "x_0(1)".toList⟩) :=
  ⟨rfl, rfl, rfl, rfl⟩

/-! ## A closing bracket before its opening bracket -/

/-- C16 (code bug): the texts `)(3` and `3)+(4` are accepted by
`feenox_expression_parse`: the closing bracket takes the unsigned nesting level
below zero, where it wraps, the opening bracket brings it back to 1, and the
check after the loop only compares the final level with 1. -/
theorem C16_early_closing_bracket_accepted {D : Type} (A : Arith D) (ns : Namespace) :
    feenox_expression_parse A ns ")(3".toList
      = ([], Ret.ok ⟨[digits_factor A "3".toList 1], ")(3".toList⟩)
    ∧ feenox_expression_parse A ns "3)+(4".toList
      = ([], Ret.ok ⟨[digits_factor A "3".toList 1,
            operator_factor A 18446744073709551604 6,
            digits_factor A "4".toList 1], "3)+(4".toList⟩) :=
  ⟨rfl, rfl⟩

/-! ## Lemmas on operators and blanks in the builder -/

theorem binary_operator_facts :
    ∀ c ∈ binary_operators, isblank c = false
      ∧ strchr operators c = some (operators.indexOf c) ∧ c ≠ '(' ∧ c ≠ ')'
      ∧ char_at operators (operators.indexOf c) = c ∧ operators.indexOf c < 11
      ∧ operators.indexOf c / 2 * 2 = 2 * tier c ∧ ends_number [c] = true := by
  decide

theorem blank_facts {b : Char} (h : isblank b = true) : ends_number [b] = true := by
  simp only [isblank, Bool.or_eq_true, beq_iff_eq] at h
  rcases h with h | h <;> subst h <;> decide

theorem parse_loop_blanks {D : Type} (A : Arith D) (pf : List Char → Res (expr_factor_t D))
    (bs rest : List Char) (hbs : ∀ b ∈ bs, isblank b = true)
    (oper : Option Nat) (last : Bool) (level : Nat) (fs : List (expr_factor_t D)) :
    parse_loop A pf (bs ++ rest) 0 oper last level fs
      = parse_loop A pf rest 0 oper last level fs := by
  induction bs with
  | nil => rfl
  | cons b bs ih =>
    rw [List.cons_append, parse_loop, if_pos (hbs b (List.mem_cons_self _ _))]
    exact ih (fun x hx => hbs x (List.mem_cons_of_mem _ hx))

/-- The text that starts with blanks and then a character that ends a number. -/
theorem ends_number_blanks (bs : List Char) (c : Char) (rest : List Char)
    (hbs : ∀ b ∈ bs, isblank b = true) (hc : ends_number [c] = true) :
    ends_number (bs ++ c :: rest) = true := by
  cases bs with
  | nil => exact hc
  | cons b bs => exact blank_facts (hbs b (List.mem_cons_self _ _))

theorem parse_loop_adjacent {D : Type} (A : Arith D) (pf : List Char → Res (expr_factor_t D))
    (c : Char) (rest : List Char) (hc : c ∈ "&|=!<>*/^".toList)
    (oper : Option Nat) (level : Nat) (fs : List (expr_factor_t D)) :
    parse_loop A pf (c :: rest) 0 oper true level fs
      = ([Event.push_error_message "two adjacent operators" []], Ret.fail) := by
  have hfacts : ∀ c ∈ "&|=!<>*/^".toList, isblank c = false
      ∧ strchr operators c = some (operators.indexOf c) ∧ c ≠ '(' ∧ c ≠ ')'
      ∧ ¬ (c = '+' ∨ c = '-') := by decide
  obtain ⟨h1, h2, h3, h4, h5⟩ := hfacts c hc
  rw [parse_loop]
  simp only [h1, h2, h3, h4, h5, if_false, if_true, Bool.false_eq_true]

/-! ## Two adjacent operators -/

/-- One of `& | = ! < > * / ^` as the next non-blank character stops the builder
with the message "two adjacent operators": at the loop, in any state in which the
last thing met was an operator, right after a binary operator and right after an
opening bracket that the loop steps on; and for whole sources `a o c ...` (a
number, a binary operator, the offending operator, with blanks in between) and
`( c ...`. -/
theorem adjacent_operators_at_loop {D : Type} (A : Arith D) (ns : Namespace)
    (pf : List Char → Res (expr_factor_t D)) (bs rest : List Char) (c : Char)
    (hbs : ∀ b ∈ bs, isblank b = true) (hc : c ∈ "&|=!<>*/^".toList) :
    (∀ oper level fs, parse_loop A pf (bs ++ c :: rest) 0 oper true level fs
      = ([Event.push_error_message "two adjacent operators" []], Ret.fail))
    ∧ (∀ o ∈ binary_operators, ∀ oper level fs,
        parse_loop A pf (o :: (bs ++ c :: rest)) 0 oper false level fs
          = ([Event.push_error_message "two adjacent operators" []], Ret.fail))
    ∧ (∀ oper last level fs, parse_loop A pf ('(' :: (bs ++ c :: rest)) 0 oper last level fs
        = ([Event.push_error_message "two adjacent operators" []], Ret.fail))
    ∧ (∀ a bs1, is_digits a = true → (∀ b ∈ bs1, isblank b = true) →
        ∀ o ∈ binary_operators,
        feenox_expression_parse A ns (a ++ (bs1 ++ o :: (bs ++ c :: rest)))
          = ([Event.push_error_message "two adjacent operators" []], Ret.fail))
    ∧ feenox_expression_parse A ns ('(' :: (bs ++ c :: rest))
        = ([Event.push_error_message "two adjacent operators" []], Ret.fail) := by
  have hloop : ∀ (pf : List Char → Res (expr_factor_t D)) oper level fs,
      parse_loop A pf (bs ++ c :: rest) 0 oper true level fs
        = ([Event.push_error_message "two adjacent operators" []], Ret.fail) := by
    intro pf oper level fs
    rw [parse_loop_blanks A pf bs _ hbs, parse_loop_adjacent A pf c rest hc]
  have hop : ∀ (pf : List Char → Res (expr_factor_t D)), ∀ o ∈ binary_operators,
      ∀ oper level fs, parse_loop A pf (o :: (bs ++ c :: rest)) 0 oper false level fs
        = ([Event.push_error_message "two adjacent operators" []], Ret.fail) := by
    intro pf o ho oper level fs
    obtain ⟨h1, h2, h3, h4, -⟩ := binary_operator_facts o ho
    rw [parse_loop_binop A pf o _ _ _ _ _ h1 h2 h3 h4, hloop]
  refine ⟨hloop pf, hop pf, ?_, ?_, ?_⟩
  · intro oper last level fs
    rw [parse_loop_open, hloop]
  · intro a bs1 ha hbs1 o ho
    obtain ⟨-, -, -, -, -, -, -, h8⟩ := binary_operator_facts o ho
    unfold feenox_expression_parse
    rw [parse_depth_succ A ns _ _ (by simp [is_digits_ne_nil ha])]
    rw [parse_loop_digits A ns _ a _ ha (ends_number_blanks bs1 o _ hbs1 h8)]
    rw [parse_loop_blanks A _ bs1 _ hbs1, hop _ o ho]
  · unfold feenox_expression_parse
    rw [parse_depth_succ A ns _ _ (by simp)]
    rw [parse_loop_open, hloop]

/-! ## An operator at the end of the source -/

theorem parse_loop_end_blanks {D : Type} (A : Arith D) (pf : List Char → Res (expr_factor_t D))
    (bs : List Char) (hbs : ∀ b ∈ bs, isblank b = true)
    (oper : Option Nat) (last : Bool) (level : Nat) (fs : List (expr_factor_t D)) :
    parse_loop A pf bs 0 oper last level fs = parse_loop A pf [] 0 oper last level fs := by
  have := parse_loop_blanks A pf bs [] hbs oper last level fs
  rwa [List.append_nil] at this

/-- C17: a binary operator that follows an operand and is the last non-blank
character of the source makes the builder return `FEENOX_ERROR`: at the loop, with
the message "missing argument for operator" naming the operator (the message is
the one of the unmatched bracket when the nesting level is not back at 1); and
for whole sources `a o` and `(a) o` with a number `a`, blanks allowed around the
operator. -/
theorem C17_trailing_operator {D : Type} (A : Arith D) (ns : Namespace)
    (pf : List Char → Res (expr_factor_t D)) (o : Char) (bs : List Char)
    (ho : o ∈ binary_operators) (hbs : ∀ b ∈ bs, isblank b = true) :
    (∀ oper level fs, parse_loop A pf (o :: bs) 0 oper false level fs
      = if level ≠ 1 then
          ([Event.push_error_message "unmatched opening bracket in algebraic expression" []],
            Ret.fail)
        else
          ([Event.push_error_message "missing argument for operator '%c'" [msg_arg.chr o]],
            Ret.fail))
    ∧ (∀ a bs1, is_digits a = true → (∀ b ∈ bs1, isblank b = true) →
        feenox_expression_parse A ns (a ++ (bs1 ++ o :: bs))
          = ([Event.push_error_message "missing argument for operator '%c'" [msg_arg.chr o]],
              Ret.fail))
    ∧ (∀ a bs1, is_digits a = true → (∀ b ∈ bs1, isblank b = true) →
        feenox_expression_parse A ns ('(' :: (a ++ ')' :: (bs1 ++ o :: bs)))
          = ([Event.push_error_message "missing argument for operator '%c'" [msg_arg.chr o]],
              Ret.fail)) := by
  obtain ⟨h1, h2, h3, h4, h5, -, -, h8⟩ := binary_operator_facts o ho
  have hloop : ∀ (pf : List Char → Res (expr_factor_t D)) oper level fs,
      parse_loop A pf (o :: bs) 0 oper false level fs
      = if level ≠ 1 then
          ([Event.push_error_message "unmatched opening bracket in algebraic expression" []],
            Ret.fail)
        else
          ([Event.push_error_message "missing argument for operator '%c'" [msg_arg.chr o]],
            Ret.fail) := by
    intro pf oper level fs
    rw [parse_loop_binop A pf o _ _ _ _ _ h1 h2 h3 h4, parse_loop_end_blanks A pf bs hbs]
    unfold parse_loop
    simp only [h5, h4, ne_eq, not_false_eq_true, if_true]
  refine ⟨hloop pf, ?_, ?_⟩
  · intro a bs1 ha hbs1
    unfold feenox_expression_parse
    rw [parse_depth_succ A ns _ _ (by simp [is_digits_ne_nil ha])]
    rw [parse_loop_digits A ns _ a _ ha (ends_number_blanks bs1 o _ hbs1 h8)]
    rw [parse_loop_blanks A _ bs1 _ hbs1, hloop]
    rfl
  · intro a bs1 ha hbs1
    unfold feenox_expression_parse
    rw [parse_depth_succ A ns _ _ (by simp)]
    rw [parse_loop_open]
    rw [parse_loop_digits A ns _ a _ ha (ends_number_cons _ _ (by decide))]
    rw [parse_loop_close]
    rw [parse_loop_blanks A _ bs1 _ hbs1, hloop]
    rfl

/-- Witness of C17: `2+` and `2* ` are rejected with the message of the missing
argument. -/
theorem C17_trailing_operator_witness :
    feenox_expression_parse exact sample_ns "2+".toList
      = ([Event.push_error_message "missing argument for operator '%c'" [msg_arg.chr '+']],
          Ret.fail)
    ∧ feenox_expression_parse exact sample_ns "2* ".toList
      = ([Event.push_error_message "missing argument for operator '%c'" [msg_arg.chr '*']],
          Ret.fail) :=
  ⟨(C17_trailing_operator exact sample_ns
      (feenox_expression_parse_factor exact sample_ns (feenox_expression_parse exact sample_ns))
      '+' [] (by decide) (by decide)).2.1 "2".toList [] (by decide) (by decide),
   (C17_trailing_operator exact sample_ns
      (feenox_expression_parse_factor exact sample_ns (feenox_expression_parse exact sample_ns))
      '*' " ".toList (by decide) (by decide)).2.1 "2".toList [] (by decide) (by decide)⟩

/-! ## Precedence tiers and bracket depth -/

theorem operator_factor_tier {D : Type} (A : Arith D) (level : Nat) (c : Char)
    (hc : c ∈ binary_operators) :
    operator_factor A level (operators.indexOf c)
      = tier_factor A ((level + 2 * tier c) % SIZE_MAX1) (operators.indexOf c + 1) := by
  obtain ⟨-, -, -, -, -, -, h7, -⟩ := binary_operator_facts c hc
  unfold operator_factor tier_factor plain_factor
  rw [h7]
  rfl

/-- C18: a binary operator met after an operand becomes a factor of type
`EXPR_OPERATOR` whose `oper` is the 1-based index of the operator in the table
`&|=!<>+-*/^()` and whose level is the current nesting level plus twice the tier of
the operator, in the unsigned arithmetic of the level (no wrap when the level is
at least 10 below the largest value); an operand, also one with a folded sign,
gets the current nesting level.  For whole sources `a c b` and `(a c b)` with
numbers `a` and `b` the levels are 1 and `1 + 2 t`, and 14 and `14 + 2 t`. -/
theorem C18_precedence_tiers {D : Type} (A : Arith D) (ns : Namespace)
    (pf : List Char → Res (expr_factor_t D)) (c : Char) (hc : c ∈ binary_operators) :
    operators = "&|=!<>+-*/^()".toList
    ∧ strchr operators c = some (operators.indexOf c)
    ∧ (∀ rest oper level fs, parse_loop A pf (c :: rest) 0 oper false level fs
        = parse_loop A pf rest 0 (some (operators.indexOf c)) true level
            (fs ++ [tier_factor A ((level + 2 * tier c) % SIZE_MAX1) (operators.indexOf c + 1)]))
    ∧ (∀ level, level + 10 < SIZE_MAX1 → (level + 2 * tier c) % SIZE_MAX1 = level + 2 * tier c)
    ∧ (∀ d rest log f oper last level fs, isblank d = false → strchr operators d = none →
        pf (d :: rest) = (log, Ret.ok f) → f.n_chars ≠ 0 →
        parse_loop A pf (d :: rest) 0 oper last level fs
          = (log ++ (parse_loop A pf rest (f.n_chars - 1) none false level
                      (fs ++ [{ f with level := level }])).1,
             (parse_loop A pf rest (f.n_chars - 1) none false level
                      (fs ++ [{ f with level := level }])).2))
    ∧ (∀ d rest log f oper level fs, d = '+' ∨ d = '-' →
        pf (d :: rest) = (log, Ret.ok f) → f.n_chars ≠ 0 →
        parse_loop A pf (d :: rest) 0 oper true level fs
          = (log ++ (parse_loop A pf rest (f.n_chars - 1) (some (operators.indexOf d)) false level
                      (fs ++ [{ f with level := level }])).1,
             (parse_loop A pf rest (f.n_chars - 1) (some (operators.indexOf d)) false level
                      (fs ++ [{ f with level := level }])).2))
    ∧ (∀ a b, is_digits a = true → is_digits b = true →
        feenox_expression_parse A ns (a ++ c :: b)
          = ([], Ret.ok ⟨[digits_factor A a 1,
                tier_factor A (1 + 2 * tier c) (operators.indexOf c + 1),
                digits_factor A b 1], a ++ c :: b⟩))
    ∧ (∀ a b, is_digits a = true → is_digits b = true →
        feenox_expression_parse A ns ('(' :: (a ++ c :: (b ++ [')'])))
          = ([], Ret.ok ⟨[digits_factor A a 14,
                tier_factor A (14 + 2 * tier c) (operators.indexOf c + 1),
                digits_factor A b 14], '(' :: (a ++ c :: (b ++ [')']))⟩)) := by
  obtain ⟨h1, h2, h3, h4, h5, h6, h7, h8⟩ := binary_operator_facts c hc
  have ht : tier c ≤ 5 := by
    unfold tier
    split_ifs <;> omega
  have hmod : ∀ level, level + 10 < SIZE_MAX1 →
      (level + 2 * tier c) % SIZE_MAX1 = level + 2 * tier c := by
    intro level hl
    exact Nat.mod_eq_of_lt (by omega)
  refine ⟨rfl, h2, ?_, hmod, ?_, ?_, ?_, ?_⟩
  · intro rest oper level fs
    rw [parse_loop_binop A pf c _ _ _ _ _ h1 h2 h3 h4, operator_factor_tier A level c hc]
  · intro d rest log f oper last level fs hb hop hpf hn
    rw [parse_loop]
    simp only [hb, hop, hpf, hn, if_false, Bool.false_eq_true]
  · intro d rest log f oper level fs hd hpf hn
    have hfacts : ∀ d, d = '+' ∨ d = '-' → isblank d = false
        ∧ strchr operators d = some (operators.indexOf d) ∧ d ≠ '(' ∧ d ≠ ')' := by
      rintro d (h | h) <;> subst h <;> decide
    obtain ⟨g1, g2, g3, g4⟩ := hfacts d hd
    rw [parse_loop]
    simp only [g1, g2, g3, g4, hd, hpf, hn, if_false, if_true, Bool.false_eq_true]
  · intro a b ha hb
    have := parse_one_operator A ns a b ha hb c (operators.indexOf c) ⟨h1, h2, h3, h4, h8⟩
    rw [this, operator_factor_tier A 1 c hc, hmod 1 (by decide)]
  · intro a b ha hb
    unfold feenox_expression_parse
    rw [parse_depth_succ A ns _ _ (by simp)]
    rw [parse_loop_open]
    rw [parse_loop_digits A ns _ a (c :: (b ++ [')'])) ha h8]
    rw [parse_loop_binop A _ c _ _ _ _ _ h1 h2 h3 h4]
    rw [parse_loop_digits A ns _ b _ hb (ends_number_cons _ _ (by decide))]
    rw [parse_loop_close]
    rw [operator_factor_tier A _ c hc, hmod _ (by decide)]
    simp only [parse_loop]
    rfl

/-- Witness of C18: in `2^3` the factor of `^` has code 11 and level 11, in `(2+3)`
the factor of `+` has code 7 and level 20. -/
theorem C18_precedence_tiers_witness :
    feenox_expression_parse exact sample_ns "2^3".toList
      = ([], Ret.ok ⟨[digits_factor exact "2".toList 1, tier_factor exact 11 11,
            digits_factor exact "3".toList 1], "2^3".toList⟩)
    ∧ feenox_expression_parse exact sample_ns "(2+3)".toList
      = ([], Ret.ok ⟨[digits_factor exact "2".toList 14, tier_factor exact 20 7,
            digits_factor exact "3".toList 14], "(2+3)".toList⟩) :=
  ⟨(C18_precedence_tiers exact sample_ns
      (feenox_expression_parse_factor exact sample_ns (feenox_expression_parse exact sample_ns))
      '^' (by decide)).2.2.2.2.2.2.1 "2".toList "3".toList (by decide) (by decide),
   (C18_precedence_tiers exact sample_ns
      (feenox_expression_parse_factor exact sample_ns (feenox_expression_parse exact sample_ns))
      '+' (by decide)).2.2.2.2.2.2.2 "2".toList "3".toList (by decide) (by decide)⟩

theorem nesting_level_iterate (d : Nat) (h : 13 * d + 1 < SIZE_MAX1) :
    Nat.iterate (fun level => (level + operators.length) % SIZE_MAX1) d 1 = 1 + 13 * d := by
  induction d with
  | zero => rfl
  | succ n ih =>
    rw [Function.iterate_succ_apply', ih (by omega)]
    have : operators.length = 13 := rfl
    rw [this, Nat.mod_eq_of_lt (by omega)]
    ring

/-! ## The evaluator leaves the structure of the expression alone -/

/-- The body of `pass1_factor` on a factor given by its fields. -/
theorem pass1_factor_unfold {D : Type} (A : Arith D) (X : Externals D)
    (n_chars type level tmp_level oper : Nat) (constant value : D)
    (builtin_function : Option builtin_function_t)
    (builtin_vectorfunction : Option builtin_vectorfunction_t)
    (builtin_functional : Option builtin_functional_t)
    (var vector matrix : Option (List Char)) (function : Option function_t)
    (vector_arg : List (Option (List Char))) (functional_var_arg : Option (List Char))
    (arg : List (expr_t D)) (w : World D) :
    pass1_factor A X (expr_factor_t.mk n_chars type level tmp_level oper constant value
      builtin_function builtin_vectorfunction builtin_functional var vector matrix function
      vector_arg functional_var_arg arg) w
    = (
    let factor : expr_factor_t D := expr_factor_t.mk n_chars type level level oper constant value
      builtin_function builtin_vectorfunction builtin_functional var vector matrix function
      vector_arg functional_var_arg arg
    if type &&& EXPR_BASICTYPE_MASK = EXPR_CONSTANT then
      some ({ factor with value := constant }, w, false)
    else if type &&& EXPR_BASICTYPE_MASK = EXPR_VARIABLE then
      if type = EXPR_VARIABLE ||| EXPR_CURRENT then
        match var with
        | none => none
        | some x => some ({ factor with value := (w.var x).value }, w, false)
      else if type = EXPR_VARIABLE ||| EXPR_INITIAL_TRANSIENT then
        match var with
        | none => none
        | some x => some ({ factor with value := (w.var x).initial_transient }, w, false)
      else if type = EXPR_VARIABLE ||| EXPR_INITIAL_STATIC then
        match var with
        | none => none
        | some x => some ({ factor with value := (w.var x).initial_static }, w, false)
      else some (factor, w, false)
    else if type &&& EXPR_BASICTYPE_MASK = EXPR_VECTOR then
      match vector with
      | none => none
      | some v =>
        -- we need to initialize here so we have the size for the check that follows
        let w1 :=
          if (w.vector v).initialized = 0 then
            if (X.feenox_vector_init v w).1 ≠ 0 then
              (X.feenox_vector_init v w).2.push
                [Event.push_error_message "initialization of vector '%s' failed" [msg_arg.str v],
                 Event.runtime_error]
            else (X.feenox_vector_init v w).2
          else w
        match eval_arg A X arg 0 w1 with
        | none => none
        | some (x, e0, w2) =>
          if to_size_t (A.lrint x) = 0 ∨ to_size_t (A.lrint x) > to_size_t (w2.vector v).size then
            some ({ factor with arg := arg.set 0 e0 },
              w2.push [Event.push_error_message "subindex %d out of range for vector %s"
                         [msg_arg.int (to_size_t (A.lrint x)), msg_arg.str v],
                       Event.runtime_error], true)
          else if type = EXPR_VECTOR ||| EXPR_CURRENT then
            some ({ factor with arg := arg.set 0 e0,
                                value := (w2.vector v).value (to_size_t (A.lrint x) - 1) },
              w2, false)
          else if type = EXPR_VECTOR ||| EXPR_INITIAL_TRANSIENT then
            some ({ factor with arg := arg.set 0 e0,
                                value := (w2.vector v).initial_transient
                                  (to_size_t (A.lrint x) - 1) }, w2, false)
          else if type = EXPR_VECTOR ||| EXPR_INITIAL_STATIC then
            some ({ factor with arg := arg.set 0 e0,
                                value := (w2.vector v).initial_static
                                  (to_size_t (A.lrint x) - 1) }, w2, false)
          else some ({ factor with arg := arg.set 0 e0 }, w2, false)
    else if type &&& EXPR_BASICTYPE_MASK = EXPR_MATRIX then
      match matrix with
      | none => none
      | some m =>
        let w1 : Option (World D) :=
          if (w.matrix m).initialized = 0 then
            if (X.feenox_matrix_init m w).1 ≠ 0 then
              -- the message reads factor->vector->name
              match vector with
              | none => none
              | some v => some ((X.feenox_matrix_init m w).2.push
                  [Event.push_error_message "initialization of vector '%s' failed"
                     [msg_arg.str v], Event.runtime_error])
            else some (X.feenox_matrix_init m w).2
          else some w
        match w1 with
        | none => none
        | some w1 =>
        match eval_arg A X arg 0 w1 with
        | none => none
        | some (x, e0, w2) =>
          if to_size_t (A.lrint x) = 0 ∨ to_size_t (A.lrint x) > to_size_t (w2.matrix m).rows then
            some ({ factor with arg := arg.set 0 e0 },
              w2.push [Event.push_error_message "row subindex %d out of range for matrix %s"
                         [msg_arg.int (to_size_t (A.lrint x)), msg_arg.str m],
                       Event.runtime_error], true)
          else
          match eval_arg A X arg 1 w2 with
          | none => none
          | some (y, e1, w3) =>
            if to_size_t (A.lrint y) = 0 ∨ to_size_t (A.lrint y) > to_size_t (w3.matrix m).cols
            then
              some ({ factor with arg := (arg.set 0 e0).set 1 e1 },
                w3.push [Event.push_error_message "column subindex %d out of range for matrix %s"
                           [msg_arg.int (to_size_t (A.lrint y)), msg_arg.str m],
                         Event.runtime_error], true)
            else if type = EXPR_MATRIX ||| EXPR_CURRENT then
              some ({ factor with arg := (arg.set 0 e0).set 1 e1,
                                  value := (w3.matrix m).value (to_size_t (A.lrint x) - 1)
                                    (to_size_t (A.lrint y) - 1) }, w3, false)
            else if type = EXPR_MATRIX ||| EXPR_INITIAL_TRANSIENT then
              some ({ factor with arg := (arg.set 0 e0).set 1 e1,
                                  value := (w3.matrix m).initial_transient (to_size_t (A.lrint x) - 1)
                                    (to_size_t (A.lrint y) - 1) }, w3, false)
            else if type = EXPR_MATRIX ||| EXPR_INITIAL_STATIC then
              some ({ factor with arg := (arg.set 0 e0).set 1 e1,
                                  value := (w3.matrix m).initial_static (to_size_t (A.lrint x) - 1)
                                    (to_size_t (A.lrint y) - 1) }, w3, false)
            else some ({ factor with arg := (arg.set 0 e0).set 1 e1 }, w3, false)
    else if type &&& EXPR_BASICTYPE_MASK = EXPR_BUILTIN_FUNCTION then
      match builtin_function with
      | none => none
      | some b =>
        some ({ factor with value := (X.builtin_function_routine b factor w).1 },
          (X.builtin_function_routine b factor w).2, false)
    else if type &&& EXPR_BASICTYPE_MASK = EXPR_BUILTIN_VECTORFUNCTION then
      match builtin_vectorfunction with
      | none => none
      | some b =>
        some ({ factor with value := (X.builtin_vectorfunction_routine b vector_arg w).1 },
          (X.builtin_vectorfunction_routine b vector_arg w).2, false)
    else if type &&& EXPR_BASICTYPE_MASK = EXPR_BUILTIN_FUNCTIONAL then
      match builtin_functional with
      | none => none
      | some b =>
        some ({ factor with
                value := (X.builtin_functional_routine b factor functional_var_arg w).1 },
          (X.builtin_functional_routine b factor functional_var_arg w).2, false)
    else if type &&& EXPR_BASICTYPE_MASK = EXPR_FUNCTION then
      some ({ factor with value := (X.feenox_factor_function_eval factor w).1 },
        (X.feenox_factor_function_eval factor w).2, false)
    else some (factor, w, false)) := rfl

theorem skeleton_factors_map {D : Type} (A : Arith D) (fs : List (expr_factor_t D)) :
    skeleton_factors A fs = fs.map (skeleton_factor A) := by
  induction fs with
  | nil => simp [skeleton_factors]
  | cons f fs ih => simp [skeleton_factors, ih]

theorem skeleton_args_map {D : Type} (A : Arith D) (es : List (expr_t D)) :
    skeleton_args A es = es.map (skeleton_expr A) := by
  induction es with
  | nil => simp [skeleton_args]
  | cons e es ih => simp [skeleton_args, ih]

theorem set_same {α : Type} (l : List α) (i : Nat) (x : α) (h : l.get? i = some x) :
    l.set i x = l := by
  induction l generalizing i with
  | nil => rfl
  | cons a l ih =>
    cases i with
    | zero =>
      simp only [List.get?_cons_zero, Option.some.injEq] at h
      rw [h]
      rfl
    | succ j =>
      simp only [List.get?_cons_succ] at h
      simp only [List.set_cons_succ, ih j h]

theorem map_set_same {α β : Type} (f : α → β) (l : List α) (i : Nat) (x y : α)
    (h : l.get? i = some x) (hf : f y = f x) : (l.set i y).map f = l.map f := by
  rw [List.map_set, hf]
  apply set_same
  simp only [List.get?_eq_getElem?, List.getElem?_map] at h ⊢
  rw [h]
  rfl

theorem skeleton_factor_scratch {D : Type} (A : Arith D) (f : expr_factor_t D) (v : D)
    (t : Nat) :
    skeleton_factor A { f with value := v } = skeleton_factor A f
    ∧ skeleton_factor A { f with tmp_level := t } = skeleton_factor A f := by
  cases f
  simp [skeleton_factor]

theorem pass2_scan_skeleton {D : Type} (A : Arith D) (zero : D) (level fuel P E : Nat)
    (fs : List (expr_factor_t D)) (log : List Event) (r : List (expr_factor_t D) × List Event)
    (h : pass2_scan A zero level fuel P E fs log = some r) :
    r.1.map (skeleton_factor A) = fs.map (skeleton_factor A) := by
  induction fuel generalizing P E fs log with
  | zero =>
    simp only [pass2_scan, Option.some.injEq] at h
    rw [← h]
  | succ n ih =>
    rw [pass2_scan] at h
    split at h
    · simp only [Option.some.injEq] at h
      rw [← h]
    · rename_i fE hE
      split at h
      · split at h
        · rename_i fP fN hP hN
          have := ih _ _ _ _ h
          rw [this]
          have hN2 : (fs.set P { fP with value := (apply_operator A zero
              (char_at operators (fE.oper - 1)) fP.value fN.value).1 }).map (skeleton_factor A)
              = fs.map (skeleton_factor A) :=
            map_set_same _ fs P fP _ hP (skeleton_factor_scratch A fP _ 0).1
          rw [List.map_set, hN2, (skeleton_factor_scratch A fN A.zero 0).2]
          apply set_same
          simp only [List.get?_eq_getElem?, List.getElem?_map] at hN ⊢
          rw [hN]
          rfl
        · exact absurd h (by simp)
      · exact ih _ _ _ _ h

theorem pass2_skeleton {D : Type} (A : Arith D) (zero : D) (level : Nat)
    (fs : List (expr_factor_t D)) (log : List Event) (r : List (expr_factor_t D) × List Event)
    (h : pass2 A zero level fs log = some r) :
    r.1.map (skeleton_factor A) = fs.map (skeleton_factor A) := by
  induction level generalizing fs log with
  | zero =>
    simp only [pass2, Option.some.injEq] at h
    rw [← h]
  | succ n ih =>
    rw [pass2] at h
    split at h
    · exact absurd h (by simp)
    · rename_i fs1 log1 heq
      rw [ih _ _ h]
      exact pass2_scan_skeleton A zero _ _ _ _ _ _ _ heq

theorem skeleton_args_set {D : Type} (A : Arith D) (arg : List (expr_t D)) (i : Nat)
    (e0 e : expr_t D) (hget : arg.get? i = some e)
    (h : skeleton_expr A e0 = skeleton_expr A e) :
    skeleton_args A (arg.set i e0) = skeleton_args A arg := by
  rw [skeleton_args_map, skeleton_args_map]
  exact map_set_same _ arg i e e0 hget h

theorem skeleton_args_set_none {D : Type} (A : Arith D) (arg : List (expr_t D)) (i : Nat)
    (e0 : expr_t D) (hget : arg.get? i = none) :
    skeleton_args A (arg.set i e0) = skeleton_args A arg := by
  have : arg.length ≤ i := by
    simpa [List.get?_eq_getElem?] using hget
  rw [List.set_eq_of_length_le this]

theorem skeleton_factor_update {D : Type} (A : Arith D) (f : expr_factor_t D) (v : D)
    (a : List (expr_t D)) (h : skeleton_args A a = skeleton_args A f.arg) :
    skeleton_factor A { f with value := v, arg := a } = skeleton_factor A f := by
  cases f
  simp only [skeleton_factor] at h ⊢
  rw [h]

theorem skeleton_args_set_two {D : Type} (A : Arith D) (arg : List (expr_t D))
    (e0 e1 : expr_t D)
    (h0 : ∃ e, arg.get? 0 = some e ∧ skeleton_expr A e0 = skeleton_expr A e)
    (h1 : ∃ e, arg.get? 1 = some e ∧ skeleton_expr A e1 = skeleton_expr A e) :
    skeleton_args A ((arg.set 0 e0).set 1 e1) = skeleton_args A arg := by
  obtain ⟨a0, g0, s0⟩ := h0
  obtain ⟨a1, g1, s1⟩ := h1
  have : (arg.set 0 e0).get? 1 = some a1 := by
    cases arg with
    | nil => simp at g0
    | cons x xs => simpa using g1
  rw [skeleton_args_set A _ 1 e1 a1 this s1, skeleton_args_set A _ 0 e0 a0 g0 s0]

/-- What pass 1 does to one factor: `tmp_level` becomes `level`, `value` may be
written, and the argument expressions that were evaluated are stored back. -/
theorem pass1_factor_shape {D : Type} (A : Arith D) (X : Externals D)
    (n_chars type level tmp_level oper : Nat) (constant value : D)
    (builtin_function : Option builtin_function_t)
    (builtin_vectorfunction : Option builtin_vectorfunction_t)
    (builtin_functional : Option builtin_functional_t)
    (var vector matrix : Option (List Char)) (function : Option function_t)
    (vector_arg : List (Option (List Char))) (functional_var_arg : Option (List Char))
    (arg : List (expr_t D)) (w : World D) (r : expr_factor_t D × World D × Bool)
    (h : pass1_factor A X (expr_factor_t.mk n_chars type level tmp_level oper constant value
      builtin_function builtin_vectorfunction builtin_functional var vector matrix function
      vector_arg functional_var_arg arg) w = some r) :
    ∃ v a, r.1 = expr_factor_t.mk n_chars type level level oper constant v
        builtin_function builtin_vectorfunction builtin_functional var vector matrix function
        vector_arg functional_var_arg a
      ∧ (a = arg ∨ (∃ w1 x e0 w2, eval_arg A X arg 0 w1 = some (x, e0, w2)
          ∧ (a = arg.set 0 e0 ∨ ∃ y e1 w3, eval_arg A X arg 1 w2 = some (y, e1, w3)
            ∧ a = (arg.set 0 e0).set 1 e1))) := by
  rw [pass1_factor_unfold] at h
  lift_lets at h
  extract_lets factor at h
  have key : ∀ (v : D) (a : List (expr_t D)) (w1 : World D) (b : Bool),
      (a = arg ∨ (∃ w1 x e0 w2, eval_arg A X arg 0 w1 = some (x, e0, w2)
          ∧ (a = arg.set 0 e0 ∨ ∃ y e1 w3, eval_arg A X arg 1 w2 = some (y, e1, w3)
            ∧ a = (arg.set 0 e0).set 1 e1))) →
      some (({ factor with value := v, arg := a } : expr_factor_t D), w1, b) = some r →
      ∃ v a, r.1 = expr_factor_t.mk n_chars type level level oper constant v
        builtin_function builtin_vectorfunction builtin_functional var vector matrix function
        vector_arg functional_var_arg a
      ∧ (a = arg ∨ (∃ w1 x e0 w2, eval_arg A X arg 0 w1 = some (x, e0, w2)
          ∧ (a = arg.set 0 e0 ∨ ∃ y e1 w3, eval_arg A X arg 1 w2 = some (y, e1, w3)
            ∧ a = (arg.set 0 e0).set 1 e1))) := by
    intro v a w1 b ha hr
    simp only [Option.some.injEq] at hr
    rw [← hr]
    exact ⟨v, a, rfl, ha⟩
  have self : ∀ (w1 : World D) (b : Bool), some (factor, w1, b) = some r →
      ∃ v a, r.1 = expr_factor_t.mk n_chars type level level oper constant v
        builtin_function builtin_vectorfunction builtin_functional var vector matrix function
        vector_arg functional_var_arg a
      ∧ (a = arg ∨ (∃ w1 x e0 w2, eval_arg A X arg 0 w1 = some (x, e0, w2)
          ∧ (a = arg.set 0 e0 ∨ ∃ y e1 w3, eval_arg A X arg 1 w2 = some (y, e1, w3)
            ∧ a = (arg.set 0 e0).set 1 e1))) := by
    intro w1 b hr
    simp only [Option.some.injEq] at hr
    rw [← hr]
    exact ⟨value, arg, rfl, Or.inl rfl⟩
  have harg : factor.arg = arg := rfl
  clear_value factor
  by_cases c1 : type &&& EXPR_BASICTYPE_MASK = EXPR_CONSTANT
  · rw [if_pos c1] at h
    exact key _ _ _ _ (Or.inl harg) h
  rw [if_neg c1] at h
  by_cases c2 : type &&& EXPR_BASICTYPE_MASK = EXPR_VARIABLE
  · rw [if_pos c2] at h
    split at h
    · split at h
      · exact absurd h (by simp)
      · exact key _ _ _ _ (Or.inl harg) h
    · split at h
      · split at h
        · exact absurd h (by simp)
        · exact key _ _ _ _ (Or.inl harg) h
      · split at h
        · split at h
          · exact absurd h (by simp)
          · exact key _ _ _ _ (Or.inl harg) h
        · exact self _ _ h
  rw [if_neg c2] at h
  by_cases c3 : type &&& EXPR_BASICTYPE_MASK = EXPR_VECTOR
  · rw [if_pos c3] at h
    split at h
    · exact absurd h (by simp)
    · rename_i v
      dsimp only at h
      split at h
      · exact absurd h (by simp)
      · rename_i x e0 w2 he
        have ha : arg.set 0 e0 = arg ∨ (∃ w1 x e0' w2, eval_arg A X arg 0 w1 = some (x, e0', w2)
            ∧ (arg.set 0 e0 = arg.set 0 e0' ∨ ∃ y e1 w3, eval_arg A X arg 1 w2 = some (y, e1, w3)
              ∧ arg.set 0 e0 = (arg.set 0 e0').set 1 e1)) :=
          Or.inr ⟨_, _, _, _, he, Or.inl rfl⟩
        split at h
        · exact key _ _ _ _ ha h
        · split at h
          · exact key _ _ _ _ ha h
          · split at h
            · exact key _ _ _ _ ha h
            · split at h
              · exact key _ _ _ _ ha h
              · exact key _ _ _ _ ha h
  rw [if_neg c3] at h
  by_cases c4 : type &&& EXPR_BASICTYPE_MASK = EXPR_MATRIX
  · rw [if_pos c4] at h
    split at h
    · exact absurd h (by simp)
    · rename_i m
      dsimp only at h
      split at h
      · exact absurd h (by simp)
      · rename_i w1 hw1
        split at h
        · exact absurd h (by simp)
        · rename_i x e0 w2 he
          have ha : arg.set 0 e0 = arg ∨ (∃ w1 x e0' w2, eval_arg A X arg 0 w1 = some (x, e0', w2)
            ∧ (arg.set 0 e0 = arg.set 0 e0' ∨ ∃ y e1 w3, eval_arg A X arg 1 w2 = some (y, e1, w3)
              ∧ arg.set 0 e0 = (arg.set 0 e0').set 1 e1)) :=
          Or.inr ⟨_, _, _, _, he, Or.inl rfl⟩
          split at h
          · exact key _ _ _ _ ha h
          · split at h
            · exact absurd h (by simp)
            · rename_i y e1 w3 he1
              have ha1 : (arg.set 0 e0).set 1 e1 = arg ∨ (∃ w1 x e0' w2,
                  eval_arg A X arg 0 w1 = some (x, e0', w2)
                  ∧ ((arg.set 0 e0).set 1 e1 = arg.set 0 e0' ∨ ∃ y e1' w3,
                    eval_arg A X arg 1 w2 = some (y, e1', w3)
                    ∧ (arg.set 0 e0).set 1 e1 = (arg.set 0 e0').set 1 e1')) :=
                Or.inr ⟨_, _, _, _, he, Or.inr ⟨_, _, _, he1, rfl⟩⟩
              split at h
              · exact key _ _ _ _ ha1 h
              · split at h
                · exact key _ _ _ _ ha1 h
                · split at h
                  · exact key _ _ _ _ ha1 h
                  · split at h
                    · exact key _ _ _ _ ha1 h
                    · exact key _ _ _ _ ha1 h
  rw [if_neg c4] at h
  by_cases c5 : type &&& EXPR_BASICTYPE_MASK = EXPR_BUILTIN_FUNCTION
  · rw [if_pos c5] at h
    split at h
    · exact absurd h (by simp)
    · exact key _ _ _ _ (Or.inl harg) h
  rw [if_neg c5] at h
  by_cases c6 : type &&& EXPR_BASICTYPE_MASK = EXPR_BUILTIN_VECTORFUNCTION
  · rw [if_pos c6] at h
    split at h
    · exact absurd h (by simp)
    · exact key _ _ _ _ (Or.inl harg) h
  rw [if_neg c6] at h
  by_cases c7 : type &&& EXPR_BASICTYPE_MASK = EXPR_BUILTIN_FUNCTIONAL
  · rw [if_pos c7] at h
    split at h
    · exact absurd h (by simp)
    · exact key _ _ _ _ (Or.inl harg) h
  rw [if_neg c7] at h
  by_cases c8 : type &&& EXPR_BASICTYPE_MASK = EXPR_FUNCTION
  · rw [if_pos c8] at h
    exact key _ _ _ _ (Or.inl harg) h
  rw [if_neg c8] at h
  exact self _ _ h

mutual

theorem eval_skeleton {D : Type} (A : Arith D) (X : Externals D) :
    ∀ (e : expr_t D) (w : World D) (r : D × expr_t D × World D),
      feenox_expression_eval A X e w = some r → skeleton_expr A r.2.1 = skeleton_expr A e
  | ⟨factors, string⟩, w, r, h => by
    have hp := pass1_skeleton A X factors w
    unfold feenox_expression_eval at h
    split at h
    · simp only [Option.some.injEq] at h
      rw [← h]
    · rename_i f fs
      split at h
      · exact absurd h (by simp)
      · rename_i factors1 w1 heq
        simp only [Option.some.injEq] at h
        rw [← h]
        have := hp _ heq
        simp only [skeleton_expr]
        rw [this]
      · rename_i factors1 w1 heq
        split at h
        · exact absurd h (by simp)
        · rename_i factors2 log2 heq2
          simp only [Option.some.injEq] at h
          rw [← h]
          have := hp _ heq
          have h2 := pass2_skeleton A _ _ _ _ _ heq2
          simp only [skeleton_expr]
          rw [skeleton_factors_map, skeleton_factors_map] at this
          rw [skeleton_factors_map, skeleton_factors_map, h2]
          exact congrArg (fun l => (⟨l, string⟩ : expr_t D)) this

theorem pass1_skeleton {D : Type} (A : Arith D) (X : Externals D) :
    ∀ (fs : List (expr_factor_t D)) (w : World D)
      (r : List (expr_factor_t D) × World D × Bool),
      pass1 A X fs w = some r → skeleton_factors A r.1 = skeleton_factors A fs
  | [], w, r, h => by
    simp only [pass1, Option.some.injEq] at h
    rw [← h]
  | f :: fs, w, r, h => by
    have hf := pass1_factor_skeleton A X f w
    have hfs := pass1_skeleton A X fs
    rw [pass1] at h
    split at h
    · exact absurd h (by simp)
    · rename_i f1 w1 heq
      simp only [Option.some.injEq] at h
      rw [← h]
      simp only [skeleton_factors]
      rw [hf _ heq]
    · rename_i f1 w1 heq
      split at h
      · exact absurd h (by simp)
      · rename_i fs1 w2 returned heq2
        simp only [Option.some.injEq] at h
        rw [← h]
        simp only [skeleton_factors]
        rw [hf _ heq, hfs _ _ heq2]

theorem pass1_factor_skeleton {D : Type} (A : Arith D) (X : Externals D) :
    ∀ (f : expr_factor_t D) (w : World D) (r : expr_factor_t D × World D × Bool),
      pass1_factor A X f w = some r → skeleton_factor A r.1 = skeleton_factor A f
  | expr_factor_t.mk n_chars type level tmp_level oper constant value builtin_function
      builtin_vectorfunction builtin_functional var vector matrix function vector_arg
      functional_var_arg arg, w, r, h => by
    have h0 := eval_arg_skeleton A X arg 0
    have h1 := eval_arg_skeleton A X arg 1
    obtain ⟨v, a, hr, ha⟩ := pass1_factor_shape A X _ _ _ _ _ _ _ _ _ _ _ _ _ _ _ _ _ w r h
    rw [hr]
    simp only [skeleton_factor]
    rcases ha with ha | ⟨w1, x, e0, w2, he, ha | ⟨y, e1, w3, he1, ha⟩⟩
    · rw [ha]
    · obtain ⟨e, hg, hs⟩ := h0 w1 _ he
      rw [ha, skeleton_args_set A arg 0 e0 e hg hs]
    · rw [ha, skeleton_args_set_two A arg e0 e1 (h0 _ _ he) (h1 _ _ he1)]

theorem eval_arg_skeleton {D : Type} (A : Arith D) (X : Externals D) :
    ∀ (args : List (expr_t D)) (i : Nat) (w : World D) (r : D × expr_t D × World D),
      eval_arg A X args i w = some r →
      ∃ e, args.get? i = some e ∧ skeleton_expr A r.2.1 = skeleton_expr A e
  | [], i, w, r, h => by
    simp [eval_arg] at h
  | e :: es, 0, w, r, h => by
    rw [eval_arg] at h
    exact ⟨e, rfl, eval_skeleton A X e w r h⟩
  | e :: es, i + 1, w, r, h => by
    rw [eval_arg] at h
    exact eval_arg_skeleton A X es i w r h

end

theorem skeleton_factor_fields {D : Type} (A : Arith D) (f : expr_factor_t D) :
    (fun g : expr_factor_t D => (g.level, g.type, g.oper, g.constant)) (skeleton_factor A f)
      = (f.level, f.type, f.oper, f.constant) := by
  cases f
  simp [skeleton_factor]

theorem pass1_factor_reset {D : Type} (A : Arith D) (X : Externals D) (f : expr_factor_t D)
    (w : World D) (r : expr_factor_t D × World D × Bool)
    (h : pass1_factor A X f w = some r) : r.1.tmp_level = r.1.level := by
  cases f
  obtain ⟨v, a, hr, -⟩ := pass1_factor_shape A X _ _ _ _ _ _ _ _ _ _ _ _ _ _ _ _ _ w r h
  rw [hr]

theorem pass1_reset {D : Type} (A : Arith D) (X : Externals D) (fs : List (expr_factor_t D))
    (w : World D) (r : List (expr_factor_t D) × World D × Bool)
    (h : pass1 A X fs w = some r) :
    r.1.length = fs.length ∧ (r.2.2 = false → ∀ f ∈ r.1, f.tmp_level = f.level) := by
  induction fs generalizing w r with
  | nil =>
    simp only [pass1, Option.some.injEq] at h
    rw [← h]
    simp
  | cons f fs ih =>
    rw [pass1] at h
    split at h
    · exact absurd h (by simp)
    · rename_i f1 w1 heq
      simp only [Option.some.injEq] at h
      rw [← h]
      simp
    · rename_i f1 w1 heq
      split at h
      · exact absurd h (by simp)
      · rename_i fs1 w2 returned heq2
        simp only [Option.some.injEq] at h
        rw [← h]
        obtain ⟨hl, hr⟩ := ih _ _ heq2
        refine ⟨by simp only [List.length_cons]; rw [hl], ?_⟩
        intro hret g hg
        rcases List.mem_cons.mp hg with hg | hg
        · rw [hg]
          exact pass1_factor_reset A X f w _ heq
        · exact hr hret g hg

/-! ## Unmatched opening brackets -/

theorem top_level_brackets_bound {D : Type} (pf : List Char → Res (expr_factor_t D))
    (s : List Char) (skip : Nat) (last : Bool) (e : Int)
    (h : top_level_brackets pf s skip last = some e) :
    -(s.length : Int) ≤ e ∧ e ≤ s.length := by
  induction s generalizing skip last e with
  | nil =>
    unfold top_level_brackets at h
    simp only [Option.some.injEq] at h
    subst h
    simp
  | cons c rest ih =>
    simp only [List.length_cons]
    push_cast
    cases skip with
    | succ k =>
      simp only [top_level_brackets] at h
      have := ih _ _ _ h
      omega
    | zero =>
      rw [top_level_brackets] at h
      split at h
      · have := ih _ _ _ h
        omega
      · split at h
        · split at h
          · cases hr : top_level_brackets pf rest 0 true with
            | none => rw [hr] at h; simp at h
            | some e1 =>
              rw [hr] at h
              simp only [Option.map_some', Option.some.injEq] at h
              have := ih _ _ _ hr
              omega
          · split at h
            · cases hr : top_level_brackets pf rest 0 false with
              | none => rw [hr] at h; simp at h
              | some e1 =>
                rw [hr] at h
                simp only [Option.map_some', Option.some.injEq] at h
                have := ih _ _ _ hr
                omega
            · split at h
              · split at h
                · split at h
                  · split at h
                    · exact absurd h (by simp)
                    · have := ih _ _ _ h
                      omega
                  · exact absurd h (by simp)
                  · exact absurd h (by simp)
                · exact absurd h (by simp)
              · have := ih _ _ _ h
                omega
        · split at h
          · split at h
            · exact absurd h (by simp)
            · have := ih _ _ _ h
              omega
          · exact absurd h (by simp)
          · exact absurd h (by simp)

/-- The level check after the loop: when the loop reaches the end of the source
and the brackets it met do not bring the level back to 1, the result is the error
of the unmatched opening bracket. -/
theorem parse_loop_unmatched {D : Type} (A : Arith D) (pf : List Char → Res (expr_factor_t D))
    (s : List Char) (skip : Nat) (oper : Option Nat) (last : Bool) (level : Nat)
    (fs : List (expr_factor_t D)) (e : Int) (hl : level < SIZE_MAX1)
    (h : top_level_brackets pf s skip last = some e)
    (hne : ((level : Int) + 13 * e) % 18446744073709551616 ≠ 1) :
    ∃ log, parse_loop A pf s skip oper last level fs
      = (log ++ [Event.push_error_message "unmatched opening bracket in algebraic expression"
          []], Ret.fail) := by
  induction s generalizing skip oper last level fs e with
  | nil =>
    unfold top_level_brackets at h
    simp only [Option.some.injEq] at h
    subst h
    have hlev : level ≠ 1 := by
      unfold SIZE_MAX1 at hl
      omega
    unfold parse_loop
    rw [if_pos hlev]
    exact ⟨[], rfl⟩
  | cons c rest ih =>
    cases skip with
    | succ k =>
      simp only [top_level_brackets] at h
      simp only [parse_loop]
      exact ih _ _ _ _ _ _ hl h hne
    | zero =>
      rw [top_level_brackets] at h
      rw [parse_loop]
      split at h
      · rename_i hb
        rw [if_pos hb]
        exact ih _ _ _ _ _ _ hl h hne
      · rename_i hb
        rw [if_neg hb]
        split at h
        · rename_i k hk
          simp only [hk]
          split at h
          · rename_i hc
            rw [if_pos hc]
            cases hr : top_level_brackets pf rest 0 true with
            | none => rw [hr] at h; simp at h
            | some e1 =>
              rw [hr] at h
              simp only [Option.map_some', Option.some.injEq] at h
              have hlen : operators.length = 13 := rfl
              refine ih _ _ _ _ _ _ (Nat.mod_lt _ (by unfold SIZE_MAX1; omega)) hr ?_
              rw [hlen]
              unfold SIZE_MAX1 at hl ⊢
              omega
          · rename_i hc
            rw [if_neg hc]
            split at h
            · rename_i hc2
              rw [if_pos hc2]
              cases hr : top_level_brackets pf rest 0 false with
              | none => rw [hr] at h; simp at h
              | some e1 =>
                rw [hr] at h
                simp only [Option.map_some', Option.some.injEq] at h
                have hlen : operators.length = 13 := rfl
                refine ih _ _ _ _ _ _ (Nat.mod_lt _ (by unfold SIZE_MAX1; omega)) hr ?_
                rw [hlen]
                unfold SIZE_MAX1 at hl ⊢
                omega
            · rename_i hc2
              rw [if_neg hc2]
              split at h
              · rename_i hlast
                rw [if_pos hlast]
                split at h
                · rename_i hsign
                  rw [if_pos hsign]
                  split at h
                  · rename_i log factor hpf
                    try simp only [hpf]
                    split at h
                    · exact absurd h (by simp)
                    · rename_i hn
                      rw [if_neg hn]
                      obtain ⟨log1, hlog1⟩ := ih (factor.n_chars - 1) (some k) false level
                        (fs ++ [{ factor with level := level }]) e hl h hne
                      rw [hlog1]
                      exact ⟨log ++ log1, by simp⟩
                  · exact absurd h (by simp)
                  · exact absurd h (by simp)
                · exact absurd h (by simp)
              · rename_i hlast
                rw [if_neg hlast]
                exact ih _ _ _ _ _ _ hl h hne
        · rename_i hk
          simp only [hk]
          split at h
          · rename_i log factor hpf
            try simp only [hpf]
            split at h
            · exact absurd h (by simp)
            · rename_i hn
              rw [if_neg hn]
              obtain ⟨log1, hlog1⟩ := ih (factor.n_chars - 1) none false level
                (fs ++ [{ factor with level := level }]) e hl h hne
              rw [hlog1]
              exact ⟨log ++ log1, by simp⟩
          · exact absurd h (by simp)
          · exact absurd h (by simp)

/-- Thirteen times a non-zero number below `2^64` in absolute value is not a
multiple of `2^64`. -/
theorem level_not_back (e : Int) (n : Nat) (h1 : -(n : Int) ≤ e) (h2 : e ≤ n)
    (hn : n < 18446744073709551616) (hne : e ≠ 0) :
    ((1 : Int) + 13 * e) % 18446744073709551616 ≠ 1 := by
  intro h
  have h3 : ((1 : Int) + 13 * e) % 18446744073709551616 = 1 % 18446744073709551616 := by
    rw [h]
    rfl
  have h4 : (18446744073709551616 : Int) ∣ 1 - (1 + 13 * e) := Int.modEq_iff_dvd.mp h3
  have h5 : (18446744073709551616 : Int) ∣ 13 * e := by
    have : (1 : Int) - (1 + 13 * e) = -(13 * e) := by ring
    rw [this] at h4
    exact (Int.dvd_neg).mp h4
  have h6 : (18446744073709551616 : Int) ∣ e :=
    Int.dvd_of_dvd_mul_right_of_gcd_one h5 (by decide)
  have h7 : |e| < 18446744073709551616 := by
    have hn2 : (n : Int) < 18446744073709551616 := by exact_mod_cast hn
    rw [abs_lt]
    constructor <;> linarith
  exact hne (Int.eq_zero_of_abs_lt_dvd h6 h7)

/-! ## The fuel of the builder is enough -/

theorem count_loop_within (s : List Char) (n : Nat) (level k k1 : Int) (n1 : Nat)
    (h : count_loop s n level k = some (k1, n1)) : n1 ≤ n + s.length := by
  induction s generalizing n level k with
  | nil => simp [count_loop] at h
  | cons c t ih =>
    rw [count_loop] at h
    simp only [List.length_cons]
    split_ifs at h <;>
      first
      | (have hh := ih _ _ _ h; omega)
      | (simp only [Option.some.injEq, Prod.mk.injEq] at h; omega)

theorem count_arguments_within (s : List Char) (h : 0 < (feenox_count_arguments s).ret) :
    (feenox_count_arguments s).n_chars ≤ s.length := by
  unfold feenox_count_arguments at h ⊢
  split
  · rename_i h0
    rw [if_pos h0] at h
    exact absurd (show (0 : Int) < -1 from h) (by decide)
  · rename_i h0
    rw [if_neg h0] at h
    cases s with
    | nil => exact absurd (not_not.1 h0) (by decide)
    | cons c t =>
      simp only [List.drop_succ_cons, List.drop_zero] at h ⊢
      cases hcl : count_loop t 1 1 1 with
      | none =>
        rw [hcl] at h
        exact absurd (show (0 : Int) < -1 from h) (by decide)
      | some r =>
        obtain ⟨k1, n1⟩ := r
        have := count_loop_within _ _ _ _ _ _ hcl
        simp only [List.length_cons]
        omega

theorem read_arguments_loop_lengths (N : Int) (todo : Nat) (i : Int) (dummy : List Char)
    (n : Nat) (args : List (List Char)) (n1 : Nat)
    (h : read_arguments_loop N todo i dummy n = some (args, n1)) :
    n ≤ n1 ∧ ∀ a ∈ args, n + 1 + a.length ≤ n1 := by
  induction todo generalizing i dummy n args with
  | zero =>
    simp only [read_arguments_loop, Option.some.injEq, Prod.mk.injEq] at h
    obtain ⟨h1, h2⟩ := h
    subst h1
    subst h2
    simp
  | succ t ih =>
    rw [read_arguments_loop] at h
    split at h
    · exact absurd h (by simp)
    · rename_i a rest heq
      split at h
      · exact absurd h (by simp)
      · rename_i args1 n2 heq2
        simp only [Option.some.injEq, Prod.mk.injEq] at h
        obtain ⟨h1, h2⟩ := h
        subst h1
        subst h2
        obtain ⟨g1, g2⟩ := ih _ _ _ _ heq2
        refine ⟨by omega, ?_⟩
        intro b hb
        rcases List.mem_cons.mp hb with hb | hb
        · subst hb
          omega
        · have := g2 b hb
          omega

theorem read_arguments_lengths (s : List Char) (k : Int) (log : List Event)
    (args : List (List Char)) (n : Nat)
    (h : feenox_read_arguments s k = (log, some (args, n))) :
    ∀ a ∈ args, a.length + 2 ≤ n := by
  unfold feenox_read_arguments at h
  split at h
  · simp at h
  · split at h
    · simp at h
    · rename_i arg n1 heq
      simp only [Prod.mk.injEq, Option.some.injEq] at h
      obtain ⟨-, h1, h2⟩ := h
      subst h1
      subst h2
      intro a ha
      have := (read_arguments_loop_lengths _ _ _ _ _ _ _ heq).2 a ha
      omega

theorem parse_arguments_congr {D : Type} (ns : Namespace)
    (parse parse1 : List Char → Res (expr_t D)) (args : List (List Char))
    (h : ∀ a ∈ args, parse a = parse1 a) (i : Nat) (factor : expr_factor_t D) :
    parse_arguments ns parse i args factor = parse_arguments ns parse1 i args factor := by
  induction args generalizing i factor with
  | nil => simp [parse_arguments]
  | cons a as ih =>
    have ih2 := ih (fun x hx => h x (List.mem_cons_of_mem _ hx))
    rw [parse_arguments, parse_arguments, ← h a (List.mem_cons_self _ _)]
    split
    · split
      · rfl
      · exact ih2 _ _
    · split
      · split
        · rfl
        · exact ih2 _ _
      · split
        · rw [ih2]
        · rfl
        · rfl

theorem parse_factor_congr {D : Type} (A : Arith D) (ns : Namespace)
    (parse parse1 : List Char → Res (expr_t D)) (s : List Char)
    (h : ∀ a : List Char, a.length + 2 ≤ s.length → parse a = parse1 a) :
    feenox_expression_parse_factor A ns parse s = feenox_expression_parse_factor A ns parse1 s := by
  unfold feenox_expression_parse_factor
  split
  · rfl
  · split
    · rfl
    · rename_i token0 htok
      lift_lets
      intro wants_initial_transient token1 wants_initial_static token matrix vector var found
        basic type1 n1 token_now src factor1 function builtin_function builtin_vectorfunction
        builtin_functional argument counted
      split
      · rfl
      · split
        · rfl
        · split
          · split
            · rfl
            · split
              · rfl
              · rename_i hret
                split
                · rfl
                · rename_i log arg n_chars_parse heq
                  split
                  · rfl
                  · rename_i hn
                    split
                    · rfl
                    · rfl
                    · rename_i factor2 n_arguments_max hca
                      have hargs : ∀ a ∈ arg, parse a = parse1 a := by
                        intro a ha
                        apply h
                        have h1 := read_arguments_lengths _ _ _ _ _ heq a ha
                        have h2 := count_arguments_within argument (not_le.mp hret)
                        have h3 : argument.length ≤ s.length := by
                          simp only [argument, List.length_drop]
                          omega
                        have h4 : counted.n_chars = n_chars_parse := not_not.1 hn
                        have h5 : counted.n_chars = (feenox_count_arguments argument).n_chars :=
                          rfl
                        omega
                      lift_lets
                      intro factor3
                      rw [parse_arguments_congr ns parse parse1 arg hargs]
          · rfl

theorem parse_loop_congr {D : Type} (A : Arith D)
    (pf pf1 : List Char → Res (expr_factor_t D)) (s : List Char)
    (h : ∀ t : List Char, t.length ≤ s.length → pf t = pf1 t)
    (skip : Nat) (oper : Option Nat) (last : Bool) (level : Nat) (fs : List (expr_factor_t D)) :
    parse_loop A pf s skip oper last level fs = parse_loop A pf1 s skip oper last level fs := by
  induction s generalizing skip oper last level fs with
  | nil =>
    unfold parse_loop
    rfl
  | cons c rest ih =>
    have ih2 := ih (fun t ht => h t (by simp only [List.length_cons]; omega))
    cases skip with
    | succ k =>
      simp only [parse_loop]
      exact ih2 _ _ _ _ _
    | zero =>
      rw [parse_loop, parse_loop, ← h (c :: rest) (Nat.le_refl _)]
      split
      · exact ih2 _ _ _ _ _
      · split
        · split
          · exact ih2 _ _ _ _ _
          · split
            · exact ih2 _ _ _ _ _
            · split
              · split
                · split
                  · split
                    · rfl
                    · rw [ih2]
                  · rfl
                  · rfl
                · rfl
              · exact ih2 _ _ _ _ _
        · split
          · split
            · rfl
            · rw [ih2]
          · rfl
          · rfl

/-- More fuel than the length of the string changes nothing. -/
theorem parse_depth_stable {D : Type} (A : Arith D) (ns : Namespace) (n : Nat) :
    ∀ (s : List Char) (d : Nat), s.length ≤ n → s.length < d →
      parse_depth A ns d s = parse_depth A ns (s.length + 1) s := by
  induction n with
  | zero =>
    intro s d hs hd
    have : s = [] := List.length_eq_zero.mp (by omega)
    subst this
    cases d with
    | zero => exact absurd hd (by simp)
    | succ d => rfl
  | succ n ih =>
    intro s d hs hd
    cases d with
    | zero => exact absurd hd (by omega)
    | succ d =>
      rw [parse_depth, parse_depth]
      split
      · rfl
      · have hpf : ∀ t : List Char, t.length ≤ s.length →
            feenox_expression_parse_factor A ns (parse_depth A ns d) t
              = feenox_expression_parse_factor A ns (parse_depth A ns s.length) t := by
          intro t ht
          apply parse_factor_congr
          intro a ha
          rw [ih a d (by omega) (by omega),
            ih a s.length (by omega) (by omega)]
        rewrite [parse_loop_congr A _ _ s hpf]
        rfl

/-- The recursion of `feenox_expression_parse`: the arguments of the factors are
parsed by the routine itself. -/
theorem feenox_expression_parse_unfold {D : Type} (A : Arith D) (ns : Namespace)
    (s : List Char) :
    feenox_expression_parse A ns s
      = if s = [] then ([], Ret.ok calloc_expr)
        else
          match parse_loop A (feenox_expression_parse_factor A ns (feenox_expression_parse A ns))
              s 0 none false 1 [] with
          | (log, Ret.ok factors) => (log, Ret.ok { factors := factors, string := s })
          | (log, Ret.fail) => (log, Ret.fail)
          | (log, Ret.out_of_fuel) => (log, Ret.out_of_fuel) := by
  show parse_depth A ns (s.length + 1) s = _
  rw [parse_depth]
  split
  · rfl
  · have hpf : ∀ t : List Char, t.length ≤ s.length →
        feenox_expression_parse_factor A ns (parse_depth A ns s.length) t
          = feenox_expression_parse_factor A ns (feenox_expression_parse A ns) t := by
      intro t ht
      apply parse_factor_congr
      intro a ha
      exact parse_depth_stable A ns a.length a s.length (Nat.le_refl _) (by omega)
    rewrite [parse_loop_congr A _ _ s hpf]
    rfl

theorem parse_arguments_total {D : Type} (ns : Namespace)
    (parse : List Char → Res (expr_t D)) (args : List (List Char))
    (h : ∀ a ∈ args, (parse a).2 ≠ Ret.out_of_fuel) (i : Nat) (factor : expr_factor_t D) :
    (parse_arguments ns parse i args factor).2 ≠ Ret.out_of_fuel := by
  induction args generalizing i factor with
  | nil => simp [parse_arguments]
  | cons a as ih =>
    have ih2 := ih (fun x hx => h x (List.mem_cons_of_mem _ hx))
    have ha := h a (List.mem_cons_self _ _)
    rw [parse_arguments]
    split
    · split
      · simp
      · exact ih2 _ _
    · split
      · split
        · simp
        · exact ih2 _ _
      · split
        · exact ih2 _ _
        · simp
        · rename_i log heq
          rw [heq] at ha
          exact absurd rfl ha

theorem parse_factor_total {D : Type} (A : Arith D) (ns : Namespace)
    (parse : List Char → Res (expr_t D)) (s : List Char)
    (h : ∀ a : List Char, a.length + 2 ≤ s.length → (parse a).2 ≠ Ret.out_of_fuel) :
    (feenox_expression_parse_factor A ns parse s).2 ≠ Ret.out_of_fuel := by
  unfold feenox_expression_parse_factor
  split
  · split <;> simp
  · split
    · simp
    · rename_i token0 htok
      lift_lets
      intro wants_initial_transient token1 wants_initial_static token matrix vector var found
        basic type1 n1 token_now src factor1 function builtin_function builtin_vectorfunction
        builtin_functional argument counted
      split
      · simp
      · split
        · simp
        · split
          · split
            · simp
            · split
              · simp
              · rename_i hret
                split
                · simp
                · rename_i log arg n_chars_parse heq
                  split
                  · simp
                  · rename_i hn
                    split
                    · simp
                    · simp
                    · rename_i factor2 n_arguments_max hca
                      have hargs : ∀ a ∈ arg, (parse a).2 ≠ Ret.out_of_fuel := by
                        intro a ha
                        apply h
                        have h1 := read_arguments_lengths _ _ _ _ _ heq a ha
                        have h2 := count_arguments_within argument (not_le.mp hret)
                        have h3 : argument.length ≤ s.length := by
                          simp only [argument, List.length_drop]
                          omega
                        have h4 : counted.n_chars = n_chars_parse := not_not.1 hn
                        have h5 : counted.n_chars = (feenox_count_arguments argument).n_chars :=
                          rfl
                        omega
                      lift_lets
                      intro factor3
                      have := parse_arguments_total ns parse arg hargs 0 factor3
                      split
                      · simp
                      · simp
                      · rename_i log2 heq2
                        rw [heq2] at this
                        exact absurd rfl this
          · split <;> simp

/-- A factor that starts with a sign is a number of at least one character. -/
theorem parse_factor_sign_n_chars {D : Type} (A : Arith D) (ns : Namespace)
    (parse : List Char → Res (expr_t D)) (c : Char) (rest : List Char)
    (hc : c = '+' ∨ c = '-') (log : List Event) (f : expr_factor_t D)
    (h : feenox_expression_parse_factor A ns parse (c :: rest) = (log, Ret.ok f)) :
    f.n_chars ≠ 0 := by
  have h0 : isdigit (char_at (c :: rest) 0) = true ∨ char_at (c :: rest) 0 = '-'
      ∨ char_at (c :: rest) 0 = '+' ∨ char_at (c :: rest) 0 = '.' := by
    rcases hc with hc | hc
    · exact Or.inr (Or.inr (Or.inl hc))
    · exact Or.inr (Or.inl hc)
  unfold feenox_expression_parse_factor at h
  rw [if_pos h0] at h
  split at h
  · simp at h
  · rename_i constant n heq
    simp only [Prod.mk.injEq, Ret.ok.injEq] at h
    rw [← h.2]
    show n ≠ 0
    unfold sscanf_lf at heq
    rcases hc with hc | hc <;> subst hc <;> simp only [Option.map_eq_some'] at heq <;>
      obtain ⟨r, -, hr⟩ := heq <;> simp only [Prod.mk.injEq] at hr <;> omega

theorem parse_loop_total {D : Type} (A : Arith D) (ns : Namespace)
    (parse : List Char → Res (expr_t D)) (s : List Char)
    (h : ∀ t : List Char, t.length ≤ s.length →
      (feenox_expression_parse_factor A ns parse t).2 ≠ Ret.out_of_fuel)
    (skip : Nat) (oper : Option Nat) (last : Bool) (level : Nat) (fs : List (expr_factor_t D)) :
    (parse_loop A (feenox_expression_parse_factor A ns parse) s skip oper last level fs).2
      ≠ Ret.out_of_fuel := by
  induction s generalizing skip oper last level fs with
  | nil =>
    unfold parse_loop
    split
    · simp
    · split
      · split <;> simp
      · simp
  | cons c rest ih =>
    have ih2 := ih (fun t ht => h t (by simp only [List.length_cons]; omega))
    have hpf := h (c :: rest) (Nat.le_refl _)
    cases skip with
    | succ k =>
      simp only [parse_loop]
      exact ih2 _ _ _ _ _
    | zero =>
      rw [parse_loop]
      split
      · exact ih2 _ _ _ _ _
      · split
        · split
          · exact ih2 _ _ _ _ _
          · split
            · exact ih2 _ _ _ _ _
            · split
              · split
                · rename_i hsign
                  split
                  · rename_i log factor heq
                    have hn := parse_factor_sign_n_chars A ns parse c rest hsign log factor heq
                    rw [if_neg hn]
                    exact ih2 _ _ _ _ _
                  · simp
                  · rename_i log heq
                    rw [heq] at hpf
                    exact absurd rfl hpf
                · simp
              · exact ih2 _ _ _ _ _
        · split
          · split
            · simp
            · exact ih2 _ _ _ _ _
          · simp
          · rename_i log heq
            rw [heq] at hpf
            exact absurd rfl hpf

/-- The builder is total: with the fuel `feenox_expression_parse` gives it, the
nesting of the argument lists never exhausts it. -/
theorem feenox_expression_parse_total {D : Type} (A : Arith D) (ns : Namespace) (n : Nat) :
    ∀ s : List Char, s.length ≤ n → (feenox_expression_parse A ns s).2 ≠ Ret.out_of_fuel := by
  induction n with
  | zero =>
    intro s hs
    have : s = [] := List.length_eq_zero.mp (by omega)
    subst this
    exact fun h => Ret.noConfusion h
  | succ n ih =>
    intro s hs
    rw [feenox_expression_parse_unfold]
    split
    · simp
    · have hpf : ∀ t : List Char, t.length ≤ s.length →
          (feenox_expression_parse_factor A ns (feenox_expression_parse A ns) t).2
            ≠ Ret.out_of_fuel := by
        intro t ht
        apply parse_factor_total
        intro a ha
        exact ih a (by omega)
      have := parse_loop_total A ns (feenox_expression_parse A ns) s hpf 0 none false 1 []
      split
      · simp
      · simp
      · rename_i log heq
        rw [heq] at this
        exact absurd rfl this

/-- A loop that stops before the end of the source does not return `FEENOX_OK`. -/
theorem parse_loop_stops {D : Type} (A : Arith D) (pf : List Char → Res (expr_factor_t D))
    (s : List Char) (skip : Nat) (oper : Option Nat) (last : Bool) (level : Nat)
    (fs : List (expr_factor_t D)) (h : top_level_brackets pf s skip last = none)
    (fs1 : List (expr_factor_t D)) :
    (parse_loop A pf s skip oper last level fs).2 ≠ Ret.ok fs1 := by
  induction s generalizing skip oper last level fs with
  | nil =>
    unfold top_level_brackets at h
    simp at h
  | cons c rest ih =>
    cases skip with
    | succ k =>
      simp only [top_level_brackets] at h
      simp only [parse_loop]
      exact ih _ _ _ _ _ h
    | zero =>
      rw [top_level_brackets] at h
      rw [parse_loop]
      split at h
      · rename_i hb
        rw [if_pos hb]
        exact ih _ _ _ _ _ h
      · rename_i hb
        rw [if_neg hb]
        split at h
        · rename_i k hk
          simp only [hk]
          split at h
          · rename_i hc
            rw [if_pos hc]
            refine ih _ _ _ _ _ ?_
            cases hr : top_level_brackets pf rest 0 true with
            | none => rfl
            | some e1 => rw [hr] at h; simp at h
          · rename_i hc
            rw [if_neg hc]
            split at h
            · rename_i hc2
              rw [if_pos hc2]
              refine ih _ _ _ _ _ ?_
              cases hr : top_level_brackets pf rest 0 false with
              | none => rfl
              | some e1 => rw [hr] at h; simp at h
            · rename_i hc2
              rw [if_neg hc2]
              split at h
              · rename_i hlast
                rw [if_pos hlast]
                split at h
                · rename_i hsign
                  rw [if_pos hsign]
                  split at h
                  · rename_i log factor hpf
                    try simp only [hpf]
                    split at h
                    · rename_i hn
                      rw [if_pos hn]
                      simp
                    · rename_i hn
                      rw [if_neg hn]
                      exact ih _ _ _ _ _ h
                  · rename_i log hpf
                    try simp only [hpf]
                    simp
                  · rename_i log hpf
                    try simp only [hpf]
                    simp
                · rename_i hsign
                  rw [if_neg hsign]
                  simp
              · rename_i hlast
                rw [if_neg hlast]
                exact ih _ _ _ _ _ h
        · rename_i hk
          simp only [hk]
          split at h
          · rename_i log factor hpf
            try simp only [hpf]
            split at h
            · rename_i hn
              rw [if_pos hn]
              simp
            · rename_i hn
              rw [if_neg hn]
              exact ih _ _ _ _ _ h
          · rename_i log hpf
            try simp only [hpf]
            simp
          · rename_i log hpf
            try simp only [hpf]
            simp

/-- C15: a source (shorter than `2^64` characters, as every C string is) in which
the loop of the builder, going through to the end, meets more opening than closing
brackets outside the texts consumed by the factor parser, makes the builder return
`FEENOX_ERROR`, the last message pushed being "unmatched opening bracket in
algebraic expression": the level starts at 1 and is compared with 1 after the
loop.  So it is for the loop with any factor parser and any non-zero difference,
and for `feenox_expression_parse`; and when the loop stops before the end of the
source, `feenox_expression_parse` has returned `FEENOX_ERROR` as well. -/
theorem C15_unmatched_opening_bracket {D : Type} (A : Arith D) (ns : Namespace)
    (s : List Char) (hlen : s.length < SIZE_MAX1) :
    (∀ (pf : List Char → Res (expr_factor_t D)) (e : Int),
      top_level_brackets pf s 0 false = some e → e ≠ 0 →
      ∃ log, parse_loop A pf s 0 none false 1 []
        = (log ++ [Event.push_error_message "unmatched opening bracket in algebraic expression"
            []], Ret.fail))
    ∧ (∀ e : Int,
        top_level_brackets (feenox_expression_parse_factor A ns (feenox_expression_parse A ns))
          s 0 false = some e → 0 < e →
        ∃ log, feenox_expression_parse A ns s
          = (log ++ [Event.push_error_message
              "unmatched opening bracket in algebraic expression" []], Ret.fail))
    ∧ (top_level_brackets (feenox_expression_parse_factor A ns (feenox_expression_parse A ns))
          s 0 false = none →
        (feenox_expression_parse A ns s).2 = Ret.fail) := by
  have hloop : ∀ (pf : List Char → Res (expr_factor_t D)) (e : Int),
      top_level_brackets pf s 0 false = some e → e ≠ 0 →
      ∃ log, parse_loop A pf s 0 none false 1 []
        = (log ++ [Event.push_error_message "unmatched opening bracket in algebraic expression"
            []], Ret.fail) := by
    intro pf e he hne
    have hb := top_level_brackets_bound pf s 0 false e he
    refine parse_loop_unmatched A pf s 0 none false 1 [] e (by decide) he ?_
    unfold SIZE_MAX1 at hlen
    exact level_not_back e s.length hb.1 hb.2 hlen hne
  refine ⟨hloop, ?_, ?_⟩
  · intro e he hpos
    have hs : s ≠ [] := by
      intro h0
      subst h0
      unfold top_level_brackets at he
      simp only [Option.some.injEq] at he
      omega
    obtain ⟨log, hlog⟩ := hloop _ e he (by omega)
    refine ⟨log, ?_⟩
    rw [feenox_expression_parse_unfold, if_neg hs]
    rewrite [hlog]
    rfl
  · intro he
    have hs : s ≠ [] := by
      intro h0
      subst h0
      unfold top_level_brackets at he
      simp at he
    have htot := feenox_expression_parse_total A ns s.length s (Nat.le_refl _)
    have hstop := parse_loop_stops A _ s 0 none false 1 [] he
    rw [feenox_expression_parse_unfold, if_neg hs] at htot ⊢
    cases hr : parse_loop A (feenox_expression_parse_factor A ns (feenox_expression_parse A ns))
        s 0 none false 1 [] with
    | mk log r =>
      rw [hr] at htot hstop
      cases r with
      | ok fs1 => exact absurd rfl (hstop fs1)
      | fail => rfl
      | out_of_fuel => exact absurd rfl htot

/-- Witness of C15: `(2+3` and `((2)` are rejected with the message of the unmatched
opening bracket, and `(2+y`, with its unknown symbol, is rejected before the end. -/
theorem C15_unmatched_opening_bracket_witness :
    (∃ log, feenox_expression_parse exact sample_ns "(2+3".toList
      = (log ++ [Event.push_error_message "unmatched opening bracket in algebraic expression"
          []], Ret.fail))
    ∧ (∃ log, feenox_expression_parse exact sample_ns "((2)".toList
      = (log ++ [Event.push_error_message "unmatched opening bracket in algebraic expression"
          []], Ret.fail))
    ∧ (feenox_expression_parse exact sample_ns "(2+y".toList).2 = Ret.fail :=
  ⟨(C15_unmatched_opening_bracket exact sample_ns "(2+3".toList (by decide)).2.1 1 rfl
      (by decide),
   (C15_unmatched_opening_bracket exact sample_ns "((2)".toList (by decide)).2.1 1 rfl
      (by decide),
   (C15_unmatched_opening_bracket exact sample_ns "(2+y".toList (by decide)).2.2 rfl⟩

/-! ## Failures without a diagnostic -/

/-- C21 (code bug): the parser fails without any call of
`feenox_push_error_message` when the number scan converts nothing (`.`), when
`strtok` finds no token (`,`), and when the second argument of a builtin
functional is not the name of a variable (`integral(1,2,0,1)`): these paths
return NULL directly, and `feenox_expression_parse` passes the failure on. -/
theorem C21_failure_without_diagnostic {D : Type} (A : Arith D) (ns : Namespace)
    (parse : List Char → Res (expr_t D)) :
    feenox_expression_parse_factor A ns parse ".".toList = ([], Ret.fail)
    ∧ feenox_expression_parse A ns ".".toList = ([], Ret.fail)
    ∧ feenox_expression_parse_factor A ns parse ",".toList = ([], Ret.fail)
    ∧ feenox_expression_parse A ns ",".toList = ([], Ret.fail)
    ∧ feenox_expression_parse_factor A builtin_ns (feenox_expression_parse A builtin_ns)
        "integral(1,2,0,1)".toList = ([], Ret.fail)
    ∧ feenox_expression_parse A builtin_ns "integral(1,2,0,1)".toList = ([], Ret.fail) :=
  ⟨rfl, rfl, rfl, rfl, rfl, rfl⟩

/-! ## An operator followed by an empty pair of brackets -/

/-- C26 (code bug): the text `2+()` is accepted: the brackets append no factor and
the check after the loop sees `)` as the last operator, so the sequence ends with
the operator `+`; pass 2 then steps to the factor after the operator, which does
not exist, and reads its value. -/
theorem C26_operator_without_operand_accepted {D : Type} (A : Arith D) (X : Externals D)
    (ns : Namespace) (w : World D) :
    feenox_expression_parse A ns "2+()".toList
      = ([], Ret.ok ⟨[digits_factor A "2".toList 1, operator_factor A 1 6], "2+()".toList⟩)
    ∧ feenox_expression_eval A X
        ⟨[digits_factor A "2".toList 1, operator_factor A 1 6], "2+()".toList⟩ w = none :=
  ⟨rfl, rfl⟩

/-! ## The suffix `_0` is looked for at its first occurrence -/

theorem strstr_some_bound (pat : List Char) :
    ∀ (s : List Char) (k : Nat), strstr s pat = some k →
      k + pat.length ≤ s.length := by
  have hsw : ∀ (p s : List Char), starts_with p s = true → p.length ≤ s.length := by
    intro p
    induction p with
    | nil => intro s _; simp
    | cons a p ih =>
      intro s h
      cases s with
      | nil => simp [starts_with] at h
      | cons c cs =>
        simp only [starts_with, Bool.and_eq_true] at h
        have := ih cs h.2
        simp only [List.length_cons]; omega
  intro s
  induction s with
  | nil =>
    intro k h
    unfold strstr at h
    split at h
    · rename_i hs
      have := hsw _ _ hs
      simp only [Option.some.injEq] at h
      subst h; simpa using this
    · simp at h
  | cons c cs ih =>
    intro k h
    unfold strstr at h
    split at h
    · rename_i hs
      have := hsw _ _ hs
      simp only [Option.some.injEq] at h
      subst h; simpa using this
    · cases hk : strstr cs pat with
      | none => simp [hk] at h
      | some j =>
        simp only [hk, Option.map_some', Option.some.injEq] at h
        have := ih j hk
        subst h
        simp only [List.length_cons]; omega

theorem char_at_zero_iff (name : List Char) (i : Nat) (h : Char.ofNat 0 ∉ name) :
    char_at name i = Char.ofNat 0 ↔ name.length ≤ i := by
  constructor
  · intro hc
    by_contra hlt
    have hlt : i < name.length := by omega
    unfold char_at at hc
    rw [List.getD_eq_getElem _ _ hlt] at hc
    exact h (hc ▸ List.getElem_mem hlt)
  · intro hle
    exact char_at_beyond name i hle

/-- C29 (code bug): `feenox_ends_in_zero` asks `strstr` for `_0`, which gives the
first occurrence, and then tests that the name ends right after it: the name
`x_01_0` ends with `_0` but the result is NULL, and with the variable `x_01`
declared the token `x_01_0` is an unknown symbol.  What the routine computes:
on a name without a NUL character, a position `k` is returned exactly when the
first occurrence of `_0` is at `k` and `k` is the length minus 2. -/
theorem C29_suffix_found_at_first_occurrence {D : Type} (A : Arith D)
    (parse : List Char → Res (expr_t D)) :
    feenox_ends_in_zero "x_01_0".toList = none
    ∧ feenox_get_variable_ptr suffix_ns "x_01".toList = some "x_01".toList
    ∧ feenox_expression_parse_factor A suffix_ns parse "x_01_0".toList
      = ([Event.push_error_message "unknown symbol '%s'" [msg_arg.str "x_01_0".toList]],
         Ret.fail)
    ∧ feenox_expression_parse_factor A suffix_ns parse "x_01".toList
      = ([], Ret.ok (variable_factor A "x_01".toList EXPR_VARIABLE 4 0))
    ∧ (∀ (name : List Char) (k : Nat), Char.ofNat 0 ∉ name →
        (feenox_ends_in_zero name = some k
          ↔ strstr name "_0".toList = some k ∧ k + 2 = name.length)) := by
  refine ⟨rfl, rfl, rfl, rfl, ?_⟩
  intro name k hnul
  unfold feenox_ends_in_zero
  cases hs : strstr name "_0".toList with
  | none => simp
  | some j =>
    have hb := strstr_some_bound _ _ _ hs
    have hlen : ("_0".toList).length = 2 := rfl
    rw [hlen] at hb
    simp only [char_at_zero_iff name (j + 2) hnul, Option.some.injEq]
    constructor
    · intro h
      split at h
      · simp only [Option.some.injEq] at h
        subst h
        exact ⟨rfl, by omega⟩
      · simp at h
    · rintro ⟨h1, h2⟩
      subst h1
      rw [if_pos (by omega)]

/-- Witness of C29: on `x_0` the first occurrence of `_0` is at position 1, which
is the length minus 2, and position 1 is returned. -/
theorem C29_suffix_found_at_first_occurrence_witness :
    Char.ofNat 0 ∉ "x_0".toList
    ∧ feenox_ends_in_zero "x_0".toList = some 1
    ∧ (feenox_ends_in_zero "x_0".toList = some 1
        ↔ strstr "x_0".toList "_0".toList = some 1 ∧ 1 + 2 = "x_0".toList.length) :=
  ⟨by decide, rfl,
   (C29_suffix_found_at_first_occurrence exact (feenox_expression_parse exact sample_ns)).2.2.2.2
     "x_0".toList 1 (by decide)⟩

/-! ## Separators in front of a name -/

/-- C30 (code bug): `strtok` skips the separators in front of the token, and the
length stored in `n_chars` counts the token alone.  On `,x` the factor of the
variable `x` has `n_chars = 1`, the caller steps over the comma only and meets
`x` a second time, so `,x` is accepted as the sequence of two references to `x`.
The lengths on the texts `x_0`, `x_init` and `v_0(2)` are 3, 6 and 6. -/
theorem C30_leading_separator_not_counted {D : Type} (A : Arith D)
    (parse : List Char → Res (expr_t D)) :
    feenox_expression_parse_factor A sample_ns parse ",x".toList
      = ([], Ret.ok (variable_factor A "x".toList EXPR_VARIABLE 1 0))
    ∧ feenox_expression_parse A sample_ns ",x".toList
      = ([], Ret.ok ⟨[variable_factor A "x".toList EXPR_VARIABLE 1 1,
            variable_factor A "x".toList EXPR_VARIABLE 1 1], ",x".toList⟩)
    ∧ feenox_expression_parse_factor A sample_ns parse "x_0".toList
      = ([], Ret.ok (variable_factor A "x".toList (EXPR_VARIABLE ||| EXPR_INITIAL_TRANSIENT) 3 0))
    ∧ feenox_expression_parse_factor A sample_ns parse "x_init".toList
      = ([], Ret.ok (variable_factor A "x".toList (EXPR_VARIABLE ||| EXPR_INITIAL_STATIC) 6 0))
    ∧ feenox_expression_parse_factor A sample_ns (feenox_expression_parse A sample_ns)
        "v_0(2)".toList
      = ([], Ret.ok (vector_factor A "v".toList (EXPR_VECTOR ||| EXPR_INITIAL_TRANSIENT) 6 0
          [⟨[digits_factor A "2".toList 1], "2".toList⟩])) :=
  ⟨rfl, rfl, rfl, rfl, rfl⟩

/-! ## The counting pass against its description -/

theorem nesting_depth_succ (s : List Char) (n : Nat) (c : Char) (t : List Char)
    (h : s.drop n = c :: t) :
    nesting_depth s (n + 1)
      = (if c = '(' then nesting_depth s n + 1 else if c = ')' then nesting_depth s n - 1
         else nesting_depth s n)
    ∧ char_at s n = c ∧ s.drop (n + 1) = t ∧ n < s.length := by
  have hlt : n < s.length := by
    by_contra hn
    rw [List.drop_eq_nil_of_le (by omega)] at h
    exact absurd h (by simp)
  have hcons : s[n] :: s.drop (n + 1) = c :: t := by
    rw [← List.drop_eq_getElem_cons hlt]; exact h
  have hc : s[n] = c := (List.cons.inj hcons).1
  have ht : s.drop (n + 1) = t := (List.cons.inj hcons).2
  refine ⟨?_, ?_, ht, hlt⟩
  · unfold nesting_depth
    rw [List.take_succ, List.getElem?_eq_getElem hlt, hc]
    simp only [Option.toList, List.count_append, List.count_cons, List.count_nil]
    by_cases h1 : c = '('
    · subst h1; simp; omega
    · by_cases h2 : c = ')'
      · subst h2; simp; omega
      · have h1' : ¬ ((c == '(') = true) := by simpa using h1
        have h2' : ¬ ((c == ')') = true) := by simpa using h2
        simp [h1, h2, h1', h2']
  · unfold char_at
    rw [List.getD_eq_getElem _ _ hlt, hc]

theorem top_level_commas_succ (s : List Char) (n : Nat) :
    top_level_commas s (n + 1)
      = top_level_commas s n
        + (if char_at s n = ',' ∧ nesting_depth s n = 1 then 1 else 0) := by
  unfold top_level_commas
  rw [List.range_succ, List.countP_append]
  simp only [List.countP_cons, List.countP_nil, Nat.zero_add]
  by_cases h : char_at s n = ',' ∧ nesting_depth s n = 1
  · simp [h]
  · simp [h]

/-- The loop of the counting pass, from position `n` on: either the depth never
returns to 0 and the loop meets the terminator, or it stops right after the
first position `p` at which the depth is 0 again, with the commas at depth 1
counted. -/
theorem count_loop_spec (s : List Char) :
    ∀ (t : List Char) (n : Nat), s.drop n = t →
      (count_loop t n (nesting_depth s n) ((1 + top_level_commas s n : Nat) : Int) = none
        ∧ ∀ i, n ≤ i → i < s.length → nesting_depth s (i + 1) ≠ 0)
      ∨ ∃ p, n ≤ p ∧ p < s.length ∧ nesting_depth s (p + 1) = 0
          ∧ (∀ i, n ≤ i → i < p → nesting_depth s (i + 1) ≠ 0)
          ∧ count_loop t n (nesting_depth s n) ((1 + top_level_commas s n : Nat) : Int)
              = some (((1 + top_level_commas s p : Nat) : Int), p + 1) := by
  intro t
  induction t with
  | nil =>
    intro n h
    left
    refine ⟨rfl, ?_⟩
    intro i hi hlt
    have : s.length ≤ n := by
      by_contra hn
      have hl := congrArg List.length h
      simp only [List.length_drop, List.length_nil] at hl
      omega
    omega
  | cons c t ih =>
    intro n h
    obtain ⟨hd, hc, ht, hlt⟩ := nesting_depth_succ s n c t h
    have hcomma := top_level_commas_succ s n
    rw [hc] at hcomma
    unfold count_loop
    simp only []
    -- the depth after this character
    have hlev : (if c = '(' then nesting_depth s n + 1 else if c = ')' then nesting_depth s n - 1
        else nesting_depth s n) = nesting_depth s (n + 1) := hd.symm
    rw [hlev]
    have hk : (if c = ',' ∧ nesting_depth s (n + 1) = 1
          then ((1 + top_level_commas s n : Nat) : Int) + 1
          else ((1 + top_level_commas s n : Nat) : Int))
        = ((1 + top_level_commas s (n + 1) : Nat) : Int) := by
      rw [hcomma]
      by_cases h1 : c = ','
      · subst h1
        have : nesting_depth s (n + 1) = nesting_depth s n := by
          rw [hd]; simp
        rw [this]
        by_cases h2 : nesting_depth s n = 1
        · simp [h2]; omega
        · simp [h2]
      · simp [h1]
    rw [hk]
    by_cases h0 : nesting_depth s (n + 1) = 0
    · right
      refine ⟨n, le_refl _, hlt, h0, ?_, ?_⟩
      · intro i h1 h2; omega
      · rw [if_neg (by simpa using h0)]
        have : top_level_commas s (n + 1) = top_level_commas s n := by
          rw [hcomma]
          by_cases hc1 : c = ','
          · subst hc1
            have h3 : nesting_depth s (n + 1) = nesting_depth s n := by rw [hd]; simp
            have h4 : nesting_depth s n ≠ 1 := by rw [← h3, h0]; decide
            simp [h4]
          · simp [hc1]
        rw [this]
    · rw [if_pos h0]
      rcases ih (n + 1) ht with ⟨h1, h2⟩ | ⟨p, hp1, hp2, hp3, hp4, hp5⟩
      · left
        refine ⟨h1, ?_⟩
        intro i hi hil
        by_cases hin : i = n
        · subst hin; exact h0
        · exact h2 i (by omega) hil
      · right
        refine ⟨p, by omega, hp2, hp3, ?_, hp5⟩
        intro i hi hip
        by_cases hin : i = n
        · subst hin; exact h0
        · exact hp4 i (by omega) hip

/-- C27: `feenox_count_arguments` on a string `s` returns -1 (with a message, and
`s` as it was) when `s` does not start with `(` and when no `)` matches that
first `(`; when the `)` at position `p` matches it, the routine returns 1 plus
the number of commas at nesting depth 1 before `p`, stores `p + 1` through
`n_chars` and cuts `s` right after position `p`. -/
theorem C27_count_arguments (s : List Char) :
    (char_at s 0 ≠ '(' →
      feenox_count_arguments s
        = { ret := -1, n_chars := 0, string := s,
            log := [Event.push_error_message "argument list needs to start with ')'" []] })
    ∧ (char_at s 0 = '(' → (∀ p, ¬ matching_bracket s p) →
      feenox_count_arguments s
        = { ret := -1, n_chars := 0, string := s,
            log := [Event.push_error_message "argument list needs to be closed with ')'" []] })
    ∧ (∀ p, char_at s 0 = '(' → matching_bracket s p →
      feenox_count_arguments s
        = { ret := 1 + (top_level_commas s p : Int), n_chars := p + 1,
            string := s.take (p + 1), log := [] }) := by
  refine ⟨?_, ?_, ?_⟩
  · intro h
    unfold feenox_count_arguments
    rw [if_pos h]
  · intro h hno
    cases s with
    | nil => exact absurd h (by decide)
    | cons c t =>
      have hc : c = '(' := h
      subst hc
      have h1 : nesting_depth ('(' :: t) 1 = 1 := by
        simp [nesting_depth]
      have h2 : top_level_commas ('(' :: t) 1 = 0 := by
        simp [top_level_commas, char_at]
      have hs := count_loop_spec ('(' :: t) t 1 rfl
      rw [h1, h2] at hs
      unfold feenox_count_arguments
      rw [if_neg (by simpa using h)]
      rcases hs with ⟨hn, _⟩ | ⟨p, hp1, hp2, hp3, hp4, _⟩
      · have hn' : count_loop (List.drop 1 ('(' :: t)) 1 1 1 = none := hn
        rw [hn']
      · exfalso
        refine hno p ⟨hp2, hp3, ?_⟩
        intro i hi
        by_cases hi0 : i = 0
        · subst hi0; rw [h1]; decide
        · exact hp4 i (by omega) hi
  · intro p h hm
    cases s with
    | nil => exact absurd h (by decide)
    | cons c t =>
      have hc : c = '(' := h
      subst hc
      have h1 : nesting_depth ('(' :: t) 1 = 1 := by
        simp [nesting_depth]
      have h2 : top_level_commas ('(' :: t) 1 = 0 := by
        simp [top_level_commas, char_at]
      have hs := count_loop_spec ('(' :: t) t 1 rfl
      rw [h1, h2] at hs
      obtain ⟨hm1, hm2, hm3⟩ := hm
      unfold feenox_count_arguments
      rw [if_neg (by simpa using h)]
      rcases hs with ⟨_, hn⟩ | ⟨q, hq1, hq2, hq3, hq4, hq5⟩
      · exact absurd hm2 (hn p (by
          by_contra hp
          have hp0 : p = 0 := by omega
          subst hp0
          rw [h1] at hm2
          exact absurd hm2 (by decide)) hm1)
      · have hpq : q = p := by
          rcases Nat.lt_trichotomy q p with hlt | heq | hgt
          · exact absurd hq3 (hm3 q hlt)
          · exact heq
          · exact absurd hm2 (hq4 p (by
              by_contra hp
              have hp0 : p = 0 := by omega
              subst hp0
              rw [h1] at hm2
              exact absurd hm2 (by decide)) hgt)
        subst hpq
        have hq5' : count_loop (List.drop 1 ('(' :: t)) 1 1 1
            = some (((1 + top_level_commas ('(' :: t) q : Nat) : Int), q + 1) := hq5
        rw [hq5']
        simp only [Nat.cast_add, Nat.cast_one]

/-- Witness of C27: in `(1,(2,3),4)+5` the bracket at position 10 matches the
first one, and the routine gives 3 arguments in 11 characters. -/
theorem C27_count_arguments_witness :
    char_at "(1,(2,3),4)+5".toList 0 = '(' ∧ matching_bracket "(1,(2,3),4)+5".toList 10
    ∧ top_level_commas "(1,(2,3),4)+5".toList 10 = 2
    ∧ feenox_count_arguments "(1,(2,3),4)+5".toList
        = { ret := 1 + (top_level_commas "(1,(2,3),4)+5".toList 10 : Int), n_chars := 10 + 1,
            string := "(1,(2,3),4)+5".toList.take (10 + 1), log := [] } :=
  ⟨by decide, by unfold matching_bracket; decide, by decide,
   (C27_count_arguments "(1,(2,3),4)+5".toList).2.2 10 (by decide)
     (by unfold matching_bracket; decide)⟩

/-! ## The splitting pass and the text it splits -/

/-- What the factor parser does with the text of a call, from the table entries
found under the name: the arity check, then the loop over the arguments. -/
theorem parse_factor_call {D : Type} (A : Arith D) (ns : Namespace)
    (parse : List Char → Res (expr_t D)) (name : List Char) (args : List (List Char))
    (rest : List Char) (hname : is_name name = true)
    (hz : feenox_ends_in_zero name = none) (hi : feenox_ends_in_init name = none)
    (hm : feenox_get_matrix_ptr ns name = none) (hv : feenox_get_vector_ptr ns name = none)
    (hvar : feenox_get_variable_ptr ns name = none)
    (fn : Option function_t) (bf : Option builtin_function_t)
    (bv : Option builtin_vectorfunction_t) (bl : Option builtin_functional_t)
    (hfn : feenox_get_function_ptr ns name = fn)
    (hbf : (if fn.isSome then none else feenox_get_builtin_function_ptr ns name) = bf)
    (hbv : (if fn.isSome ∨ bf.isSome then none
            else feenox_get_builtin_vectorfunction_ptr ns name) = bv)
    (hbl : (if fn.isSome ∨ bf.isSome ∨ bv.isSome then none
            else feenox_get_builtin_functional_ptr ns name) = bl)
    (hfound : fn.isSome ∨ bf.isSome ∨ bv.isSome ∨ bl.isSome)
    (hne : args ≠ []) (hargs : ∀ a ∈ args, is_argument a = true) :
    feenox_expression_parse_factor A ns parse (name ++ '(' :: (join_arguments args ++ ')' :: rest))
      = match check_arity (calloc_factor A) name (args.length : Int) fn bf bv bl with
        | Except.error (some e) => ([e], Ret.fail)
        | Except.error none => ([], Ret.fail)
        | Except.ok (factor2, n_arguments_max) =>
          match parse_arguments ns parse 0 args
              (if factor2.type ≠ EXPR_BUILTIN_VECTORFUNCTION then
                { factor2 with arg := List.replicate n_arguments_max.toNat calloc_expr }
              else
                { factor2 with vector_arg := List.replicate n_arguments_max.toNat none }) with
          | (log2, Ret.ok factor4) =>
            (log2, Ret.ok { factor4 with
                            n_chars := name.length + ((join_arguments args).length + 2) })
          | (log2, Ret.fail) => (log2, Ret.fail)
          | (log2, Ret.out_of_fuel) => (log2, Ret.out_of_fuel) := by
  obtain ⟨hnn, hsep, -, -⟩ := is_name_facts hname
  have h0 := (name_first_char hname ('(' :: (join_arguments args ++ ')' :: rest))).1
  have htok := strtok_prefix name '(' (join_arguments args ++ ')' :: rest) hnn hsep (by decide)
  have hdrop : (name ++ '(' :: (join_arguments args ++ ')' :: rest)).drop name.length
      = '(' :: (join_arguments args ++ ')' :: rest) := List.drop_left' rfl
  have hcount := count_arguments_call args rest hne hargs
  have hread := read_arguments_call args hne hargs
  have hfound2 : (fn.isSome = true ∨ bf.isSome = true ∨ bv.isSome = true ∨ bl.isSome = true) := hfound
  unfold feenox_expression_parse_factor
  rw [if_neg h0]
  simp only [htok, hz, hi, hm, hv, hvar, Option.isSome_none, Bool.false_eq_true, false_or,
    or_false, false_and, and_false, if_false, ite_self, hfn, hbf, hbv, hbl, hdrop]
  rw [if_pos hfound2]
  have hp : ¬ (char_at ('(' :: (join_arguments args ++ ')' :: rest)) 0 ≠ '(') := fun h => h rfl
  have hpos : ¬ ((args.length : Int) ≤ 0) := by
    cases args with
    | nil => exact absurd rfl hne
    | cons a as => simp only [List.length_cons]; push_cast; omega
  rw [if_neg hp, hcount]
  simp only [hpos, if_false, hread, ne_eq, not_true_eq_false, List.append_nil, List.nil_append]
  rfl

theorem parse_arguments_exprs {D : Type} (ns : Namespace)
    (parse : List Char → Res (expr_t D)) (args : List (List Char)) (es : List (expr_t D))
    (h : List.Forall₂ (fun a e => (parse a).2 = Ret.ok e) args es)
    (factor : expr_factor_t D) (done extra : List (expr_t D))
    (ht1 : factor.type ≠ EXPR_BUILTIN_VECTORFUNCTION)
    (ht2 : factor.type ≠ EXPR_BUILTIN_FUNCTIONAL)
    (harg : factor.arg = done ++ (List.replicate args.length calloc_expr ++ extra)) :
    (parse_arguments ns parse done.length args factor).2
      = Ret.ok { factor with arg := done ++ (es ++ extra) } := by
  induction h generalizing factor done with
  | nil =>
    simp only [List.length_nil, List.replicate_zero, List.nil_append] at harg
    simp only [List.map_nil, List.nil_append]
    rw [parse_arguments, ← harg]
    cases factor
    rfl
  | @cons a e as es1 hp _ ih =>
    have t2 : ¬ (factor.type = EXPR_BUILTIN_FUNCTIONAL ∧ done.length = 1) := by
      intro hh; exact ht2 hh.1
    rw [parse_arguments, if_neg ht1, if_neg t2]
    cases hpa : parse a with
    | mk log r =>
      rw [hpa] at hp
      simp only at hp
      subst hp
      simp only
      have hset : factor.arg.set done.length e
          = (done ++ [e]) ++ (List.replicate as.length calloc_expr ++ extra) := by
        rw [harg, List.length_cons, List.replicate_succ]
        simp
      have := ih { factor with arg := factor.arg.set done.length e } (done ++ [e]) ht1 ht2 hset
      simp only [List.length_append, List.length_singleton] at this
      rw [this]
      simp

theorem parse_arguments_vectors {D : Type} (ns : Namespace)
    (parse : List Char → Res (expr_t D)) (args : List (List Char)) (vs : List (List Char))
    (h : List.Forall₂ (fun a v => feenox_get_vector_ptr ns a = some v) args vs)
    (factor : expr_factor_t D) (done extra : List (Option (List Char)))
    (ht : factor.type = EXPR_BUILTIN_VECTORFUNCTION)
    (harg : factor.vector_arg = done ++ (List.replicate args.length none ++ extra)) :
    parse_arguments ns parse done.length args factor
      = ([], Ret.ok { factor with vector_arg := done ++ (vs.map some ++ extra) }) := by
  induction h generalizing factor done with
  | nil =>
    simp only [List.length_nil, List.replicate_zero, List.nil_append] at harg
    simp only [List.map_nil, List.nil_append]
    rw [parse_arguments, ← harg]
    cases factor
    rfl
  | @cons a v as vs1 hp _ ih =>
    rw [parse_arguments, if_pos ht, hp]
    simp only
    have hset : factor.vector_arg.set done.length (some v)
        = (done ++ [some v]) ++ (List.replicate as.length none ++ extra) := by
      rw [harg, List.length_cons, List.replicate_succ]
      simp
    have := ih { factor with vector_arg := factor.vector_arg.set done.length (some v) }
      (done ++ [some v]) ht hset
    simp only [List.length_append, List.length_singleton] at this
    rw [this]
    simp

/-! ## Calls of builtin functions and vectorfunctions -/

/-- C22: for a builtin function or builtin vectorfunction `b` with the bounds
`min_arguments` and `max_arguments`, and a call text `b(a1,...,am)` whose
arguments are balanced and free of top-level commas, the factor parser fails
with "takes at least" when `m < min_arguments`, fails with "takes at most" when
`m > max_arguments`, and otherwise returns a factor of the kind of `b` bound to
`b`: for a builtin function, when the argument parser accepts every argument,
`arg` holds the `m` parsed expressions followed by empty ones up to
`max_arguments`; for a builtin vectorfunction, when every argument is the name of
a vector, `vector_arg` holds the `m` vectors followed by NULL up to
`max_arguments`. -/
theorem C22_builtin_arity {D : Type} (A : Arith D) (ns : Namespace)
    (parse : List Char → Res (expr_t D)) (args : List (List Char)) (rest : List Char)
    (hne : args ≠ []) (hargs : ∀ a ∈ args, is_argument a = true) :
    (∀ b : builtin_function_t, plain_builtin_function ns b = true →
      ((args.length : Int) < b.min_arguments →
        feenox_expression_parse_factor A ns parse
            (b.name ++ '(' :: (join_arguments args ++ ')' :: rest))
          = ([Event.push_error_message "function '%s' takes at least %d argument%s instead of %d"
                [msg_arg.str b.name, msg_arg.int b.min_arguments,
                 msg_arg.str (plural b.min_arguments), msg_arg.int args.length]], Ret.fail))
      ∧ (b.min_arguments ≤ (args.length : Int) → b.max_arguments < (args.length : Int) →
        feenox_expression_parse_factor A ns parse
            (b.name ++ '(' :: (join_arguments args ++ ')' :: rest))
          = ([Event.push_error_message "function '%s' takes at most %d argument%s instead of %d"
                [msg_arg.str b.name, msg_arg.int b.max_arguments,
                 msg_arg.str (plural b.max_arguments), msg_arg.int args.length]], Ret.fail))
      ∧ (b.min_arguments ≤ (args.length : Int) → (args.length : Int) ≤ b.max_arguments →
        ∀ es, List.Forall₂ (fun a e => (parse a).2 = Ret.ok e) args es →
          (feenox_expression_parse_factor A ns parse
              (b.name ++ '(' :: (join_arguments args ++ ')' :: rest))).2
            = Ret.ok (builtin_function_factor A b
                (b.name.length + ((join_arguments args).length + 2))
                (es ++ List.replicate (b.max_arguments.toNat - args.length) calloc_expr))))
    ∧ (∀ b : builtin_vectorfunction_t, plain_builtin_vectorfunction ns b = true →
      ((args.length : Int) < b.min_arguments →
        feenox_expression_parse_factor A ns parse
            (b.name ++ '(' :: (join_arguments args ++ ')' :: rest))
          = ([Event.push_error_message "function '%s' takes at least %d argument%s instead of %d"
                [msg_arg.str b.name, msg_arg.int b.min_arguments,
                 msg_arg.str (plural b.min_arguments), msg_arg.int args.length]], Ret.fail))
      ∧ (b.min_arguments ≤ (args.length : Int) → b.max_arguments < (args.length : Int) →
        feenox_expression_parse_factor A ns parse
            (b.name ++ '(' :: (join_arguments args ++ ')' :: rest))
          = ([Event.push_error_message "function '%s' takes at most %d argument%s instead of %d"
                [msg_arg.str b.name, msg_arg.int b.max_arguments,
                 msg_arg.str (plural b.max_arguments), msg_arg.int args.length]], Ret.fail))
      ∧ (b.min_arguments ≤ (args.length : Int) → (args.length : Int) ≤ b.max_arguments →
        ∀ vs, List.Forall₂ (fun a v => feenox_get_vector_ptr ns a = some v) args vs →
          feenox_expression_parse_factor A ns parse
              (b.name ++ '(' :: (join_arguments args ++ ')' :: rest))
            = ([], Ret.ok (builtin_vectorfunction_factor A b
                (b.name.length + ((join_arguments args).length + 2))
                (vs.map some ++ List.replicate (b.max_arguments.toNat - args.length) none))))) := by
  constructor
  · intro b hb
    simp only [plain_builtin_function, Bool.and_eq_true] at hb
    obtain ⟨⟨⟨⟨⟨⟨⟨h1, h2⟩, h3⟩, h4⟩, h5⟩, h6⟩, h7⟩, h8⟩ := hb
    have hcall := parse_factor_call A ns parse b.name args rest h1 (by simpa using h2)
      (by simpa using h3) (by simpa using h4) (by simpa using h5) (by simpa using h6)
      none (some b) none none (by simpa using h7) (by simpa using h8) rfl rfl
      (Or.inr (Or.inl rfl)) hne hargs
    rw [hcall]
    refine ⟨?_, ?_, ?_⟩
    · intro hlt
      simp only [check_arity, calloc_factor, hlt, if_true]
    · intro hge hgt
      simp only [check_arity, calloc_factor, not_lt.2 hge, hgt, gt_iff_lt, if_true, if_false]
    · intro hge hle es hes
      have hmax : b.max_arguments.toNat = args.length + (b.max_arguments.toNat - args.length) := by
        omega
      simp only [check_arity, calloc_factor, not_lt.2 hge, not_lt.2 hle, gt_iff_lt, if_false]
      have ht : (EXPR_BUILTIN_FUNCTION ≠ EXPR_BUILTIN_VECTORFUNCTION) := by decide
      rw [if_pos ht]
      have h := parse_arguments_exprs ns parse args es hes
        { calloc_factor A with
          type := EXPR_BUILTIN_FUNCTION, builtin_function := some b,
          arg := List.replicate b.max_arguments.toNat calloc_expr } []
        (List.replicate (b.max_arguments.toNat - args.length) calloc_expr)
        (show EXPR_BUILTIN_FUNCTION ≠ EXPR_BUILTIN_VECTORFUNCTION by decide)
        (show EXPR_BUILTIN_FUNCTION ≠ EXPR_BUILTIN_FUNCTIONAL by decide)
        (by
          show List.replicate b.max_arguments.toNat calloc_expr = _
          rw [List.nil_append, ← List.replicate_add, ← hmax])
      simp only [List.length_nil, List.nil_append] at h
      rcases hpa : parse_arguments ns parse 0 args
        { calloc_factor A with
          type := EXPR_BUILTIN_FUNCTION, builtin_function := some b,
          arg := List.replicate b.max_arguments.toNat calloc_expr } with ⟨log2, r⟩
      rw [hpa] at h
      simp only at h
      subst h
      simp only [calloc_factor] at hpa
      rw [hpa]
      rfl
  · intro b hb
    simp only [plain_builtin_vectorfunction, Bool.and_eq_true] at hb
    obtain ⟨⟨⟨⟨⟨⟨⟨⟨h1, h2⟩, h3⟩, h4⟩, h5⟩, h6⟩, h7⟩, h8⟩, h9⟩ := hb
    have hcall := parse_factor_call A ns parse b.name args rest h1 (by simpa using h2)
      (by simpa using h3) (by simpa using h4) (by simpa using h5) (by simpa using h6)
      none none (some b) none (by simpa using h7) (by simpa using h8) (by simpa using h9) rfl
      (Or.inr (Or.inr (Or.inl rfl))) hne hargs
    rw [hcall]
    refine ⟨?_, ?_, ?_⟩
    · intro hlt
      simp only [check_arity, calloc_factor, hlt, if_true]
    · intro hge hgt
      simp only [check_arity, calloc_factor, not_lt.2 hge, hgt, gt_iff_lt, if_true, if_false]
    · intro hge hle vs hvs
      have hmax : b.max_arguments.toNat = args.length + (b.max_arguments.toNat - args.length) := by
        omega
      simp only [check_arity, calloc_factor, not_lt.2 hge, not_lt.2 hle, gt_iff_lt, if_false]
      have ht : ¬ (EXPR_BUILTIN_VECTORFUNCTION ≠ EXPR_BUILTIN_VECTORFUNCTION) := by decide
      rw [if_neg ht]
      have h := parse_arguments_vectors ns parse args vs hvs
        { calloc_factor A with
          type := EXPR_BUILTIN_VECTORFUNCTION, builtin_vectorfunction := some b,
          vector_arg := List.replicate b.max_arguments.toNat none } []
        (List.replicate (b.max_arguments.toNat - args.length) none) rfl
        (by
          show List.replicate b.max_arguments.toNat none = _
          rw [List.nil_append, ← List.replicate_add, ← hmax])
      simp only [List.length_nil, List.nil_append, calloc_factor] at h
      rw [h]
      rfl

/-- Witness of C22: with `sin` of one argument, `min` of two to four and `vecdot`
of two vectors, `min(1)` fails with "takes at least", `sin(1,2)` fails with
"takes at most", `min(1,2,3)` gives the factor of `min` with three parsed
arguments and one empty slot, and `vecdot(v,v)` the factor of `vecdot` over the
vector `v` twice. -/
theorem C22_builtin_arity_witness :
    plain_builtin_function builtin_ns ⟨"min".toList, 2, 4⟩ = true
    ∧ plain_builtin_function builtin_ns ⟨"sin".toList, 1, 1⟩ = true
    ∧ plain_builtin_vectorfunction builtin_ns ⟨"vecdot".toList, 2, 2⟩ = true
    ∧ feenox_expression_parse_factor exact builtin_ns (feenox_expression_parse exact builtin_ns)
        "min(1)".toList
      = ([Event.push_error_message "function '%s' takes at least %d argument%s instead of %d"
            [msg_arg.str "min".toList, msg_arg.int 2, msg_arg.str "s".toList, msg_arg.int 1]],
          Ret.fail)
    ∧ feenox_expression_parse_factor exact builtin_ns (feenox_expression_parse exact builtin_ns)
        "sin(1,2)".toList
      = ([Event.push_error_message "function '%s' takes at most %d argument%s instead of %d"
            [msg_arg.str "sin".toList, msg_arg.int 1, msg_arg.str "".toList, msg_arg.int 2]],
          Ret.fail)
    ∧ (feenox_expression_parse_factor exact builtin_ns (feenox_expression_parse exact builtin_ns)
        "min(1,2,3)".toList).2
      = Ret.ok (builtin_function_factor exact ⟨"min".toList, 2, 4⟩ 10
          ([⟨[digits_factor exact "1".toList 1], "1".toList⟩,
            ⟨[digits_factor exact "2".toList 1], "2".toList⟩,
            ⟨[digits_factor exact "3".toList 1], "3".toList⟩] ++ List.replicate (4 - 3) calloc_expr))
    ∧ feenox_expression_parse_factor exact builtin_ns (feenox_expression_parse exact builtin_ns)
        "vecdot(v,v)+1".toList
      = ([], Ret.ok (builtin_vectorfunction_factor exact ⟨"vecdot".toList, 2, 2⟩ 11
          (["v".toList, "v".toList].map some ++ List.replicate (2 - 2) none))) :=
  ⟨by decide, by decide, by decide,
   ((C22_builtin_arity exact builtin_ns (feenox_expression_parse exact builtin_ns)
      ["1".toList] [] (by decide) (by decide)).1 ⟨"min".toList, 2, 4⟩ (by decide)).1 (by decide),
   ((C22_builtin_arity exact builtin_ns (feenox_expression_parse exact builtin_ns)
      ["1".toList, "2".toList] [] (by decide) (by decide)).1 ⟨"sin".toList, 1, 1⟩
      (by decide)).2.1 (by decide) (by decide),
   ((C22_builtin_arity exact builtin_ns (feenox_expression_parse exact builtin_ns)
      ["1".toList, "2".toList, "3".toList] [] (by decide) (by decide)).1 ⟨"min".toList, 2, 4⟩
      (by decide)).2.2 (by decide) (by decide)
      [⟨[digits_factor exact "1".toList 1], "1".toList⟩,
       ⟨[digits_factor exact "2".toList 1], "2".toList⟩,
       ⟨[digits_factor exact "3".toList 1], "3".toList⟩]
      (List.Forall₂.cons rfl (List.Forall₂.cons rfl (List.Forall₂.cons rfl List.Forall₂.nil))),
   ((C22_builtin_arity exact builtin_ns (feenox_expression_parse exact builtin_ns)
      ["v".toList, "v".toList] "+1".toList (by decide) (by decide)).2 ⟨"vecdot".toList, 2, 2⟩
      (by decide)).2.2 (by decide) (by decide) ["v".toList, "v".toList]
      (List.Forall₂.cons rfl (List.Forall₂.cons rfl List.Forall₂.nil))⟩

/-! ## Calls of builtin functionals -/

theorem parse_arguments_exprs_iff {D : Type} (ns : Namespace)
    (parse : List Char → Res (expr_t D)) (extra : List (expr_t D)) :
    ∀ (args : List (List Char)) (factor f1 : expr_factor_t D) (done : List (expr_t D)),
      factor.type ≠ EXPR_BUILTIN_VECTORFUNCTION →
      (factor.type = EXPR_BUILTIN_FUNCTIONAL → 2 ≤ done.length) →
      factor.arg = done ++ (List.replicate args.length calloc_expr ++ extra) →
      ((parse_arguments ns parse done.length args factor).2 = Ret.ok f1
        ↔ ∃ es, List.Forall₂ (fun a e => (parse a).2 = Ret.ok e) args es
            ∧ f1 = { factor with arg := done ++ (es ++ extra) }) := by
  intro args
  induction args with
  | nil =>
    intro factor f1 done _ _ harg
    simp only [List.length_nil, List.replicate_zero, List.nil_append] at harg
    rw [parse_arguments]
    constructor
    · intro h
      refine ⟨[], List.Forall₂.nil, ?_⟩
      simp only [Ret.ok.injEq] at h
      subst h
      simp only [List.nil_append]
      rw [← harg]
      cases factor
      rfl
    · rintro ⟨es, hes, hf⟩
      cases hes
      simp only [List.nil_append] at hf
      rw [← harg] at hf
      subst hf
      cases factor
      rfl
  | cons a as ih =>
    intro factor f1 done ht1 ht2 harg
    have t2 : ¬ (factor.type = EXPR_BUILTIN_FUNCTIONAL ∧ done.length = 1) := by
      intro hh
      have := ht2 hh.1
      omega
    rw [parse_arguments, if_neg ht1, if_neg t2]
    have hset : ∀ e, factor.arg.set done.length e
        = (done ++ [e]) ++ (List.replicate as.length calloc_expr ++ extra) := by
      intro e
      rw [harg, List.length_cons, List.replicate_succ]
      simp
    cases hpa : parse a with
    | mk log r =>
      cases r with
      | ok e =>
        simp only
        have hih := ih { factor with arg := factor.arg.set done.length e } f1 (done ++ [e]) ht1
          (fun h => by
            have := ht2 h
            simp only [List.length_append, List.length_singleton]; omega)
          (hset e)
        simp only [List.length_append, List.length_singleton] at hih
        rw [hih]
        constructor
        · rintro ⟨es, hes, hf⟩
          refine ⟨e :: es, List.Forall₂.cons (by rw [hpa]) hes, ?_⟩
          rw [hf]
          simp
        · rintro ⟨es, hes, hf⟩
          cases hes with
          | @cons _ e1 _ es1 h1 h2 =>
            rw [hpa] at h1
            simp only [Ret.ok.injEq] at h1
            subst h1
            refine ⟨es1, h2, ?_⟩
            rw [hf]
            simp
      | fail =>
        simp only
        constructor
        · intro h; exact absurd h (by simp)
        · rintro ⟨es, hes, -⟩
          cases hes with
          | @cons _ e1 _ es1 h1 h2 =>
            rw [hpa] at h1
            exact absurd h1 (by simp)
      | out_of_fuel =>
        simp only
        constructor
        · intro h; exact absurd h (by simp)
        · rintro ⟨es, hes, -⟩
          cases hes with
          | @cons _ e1 _ es1 h1 h2 =>
            rw [hpa] at h1
            exact absurd h1 (by simp)

theorem parsed_unique {D : Type} (parse : List Char → Res (expr_t D)) :
    ∀ (args : List (List Char)) (es es1 : List (expr_t D)),
      List.Forall₂ (fun a e => (parse a).2 = Ret.ok e) args es →
      List.Forall₂ (fun a e => (parse a).2 = Ret.ok e) args es1 → es = es1 := by
  intro args es es1 h
  induction h generalizing es1 with
  | nil => intro h1; cases h1; rfl
  | @cons x y xs ys hxy _ ih =>
    intro h1
    cases h1 with
    | @cons _ y1 _ ys1 hxy1 hrest =>
      rw [hxy] at hxy1
      simp only [Ret.ok.injEq] at hxy1
      subst hxy1
      rw [ih ys1 hrest]

theorem parse_arguments_functional {D : Type} (ns : Namespace)
    (parse : List Char → Res (expr_t D)) (extra : List (expr_t D))
    (a0 a1 : List Char) (tl : List (List Char)) (factor f1 : expr_factor_t D)
    (ht : factor.type = EXPR_BUILTIN_FUNCTIONAL)
    (harg : factor.arg = List.replicate (tl.length + 2) calloc_expr ++ extra) :
    (parse_arguments ns parse 0 (a0 :: a1 :: tl) factor).2 = Ret.ok f1
      ↔ ∃ e0 v es, (parse a0).2 = Ret.ok e0 ∧ feenox_get_variable_ptr ns a1 = some v
          ∧ List.Forall₂ (fun a e => (parse a).2 = Ret.ok e) tl es
          ∧ f1 = { factor with functional_var_arg := some v,
                               arg := e0 :: calloc_expr :: (es ++ extra) } := by
  have t1 : ¬ (factor.type = EXPR_BUILTIN_VECTORFUNCTION) := by rw [ht]; decide
  have t2 : ¬ (factor.type = EXPR_BUILTIN_FUNCTIONAL ∧ 0 = 1) := by
    intro h; exact absurd h.2 (by decide)
  rw [parse_arguments, if_neg t1, if_neg t2]
  cases hpa : parse a0 with
  | mk log r =>
    cases r with
    | ok e0 =>
      simp only
      have t3 : (factor.type = EXPR_BUILTIN_FUNCTIONAL ∧ 0 + 1 = 1) := ⟨ht, rfl⟩
      rw [parse_arguments, if_neg t1, if_pos t3]
      cases hv : feenox_get_variable_ptr ns a1 with
      | none =>
        simp only
        constructor
        · intro h; exact absurd h (by simp)
        · rintro ⟨e, v, es, -, h2, -⟩
          exact absurd h2 (by simp)
      | some v =>
        simp only
        have hset : factor.arg.set 0 e0
            = [e0, calloc_expr] ++ (List.replicate tl.length calloc_expr ++ extra) := by
          rw [harg, List.replicate_succ, List.replicate_succ]
          simp
        have hih := parse_arguments_exprs_iff ns parse extra tl
          { factor with arg := factor.arg.set 0 e0, functional_var_arg := some v } f1
          [e0, calloc_expr] t1 (fun _ => le_refl _) hset
        simp only [List.length_cons, List.length_nil, Nat.zero_add, Nat.reduceAdd] at hih
        simp only [Nat.zero_add, Nat.reduceAdd]
        rw [hih]
        constructor
        · rintro ⟨es, hes, hf⟩
          exact ⟨e0, v, es, rfl, rfl, hes, by rw [hf]; rfl⟩
        · rintro ⟨e, v1, es, h1, h2, hes, hf⟩
          simp only [Ret.ok.injEq, Option.some.injEq] at h1 h2
          subst h1; subst h2
          exact ⟨es, hes, by rw [hf]; rfl⟩
    | fail =>
      simp only
      constructor
      · intro h; exact absurd h (by simp)
      · rintro ⟨e, v, es, h1, -⟩
        exact absurd h1 (by simp)
    | out_of_fuel =>
      simp only
      constructor
      · intro h; exact absurd h (by simp)
      · rintro ⟨e, v, es, h1, -⟩
        exact absurd h1 (by simp)

/-- C23: for a builtin functional `b` whose bounds count the variable argument
(`2 ≤ min_arguments`) and a call text `b(a1,...,am)` whose arguments are balanced
and free of top-level commas, the factor parser returns a factor exactly when
`min_arguments ≤ m ≤ max_arguments`, the second argument is the name of a
declared variable and the argument parser accepts every other argument.  The
factor is then of the functional kind, bound to `b`, with the variable stored in
`functional_var_arg`; the slot of the second argument in `arg` stays empty (the
text is not handed to the argument parser) and the other slots hold the parsed
expressions. -/
theorem C23_builtin_functional_call {D : Type} (A : Arith D) (ns : Namespace)
    (parse : List Char → Res (expr_t D)) (b : builtin_functional_t) (args : List (List Char))
    (rest : List Char) (hb : plain_builtin_functional ns b = true)
    (hmin : 2 ≤ b.min_arguments) (hne : args ≠ [])
    (hargs : ∀ a ∈ args, is_argument a = true) (factor : expr_factor_t D) :
    (feenox_expression_parse_factor A ns parse
        (b.name ++ '(' :: (join_arguments args ++ ')' :: rest))).2 = Ret.ok factor
      ↔ b.min_arguments ≤ (args.length : Int) ∧ (args.length : Int) ≤ b.max_arguments
        ∧ ∃ a0 a1 tl e0 v es, args = a0 :: a1 :: tl
          ∧ (parse a0).2 = Ret.ok e0 ∧ feenox_get_variable_ptr ns a1 = some v
          ∧ List.Forall₂ (fun a e => (parse a).2 = Ret.ok e) tl es
          ∧ factor = builtin_functional_factor A b
              (b.name.length + ((join_arguments args).length + 2)) (some v)
              (e0 :: calloc_expr
                :: (es ++ List.replicate (b.max_arguments.toNat - args.length) calloc_expr)) := by
  simp only [plain_builtin_functional, Bool.and_eq_true] at hb
  obtain ⟨⟨⟨⟨⟨⟨⟨⟨⟨h1, h2⟩, h3⟩, h4⟩, h5⟩, h6⟩, h7⟩, h8⟩, h9⟩, h10⟩ := hb
  have hcall := parse_factor_call A ns parse b.name args rest h1 (by simpa using h2)
    (by simpa using h3) (by simpa using h4) (by simpa using h5) (by simpa using h6)
    none none none (some b) (by simpa using h7) (by simpa using h8) (by simpa using h9)
    (by simpa using h10) (Or.inr (Or.inr (Or.inr rfl))) hne hargs
  rw [hcall]
  by_cases hlt : (args.length : Int) < b.min_arguments
  · simp only [check_arity, calloc_factor, hlt, if_true]
    constructor
    · intro h; exact absurd h (by simp)
    · rintro ⟨h, -⟩; omega
  by_cases hgt : (args.length : Int) > b.max_arguments
  · simp only [check_arity, calloc_factor, hlt, hgt, if_true, if_false]
    constructor
    · intro h; exact absurd h (by simp)
    · rintro ⟨-, h, -⟩; omega
  simp only [check_arity, calloc_factor, hlt, hgt, if_false]
  have ht : (EXPR_BUILTIN_FUNCTIONAL ≠ EXPR_BUILTIN_VECTORFUNCTION) := by decide
  rw [if_pos ht]
  obtain ⟨a0, a1, tl, hshape⟩ : ∃ a0 a1 tl, args = a0 :: a1 :: tl := by
    match args, hlt with
    | [], _ => exact absurd rfl hne
    | [a], h => simp only [List.length_singleton] at h; push_cast at h; omega
    | a0 :: a1 :: tl, _ => exact ⟨a0, a1, tl, rfl⟩
  have hmax : b.max_arguments.toNat
      = (tl.length + 2) + (b.max_arguments.toNat - args.length) := by
    rw [hshape]; rw [hshape] at hgt
    simp only [List.length_cons] at hgt ⊢
    push_cast at hgt
    omega
  have hfun := fun f1 => parse_arguments_functional ns parse
    (List.replicate (b.max_arguments.toNat - args.length) calloc_expr) a0 a1 tl
    ({ n_chars := 0, type := EXPR_BUILTIN_FUNCTIONAL, level := 0, tmp_level := 0, oper := 0,
       constant := A.zero, value := A.zero, builtin_function := none,
       builtin_vectorfunction := none, builtin_functional := some b, var := none,
       vector := none, matrix := none, function := none, vector_arg := [],
       functional_var_arg := none,
       arg := List.replicate b.max_arguments.toNat calloc_expr } : expr_factor_t D) f1 rfl
    (by
      show List.replicate b.max_arguments.toNat calloc_expr = _
      rw [← List.replicate_add, ← hmax])
  rw [← hshape] at hfun
  rcases hpa : parse_arguments ns parse 0 args
    ({ n_chars := 0, type := EXPR_BUILTIN_FUNCTIONAL, level := 0, tmp_level := 0, oper := 0,
       constant := A.zero, value := A.zero, builtin_function := none,
       builtin_vectorfunction := none, builtin_functional := some b, var := none,
       vector := none, matrix := none, function := none, vector_arg := [],
       functional_var_arg := none,
       arg := List.replicate b.max_arguments.toNat calloc_expr } : expr_factor_t D)
    with ⟨log2, r⟩
  rw [hpa] at hfun
  cases r with
  | ok f4 =>
    simp only
    obtain ⟨e0, v, es, g1, g2, g3, g4⟩ := (hfun f4).1 rfl
    constructor
    · intro h
      simp only [Ret.ok.injEq] at h
      refine ⟨not_lt.1 hlt, not_lt.1 hgt, a0, a1, tl, e0, v, es, hshape, g1, g2, g3, ?_⟩
      rw [← h, g4]
      rfl
    · rintro ⟨-, -, b0, b1, tl1, e1, v1, es1, k0, k1, k2, k3, k4⟩
      rw [hshape] at k0
      simp only [List.cons.injEq] at k0
      obtain ⟨k01, k02, k03⟩ := k0
      subst k01; subst k02; subst k03
      rw [g1] at k1
      rw [g2] at k2
      simp only [Ret.ok.injEq, Option.some.injEq] at k1 k2
      subst k1; subst k2
      have hes : es = es1 := parsed_unique parse tl es es1 g3 k3
      subst hes
      rw [k4, g4]
      rfl
  | fail =>
    simp only
    constructor
    · intro h; exact absurd h (by simp)
    · rintro ⟨-, -, b0, b1, tl1, e1, v1, es1, k0, k1, k2, k3, k4⟩
      rw [hshape] at k0
      simp only [List.cons.injEq] at k0
      obtain ⟨k01, k02, k03⟩ := k0
      subst k01; subst k02; subst k03
      have := (hfun _).2 ⟨e1, v1, es1, k1, k2, k3, rfl⟩
      exact absurd this (by simp)
  | out_of_fuel =>
    simp only
    constructor
    · intro h; exact absurd h (by simp)
    · rintro ⟨-, -, b0, b1, tl1, e1, v1, es1, k0, k1, k2, k3, k4⟩
      rw [hshape] at k0
      simp only [List.cons.injEq] at k0
      obtain ⟨k01, k02, k03⟩ := k0
      subst k01; subst k02; subst k03
      have := (hfun _).2 ⟨e1, v1, es1, k1, k2, k3, rfl⟩
      exact absurd this (by simp)

/-- Witness of C23: with `integral` of four to seven arguments and the variable
`x`, the call `integral(1,x,0,1)` gives the factor of `integral` over `x`: the
slots of the first, third and fourth argument hold the parsed expressions, the
slot of the second argument and the three slots left are empty. -/
theorem C23_builtin_functional_call_witness :
    plain_builtin_functional builtin_ns ⟨"integral".toList, 4, 7⟩ = true
    ∧ (feenox_expression_parse_factor exact builtin_ns (feenox_expression_parse exact builtin_ns)
        "integral(1,x,0,1)".toList).2
      = Ret.ok (builtin_functional_factor exact ⟨"integral".toList, 4, 7⟩ 17 (some "x".toList)
          (⟨[digits_factor exact "1".toList 1], "1".toList⟩ :: calloc_expr
            :: ([⟨[digits_factor exact "0".toList 1], "0".toList⟩,
                 ⟨[digits_factor exact "1".toList 1], "1".toList⟩]
                ++ List.replicate (7 - 4) calloc_expr))) :=
  ⟨by decide,
   (C23_builtin_functional_call exact builtin_ns (feenox_expression_parse exact builtin_ns)
      ⟨"integral".toList, 4, 7⟩ ["1".toList, "x".toList, "0".toList, "1".toList] []
      (by decide) (by decide) (by decide) (by decide) _).2
      ⟨by decide, by decide, "1".toList, "x".toList, ["0".toList, "1".toList],
       ⟨[digits_factor exact "1".toList 1], "1".toList⟩, "x".toList,
       [⟨[digits_factor exact "0".toList 1], "0".toList⟩,
        ⟨[digits_factor exact "1".toList 1], "1".toList⟩],
       rfl, rfl, rfl, List.Forall₂.cons rfl (List.Forall₂.cons rfl List.Forall₂.nil), rfl⟩⟩

/-! ## Matrix subindices -/

/-- Pass 1 on a reference to a matrix whose lazy initialisation, when needed,
succeeds and whose row subindex expression evaluates to `x`. -/
theorem pass1_factor_matrix {D : Type} (A : Arith D) (X : Externals D) (w : World D)
    (m : List Char) (row col : expr_t D) (n_chars level : Nat) (x : D) (row1 : expr_t D)
    (w1 : World D)
    (hinit : (w.matrix m).initialized = 0 → (X.feenox_matrix_init m w).1 = 0)
    (hrow : feenox_expression_eval A X row (matrix_ready X m w) = some (x, row1, w1)) :
    pass1_factor A X (matrix_factor A m EXPR_MATRIX n_chars level [row, col]) w
      = if to_size_t (A.lrint x) = 0 ∨ to_size_t (A.lrint x) > to_size_t (w1.matrix m).rows then
          some ({ matrix_factor A m EXPR_MATRIX n_chars level [row1, col] with tmp_level := level },
            w1.push [Event.push_error_message "row subindex %d out of range for matrix %s"
                       [msg_arg.int (to_size_t (A.lrint x)), msg_arg.str m],
                     Event.runtime_error], true)
        else
          match feenox_expression_eval A X col w1 with
          | none => none
          | some (y, col1, w2) =>
            if to_size_t (A.lrint y) = 0 ∨ to_size_t (A.lrint y) > to_size_t (w2.matrix m).cols
            then
              some ({ matrix_factor A m EXPR_MATRIX n_chars level [row1, col1] with
                      tmp_level := level },
                w2.push [Event.push_error_message "column subindex %d out of range for matrix %s"
                           [msg_arg.int (to_size_t (A.lrint y)), msg_arg.str m],
                         Event.runtime_error], true)
            else
              some ({ matrix_factor A m EXPR_MATRIX n_chars level [row1, col1] with
                      tmp_level := level,
                      value := (w2.matrix m).value (to_size_t (A.lrint x) - 1)
                        (to_size_t (A.lrint y) - 1) }, w2, false) := by
  have h : pass1_factor A X (matrix_factor A m EXPR_MATRIX n_chars level [row, col]) w
      = match (if (w.matrix m).initialized = 0 then
                if (X.feenox_matrix_init m w).1 ≠ 0 then (none : Option (World D))
                else some (X.feenox_matrix_init m w).2
              else some w) with
        | none => none
        | some w0 =>
        match feenox_expression_eval A X row w0 with
        | none => none
        | some (x, e0, w2) =>
          if to_size_t (A.lrint x) = 0 ∨ to_size_t (A.lrint x) > to_size_t (w2.matrix m).rows then
            some ({ matrix_factor A m EXPR_MATRIX n_chars level [e0, col] with tmp_level := level },
              w2.push [Event.push_error_message "row subindex %d out of range for matrix %s"
                         [msg_arg.int (to_size_t (A.lrint x)), msg_arg.str m],
                       Event.runtime_error], true)
          else
            match feenox_expression_eval A X col w2 with
            | none => none
            | some (y, e1, w3) =>
              if to_size_t (A.lrint y) = 0 ∨ to_size_t (A.lrint y) > to_size_t (w3.matrix m).cols
              then
                some ({ matrix_factor A m EXPR_MATRIX n_chars level [e0, e1] with
                        tmp_level := level },
                  w3.push [Event.push_error_message
                             "column subindex %d out of range for matrix %s"
                             [msg_arg.int (to_size_t (A.lrint y)), msg_arg.str m],
                           Event.runtime_error], true)
              else
                some ({ matrix_factor A m EXPR_MATRIX n_chars level [e0, e1] with
                        tmp_level := level,
                        value := (w3.matrix m).value (to_size_t (A.lrint x) - 1)
                          (to_size_t (A.lrint y) - 1) }, w3, false) := rfl
  have hw : (if (w.matrix m).initialized = 0 then
                if (X.feenox_matrix_init m w).1 ≠ 0 then (none : Option (World D))
                else some (X.feenox_matrix_init m w).2
              else some w) = some (matrix_ready X m w) := by
    unfold matrix_ready
    by_cases h0 : (w.matrix m).initialized = 0
    · rw [if_pos h0, if_pos h0, if_neg (not_not.2 (hinit h0))]
    · rw [if_neg h0, if_neg h0]
  rw [h, hw]
  simp only [hrow]

/-- C24: matrix indexing is 1-based and bounds-checked, the row first.  For a
reference to the matrix `m` (whose lazy initialisation, when needed, succeeds)
with a row subindex expression that evaluates to a value rounding to `i` (a
`long`), `m` having `r` rows (a non-negative `int`): when `i` is not within
`1..r` the evaluation pushes the row message, calls `feenox_runtime_error` and
returns 0, and the column subindex expression is not evaluated: it is left as it
was and the state is the one the row evaluation left.  When `1 ≤ i ≤ r`, with a
column subindex expression that evaluates to a value rounding to `j`, `m` having
`c` columns: if `1 ≤ j ≤ c` the evaluation returns the entry stored at position
`(i - 1, j - 1)`; for every other `j` it pushes the column message, calls
`feenox_runtime_error` and returns 0. -/
theorem C24_matrix_indexing {D : Type} (A : Arith D) (X : Externals D) (w : World D)
    (m : List Char) (row col : expr_t D) (n_chars : Nat) (s : List Char) (x : D)
    (row1 : expr_t D) (w1 : World D) (i r : Int)
    (hinit : (w.matrix m).initialized = 0 → (X.feenox_matrix_init m w).1 = 0)
    (hrow : feenox_expression_eval A X row (matrix_ready X m w) = some (x, row1, w1))
    (hi : A.lrint x = i)
    (hlong : -9223372036854775808 ≤ i ∧ i < 9223372036854775808)
    (hr : (w1.matrix m).rows = r) (hint : 0 ≤ r ∧ r < 2147483648) :
    (¬ (1 ≤ i ∧ i ≤ r) →
      feenox_expression_eval A X ⟨[matrix_factor A m EXPR_MATRIX n_chars 1 [row, col]], s⟩ w
        = some (A.zero,
            ⟨[{ matrix_factor A m EXPR_MATRIX n_chars 1 [row1, col] with tmp_level := 1 }], s⟩,
            w1.push [Event.push_error_message "row subindex %d out of range for matrix %s"
                       [msg_arg.int (to_size_t i), msg_arg.str m],
                     Event.runtime_error]))
    ∧ (1 ≤ i ∧ i ≤ r →
        ∀ (y : D) (col1 : expr_t D) (w2 : World D) (j c : Int),
          feenox_expression_eval A X col w1 = some (y, col1, w2) → A.lrint y = j →
          (-9223372036854775808 ≤ j ∧ j < 9223372036854775808) →
          (w2.matrix m).cols = c → (0 ≤ c ∧ c < 2147483648) →
          (1 ≤ j ∧ j ≤ c →
            (feenox_expression_eval A X
                ⟨[matrix_factor A m EXPR_MATRIX n_chars 1 [row, col]], s⟩ w).map (fun q => q.1)
              = some ((w2.matrix m).value (i.toNat - 1) (j.toNat - 1)))
          ∧ (¬ (1 ≤ j ∧ j ≤ c) →
            ∃ e1, feenox_expression_eval A X
                ⟨[matrix_factor A m EXPR_MATRIX n_chars 1 [row, col]], s⟩ w
              = some (A.zero, e1,
                  w2.push [Event.push_error_message
                             "column subindex %d out of range for matrix %s"
                             [msg_arg.int (to_size_t j), msg_arg.str m],
                           Event.runtime_error]))) := by
  have hp := pass1_factor_matrix A X w m row col n_chars 1 x row1 w1 hinit hrow
  rw [hi, hr] at hp
  obtain ⟨hr1, hr2⟩ := to_size_t_range i r hlong hint
  constructor
  · intro hout
    have hc : to_size_t i = 0 ∨ to_size_t i > to_size_t r := hr1.mpr hout
    rw [if_pos hc] at hp
    exact eval_single_returned A X w _ _ s _ hp
  · intro hin y col1 w2 j c hcol hj hjlong hcols hcint
    have hc : ¬ (to_size_t i = 0 ∨ to_size_t i > to_size_t r) := fun h => (hr1.mp h) hin
    rw [if_neg hc] at hp
    simp only [hcol, hj, hcols] at hp
    obtain ⟨hc1, hc2⟩ := to_size_t_range j c hjlong hcint
    constructor
    · intro hjin
      have hd : ¬ (to_size_t j = 0 ∨ to_size_t j > to_size_t c) := fun h => (hc1.mp h) hjin
      rw [if_neg hd] at hp
      rw [eval_single_value A X w _ _ s w2 hp rfl]
      show some ((w2.matrix m).value (to_size_t i - 1) (to_size_t j - 1)) = _
      rw [hr2 hin.1, hc2 hjin.1]
    · intro hjout
      have hd : to_size_t j = 0 ∨ to_size_t j > to_size_t c := hc1.mpr hjout
      rw [if_pos hd] at hp
      exact ⟨_, eval_single_returned A X w _ _ s _ hp⟩

/-- Witness of C24, through the parser, with a matrix of 2 rows and 3 columns
holding `10 i + j`: `m(2,3)` gives 23, `m(3,1)` is reported with the row message
and `m(1,4)` with the column message, and both give 0. -/
theorem C24_matrix_indexing_witness :
    (feenox_expression_parse exact builtin_ns "m(2,3)".toList
        = ([], Ret.ok ⟨[matrix_factor exact "m".toList EXPR_MATRIX 6 1
            [⟨[digits_factor exact "2".toList 1], "2".toList⟩,
             ⟨[digits_factor exact "3".toList 1], "3".toList⟩]], "m(2,3)".toList⟩)
      ∧ (feenox_expression_eval exact sample_externals
          ⟨[matrix_factor exact "m".toList EXPR_MATRIX 6 1
            [⟨[digits_factor exact "2".toList 1], "2".toList⟩,
             ⟨[digits_factor exact "3".toList 1], "3".toList⟩]], "m(2,3)".toList⟩
          matrix_world).map (fun q => q.1) = some (XReal.fin 23))
    ∧ (∃ e1, feenox_expression_eval exact sample_externals
          ⟨[matrix_factor exact "m".toList EXPR_MATRIX 6 1
            [⟨[digits_factor exact "3".toList 1], "3".toList⟩,
             ⟨[digits_factor exact "1".toList 1], "1".toList⟩]], "m(3,1)".toList⟩ matrix_world
          = some (XReal.fin 0, e1,
              matrix_world.push [Event.push_error_message
                "row subindex %d out of range for matrix %s"
                [msg_arg.int 3, msg_arg.str "m".toList], Event.runtime_error]))
    ∧ (∃ e1, feenox_expression_eval exact sample_externals
          ⟨[matrix_factor exact "m".toList EXPR_MATRIX 6 1
            [⟨[digits_factor exact "1".toList 1], "1".toList⟩,
             ⟨[digits_factor exact "4".toList 1], "4".toList⟩]], "m(1,4)".toList⟩ matrix_world
          = some (XReal.fin 0, e1,
              matrix_world.push [Event.push_error_message
                "column subindex %d out of range for matrix %s"
                [msg_arg.int 4, msg_arg.str "m".toList], Event.runtime_error])) := by
  have hinit : (matrix_world.matrix "m".toList).initialized = 0 →
      (sample_externals.feenox_matrix_init "m".toList matrix_world).1 = 0 := fun _ => rfl
  have hsub : ∀ ds : List Char,
      feenox_expression_eval exact sample_externals ⟨[digits_factor exact ds 1], ds⟩
          matrix_world
        = some (literal exact ds,
            ⟨[plain_factor exact 2 1 1 0 ds.length (literal exact ds) (literal exact ds)], ds⟩,
            matrix_world) := by
    intro ds
    rfl
  have h23 := (C24_matrix_indexing exact sample_externals matrix_world "m".toList
    ⟨[digits_factor exact "2".toList 1], "2".toList⟩
    ⟨[digits_factor exact "3".toList 1], "3".toList⟩ 6 "m(2,3)".toList _ _ _ 2 2
    hinit (hsub "2".toList) (lrint_literal_exact "2".toList) (by decide) rfl (by decide)).2
    (by decide) _ _ _ 3 3 (hsub "3".toList) (lrint_literal_exact "3".toList) (by decide) rfl
    (by decide)
  have h31 := (C24_matrix_indexing exact sample_externals matrix_world "m".toList
    ⟨[digits_factor exact "3".toList 1], "3".toList⟩
    ⟨[digits_factor exact "1".toList 1], "1".toList⟩ 6 "m(3,1)".toList _ _ _ 3 2
    hinit (hsub "3".toList) (lrint_literal_exact "3".toList) (by decide) rfl (by decide)).1
    (by decide)
  have h14 := (C24_matrix_indexing exact sample_externals matrix_world "m".toList
    ⟨[digits_factor exact "1".toList 1], "1".toList⟩
    ⟨[digits_factor exact "4".toList 1], "4".toList⟩ 6 "m(1,4)".toList _ _ _ 1 2
    hinit (hsub "1".toList) (lrint_literal_exact "1".toList) (by decide) rfl (by decide)).2
    (by decide) _ _ _ 4 3 (hsub "4".toList) (lrint_literal_exact "4".toList) (by decide) rfl
    (by decide)
  refine ⟨⟨rfl, ?_⟩, ⟨_, h31⟩, ?_⟩
  · rw [h23.1 (by decide)]
    simp only [matrix_world]
    norm_num [Int.toNat]
  · exact h14.2 (by decide)

/-! ## The scan of pass 2 on lists -/

theorem scan_list_inert {D : Type} (A : Arith D) (zero : D) (level : Nat)
    (front : List (expr_factor_t D)) (p : expr_factor_t D) (mid : List (expr_factor_t D))
    (e : expr_factor_t D) (suf : List (expr_factor_t D))
    (h1 : ¬ (e.tmp_level = level ∧ e.oper ≠ 0)) (h2 : ¬ (e.tmp_level ≠ 0 ∧ e.oper = 0)) :
    scan_list A zero level front p mid (e :: suf)
      = scan_list A zero level front p (mid ++ [e]) suf := by
  cases suf with
  | nil => simp only [scan_list]; rw [if_neg h1, if_neg h2]
  | cons n suf => rw [scan_list, if_neg h1, if_neg h2]

theorem scan_list_live {D : Type} (A : Arith D) (zero : D) (level : Nat)
    (front : List (expr_factor_t D)) (p : expr_factor_t D) (mid : List (expr_factor_t D))
    (e : expr_factor_t D) (suf : List (expr_factor_t D))
    (h1 : ¬ (e.tmp_level = level ∧ e.oper ≠ 0)) (h2 : e.tmp_level ≠ 0 ∧ e.oper = 0) :
    scan_list A zero level front p mid (e :: suf)
      = scan_list A zero level (front ++ p :: mid) e [] suf := by
  cases suf with
  | nil => simp only [scan_list]; rw [if_neg h1, if_pos h2]
  | cons n suf => rw [scan_list, if_neg h1, if_pos h2]

theorem scan_list_operator {D : Type} (A : Arith D) (zero : D) (level : Nat)
    (front : List (expr_factor_t D)) (p : expr_factor_t D) (mid : List (expr_factor_t D))
    (e n : expr_factor_t D) (suf : List (expr_factor_t D))
    (h1 : e.tmp_level = level ∧ e.oper ≠ 0) :
    scan_list A zero level front p mid (e :: n :: suf)
      = scan_list A zero level front
          { p with value := (apply_operator A zero (char_at operators (e.oper - 1))
                              p.value n.value).1 }
          (mid ++ [e, { n with tmp_level := 0 }]) suf := by
  rw [scan_list, if_pos h1]

theorem scan_list_inert_run {D : Type} (A : Arith D) (zero : D) (level : Nat)
    (xs : List (expr_factor_t D))
    (h : ∀ e ∈ xs, ¬ (e.tmp_level = level ∧ e.oper ≠ 0) ∧ ¬ (e.tmp_level ≠ 0 ∧ e.oper = 0))
    (front : List (expr_factor_t D)) (p : expr_factor_t D) (mid suf : List (expr_factor_t D)) :
    scan_list A zero level front p mid (xs ++ suf)
      = scan_list A zero level front p (mid ++ xs) suf := by
  induction xs generalizing mid with
  | nil => simp
  | cons e xs ih =>
    have he := h e (List.mem_cons_self _ _)
    rw [List.cons_append, scan_list_inert A zero level front p mid e _ he.1 he.2,
      ih (fun x hx => h x (List.mem_cons_of_mem _ hx))]
    simp

/-! ## Trees under the scan of pass 2 -/

theorem head_level_ge (t : tree) : ∀ L : Nat, L ≤ head_level t L := by
  induction t with
  | lit ds => intro L; exact le_refl _
  | group t ih => intro L; exact le_trans (by omega) (ih (L + 13))
  | bin l k r ihl _ => intro L; exact ihl L

theorem ops_ge_mono (t : tree) : ∀ (m m1 L : Nat), ops_ge t m L = true → m1 ≤ m →
    ops_ge t m1 L = true := by
  induction t with
  | lit ds => intro m m1 L _ _; rfl
  | group t ih => intro m m1 L h hm; exact ih m m1 (L + 13) h hm
  | bin l k r ihl ihr =>
    intro m m1 L h hm
    simp only [ops_ge, Bool.and_eq_true, decide_eq_true_eq] at h ⊢
    exact ⟨⟨by omega, ihl m m1 L h.1.2 hm⟩, ihr m m1 L h.2 hm⟩

/-- Once every operator of a tree is reduced, the factors after the first one are
skipped by the scans. -/
theorem tail_factors_inert {D : Type} (A : Arith D) (zero : D) (t : tree) :
    ∀ (n L : Nat), ops_ge t (n + 1) L = true →
      ∀ e ∈ tail_factors A zero t n L,
        ¬ (e.tmp_level = n ∧ e.oper ≠ 0) ∧ ¬ (e.tmp_level ≠ 0 ∧ e.oper = 0) := by
  induction t with
  | lit ds => intro n L _ e he; simp [tail_factors] at he
  | group t ih => intro n L h e he; exact ih n (L + 13) h e he
  | bin l k r ihl ihr =>
    intro n L h e he
    simp only [ops_ge, Bool.and_eq_true, decide_eq_true_eq] at h
    simp only [tail_factors, List.mem_append, List.mem_cons] at he
    rcases he with he | he | he | he
    · exact ihl n L h.1.2 e he
    · subst he
      constructor
      · intro hh
        have : L + k / 2 * 2 = n := hh.1
        omega
      · intro hh
        exact absurd hh.2 (Nat.succ_ne_zero k)
    · subst he
      have hd : decide (L + k / 2 * 2 ≤ n) = false := by
        simp only [decide_eq_false_iff_not]; omega
      constructor
      · intro hh; exact hh.2 rfl
      · intro hh
        apply hh.1
        show (if decide (L + k / 2 * 2 ≤ n) = true then head_level r L else 0) = 0
        rw [hd]; rfl
    · exact ihr n L h.2 e he

/-- Once every operator of a tree is reduced, the later scans leave its factors
as they are. -/
theorem reduced_stable {D : Type} (A : Arith D) (zero : D) (t : tree) :
    ∀ (n m L : Nat), ops_ge t (m + 1) L = true → n ≤ m →
      head_value A zero t n L = head_value A zero t m L
      ∧ tail_factors A zero t n L = tail_factors A zero t m L := by
  induction t with
  | lit ds => intro n m L _ _; exact ⟨rfl, rfl⟩
  | group t ih => intro n m L h hn; exact ih n m (L + 13) h hn
  | bin l k r ihl ihr =>
    intro n m L h hn
    simp only [ops_ge, Bool.and_eq_true, decide_eq_true_eq] at h
    obtain ⟨hl1, hl2⟩ := ihl n m L h.1.2 hn
    obtain ⟨hr1, hr2⟩ := ihr n m L h.2 hn
    have c1 : L + k / 2 * 2 > n := by omega
    have c2 : L + k / 2 * 2 > m := by omega
    have d1 : decide (L + k / 2 * 2 ≤ n) = false := by
      simp only [decide_eq_false_iff_not]; omega
    have d2 : decide (L + k / 2 * 2 ≤ m) = false := by
      simp only [decide_eq_false_iff_not]; omega
    constructor
    · simp only [head_value, if_pos c1, if_pos c2, hl1, hr1]
    · simp only [tail_factors, head_factor, d1, d2, hl2, hr2, hr1]

/-- The scan at level `n + 1` over the factors of a tree whose first factor is
`P`: the factors become those of the tree with the operators of level `n + 1`
reduced as well, and `P` is still the first factor when the tree has no operator
of a lower level. -/
theorem scan_tree {D : Type} (A : Arith D) (zero : D) (n : Nat) (t : tree) :
    ∀ (L : Nat) (front rest : List (expr_factor_t D)), ordered t L = true → 1 ≤ L →
      ∃ f p m,
        scan_list A zero (n + 1) front (head_factor A zero t (n + 1) L true) []
            (tail_factors A zero t (n + 1) L ++ rest)
          = scan_list A zero (n + 1) f p m rest
        ∧ f ++ p :: m = front ++ head_factor A zero t n L true :: tail_factors A zero t n L
        ∧ (ops_ge t (n + 1) L = true →
            f = front ∧ p = head_factor A zero t n L true ∧ m = tail_factors A zero t n L) := by
  induction t with
  | lit ds =>
    intro L front rest _ _
    exact ⟨front, _, [], rfl, rfl, fun _ => ⟨rfl, rfl, rfl⟩⟩
  | group t ih =>
    intro L front rest ho hL
    exact ih (L + 13) front rest ho (by omega)
  | bin l k r ihl ihr =>
    intro L front rest ho hL
    simp only [ordered, Bool.and_eq_true] at ho
    obtain ⟨⟨⟨hol, hor⟩, hgl⟩, hgr⟩ := ho
    have hlive : ∀ x, ¬ ((head_factor A zero r x L true).tmp_level = n + 1
          ∧ (head_factor A zero r x L true).oper ≠ 0)
        ∧ ((head_factor A zero r x L true).tmp_level ≠ 0
          ∧ (head_factor A zero r x L true).oper = 0) := by
      intro x
      have := head_level_ge r L
      refine ⟨fun hh => hh.2 rfl, ?_, rfl⟩
      show head_level r L ≠ 0
      omega
    rcases Nat.lt_trichotomy (L + k / 2 * 2) (n + 1) with hlt | heq | hgt
    · -- the operator has a lower level: not reduced yet
      have c1 : ¬ (L + k / 2 * 2 > n + 1) := by omega
      have c2 : ¬ (L + k / 2 * 2 > n) := by omega
      have d1 : decide (L + k / 2 * 2 ≤ n + 1) = true := by
        simp only [decide_eq_true_eq]; omega
      have d2 : decide (L + k / 2 * 2 ≤ n) = true := by
        simp only [decide_eq_true_eq]; omega
      have hh1 : head_factor A zero (tree.bin l k r) (n + 1) L true
          = head_factor A zero l (n + 1) L true := by
        simp only [head_factor, head_level, head_digits, head_value, if_neg c1]
      have hh2 : head_factor A zero (tree.bin l k r) n L true
          = head_factor A zero l n L true := by
        simp only [head_factor, head_level, head_digits, head_value, if_neg c2]
      obtain ⟨f1, p1, m1, e1, g1, -⟩ := ihl L front
        (plain_factor A EXPR_OPERATOR (L + k / 2 * 2) (L + k / 2 * 2) (k + 1) 0 A.zero A.zero
          :: head_factor A zero r (n + 1) L true :: (tail_factors A zero r (n + 1) L ++ rest))
        hol hL
      obtain ⟨f2, p2, m2, e2, g2, -⟩ := ihr L
        (f1 ++ p1 :: (m1 ++ [plain_factor A EXPR_OPERATOR (L + k / 2 * 2) (L + k / 2 * 2) (k + 1)
          0 A.zero A.zero])) rest hor hL
      refine ⟨f2, p2, m2, ?_, ?_, ?_⟩
      · rw [hh1]
        simp only [tail_factors, d1, List.append_assoc, List.cons_append]
        rw [e1, scan_list_inert A zero (n + 1) f1 p1 m1 _ _
            (by intro hh; have : L + k / 2 * 2 = n + 1 := hh.1; omega)
            (by intro hh; exact absurd hh.2 (Nat.succ_ne_zero k)),
          scan_list_live A zero (n + 1) f1 p1 _ _ _ (hlive (n + 1)).1 (hlive (n + 1)).2, e2]
      · rw [g2, hh2]
        simp only [tail_factors, d2]
        have : f1 ++ p1 :: (m1 ++ [plain_factor A EXPR_OPERATOR (L + k / 2 * 2) (L + k / 2 * 2)
            (k + 1) 0 A.zero A.zero])
            = (f1 ++ p1 :: m1) ++ [plain_factor A EXPR_OPERATOR (L + k / 2 * 2) (L + k / 2 * 2)
            (k + 1) 0 A.zero A.zero] := by simp
        rw [this, g1]
        simp
      · intro hg
        simp only [ops_ge, Bool.and_eq_true, decide_eq_true_eq] at hg
        omega
    · -- the operator is of the level of the scan: reduced now
      have c1 : ¬ (L + k / 2 * 2 > n + 1) := by omega
      have c2 : L + k / 2 * 2 > n := by omega
      have d1 : decide (L + k / 2 * 2 ≤ n + 1) = true := by
        simp only [decide_eq_true_eq]; omega
      have d2 : decide (L + k / 2 * 2 ≤ n) = false := by
        simp only [decide_eq_false_iff_not]; omega
      have hh1 : head_factor A zero (tree.bin l k r) (n + 1) L true
          = head_factor A zero l (n + 1) L true := by
        simp only [head_factor, head_level, head_digits, head_value, if_neg c1]
      have hgl1 : ops_ge l (n + 1) L = true := by rw [← heq]; exact hgl
      have hgr1 : ops_ge r (n + 1 + 1) L = true := by rw [← heq]; exact hgr
      obtain ⟨f1, p1, m1, e1, -, s1⟩ := ihl L front
        (plain_factor A EXPR_OPERATOR (L + k / 2 * 2) (L + k / 2 * 2) (k + 1) 0 A.zero A.zero
          :: head_factor A zero r (n + 1) L true :: (tail_factors A zero r (n + 1) L ++ rest))
        hol hL
      obtain ⟨sf, sp, sm⟩ := s1 hgl1
      rw [sf, sp, sm] at e1
      obtain ⟨st1, st2⟩ := reduced_stable A zero r n (n + 1) L hgr1 (by omega)
      refine ⟨front, _, _, ?_, rfl, fun _ => ⟨rfl, rfl, rfl⟩⟩
      rw [hh1]
      simp only [tail_factors, d1, d2, List.append_assoc, List.cons_append]
      rw [e1, scan_list_operator A zero (n + 1) front (head_factor A zero l n L true)
          (tail_factors A zero l n L)
          (plain_factor A EXPR_OPERATOR (L + k / 2 * 2) (L + k / 2 * 2) (k + 1) 0 A.zero A.zero)
          (head_factor A zero r (n + 1) L true) _ ⟨heq, Nat.succ_ne_zero k⟩,
        scan_list_inert_run A zero (n + 1) _ (tail_factors_inert A zero r (n + 1) L hgr1)]
      rw [st2]
      have hp : ({ head_factor A zero l n L true with
            value := (apply_operator A zero
              (char_at operators
                ((plain_factor A EXPR_OPERATOR (L + k / 2 * 2) (L + k / 2 * 2) (k + 1) 0
                  A.zero A.zero).oper - 1))
              (head_factor A zero l n L true).value
              (head_factor A zero r (n + 1) L true).value).1 } : expr_factor_t D)
          = head_factor A zero (tree.bin l k r) n L true := by
        simp only [head_factor, head_level, head_digits, head_value, if_pos c2, plain_factor,
          st1, Nat.add_sub_cancel]
      have hq : ({ head_factor A zero r (n + 1) L true with tmp_level := 0 } : expr_factor_t D)
          = head_factor A zero r n L false := by
        simp only [head_factor, plain_factor, st1]
        rfl
      rw [hp, hq]
      simp
    · -- the operator has a higher level: reduced before
      have hg : ops_ge (tree.bin l k r) (n + 1 + 1) L = true := by
        simp only [ops_ge, Bool.and_eq_true, decide_eq_true_eq]
        exact ⟨⟨by omega, ops_ge_mono l _ _ L hgl (by omega)⟩,
          ops_ge_mono r _ _ L hgr (by omega)⟩
      obtain ⟨st1, st2⟩ := reduced_stable A zero (tree.bin l k r) n (n + 1) L hg (by omega)
      refine ⟨front, _, _, ?_, rfl, fun _ => ⟨rfl, rfl, rfl⟩⟩
      rw [scan_list_inert_run A zero (n + 1) _
        (tail_factors_inert A zero (tree.bin l k r) (n + 1) L hg)]
      have : head_factor A zero (tree.bin l k r) (n + 1) L true
          = head_factor A zero (tree.bin l k r) n L true := by
        simp only [head_factor, st1]
      rw [this, st2]
      simp

theorem get_at_P {α : Type} (front : List α) (p : α) (rest : List α) :
    (front ++ p :: rest).get? front.length = some p := by
  rw [List.get?_eq_getElem?, List.getElem?_append_right (le_refl _)]
  simp only [Nat.sub_self, List.getElem?_cons_zero]

theorem get_at_E {α : Type} (front : List α) (p : α) (mid : List α) (e : α) (suf : List α) :
    (front ++ p :: (mid ++ e :: suf)).get? (front.length + 1 + mid.length) = some e := by
  have h : front ++ p :: (mid ++ e :: suf) = (front ++ p :: mid) ++ e :: suf := by simp
  have hl : front.length + 1 + mid.length = (front ++ p :: mid).length := by simp; omega
  rw [h, hl, List.get?_eq_getElem?, List.getElem?_append_right (le_refl _)]
  simp only [Nat.sub_self, List.getElem?_cons_zero]

theorem get_after_E {α : Type} (front : List α) (p : α) (mid : List α) (e n : α)
    (suf : List α) :
    (front ++ p :: (mid ++ e :: n :: suf)).get? (front.length + 1 + mid.length + 1) = some n := by
  have h : front ++ p :: (mid ++ e :: n :: suf) = (front ++ p :: (mid ++ [e])) ++ n :: suf := by
    simp
  have hl : front.length + 1 + mid.length + 1 = (front ++ p :: (mid ++ [e])).length := by
    simp; omega
  rw [h, hl, List.get?_eq_getElem?, List.getElem?_append_right (le_refl _)]
  simp only [Nat.sub_self, List.getElem?_cons_zero]

theorem get_past_end {α : Type} (front : List α) (p : α) (mid : List α) :
    (front ++ p :: (mid ++ [])).get? (front.length + 1 + mid.length) = none := by
  simp; omega

theorem set_P_and_next {α : Type} (front : List α) (p p1 : α) (mid : List α) (e n n1 : α)
    (suf : List α) :
    ((front ++ p :: (mid ++ e :: n :: suf)).set front.length p1).set
        (front.length + 1 + mid.length + 1) n1
      = front ++ p1 :: ((mid ++ [e, n1]) ++ suf) := by
  have h1 : (front ++ p :: (mid ++ e :: n :: suf)).set front.length p1
      = front ++ p1 :: (mid ++ e :: n :: suf) := by
    rw [List.set_append_right _ _ (le_refl _)]
    simp
  rw [h1]
  have h : front ++ p1 :: (mid ++ e :: n :: suf) = (front ++ p1 :: (mid ++ [e])) ++ n :: suf := by
    simp
  have hl : front.length + 1 + mid.length + 1 = (front ++ p1 :: (mid ++ [e])).length := by
    simp; omega
  rw [h, hl, List.set_append_right _ _ (le_refl _)]
  simp

/-- The scan of pass 2 by positions, entered with `P` after `front` and `E` after
`mid`, ends with the factors the scan on lists gives. -/
theorem pass2_scan_list {D : Type} (A : Arith D) (zero : D) (level : Nat) :
    ∀ (fuel : Nat) (suf front : List (expr_factor_t D)) (p : expr_factor_t D)
      (mid f1 : List (expr_factor_t D)) (p1 : expr_factor_t D) (m1 : List (expr_factor_t D))
      (log : List Event),
      scan_list A zero level front p mid suf = some (f1, p1, m1) → suf.length ≤ fuel →
      ∃ log1, pass2_scan A zero level fuel front.length (front.length + 1 + mid.length)
          (front ++ p :: (mid ++ suf)) log = some (f1 ++ p1 :: m1, log1) := by
  intro fuel
  induction fuel using Nat.strong_induction_on with
  | _ fuel ih =>
    intro suf front p mid f1 p1 m1 log h hfuel
    cases suf with
    | nil =>
      simp only [scan_list, Option.some.injEq, Prod.mk.injEq] at h
      obtain ⟨h1, h2, h3⟩ := h
      subst h1; subst h2; subst h3
      cases fuel with
      | zero => exact ⟨log, by simp [pass2_scan]⟩
      | succ fuel =>
        refine ⟨log, ?_⟩
        rw [pass2_scan, get_past_end]
        simp
    | cons e suf =>
      cases fuel with
      | zero => simp at hfuel
      | succ fuel =>
        rw [pass2_scan, get_at_E]
        simp only
        by_cases ht : e.tmp_level = level ∧ e.oper ≠ 0
        · rw [if_pos ht]
          cases suf with
          | nil => simp only [scan_list] at h; rw [if_pos ht] at h; exact absurd h (by simp)
          | cons n suf =>
            rw [scan_list_operator A zero level front p mid e n suf ht] at h
            rw [get_at_P, get_after_E]
            simp only
            rw [set_P_and_next]
            obtain ⟨log1, hl⟩ := ih fuel (by omega) suf front _ _ f1 p1 m1
              (log ++ (apply_operator A zero (char_at operators (e.oper - 1)) p.value n.value).2)
              h (by simp at hfuel; omega)
            refine ⟨log1, ?_⟩
            rw [← hl]
            simp only [List.length_append, List.length_cons, List.length_nil]
            rw [show front.length + 1 + mid.length + 2 = front.length + 1 + (mid.length + (0 + 1 + 1))
              by omega]
        · rw [if_neg ht]
          by_cases hl : e.tmp_level ≠ 0 ∧ e.oper = 0
          · rw [if_pos hl]
            rw [scan_list_live A zero level front p mid e suf ht hl] at h
            obtain ⟨log1, hl1⟩ := ih fuel (by omega) suf (front ++ p :: mid) e [] f1 p1 m1 log h
              (by simp at hfuel; omega)
            refine ⟨log1, ?_⟩
            rw [← hl1]
            simp only [List.length_append, List.length_cons, List.length_nil, List.nil_append,
              List.append_assoc, List.cons_append]
            rw [show front.length + 1 + mid.length = front.length + (mid.length + 1) by omega]
          · rw [if_neg hl]
            rw [scan_list_inert A zero level front p mid e suf ht hl] at h
            obtain ⟨log1, hl1⟩ := ih fuel (by omega) suf front p (mid ++ [e]) f1 p1 m1 log h
              (by simp at hfuel; omega)
            refine ⟨log1, ?_⟩
            rw [← hl1]
            simp only [List.length_append, List.length_cons, List.length_nil, List.nil_append,
              List.append_assoc, List.cons_append]
            rw [show front.length + 1 + mid.length + 1 = front.length + 1 + (mid.length + (0 + 1))
              by omega]

theorem head_value_zero {D : Type} (A : Arith D) (zero : D) (t : tree) :
    ∀ L : Nat, 1 ≤ L → head_value A zero t 0 L = tree_value A zero t := by
  induction t with
  | lit ds => intro L _; rfl
  | group t ih => intro L hL; exact ih (L + 13) (by omega)
  | bin l k r ihl ihr =>
    intro L hL
    have c : L + k / 2 * 2 > 0 := by omega
    simp only [head_value, tree_value, if_pos c, ihl L hL, ihr L hL]

/-- The scan of pass 2 at level `n + 1` on the factors of a tree. -/
theorem pass2_scan_tree {D : Type} (A : Arith D) (zero : D) (t : tree) (n : Nat)
    (ho : ordered t 1 = true) (log : List Event) :
    ∃ log1,
      pass2_scan A zero (n + 1)
          (head_factor A zero t (n + 1) 1 true :: tail_factors A zero t (n + 1) 1).length 0 0
          (head_factor A zero t (n + 1) 1 true :: tail_factors A zero t (n + 1) 1) log
        = some (head_factor A zero t n 1 true :: tail_factors A zero t n 1, log1) := by
  obtain ⟨f, p, m, e1, g1, -⟩ := scan_tree A zero n t 1 [] [] ho (le_refl _)
  simp only [List.append_nil, List.nil_append] at e1 g1
  have e2 : scan_list A zero (n + 1) [] (head_factor A zero t (n + 1) 1 true) []
      (tail_factors A zero t (n + 1) 1) = some (f, p, m) := by
    rw [e1]; rfl
  obtain ⟨log1, hb⟩ := pass2_scan_list A zero (n + 1)
    (tail_factors A zero t (n + 1) 1).length (tail_factors A zero t (n + 1) 1) []
    (head_factor A zero t (n + 1) 1 true) [] f p m log e2 (le_refl _)
  refine ⟨log1, ?_⟩
  simp only [List.length_nil, List.nil_append, Nat.zero_add, Nat.add_zero] at hb
  rw [← g1, ← hb]
  have hl := head_level_ge t 1
  have h1 : ¬ ((head_factor A zero t (n + 1) 1 true).tmp_level = n + 1
      ∧ (head_factor A zero t (n + 1) 1 true).oper ≠ 0) := fun hh => hh.2 rfl
  have h2 : (head_factor A zero t (n + 1) 1 true).tmp_level ≠ 0
      ∧ (head_factor A zero t (n + 1) 1 true).oper = 0 := by
    refine ⟨?_, rfl⟩
    show head_level t 1 ≠ 0
    omega
  simp only [List.length_cons]
  rw [pass2_scan]
  simp only [List.get?_cons_zero]
  rw [if_neg h1, if_pos h2]

/-- Pass 2 on the factors of a tree: every operator is reduced. -/
theorem pass2_tree {D : Type} (A : Arith D) (zero : D) (t : tree) (ho : ordered t 1 = true) :
    ∀ (n : Nat) (log : List Event), ∃ log1,
      pass2 A zero n (head_factor A zero t n 1 true :: tail_factors A zero t n 1) log
        = some (head_factor A zero t 0 1 true :: tail_factors A zero t 0 1, log1) := by
  intro n
  induction n with
  | zero => intro log; exact ⟨log, rfl⟩
  | succ n ih =>
    intro log
    obtain ⟨log1, h1⟩ := pass2_scan_tree A zero t n ho log
    obtain ⟨log2, h2⟩ := ih log1
    refine ⟨log2, ?_⟩
    rw [pass2, h1]
    exact h2

/-! ## Trees under pass 1 -/

theorem pass1_factor_digits {D : Type} (A : Arith D) (X : Externals D) (ds : List Char)
    (L : Nat) (w : World D) :
    pass1_factor A X (digits_factor A ds L) w
      = some (plain_factor A EXPR_CONSTANT L L 0 ds.length (literal A ds) (literal A ds),
          w, false) := rfl

theorem pass1_factor_operator {D : Type} (A : Arith D) (X : Externals D) (L k : Nat)
    (w : World D) :
    pass1_factor A X (operator_factor A L k) w
      = some (plain_factor A EXPR_OPERATOR ((L + k / 2 * 2) % SIZE_MAX1)
          ((L + k / 2 * 2) % SIZE_MAX1) (k + 1) 0 A.zero A.zero, w, false) := rfl

theorem pass1_cons_plain {D : Type} (A : Arith D) (X : Externals D) (f g : expr_factor_t D)
    (fs : List (expr_factor_t D)) (w : World D)
    (h : pass1_factor A X f w = some (g, w, false)) :
    pass1 A X (f :: fs) w
      = match pass1 A X fs w with
        | none => none
        | some (fs1, w2, returned) => some (g :: fs1, w2, returned) := by
  rewrite [pass1, h]
  rfl

/-- The levels of the factors of a tree. -/
theorem tree_factors_level {D : Type} (A : Arith D) (t : tree) :
    ∀ (L : Nat), tree_digits t = true → L + 13 * tree_depth t + 10 < SIZE_MAX1 →
      ∀ f ∈ tree_factors A t L, f.level ≤ L + 13 * tree_depth t + 10 := by
  induction t with
  | lit ds =>
    intro L _ _ f hf
    simp only [tree_factors, List.mem_singleton] at hf
    subst hf
    show L ≤ _
    omega
  | group t ih =>
    intro L hd hb f hf
    simp only [tree_depth] at hb ⊢
    have := ih (L + 13) hd (by omega) f hf
    omega
  | bin l k r ihl ihr =>
    intro L hd hb f hf
    simp only [tree_digits, Bool.and_eq_true, decide_eq_true_eq] at hd
    simp only [tree_depth] at hb ⊢
    simp only [tree_factors, List.mem_append, List.mem_cons] at hf
    have hk : k / 2 * 2 ≤ 10 := by omega
    rcases hf with hf | hf | hf
    · have := ihl L hd.1.1 (by omega) f hf
      omega
    · subst hf
      show (L + k / 2 * 2) % SIZE_MAX1 ≤ _
      rw [Nat.mod_eq_of_lt (by omega)]
      omega
    · have := ihr L hd.2 (by omega) f hf
      omega

/-- Pass 1 on the factors of a tree: the state is left alone and the factors are
those of the tree with no operator reduced, for every `M` that bounds the
levels. -/
theorem pass1_tree {D : Type} (A : Arith D) (X : Externals D) (zero : D) (M : Nat) (t : tree) :
    ∀ (L : Nat) (rest : List (expr_factor_t D)) (w : World D), tree_digits t = true →
      L + 13 * tree_depth t + 10 < SIZE_MAX1 →
      (∀ f ∈ tree_factors A t L, f.level ≤ M) →
      pass1 A X (tree_factors A t L ++ rest) w
        = match pass1 A X rest w with
          | none => none
          | some (fs1, w2, returned) =>
            some (head_factor A zero t M L true :: (tail_factors A zero t M L ++ fs1),
              w2, returned) := by
  induction t with
  | lit ds =>
    intro L rest w _ _ _
    exact pass1_cons_plain A X _ _ rest w (pass1_factor_digits A X ds L w)
  | group t ih =>
    intro L rest w hd hb hM
    simp only [tree_depth] at hb
    exact ih (L + 13) rest w hd (by omega) hM
  | bin l k r ihl ihr =>
    intro L rest w hd hb hM
    simp only [tree_digits, Bool.and_eq_true, decide_eq_true_eq] at hd
    simp only [tree_depth] at hb
    have hmod : (L + k / 2 * 2) % SIZE_MAX1 = L + k / 2 * 2 :=
      Nat.mod_eq_of_lt (by omega)
    have hlev : L + k / 2 * 2 ≤ M := by
      have := hM (operator_factor A L k) (by simp [tree_factors])
      have h2 : (operator_factor A L k).level = (L + k / 2 * 2) % SIZE_MAX1 := rfl
      rw [h2, hmod] at this
      exact this
    have c : ¬ (L + k / 2 * 2 > M) := by omega
    have d : decide (L + k / 2 * 2 ≤ M) = true := by simp only [decide_eq_true_eq]; exact hlev
    have hl := ihl L (operator_factor A L k :: (tree_factors A r L ++ rest)) w hd.1.1 (by omega)
      (fun f hf => hM f (by simp [tree_factors, hf]))
    have hr := ihr L rest w hd.2 (by omega) (fun f hf => hM f (by simp [tree_factors, hf]))
    have ho := pass1_cons_plain A X _ _ (tree_factors A r L ++ rest) w
      (pass1_factor_operator A X L k w)
    simp only [tree_factors, List.append_assoc, List.cons_append]
    rw [hl, ho, hr, hmod]
    cases pass1 A X rest w with
    | none => rfl
    | some q =>
      obtain ⟨fs1, w2, returned⟩ := q
      simp only [tail_factors, d, head_factor, head_level, head_digits, head_value, if_neg c,
        List.append_assoc, List.cons_append]

/-- The `int level` between the passes bounds the levels of the factors when
they are below `2 ^ 31`. -/
theorem max_level_bounds {D : Type} (fs : List (expr_factor_t D))
    (h : ∀ f ∈ fs, f.level < 2147483648) :
    ∀ f ∈ fs, f.level ≤ (max_level fs).toNat := by
  have key : ∀ (gs : List (expr_factor_t D)) (acc : Nat), acc < 2147483648 →
      (∀ f ∈ gs, f.level < 2147483648) →
      ∃ r : Nat, gs.foldl (fun level f =>
          if f.level > to_size_t level then to_int32 f.level else level) (acc : Int) = (r : Int)
        ∧ acc ≤ r ∧ r < 2147483648 ∧ ∀ f ∈ gs, f.level ≤ r := by
    intro gs
    induction gs with
    | nil => intro acc ha _; exact ⟨acc, rfl, le_refl _, ha, by simp⟩
    | cons g gs ih =>
      intro acc ha hg
      have hgl := hg g (List.mem_cons_self _ _)
      have e1 : to_size_t (acc : Int) = acc := by
        show acc % 18446744073709551616 = acc
        exact Nat.mod_eq_of_lt (by omega)
      have e2 : to_int32 g.level = (g.level : Int) := by
        unfold to_int32
        have : g.level % 4294967296 = g.level := Nat.mod_eq_of_lt (by omega)
        rw [this, if_pos hgl]
        rfl
      simp only [List.foldl_cons, e1, e2]
      by_cases hc : g.level > acc
      · rw [if_pos hc]
        obtain ⟨r, hr1, hr2, hr3, hr4⟩ := ih g.level hgl
          (fun f hf => hg f (List.mem_cons_of_mem _ hf))
        refine ⟨r, hr1, by omega, hr3, ?_⟩
        intro f hf
        rcases List.mem_cons.mp hf with hf | hf
        · subst hf; exact hr2
        · exact hr4 f hf
      · rw [if_neg hc]
        obtain ⟨r, hr1, hr2, hr3, hr4⟩ := ih acc ha
          (fun f hf => hg f (List.mem_cons_of_mem _ hf))
        refine ⟨r, hr1, hr2, hr3, ?_⟩
        intro f hf
        rcases List.mem_cons.mp hf with hf | hf
        · subst hf; omega
        · exact hr4 f hf
  obtain ⟨r, hr1, -, -, hr4⟩ := key fs 0 (by decide) h
  intro f hf
  have : max_level fs = (r : Int) := hr1
  rw [this]
  exact hr4 f hf

/-! ## Trees under the builder -/

theorem operator_offset_facts :
    ∀ k, k < 11 → isblank (char_at operators k) = false
      ∧ strchr operators (char_at operators k) = some k
      ∧ char_at operators k ≠ '(' ∧ char_at operators k ≠ ')'
      ∧ ends_number [char_at operators k] = true := by
  decide

theorem tree_last_oper_cases (t : tree) :
    tree_last_oper t = none ∨ tree_last_oper t = some 12 := by
  induction t with
  | lit ds => exact Or.inl rfl
  | group t _ => exact Or.inr rfl
  | bin l k r _ ihr => exact ihr

theorem tree_source_ne_nil (t : tree) (h : tree_digits t = true) : tree_source t ≠ [] := by
  induction t with
  | lit ds => exact is_digits_ne_nil h
  | group t _ => simp [tree_source]
  | bin l k r _ _ => simp [tree_source]

/-- The builder on the text of a tree met at level `L`: the factors of the tree
are appended and the level is `L` again. -/
theorem parse_loop_tree {D : Type} (A : Arith D) (ns : Namespace)
    (parse : List Char → Res (expr_t D)) (t : tree) :
    ∀ (L : Nat) (rest : List Char) (oper : Option Nat) (last : Bool)
      (fs : List (expr_factor_t D)), tree_digits t = true → ends_number rest = true →
      L + 13 * tree_depth t + 13 < SIZE_MAX1 →
      parse_loop A (feenox_expression_parse_factor A ns parse) (tree_source t ++ rest) 0 oper
          last L fs
        = parse_loop A (feenox_expression_parse_factor A ns parse) rest 0 (tree_last_oper t)
            false L (fs ++ tree_factors A t L) := by
  induction t with
  | lit ds =>
    intro L rest oper last fs hd hr _
    exact parse_loop_digits A ns parse ds rest hd hr oper last L fs
  | group t ih =>
    intro L rest oper last fs hd hr hb
    simp only [tree_depth] at hb
    have e1 : (L + 13) % SIZE_MAX1 = L + 13 := Nat.mod_eq_of_lt (by omega)
    have e2 : (L + 13 + SIZE_MAX1 - 13) % SIZE_MAX1 = L := by
      have : L + 13 + SIZE_MAX1 - 13 = L + SIZE_MAX1 := by omega
      rw [this, Nat.add_mod_right]
      exact Nat.mod_eq_of_lt (by omega)
    have hs : tree_source (tree.group t) ++ rest = '(' :: (tree_source t ++ ')' :: rest) := by
      simp [tree_source]
    rw [hs, parse_loop_open, e1, ih (L + 13) (')' :: rest) _ _ fs hd rfl (by omega),
      parse_loop_close, e2]
    rfl
  | bin l k r ihl ihr =>
    intro L rest oper last fs hd hr hb
    simp only [tree_digits, Bool.and_eq_true, decide_eq_true_eq] at hd
    simp only [tree_depth] at hb
    obtain ⟨k1, k2, k3, k4, k5⟩ := operator_offset_facts k hd.1.2
    have hs : tree_source (tree.bin l k r) ++ rest
        = tree_source l ++ char_at operators k :: (tree_source r ++ rest) := by
      simp [tree_source]
    rw [hs, ihl L (char_at operators k :: (tree_source r ++ rest)) oper last fs hd.1.1 k5
        (by omega),
      parse_loop_binop A _ (char_at operators k) _ k _ L _ k1 k2 k3 k4,
      ihr L rest _ _ _ hd.2 hr (by omega)]
    simp [tree_factors, tree_last_oper]

/-- The text of a tree is accepted, with the factors of the tree. -/
theorem parse_tree {D : Type} (A : Arith D) (ns : Namespace) (t : tree)
    (hd : tree_digits t = true) (hb : 13 * tree_depth t + 14 < SIZE_MAX1) :
    feenox_expression_parse A ns (tree_source t)
      = ([], Ret.ok ⟨tree_factors A t 1, tree_source t⟩) := by
  have h := parse_loop_tree A ns (feenox_expression_parse A ns) t 1 [] none false [] hd rfl
    (by omega)
  simp only [List.append_nil, List.nil_append] at h
  have hend : parse_loop A (feenox_expression_parse_factor A ns (feenox_expression_parse A ns))
      [] 0 (tree_last_oper t) false 1 (tree_factors A t 1) = ([], Ret.ok (tree_factors A t 1)) := by
    unfold parse_loop
    rcases tree_last_oper_cases t with ho | ho
    · rw [ho]; rfl
    · rw [ho]; rfl
  rw [feenox_expression_parse_unfold, if_neg (tree_source_ne_nil t hd), h, hend]

/-! ## Trees under the evaluator -/

theorem tree_factors_cons {D : Type} (A : Arith D) (t : tree) :
    ∀ L : Nat, ∃ f fs, tree_factors A t L = f :: fs := by
  induction t with
  | lit ds => intro L; exact ⟨_, [], rfl⟩
  | group t ih => intro L; exact ih (L + 13)
  | bin l k r ihl _ =>
    intro L
    obtain ⟨f, fs, h⟩ := ihl L
    exact ⟨f, fs ++ operator_factor A L k :: tree_factors A r L, by simp [tree_factors, h]⟩

/-- Pass 1 and the scans leave the levels of the factors of a tree alone. -/
theorem state_levels {D : Type} (A : Arith D) (zero : D) (t : tree) :
    ∀ (n L : Nat) (live : Bool), tree_digits t = true →
      L + 13 * tree_depth t + 10 < SIZE_MAX1 →
      (head_factor A zero t n L live :: tail_factors A zero t n L).map (fun f => f.level)
        = (tree_factors A t L).map (fun f => f.level) := by
  induction t with
  | lit ds => intro n L live _ _; rfl
  | group t ih =>
    intro n L live hd hb
    simp only [tree_depth] at hb
    exact ih n (L + 13) live hd (by omega)
  | bin l k r ihl ihr =>
    intro n L live hd hb
    simp only [tree_digits, Bool.and_eq_true, decide_eq_true_eq] at hd
    simp only [tree_depth] at hb
    have hmod : (L + k / 2 * 2) % SIZE_MAX1 = L + k / 2 * 2 :=
      Nat.mod_eq_of_lt (by omega)
    have hl := ihl n L live hd.1.1 (by omega)
    have hr := ihr n L (decide (L + k / 2 * 2 ≤ n)) hd.2 (by omega)
    have hh : (head_factor A zero (tree.bin l k r) n L live).level
        = (head_factor A zero l n L live).level := rfl
    have ho : (operator_factor A L k).level = L + k / 2 * 2 := hmod
    simp only [tree_factors, tail_factors, List.map_cons, List.map_append] at hl hr ⊢
    rw [← hl, ← hr, hh, ho]
    rfl

theorem eval_unfold {D : Type} (A : Arith D) (X : Externals D) (w : World D)
    (f : expr_factor_t D) (fs : List (expr_factor_t D)) (s : List Char) :
    feenox_expression_eval A X ⟨f :: fs, s⟩ w
      = match pass1 A X (f :: fs) w with
        | none => none
        | some (factors1, w1, true) => some (A.zero, ⟨factors1, s⟩, w1)
        | some (factors1, w1, false) =>
          match pass2 A w1.special_var_zero (max_level factors1).toNat factors1 w1.log with
          | none => none
          | some (factors2, log2) =>
            some (first_value A factors2, ⟨factors2, s⟩,
              { w1 with log :=
                  if A.gsl_isnan (first_value A factors2) ∨ A.gsl_isinf (first_value A factors2)
                  then log2 ++ [Event.push_error_message "in '%s'" [msg_arg.str s],
                                Event.nan_error]
                  else log2 }) := rfl

/-- The evaluator on the factors of a tree returns the value of the tree. -/
theorem eval_tree {D : Type} (A : Arith D) (X : Externals D) (w : World D) (t : tree)
    (s : List Char) (hd : tree_digits t = true) (ho : ordered t 1 = true)
    (hb : 13 * tree_depth t + 11 < 2147483648) :
    ∃ e1 w1, feenox_expression_eval A X ⟨tree_factors A t 1, s⟩ w
      = some (tree_value A w.special_var_zero t, e1, w1) := by
  have hsz : 1 + 13 * tree_depth t + 10 < SIZE_MAX1 := by unfold SIZE_MAX1; omega
  have hlev := tree_factors_level A t 1 hd hsz
  have hp1 := fun M hM => pass1_tree A X w.special_var_zero M t 1 [] w hd hsz hM
  simp only [List.append_nil] at hp1
  have hnil : pass1 A X [] w = some ([], w, false) := rfl
  -- the factors after pass 1, for a bound that is large enough
  have hbig := hp1 (1 + 13 * tree_depth t + 10) hlev
  rw [hnil] at hbig
  simp only [List.append_nil] at hbig
  -- the level between the passes bounds the levels
  have hsl := state_levels A w.special_var_zero t (1 + 13 * tree_depth t + 10) 1 true hd hsz
  have hmem : ∀ (g : expr_factor_t D),
      g ∈ (head_factor A w.special_var_zero t (1 + 13 * tree_depth t + 10) 1 true
        :: tail_factors A w.special_var_zero t (1 + 13 * tree_depth t + 10) 1) →
      ∃ f ∈ tree_factors A t 1, f.level = g.level := by
    intro g hg
    have : g.level ∈ (tree_factors A t 1).map (fun f => f.level) := by
      rw [← hsl]; exact List.mem_map_of_mem _ hg
    obtain ⟨f, hf, hfl⟩ := List.mem_map.mp this
    exact ⟨f, hf, hfl⟩
  have hmem2 : ∀ f ∈ tree_factors A t 1,
      ∃ g ∈ (head_factor A w.special_var_zero t (1 + 13 * tree_depth t + 10) 1 true
        :: tail_factors A w.special_var_zero t (1 + 13 * tree_depth t + 10) 1),
        g.level = f.level := by
    intro f hf
    have : f.level ∈ (head_factor A w.special_var_zero t (1 + 13 * tree_depth t + 10) 1 true
        :: tail_factors A w.special_var_zero t (1 + 13 * tree_depth t + 10) 1).map
          (fun f => f.level) := by
      rw [hsl]; exact List.mem_map_of_mem _ hf
    obtain ⟨g, hg, hgl⟩ := List.mem_map.mp this
    exact ⟨g, hg, hgl⟩
  have hmax := max_level_bounds
    (head_factor A w.special_var_zero t (1 + 13 * tree_depth t + 10) 1 true
      :: tail_factors A w.special_var_zero t (1 + 13 * tree_depth t + 10) 1)
    (by
      intro g hg
      obtain ⟨f, hf, hfl⟩ := hmem g hg
      have := hlev f hf
      omega)
  have hM : ∀ f ∈ tree_factors A t 1, f.level
      ≤ (max_level (head_factor A w.special_var_zero t (1 + 13 * tree_depth t + 10) 1 true
        :: tail_factors A w.special_var_zero t (1 + 13 * tree_depth t + 10) 1)).toNat := by
    intro f hf
    obtain ⟨g, hg, hgl⟩ := hmem2 f hf
    rw [← hgl]
    exact hmax g hg
  -- the factors after pass 1 are those of the tree with no operator reduced
  have hsmall := hp1 _ hM
  rw [hnil] at hsmall
  simp only [List.append_nil] at hsmall
  have hsame := hbig.symm.trans hsmall
  simp only [Option.some.injEq, Prod.mk.injEq, and_true] at hsame
  obtain ⟨log1, hp2⟩ := pass2_tree A w.special_var_zero t ho
    (max_level (head_factor A w.special_var_zero t (1 + 13 * tree_depth t + 10) 1 true
        :: tail_factors A w.special_var_zero t (1 + 13 * tree_depth t + 10) 1)).toNat w.log
  rw [← hsame] at hp2
  obtain ⟨f, fs, hcons⟩ := tree_factors_cons A t 1
  rw [hcons] at hbig ⊢
  rw [eval_unfold, hbig]
  simp only [hp2]
  have hv : first_value A (head_factor A w.special_var_zero t 0 1 true
      :: tail_factors A w.special_var_zero t 0 1) = tree_value A w.special_var_zero t :=
    head_value_zero A w.special_var_zero t 1 (le_refl _)
  rw [hv]
  exact ⟨_, _, rfl⟩

/-! ## The conventional grammar as trees -/

mutual

theorem term_tree_facts {D : Type} (A : Arith D) (zero : D) :
    ∀ t : arith_term, tree_source (term_tree t) = source_term t
      ∧ tree_value A zero (term_tree t) = reference_term A t
      ∧ tree_digits (term_tree t) = literals_term t
      ∧ tree_depth (term_tree t) = nesting_term t
  | arith_term.lit ds => ⟨rfl, rfl, rfl, rfl⟩
  | arith_term.group e => by
    obtain ⟨h1, h2, h3, h4⟩ := sum_tree_facts A zero e
    simp only [term_tree, tree_source, tree_value, tree_digits, tree_depth, source_term,
      reference_term, literals_term, nesting_term, h1, h2, h3, h4, and_self]

theorem product_tree_facts {D : Type} (A : Arith D) (zero : D) :
    ∀ p : arith_product, tree_source (product_tree p) = source_product p
      ∧ tree_value A zero (product_tree p) = reference_product A p
      ∧ tree_digits (product_tree p) = literals_product p
      ∧ tree_depth (product_tree p) = nesting_product p
  | arith_product.term t => by
    obtain ⟨h1, h2, h3, h4⟩ := term_tree_facts A zero t
    simp only [product_tree, source_product, reference_product, literals_product,
      nesting_product, h1, h2, h3, h4, and_self]
  | arith_product.mul p t => by
    obtain ⟨h1, h2, h3, h4⟩ := product_tree_facts A zero p
    obtain ⟨g1, g2, g3, g4⟩ := term_tree_facts A zero t
    refine ⟨?_, ?_, ?_, ?_⟩
    · simp only [product_tree, tree_source, source_product, h1, g1]; rfl
    · simp only [product_tree, tree_value, reference_product, h2, g2]; rfl
    · simp only [product_tree, tree_digits, literals_product, h3, g3]; simp
    · simp only [product_tree, tree_depth, nesting_product, h4, g4]
  | arith_product.div p t => by
    obtain ⟨h1, h2, h3, h4⟩ := product_tree_facts A zero p
    obtain ⟨g1, g2, g3, g4⟩ := term_tree_facts A zero t
    refine ⟨?_, ?_, ?_, ?_⟩
    · simp only [product_tree, tree_source, source_product, h1, g1]; rfl
    · simp only [product_tree, tree_value, reference_product, h2, g2]; rfl
    · simp only [product_tree, tree_digits, literals_product, h3, g3]; simp
    · simp only [product_tree, tree_depth, nesting_product, h4, g4]

theorem sum_tree_facts {D : Type} (A : Arith D) (zero : D) :
    ∀ e : arith_sum, tree_source (sum_tree e) = source_sum e
      ∧ tree_value A zero (sum_tree e) = reference_sum A e
      ∧ tree_digits (sum_tree e) = literals_sum e
      ∧ tree_depth (sum_tree e) = nesting_sum e
  | arith_sum.product p => by
    obtain ⟨h1, h2, h3, h4⟩ := product_tree_facts A zero p
    simp only [sum_tree, source_sum, reference_sum, literals_sum, nesting_sum,
      h1, h2, h3, h4, and_self]
  | arith_sum.add e p => by
    obtain ⟨h1, h2, h3, h4⟩ := sum_tree_facts A zero e
    obtain ⟨g1, g2, g3, g4⟩ := product_tree_facts A zero p
    refine ⟨?_, ?_, ?_, ?_⟩
    · simp only [sum_tree, tree_source, source_sum, h1, g1]; rfl
    · simp only [sum_tree, tree_value, reference_sum, h2, g2]; rfl
    · simp only [sum_tree, tree_digits, literals_sum, h3, g3]; simp
    · simp only [sum_tree, tree_depth, nesting_sum, h4, g4]
  | arith_sum.sub e p => by
    obtain ⟨h1, h2, h3, h4⟩ := sum_tree_facts A zero e
    obtain ⟨g1, g2, g3, g4⟩ := product_tree_facts A zero p
    refine ⟨?_, ?_, ?_, ?_⟩
    · simp only [sum_tree, tree_source, source_sum, h1, g1]; rfl
    · simp only [sum_tree, tree_value, reference_sum, h2, g2]; rfl
    · simp only [sum_tree, tree_digits, literals_sum, h3, g3]; simp
    · simp only [sum_tree, tree_depth, nesting_sum, h4, g4]

end

mutual

theorem term_tree_ordered :
    ∀ (t : arith_term) (L : Nat),
      ordered (term_tree t) L = true ∧ ops_ge (term_tree t) (L + 19) L = true
  | arith_term.lit ds, L => ⟨rfl, rfl⟩
  | arith_term.group e, L => by
    obtain ⟨h1, h2⟩ := sum_tree_ordered e (L + 13)
    exact ⟨h1, h2⟩

theorem product_tree_ordered :
    ∀ (p : arith_product) (L : Nat),
      ordered (product_tree p) L = true ∧ ops_ge (product_tree p) (L + 8) L = true
  | arith_product.term t, L => by
    obtain ⟨h1, h2⟩ := term_tree_ordered t L
    exact ⟨h1, ops_ge_mono _ _ _ L h2 (by omega)⟩
  | arith_product.mul p t, L => by
    obtain ⟨h1, h2⟩ := product_tree_ordered p L
    obtain ⟨g1, g2⟩ := term_tree_ordered t L
    have g3 := ops_ge_mono _ _ (L + 8 + 1) L g2 (by omega)
    have g4 := ops_ge_mono _ _ (L + 8) L g2 (by omega)
    constructor
    · simp only [product_tree, ordered, Bool.and_eq_true]
      exact ⟨⟨⟨h1, g1⟩, h2⟩, g3⟩
    · simp only [product_tree, ops_ge, Bool.and_eq_true, decide_eq_true_eq]
      exact ⟨⟨le_refl _, h2⟩, g4⟩
  | arith_product.div p t, L => by
    obtain ⟨h1, h2⟩ := product_tree_ordered p L
    obtain ⟨g1, g2⟩ := term_tree_ordered t L
    have g3 := ops_ge_mono _ _ (L + 8 + 1) L g2 (by omega)
    have g4 := ops_ge_mono _ _ (L + 8) L g2 (by omega)
    constructor
    · simp only [product_tree, ordered, Bool.and_eq_true]
      exact ⟨⟨⟨h1, g1⟩, h2⟩, g3⟩
    · simp only [product_tree, ops_ge, Bool.and_eq_true, decide_eq_true_eq]
      exact ⟨⟨le_refl _, h2⟩, g4⟩

theorem sum_tree_ordered :
    ∀ (e : arith_sum) (L : Nat),
      ordered (sum_tree e) L = true ∧ ops_ge (sum_tree e) (L + 6) L = true
  | arith_sum.product p, L => by
    obtain ⟨h1, h2⟩ := product_tree_ordered p L
    exact ⟨h1, ops_ge_mono _ _ _ L h2 (by omega)⟩
  | arith_sum.add e p, L => by
    obtain ⟨h1, h2⟩ := sum_tree_ordered e L
    obtain ⟨g1, g2⟩ := product_tree_ordered p L
    have g3 := ops_ge_mono _ _ (L + 6 + 1) L g2 (by omega)
    have g4 := ops_ge_mono _ _ (L + 6) L g2 (by omega)
    constructor
    · simp only [sum_tree, ordered, Bool.and_eq_true]
      exact ⟨⟨⟨h1, g1⟩, h2⟩, g3⟩
    · simp only [sum_tree, ops_ge, Bool.and_eq_true, decide_eq_true_eq]
      exact ⟨⟨le_refl _, h2⟩, g4⟩
  | arith_sum.sub e p, L => by
    obtain ⟨h1, h2⟩ := sum_tree_ordered e L
    obtain ⟨g1, g2⟩ := product_tree_ordered p L
    have g3 := ops_ge_mono _ _ (L + 6 + 1) L g2 (by omega)
    have g4 := ops_ge_mono _ _ (L + 6) L g2 (by omega)
    constructor
    · simp only [sum_tree, ordered, Bool.and_eq_true]
      exact ⟨⟨⟨h1, g1⟩, h2⟩, g3⟩
    · simp only [sum_tree, ops_ge, Bool.and_eq_true, decide_eq_true_eq]
      exact ⟨⟨le_refl _, h2⟩, g4⟩

end

/-! ## The flat grammar and the conventional grammar -/

theorem sum_times_facts (e : arith_sum) (t : arith_term) :
    source_sum (sum_times e t) = source_sum e ++ '*' :: source_term t
    ∧ literals_sum (sum_times e t) = (literals_sum e && literals_term t)
    ∧ nesting_sum (sum_times e t) = max (nesting_sum e) (nesting_term t) := by
  cases e with
  | product p => exact ⟨rfl, rfl, rfl⟩
  | add e p =>
    refine ⟨?_, ?_, ?_⟩
    · simp [sum_times, source_sum, source_product]
    · simp [sum_times, literals_sum, literals_product, Bool.and_assoc]
    · simp [sum_times, nesting_sum, nesting_product, max_assoc]
  | sub e p =>
    refine ⟨?_, ?_, ?_⟩
    · simp [sum_times, source_sum, source_product]
    · simp [sum_times, literals_sum, literals_product, Bool.and_assoc]
    · simp [sum_times, nesting_sum, nesting_product, max_assoc]

theorem sum_over_facts (e : arith_sum) (t : arith_term) :
    source_sum (sum_over e t) = source_sum e ++ '/' :: source_term t
    ∧ literals_sum (sum_over e t) = (literals_sum e && literals_term t)
    ∧ nesting_sum (sum_over e t) = max (nesting_sum e) (nesting_term t) := by
  cases e with
  | product p => exact ⟨rfl, rfl, rfl⟩
  | add e p =>
    refine ⟨?_, ?_, ?_⟩
    · simp [sum_over, source_sum, source_product]
    · simp [sum_over, literals_sum, literals_product, Bool.and_assoc]
    · simp [sum_over, nesting_sum, nesting_product, max_assoc]
  | sub e p =>
    refine ⟨?_, ?_, ?_⟩
    · simp [sum_over, source_sum, source_product]
    · simp [sum_over, literals_sum, literals_product, Bool.and_assoc]
    · simp [sum_over, nesting_sum, nesting_product, max_assoc]

mutual

theorem conventional_term_facts :
    ∀ t : flat_term, flat_ok_term t = true →
      source_term (conventional_term t) = flat_source_term t
      ∧ literals_term (conventional_term t) = true
      ∧ nesting_term (conventional_term t) = flat_nesting_term t
  | flat_term.lit ds, h => ⟨rfl, h, rfl⟩
  | flat_term.group e, h => by
    obtain ⟨h1, h2, h3⟩ := conventional_facts e h
    simp only [conventional_term, source_term, literals_term, nesting_term, flat_source_term,
      flat_nesting_term, h1, h2, h3, and_self]

theorem conventional_facts :
    ∀ e : flat_expr, flat_ok e = true →
      source_sum (conventional e) = flat_source e
      ∧ literals_sum (conventional e) = true
      ∧ nesting_sum (conventional e) = flat_nesting e
  | flat_expr.single t, h => by
    obtain ⟨h1, h2, h3⟩ := conventional_term_facts t h
    simp only [conventional, source_sum, source_product, literals_sum, literals_product,
      nesting_sum, nesting_product, flat_source, flat_nesting, h1, h2, h3, and_self]
  | flat_expr.more e op t, h => by
    simp only [flat_ok, Bool.and_eq_true] at h
    obtain ⟨⟨he, hop⟩, ht⟩ := h
    obtain ⟨h1, h2, h3⟩ := conventional_facts e he
    obtain ⟨g1, g2, g3⟩ := conventional_term_facts t ht
    have hop2 : op = '+' ∨ op = '-' ∨ op = '*' ∨ op = '/' := by
      simpa using hop
    by_cases c1 : op = '+'
    · subst c1
      simp only [conventional, if_true, source_sum, source_product, literals_sum,
        literals_product, nesting_sum, nesting_product, flat_source, flat_nesting, h1, h2, h3,
        g1, g2, g3, Bool.and_self, and_self]
    · by_cases c2 : op = '-'
      · subst c2
        simp only [conventional, c1, if_true, if_false, source_sum, source_product, literals_sum,
          literals_product, nesting_sum, nesting_product, flat_source, flat_nesting, h1, h2, h3,
          g1, g2, g3, Bool.and_self, and_self]
      · by_cases c3 : op = '*'
        · subst c3
          obtain ⟨k1, k2, k3⟩ := sum_times_facts (conventional e) (conventional_term t)
          simp only [conventional, c1, c2, if_true, if_false, flat_source, flat_nesting, k1, k2,
            k3, h1, h2, h3, g1, g2, g3, Bool.and_self, and_self]
        · have c4 : op = '/' := by
            rcases hop2 with h | h | h | h
            · exact absurd h c1
            · exact absurd h c2
            · exact absurd h c3
            · exact h
          subst c4
          obtain ⟨k1, k2, k3⟩ := sum_over_facts (conventional e) (conventional_term t)
          simp only [conventional, c1, c2, c3, if_false, flat_source, flat_nesting, k1, k2,
            k3, h1, h2, h3, g1, g2, g3, Bool.and_self, and_self]

end

/-! ## The two-pass reduction against the reference evaluator -/

/-- C25: the level-based two-pass reduction equals conventional evaluation.  For
every sum `e` of the conventional grammar (`*` and `/` bind tighter than `+` and
`-`, the operators of one tier associate to the left, brackets group) over
literals that are non-empty strings of digits, with brackets nested less than
`2 ^ 31 / 13` deep, the text of `e` is accepted and the evaluation of the
parsed expression returns the value the reference evaluator gives for `e`.  The
texts of the sums are all the texts of the flat grammar `E ::= T (op T)*`,
`T ::= literal | '(' E ')'`: every expression of the flat grammar has the text
of a sum with the same literals and the same nesting. -/
theorem C25_reduction_is_conventional {D : Type} (A : Arith D) (X : Externals D)
    (ns : Namespace) (w : World D) :
    (∀ e : arith_sum, literals_sum e = true → 13 * nesting_sum e + 11 < 2147483648 →
      ∃ x, feenox_expression_parse A ns (source_sum e) = ([], Ret.ok x)
        ∧ ∃ x1 w1, feenox_expression_eval A X x w = some (reference_sum A e, x1, w1))
    ∧ (∀ f : flat_expr, flat_ok f = true →
      ∃ e : arith_sum, source_sum e = flat_source f ∧ literals_sum e = true
        ∧ nesting_sum e = flat_nesting f) := by
  constructor
  · intro e hl hn
    obtain ⟨h1, h2, h3, h4⟩ := sum_tree_facts A w.special_var_zero e
    obtain ⟨ho, -⟩ := sum_tree_ordered e 1
    have hd : tree_digits (sum_tree e) = true := by rw [h3]; exact hl
    have hb : 13 * tree_depth (sum_tree e) + 11 < 2147483648 := by rw [h4]; exact hn
    have hp := parse_tree A ns (sum_tree e) hd (by unfold SIZE_MAX1; omega)
    obtain ⟨x1, w1, he⟩ := eval_tree A X w (sum_tree e) (source_sum e) hd ho hb
    rw [h1] at hp
    rw [h2] at he
    exact ⟨_, hp, x1, w1, he⟩
  · intro f hf
    exact ⟨conventional f, conventional_facts f hf⟩

/-- Witness of C25: the text `2*(3+4)-10/5` is the text of a sum and of an
expression of the flat grammar; it is accepted and evaluates to 12, the value
the reference evaluator gives. -/
theorem C25_reduction_is_conventional_witness :
    source_sum sample_arith = "2*(3+4)-10/5".toList
    ∧ flat_source sample_flat = "2*(3+4)-10/5".toList
    ∧ literals_sum sample_arith = true ∧ flat_ok sample_flat = true
    ∧ reference_sum exact sample_arith = XReal.fin 12
    ∧ (∃ x, feenox_expression_parse exact sample_ns (source_sum sample_arith) = ([], Ret.ok x)
        ∧ ∃ x1 w1, feenox_expression_eval exact sample_externals x sample_world
            = some (reference_sum exact sample_arith, x1, w1))
    ∧ (∃ e : arith_sum, source_sum e = flat_source sample_flat ∧ literals_sum e = true
        ∧ nesting_sum e = flat_nesting sample_flat) := by
  refine ⟨by decide, by decide, by decide, by decide, ?_,
    (C25_reduction_is_conventional exact sample_externals sample_ns sample_world).1
      sample_arith (by decide) (by decide),
    (C25_reduction_is_conventional exact sample_externals sample_ns sample_world).2
      sample_flat (by decide)⟩
  simp only [sample_arith, reference_sum, reference_product, reference_term, literal_exact]
  have h2 : digits_value "2".toList = 2 := by decide
  have h3 : digits_value "3".toList = 3 := by decide
  have h4 : digits_value "4".toList = 4 := by decide
  have h5 : digits_value "5".toList = 5 := by decide
  have h10 : digits_value "10".toList = 10 := by decide
  rw [h2, h3, h4, h5, h10]
  simp only [exact, XReal.add, XReal.mul, XReal.sub, XReal.div, XReal.neg]
  norm_num

/-! ## Operands without an operator between them -/

/-- C31 (code bug): the loop of the builder has no test for an operand that
follows an operand.  The texts `2 3`, `2(3)` and `2x` (with `x` declared) are
accepted with the two operands as the factors, and the evaluator returns the
value of the first one, 2, on each. -/
theorem C31_adjacent_operands_accepted {D : Type} (A : Arith D) (X : Externals D)
    (w : World D) :
    feenox_expression_parse A sample_ns "2 3".toList
      = ([], Ret.ok ⟨[digits_factor A "2".toList 1, digits_factor A "3".toList 1],
          "2 3".toList⟩)
    ∧ feenox_expression_parse A sample_ns "2(3)".toList
      = ([], Ret.ok ⟨[digits_factor A "2".toList 1, digits_factor A "3".toList 14],
          "2(3)".toList⟩)
    ∧ feenox_expression_parse A sample_ns "2x".toList
      = ([], Ret.ok ⟨[digits_factor A "2".toList 1,
            variable_factor A "x".toList EXPR_VARIABLE 1 1], "2x".toList⟩)
    ∧ (feenox_expression_eval A X
        ⟨[digits_factor A "2".toList 1, digits_factor A "3".toList 1], "2 3".toList⟩ w).map
          (fun r => r.1) = some (literal A "2".toList)
    ∧ (feenox_expression_eval A X
        ⟨[digits_factor A "2".toList 1, digits_factor A "3".toList 14], "2(3)".toList⟩ w).map
          (fun r => r.1) = some (literal A "2".toList)
    ∧ (feenox_expression_eval A X
        ⟨[digits_factor A "2".toList 1, variable_factor A "x".toList EXPR_VARIABLE 1 1],
          "2x".toList⟩ w).map (fun r => r.1) = some (literal A "2".toList) :=
  ⟨rfl, rfl, rfl, rfl, rfl, rfl⟩

/-! ## Blanks next to a name -/

/-- C32 (code bug): the loop of the builder skips blanks, but the factor parser
reads the character right after a name and takes the text of a vector argument
or of the variable of a functional as it stands.  `vecdot(v,v)` is accepted and
`vecdot(v, v)` fails with "undefined vector ' v'"; `f(1,2)` is accepted and
`f (1,2)` fails with "expected parenthesis after 'f'"; `integral(1,x,0,1)` is
accepted and `integral(1, x,0,1)` fails; `x(1)` fails and `x (1)` is accepted.
An argument that is an expression may start with a blank: `min(1, 2)` is
accepted. -/
theorem C32_blanks_next_to_a_name {D : Type} (A : Arith D) :
    feenox_expression_parse A builtin_ns "vecdot(v,v)".toList
      = ([], Ret.ok ⟨[{ builtin_vectorfunction_factor A ⟨"vecdot".toList, 2, 2⟩ 11
            [some "v".toList, some "v".toList] with level := 1 }], "vecdot(v,v)".toList⟩)
    ∧ feenox_expression_parse A builtin_ns "vecdot(v, v)".toList
      = ([Event.push_error_message "undefined vector '%s'" [msg_arg.str " v".toList]],
          Ret.fail)
    ∧ (feenox_expression_parse A sample_ns "f(1,2)".toList).2
      = Ret.ok ⟨[{ function_factor A ⟨"f".toList, 2⟩ 6
            [⟨[digits_factor A "1".toList 1], "1".toList⟩,
             ⟨[digits_factor A "2".toList 1], "2".toList⟩] with level := 1 }],
          "f(1,2)".toList⟩
    ∧ feenox_expression_parse A sample_ns "f (1,2)".toList
      = ([Event.push_error_message "expected parenthesis after '%s'" [msg_arg.str "f".toList]],
          Ret.fail)
    ∧ (∃ e, feenox_expression_parse A builtin_ns "integral(1,x,0,1)".toList = ([], Ret.ok e))
    ∧ feenox_expression_parse A builtin_ns "integral(1, x,0,1)".toList = ([], Ret.fail)
    ∧ feenox_expression_parse A sample_ns "x(1)".toList
      = ([Event.push_error_message "variable '%s' does not take arguments (it is a variable)"
            [msg_arg.str "x".toList]], Ret.fail)
    ∧ feenox_expression_parse A sample_ns "x (1)".toList
      = ([], Ret.ok ⟨[variable_factor A "x".toList EXPR_VARIABLE 1 1,
            digits_factor A "1".toList 14], "x (1)".toList⟩)
    ∧ feenox_expression_parse A builtin_ns "min(1, 2)".toList
      = ([], Ret.ok ⟨[{ builtin_function_factor A ⟨"min".toList, 2, 4⟩ 9
            [⟨[digits_factor A "1".toList 1], "1".toList⟩,
             ⟨[digits_factor A "2".toList 1], " 2".toList⟩, calloc_expr, calloc_expr]
            with level := 1 }], "min(1, 2)".toList⟩) :=
  ⟨rfl, rfl, rfl, rfl, ⟨_, rfl⟩, rfl, rfl, rfl, rfl⟩

/-! ## User functions whose name ends in a reserved suffix -/

/-- C33 (code bug): the suffix `_0` or `_init` is cut off the token before the
lookups and put back only when a matrix, a vector or a variable was found, so
the function table is asked for the name without the suffix.  With the
functions `T_0` and `f_init` declared (the table finds `T_0`, as the thermal
initialisation does), the calls `T_0(1)` and `f_init(1)` fail with "unknown
symbol 'T'" and "unknown symbol 'f'"; with a function `T` declared as well,
`T_0(1)` fails with "expected parenthesis after 'T'".  With a variable `T`
declared the underscore is put back and `T_0(1)` gives the factor of `T_0`. -/
theorem C33_suffixed_function_not_callable {D : Type} (A : Arith D)
    (parse : List Char → Res (expr_t D)) :
    feenox_get_function_ptr initial_ns "T_0".toList = some ⟨"T_0".toList, 1⟩
    ∧ feenox_get_function_ptr initial_ns "f_init".toList = some ⟨"f_init".toList, 1⟩
    ∧ feenox_expression_parse_factor A initial_ns parse "T_0(1)".toList
      = ([Event.push_error_message "unknown symbol '%s'" [msg_arg.str "T".toList]], Ret.fail)
    ∧ feenox_expression_parse_factor A initial_ns parse "f_init(1)".toList
      = ([Event.push_error_message "unknown symbol '%s'" [msg_arg.str "f".toList]], Ret.fail)
    ∧ feenox_expression_parse_factor A initial_ns_T parse "T_0(1)".toList
      = ([Event.push_error_message "expected parenthesis after '%s'" [msg_arg.str "T".toList]],
          Ret.fail)
    ∧ feenox_expression_parse_factor A initial_ns_var (feenox_expression_parse A initial_ns_var)
        "T_0(1)".toList
      = ([], Ret.ok { function_factor A ⟨"T_0".toList, 1⟩ 6
            [⟨[digits_factor A "1".toList 1], "1".toList⟩] with var := some "T".toList }) :=
  ⟨rfl, rfl, rfl, rfl, rfl, rfl⟩

/-! ## The count of an argument list is at least one -/

theorem count_loop_ge (s : List Char) :
    ∀ (n : Nat) (level k k1 : Int) (n1 : Nat),
      count_loop s n level k = some (k1, n1) → k ≤ k1 ∧ k1 ≤ k + s.length := by
  induction s with
  | nil => intro n level k k1 n1 h; simp [count_loop] at h
  | cons c t ih =>
    intro n level k k1 n1 h
    rw [count_loop] at h
    simp only [List.length_cons, Nat.cast_add, Nat.cast_one]
    split_ifs at h <;>
      first
      | (have hh := ih _ _ _ _ _ h; omega)
      | (simp only [Option.some.injEq, Prod.mk.injEq] at h; omega)

/-- C34: `feenox_count_arguments` returns -1 with a message or a count of at
least 1 without one (and at most the length of the text), never 0; on `()` it
returns 1 and stores 2.  For a user function `f` of one argument the call `f()`
passes the arity check: the factor parser returns the factor of `f` with the
single argument expression parsed from the empty text, which is the zeroed
expression, without factors, and `feenox_expression_eval` returns 0 on it and
leaves the state alone. -/
theorem C34_count_is_at_least_one {D : Type} (A : Arith D) (X : Externals D) (ns : Namespace)
    (f : function_t) (rest : List Char) (w : World D)
    (hf : plain_function ns f = true) (h1 : f.n_arguments = 1) :
    (∀ s : List Char,
      ((feenox_count_arguments s).ret = -1 ∧ (feenox_count_arguments s).log ≠ [])
      ∨ (1 ≤ (feenox_count_arguments s).ret ∧ (feenox_count_arguments s).ret ≤ s.length
          ∧ (feenox_count_arguments s).log = []))
    ∧ feenox_count_arguments "()".toList
        = { ret := 1, n_chars := 2, string := "()".toList, log := [] }
    ∧ feenox_expression_parse_factor A ns (feenox_expression_parse A ns)
        (f.name ++ '(' :: ')' :: rest)
      = ([], Ret.ok (function_factor A f (f.name.length + 2) [calloc_expr]))
    ∧ feenox_expression_parse A ns [] = ([], Ret.ok calloc_expr)
    ∧ (calloc_expr : expr_t D).factors = []
    ∧ feenox_expression_eval A X calloc_expr w = some (A.zero, calloc_expr, w) := by
  refine ⟨?_, rfl, ?_, rfl, rfl, rfl⟩
  · intro s
    unfold feenox_count_arguments
    by_cases h0 : char_at s 0 ≠ '('
    · rw [if_pos h0]
      left
      exact ⟨rfl, by simp⟩
    · rw [if_neg h0]
      cases hc : count_loop (s.drop 1) 1 1 1 with
      | none => left; exact ⟨rfl, by simp⟩
      | some r =>
        obtain ⟨k1, n1⟩ := r
        right
        have hb := count_loop_ge _ _ _ _ _ _ hc
        have hs : s ≠ [] := by
          intro hs; subst hs; exact h0 (by decide)
        have hl : ((s.drop 1).length : Int) + 1 = s.length := by
          cases s with
          | nil => exact absurd rfl hs
          | cons a t => simp
        refine ⟨hb.1, ?_, rfl⟩
        show k1 ≤ (s.length : Int)
        omega
  · have hargs : ∀ a ∈ [([] : List Char)], is_argument a = true := by
      intro a ha
      simp only [List.mem_singleton] at ha
      subst ha
      rfl
    have h := parse_factor_function_call A ns (feenox_expression_parse A ns) f [[]] rest hf
      (by simp) hargs
    have hj : join_arguments [([] : List Char)] = [] := rfl
    rw [hj] at h
    simp only [List.nil_append, List.length_singleton, List.length_nil, Nat.cast_one] at h
    rw [h, if_neg (by rw [h1]; simp), h1]
    rfl

/-- Witness of C34: with `f` of one argument declared, `f()` gives the factor of
`f` with one argument without factors. -/
theorem C34_count_is_at_least_one_witness :
    plain_function unary_ns ⟨"f".toList, 1⟩ = true
    ∧ feenox_expression_parse_factor exact unary_ns (feenox_expression_parse exact unary_ns)
        "f()".toList
      = ([], Ret.ok (function_factor exact ⟨"f".toList, 1⟩ 3 [calloc_expr])) :=
  ⟨by decide,
   (C34_count_is_at_least_one exact sample_externals unary_ns ⟨"f".toList, 1⟩ [] sample_world
      (by decide) rfl).2.2.1⟩

/-! ## The comparison operators -/

theorem exact_lt_asymm (x y : XReal) (h : exact.lt x y = true) : exact.lt y x = false := by
  cases x <;> cases y <;> simp_all [exact, XReal.lt]
  exact le_of_lt h

/-- C35: for operand values `a`, `b` and any tolerance `zero`, pass 2 reduces
`a = b` and `a ! b` to one of the values 1 and 0 each, one of them 1 and the
other 0, so that they add up to 1; it reduces `a < b` and `a > b` to one of the
values 1 and 0 each, and not both to 1.  The evaluator on the three factors of
such a comparison returns the value of that reduction at the tolerance held in
the state.  The facts of the arithmetic used: 1 + 0 and 0 + 1 are 1, 1 is not 0
and `x < y` excludes `y < x`. -/
theorem C35_comparisons_complementary {D : Type} (A : Arith D) (X : Externals D)
    (hadd : A.add A.one A.zero = A.one ∧ A.add A.zero A.one = A.one)
    (hne : A.one ≠ A.zero)
    (hasym : ∀ x y : D, A.lt x y = true → A.lt y x = false)
    (zero a b : D) :
    ((apply_operator A zero '=' a b).1 = A.one ∨ (apply_operator A zero '=' a b).1 = A.zero)
    ∧ ((apply_operator A zero '!' a b).1 = A.one ∨ (apply_operator A zero '!' a b).1 = A.zero)
    ∧ A.add (apply_operator A zero '=' a b).1 (apply_operator A zero '!' a b).1 = A.one
    ∧ ((apply_operator A zero '=' a b).1 = A.one ↔ (apply_operator A zero '!' a b).1 = A.zero)
    ∧ ((apply_operator A zero '<' a b).1 = A.one ∨ (apply_operator A zero '<' a b).1 = A.zero)
    ∧ ((apply_operator A zero '>' a b).1 = A.one ∨ (apply_operator A zero '>' a b).1 = A.zero)
    ∧ ¬ ((apply_operator A zero '<' a b).1 = A.one ∧ (apply_operator A zero '>' a b).1 = A.one)
    ∧ (∀ (w : World D) (s : List Char) (k : Nat), 2 ≤ k → k ≤ 5 →
        (feenox_expression_eval A X
            ⟨[constant_factor A a 1 1, operator_factor A 1 k, constant_factor A b 1 1], s⟩ w).map
          (fun r => r.1) = some (apply_operator A w.special_var_zero (char_at operators k) a b).1) := by
  have he : apply_operator A zero '=' a b
      = if A.lt (A.fabs a) A.one ∨ A.lt (A.fabs b) A.one then
          ((if A.lt (A.fabs (A.sub a b)) zero then A.one else A.zero), [])
        else ((if A.gsl_fcmp a b zero = 0 then A.one else A.zero), []) := rfl
  have hn : apply_operator A zero '!' a b
      = if A.lt (A.fabs a) A.one ∨ A.lt (A.fabs b) A.one then
          ((if A.lt (A.fabs (A.sub a b)) zero then A.zero else A.one), [])
        else ((if A.gsl_fcmp a b zero = 0 then A.zero else A.one), []) := rfl
  have hl : apply_operator A zero '<' a b = ((if A.lt a b then A.one else A.zero), []) := rfl
  have hg : apply_operator A zero '>' a b = ((if A.lt b a then A.one else A.zero), []) := rfl
  have hne2 : A.zero ≠ A.one := fun h => hne h.symm
  refine ⟨?_, ?_, ?_, ?_, ?_, ?_, ?_, ?_⟩
  · rw [he]; split_ifs <;> simp
  · rw [hn]; split_ifs <;> simp
  · rw [he, hn]; split_ifs <;> simp only [hadd.1, hadd.2]
  · rw [he, hn]; split_ifs <;> simp [hne, hne2]
  · rw [hl]; split_ifs <;> simp
  · rw [hg]; split_ifs <;> simp
  · rw [hl, hg]
    rintro ⟨h1, h2⟩
    by_cases hab : A.lt a b = true
    · have hba := hasym a b hab
      rw [hba] at h2
      simp only [Bool.false_eq_true, if_false] at h2
      exact hne2 h2
    · rw [if_neg hab] at h1
      exact hne2 h1
  · intro w s k h2 h5
    have hk : k = 2 ∨ k = 3 ∨ k = 4 ∨ k = 5 := by omega
    rcases hk with hk | hk | hk | hk <;> subst hk <;> rfl

/-- Witness of C35: in exact arithmetic with tolerance 1/1000000, `2 = 3` gives 0
and `2 ! 3` gives 1, `2 < 3` gives 1 and `2 > 3` gives 0. -/
theorem C35_comparisons_complementary_witness :
    (exact.add exact.one exact.zero = exact.one ∧ exact.add exact.zero exact.one = exact.one)
    ∧ exact.one ≠ exact.zero
    ∧ (∀ x y : XReal, exact.lt x y = true → exact.lt y x = false)
    ∧ exact.add (apply_operator exact (XReal.fin (1 / 1000000)) '=' (XReal.fin 2) (XReal.fin 3)).1
        (apply_operator exact (XReal.fin (1 / 1000000)) '!' (XReal.fin 2) (XReal.fin 3)).1
      = exact.one
    ∧ ¬ ((apply_operator exact (XReal.fin (1 / 1000000)) '<' (XReal.fin 2) (XReal.fin 3)).1
          = exact.one
        ∧ (apply_operator exact (XReal.fin (1 / 1000000)) '>' (XReal.fin 2) (XReal.fin 3)).1
          = exact.one) :=
  have h := C35_comparisons_complementary exact sample_externals
    ⟨by simp [exact, XReal.add], by simp [exact, XReal.add]⟩ (by simp [exact])
    exact_lt_asymm (XReal.fin (1 / 1000000)) (XReal.fin 2) (XReal.fin 3)
  ⟨⟨by simp [exact, XReal.add], by simp [exact, XReal.add]⟩, by simp [exact],
   exact_lt_asymm, h.2.2.1, h.2.2.2.2.2.2.1⟩

/-! ## The partition of the elements among the processes -/

theorem to_size_t_nat (n : Nat) (h : n < 2147483648) : to_size_t (n : Int) = n := by
  show n % 18446744073709551616 = n
  omega

/-- The range of a rank without the reductions modulo `2 ^ 64`. -/
theorem element_range_eq (N P r : Nat) (hN : N < SIZE_MAX1) (hP : P < 2147483648)
    (hr : r < P) :
    element_range N P r
      = (N / P * r + min r (N % P), N / P * r + min r (N % P) + N / P
          + (if r < N % P then 1 else 0))
    ∧ N / P * r + min r (N % P) + N / P + (if r < N % P then 1 else 0) ≤ N := by
  have hPs := to_size_t_nat P hP
  have hrs := to_size_t_nat r (by omega)
  have hm : N % P < P := Nat.mod_lt _ (by omega)
  have hdm : N / P * P + N % P = N := Nat.div_add_mod' N P
  have hmul : N / P * (r + 1) ≤ N / P * P := Nat.mul_le_mul_left _ (by omega)
  have hexp : N / P * (r + 1) = N / P * r + N / P := by ring
  rw [hexp] at hmul
  unfold SIZE_MAX1 at hN
  unfold element_range
  simp only [hPs, hrs, SIZE_MAX1]
  generalize N / P = q at *
  generalize N % P = m at *
  generalize q * r = qr at *
  generalize q * P = qP at *
  by_cases hlt : r < m
  · have hmin : min r m = r := by omega
    rw [if_pos hlt, if_pos (show m > r from hlt), hmin]
    have h1 : qr % 18446744073709551616 = qr := Nat.mod_eq_of_lt (by omega)
    rw [h1]
    have h2 : (qr + r) % 18446744073709551616 = qr + r :=
      Nat.mod_eq_of_lt (by omega)
    rw [h2]
    have h3 : (qr + r + q) % 18446744073709551616 = qr + r + q :=
      Nat.mod_eq_of_lt (by omega)
    rw [h3]
    have h4 : (qr + r + q + 1) % 18446744073709551616
        = qr + r + q + 1 := Nat.mod_eq_of_lt (by omega)
    rw [h4]
    exact ⟨rfl, by omega⟩
  · have hmin : min r m = m := by omega
    rw [if_neg hlt, if_neg (show ¬ (m > r) from hlt), hmin]
    have h1 : qr % 18446744073709551616 = qr := Nat.mod_eq_of_lt (by omega)
    rw [h1]
    have h2 : (qr + m) % 18446744073709551616 = qr + m :=
      Nat.mod_eq_of_lt (by omega)
    rw [h2]
    have h3 : (qr + m + q) % 18446744073709551616
        = qr + m + q := Nat.mod_eq_of_lt (by omega)
    rw [h3]
    exact ⟨rfl, by omega⟩

/-- C36: for `N` elements (a `size_t`), `P ≥ 1` processes (an `int`) and the ranks
`r < P`, the ranges computed by `feenox_problem_init_runtime_general` start at 0
for rank 0, end at `N` for rank `P - 1`, each range ends where the range of the
next rank starts, every range lies within `[0, N]` with
`first_element ≤ last_element`, every size is `N / P` or `N / P + 1`, two sizes
differ by at most one, and every element below `N` lies in the range of exactly
one rank. -/
theorem C36_element_partition (N P : Nat) (hN : N < SIZE_MAX1) (hP1 : 1 ≤ P)
    (hP : P < 2147483648) :
    first_element N P 0 = 0
    ∧ last_element N P ((P - 1 : Nat) : Int) = N
    ∧ (∀ r : Nat, r + 1 < P →
        last_element N P r = first_element N P ((r + 1 : Nat) : Int))
    ∧ (∀ r : Nat, r < P →
        first_element N P r ≤ last_element N P r ∧ last_element N P r ≤ N
        ∧ (last_element N P r - first_element N P r = N / P
            ∨ last_element N P r - first_element N P r = N / P + 1))
    ∧ (∀ r q : Nat, r < P → q < P →
        last_element N P r - first_element N P r
          ≤ last_element N P q - first_element N P q + 1)
    ∧ (∀ e : Nat, e < N →
        ∃ r : Nat, r < P ∧ first_element N P r ≤ e ∧ e < last_element N P r
          ∧ ∀ q : Nat, q < P → first_element N P q ≤ e → e < last_element N P q → q = r) := by
  have hm : N % P < P := Nat.mod_lt _ (by omega)
  have hdm : P * (N / P) + N % P = N := Nat.div_add_mod N P
  have hsize : ∀ r : Nat, r < P →
      first_element N P r ≤ last_element N P r ∧ last_element N P r ≤ N
      ∧ (last_element N P r - first_element N P r = N / P
          ∨ last_element N P r - first_element N P r = N / P + 1) := by
    intro r hr
    obtain ⟨he, hb⟩ := element_range_eq N P r hN hP hr
    unfold first_element last_element
    rw [he]
    simp only
    generalize N / P * r + min r (N % P) = f at *
    generalize N / P = q at *
    refine ⟨by omega, hb, ?_⟩
    by_cases h : r < N % P
    · right; rw [if_pos h]; omega
    · left; rw [if_neg h]; omega
  have hfirst : first_element N P ((0 : Nat) : Int) = 0 := by
    obtain ⟨he, -⟩ := element_range_eq N P 0 hN hP (by omega)
    unfold first_element
    rw [he]
    simp
  have hlast : last_element N P ((P - 1 : Nat) : Int) = N := by
    obtain ⟨he, -⟩ := element_range_eq N P (P - 1) hN hP (by omega)
    unfold last_element
    rw [he]
    simp only
    have hmin : min (P - 1) (N % P) = N % P := by omega
    rw [hmin, if_neg (by omega)]
    have hexp : N / P * (P - 1) + N / P = P * (N / P) := by
      have : N / P * (P - 1 + 1) = N / P * (P - 1) + N / P := by ring
      rw [← this, show P - 1 + 1 = P by omega, Nat.mul_comm]
    generalize N / P * (P - 1) = a at *
    generalize P * (N / P) = b at *
    generalize N / P = q at *
    generalize N % P = m at *
    omega
  have hchain : ∀ r : Nat, r + 1 < P →
      last_element N P r = first_element N P ((r + 1 : Nat) : Int) := by
    intro r hr
    obtain ⟨he, -⟩ := element_range_eq N P r hN hP (by omega)
    obtain ⟨he1, -⟩ := element_range_eq N P (r + 1) hN hP hr
    unfold first_element last_element
    rw [he, he1]
    simp only
    have hexp : N / P * (r + 1) = N / P * r + N / P := by ring
    rw [hexp]
    generalize N / P * r = a
    generalize N / P = q
    generalize N % P = m at *
    by_cases h : r < m
    · rw [if_pos h]; omega
    · rw [if_neg h]; omega
  -- the ranges of two ranks in increasing order do not overlap
  have hmono : ∀ d r : Nat, r + d + 1 < P →
      last_element N P r ≤ first_element N P ((r + d + 1 : Nat) : Int) := by
    intro d
    induction d with
    | zero => intro r hr; exact le_of_eq (hchain r hr)
    | succ d ih =>
      intro r hr
      have h1 := ih r (by omega)
      have h2 := (hsize (r + d + 1) (by omega)).1
      have h3 := hchain (r + d + 1) (by omega)
      have e : r + (d + 1) + 1 = r + d + 1 + 1 := by omega
      rw [e]
      omega
  -- every element lies in the range of a rank
  have hcover : ∀ e : Nat, ∀ k : Nat, k < P → e < last_element N P k →
      ∃ r : Nat, r ≤ k ∧ first_element N P r ≤ e ∧ e < last_element N P r := by
    intro e k
    induction k with
    | zero =>
      intro _ h
      exact ⟨0, le_refl _, by rw [hfirst]; exact Nat.zero_le _, h⟩
    | succ k ih =>
      intro hk h
      by_cases hlt : e < last_element N P k
      · obtain ⟨r, hr, h1, h2⟩ := ih (by omega) hlt
        exact ⟨r, by omega, h1, h2⟩
      · refine ⟨k + 1, le_refl _, ?_, h⟩
        rw [← hchain k hk]
        omega
  refine ⟨hfirst, hlast, hchain, hsize, ?_, ?_⟩
  · intro r q hr hq
    have h1 := hsize r hr
    have h2 := hsize q hq
    omega
  · intro e he
    obtain ⟨r, hr, h1, h2⟩ := hcover e (P - 1) (by omega) (by rw [hlast]; exact he)
    refine ⟨r, by omega, h1, h2, ?_⟩
    intro q hq hq1 hq2
    by_contra hne
    rcases Nat.lt_or_gt_of_ne hne with hlt | hgt
    · have := hmono (r - q - 1) q (by omega)
      rw [show q + (r - q - 1) + 1 = r by omega] at this
      omega
    · have := hmono (q - r - 1) r (by omega)
      rw [show r + (q - r - 1) + 1 = q by omega] at this
      omega

/-- Witness of C36: 10 elements among 4 processes give the ranges `[0, 3)`,
`[3, 6)`, `[6, 8)` and `[8, 10)`. -/
theorem C36_element_partition_witness :
    (10 : Nat) < SIZE_MAX1 ∧ 1 ≤ 4 ∧ 4 < 2147483648
    ∧ element_range 10 4 0 = (0, 3) ∧ element_range 10 4 1 = (3, 6)
    ∧ element_range 10 4 2 = (6, 8) ∧ element_range 10 4 3 = (8, 10)
    ∧ first_element 10 (4 : Nat) 0 = 0
    ∧ last_element 10 (4 : Nat) ((4 - 1 : Nat) : Int) = 10 :=
  ⟨by decide, by decide, by decide, by decide, by decide, by decide, by decide,
   (C36_element_partition 10 4 (by decide) (by decide) (by decide)).1,
   (C36_element_partition 10 4 (by decide) (by decide) (by decide)).2.1⟩

/-! ## The heat capacity of the transient thermal problem -/

/-- C37 (code bug): the test after the initialisation of `rho` and `cp` reads
`thermal.rhocp.defined == 0 || thermal.cp.defined == 0`, and it is reached only
when `rhocp` is not defined: with a mass term, `k` given over all volumes and
neither `kappa` nor `rhocp` given, the routine returns `FEENOX_ERROR` with the
message "either 'kappa', 'rhocp' or both 'rho' and 'cp' are needed for
transient" whatever `rho` and `cp` are, also when both are given over all
volumes. -/
theorem C37_rho_and_cp_rejected {D : Type} (A : Arith D) (ns : Namespace) (dim : Int)
    (end_time : D) (init : distribution_t → List Char → Int × distribution_t)
    (thermal : thermal_t)
    (hT : ∀ f, feenox_get_function_ptr ns "T_0".toList = some f → f.n_arguments = dim)
    (hmass : A.lt A.zero end_time = true)
    (hok : ∀ d name, (init d name).1 = FEENOX_OK)
    (hk : (init thermal.k "k".toList).2.defined ≠ 0 ∧ (init thermal.k "k".toList).2.full ≠ 0)
    (hkappa : (init thermal.kappa "kappa".toList).2.defined = 0)
    (hrhocp : (init thermal.rhocp "rhocp".toList).2.defined = 0) :
    (feenox_problem_init_runtime_thermal A ns dim end_time init thermal).1
      = [Event.push_error_message
          "either 'kappa', 'rhocp' or both 'rho' and 'cp' are needed for transient" []]
    ∧ (feenox_problem_init_runtime_thermal A ns dim end_time init thermal).2.1
      = FEENOX_ERROR := by
  have hmis : (match feenox_get_function_ptr ns "T_0".toList with
      | some initial_condition =>
        if initial_condition.n_arguments ≠ dim then some initial_condition.n_arguments else none
      | none => (none : Option Int)) = none := by
    cases hf : feenox_get_function_ptr ns "T_0".toList with
    | none => rfl
    | some f =>
      have := hT f hf
      simp only [this, ne_eq, not_true_eq_false, if_false]
  unfold feenox_problem_init_runtime_thermal
  simp only [hmis, hok, hmass, hk.1, hk.2, hkappa, hrhocp, ne_eq, not_true_eq_false, if_false,
    if_true, true_or, and_self]
  split_ifs <;> simp_all

/-- Witness of C37: with `k`, `rho` and `cp` given over all volumes and a
positive end time, the routine returns the error. -/
theorem C37_rho_and_cp_rejected_witness :
    (rho_cp_given thermal_zero.rho "rho".toList).2 = ⟨1, 1⟩
    ∧ (rho_cp_given thermal_zero.cp "cp".toList).2 = ⟨1, 1⟩
    ∧ feenox_problem_init_runtime_thermal exact sample_ns 3 (XReal.fin 1) rho_cp_given
        thermal_zero
      = ([Event.push_error_message
            "either 'kappa', 'rhocp' or both 'rho' and 'cp' are needed for transient" []],
          FEENOX_ERROR, { thermal_zero with k := ⟨1, 1⟩, rho := ⟨1, 1⟩, cp := ⟨1, 1⟩ })
    ∧ (feenox_problem_init_runtime_thermal exact sample_ns 3 (XReal.fin 1) rho_cp_given
        thermal_zero).2.1 = FEENOX_ERROR :=
  ⟨by decide, by decide, by decide,
   (C37_rho_and_cp_rejected exact sample_ns 3 (XReal.fin 1) rho_cp_given thermal_zero
      (by decide) (by decide) (by intro d name; unfold rho_cp_given; split_ifs <;> rfl)
      (by decide) (by decide) (by decide)).2⟩

/-! ## Time views of a variable whose name holds a suffix -/

/-- C8 (code bug): with the variable `x_01` declared, `x_01` evaluates to the
content of its current cell and `x_01_init` to the content of its initial-static
cell, but `x_01_0` is rejected as an unknown symbol: the suffix `_0` is looked
for at its first occurrence in the token, which is not at the end.  With a
variable `x` that shares its name with a builtin function, the text `x` is
rejected as well.  For every variable declared under a name token that holds no
`_0` or `_init` and that no other entry claims, the three texts evaluate to the
contents of the three cells. -/
theorem C8_time_views {D : Type} (A : Arith D) (X : Externals D) :
    feenox_get_variable_ptr suffix_ns "x_01".toList = some "x_01".toList
    ∧ (∀ w : World D, ∃ e, feenox_expression_parse A suffix_ns "x_01".toList = ([], Ret.ok e)
        ∧ (feenox_expression_eval A X e w).map (fun r => r.1)
          = some (w.var "x_01".toList).value)
    ∧ (∀ w : World D, ∃ e,
        feenox_expression_parse A suffix_ns "x_01_init".toList = ([], Ret.ok e)
        ∧ (feenox_expression_eval A X e w).map (fun r => r.1)
          = some (w.var "x_01".toList).initial_static)
    ∧ feenox_expression_parse A suffix_ns "x_01_0".toList
      = ([Event.push_error_message "unknown symbol '%s'" [msg_arg.str "x_01_0".toList]],
          Ret.fail)
    ∧ feenox_get_variable_ptr clash_ns "x".toList = some "x".toList
    ∧ feenox_expression_parse A clash_ns "x".toList
      = ([Event.push_error_message "expected parenthesis after '%s'" [msg_arg.str "x".toList]],
          Ret.fail)
    ∧ (∀ (ns : Namespace) (w : World D) (x : List Char), plain_variable ns x = true →
        (∃ e, feenox_expression_parse A ns x = ([], Ret.ok e)
          ∧ (feenox_expression_eval A X e w).map (fun r => r.1) = some (w.var x).value)
        ∧ (∃ e, feenox_expression_parse A ns (x ++ "_0".toList) = ([], Ret.ok e)
          ∧ (feenox_expression_eval A X e w).map (fun r => r.1)
            = some (w.var x).initial_transient)
        ∧ (∃ e, feenox_expression_parse A ns (x ++ "_init".toList) = ([], Ret.ok e)
          ∧ (feenox_expression_eval A X e w).map (fun r => r.1)
            = some (w.var x).initial_static)) :=
  ⟨rfl,
   fun _ => ⟨⟨[variable_factor A "x_01".toList EXPR_VARIABLE 4 1], "x_01".toList⟩, rfl, rfl⟩,
   fun _ => ⟨⟨[variable_factor A "x_01".toList (EXPR_VARIABLE ||| EXPR_INITIAL_STATIC) 9 1],
     "x_01_init".toList⟩, rfl, rfl⟩,
   rfl, rfl, rfl,
   fun ns w x h => time_views_of_plain_variable A X ns w x h⟩

/-- Witness of C8: with current 5, initial-static 1 and initial-transient 2, the
texts `x`, `x_0` and `x_init` give 5, 2 and 1. -/
theorem C8_time_views_witness :
    plain_variable sample_ns "x".toList = true
    ∧ (∃ e, feenox_expression_parse exact sample_ns "x".toList = ([], Ret.ok e)
      ∧ (feenox_expression_eval exact sample_externals e sample_world).map (fun r => r.1)
          = some (XReal.fin 5))
    ∧ (∃ e, feenox_expression_parse exact sample_ns "x_0".toList = ([], Ret.ok e)
      ∧ (feenox_expression_eval exact sample_externals e sample_world).map (fun r => r.1)
          = some (XReal.fin 2))
    ∧ (∃ e, feenox_expression_parse exact sample_ns "x_init".toList = ([], Ret.ok e)
      ∧ (feenox_expression_eval exact sample_externals e sample_world).map (fun r => r.1)
          = some (XReal.fin 1)) :=
  ⟨by decide,
   (C8_time_views exact sample_externals).2.2.2.2.2.2 sample_ns sample_world "x".toList
     (by decide)⟩

/-! ## Calls of a user function whose name ends in a suffix -/

/-- C10 (code bug): the user function `T_0` of one argument is in the table under
its name, but the factor parser asks the table for the token without its
suffix: the call `T_0(1)`, with the right number of arguments, gives no factor,
and the call `T_0(1,2)` fails with "unknown symbol 'T'", a message that does not
hold the expected number.  For a user function `f` of `n` arguments declared
under a name token without a reserved suffix that no matrix, vector or variable
shares, and a call text `f(a1,...,am)` whose arguments are balanced and free of
top-level commas, the factor parser fails with the message "function '%s' takes
exactly %d argument%s instead of %d" carrying `n` when `m ≠ n`; when `m = n`
and the argument parser accepts every argument, it returns a user-function
factor bound to `f` whose `arg` holds the `m` parsed expressions. -/
theorem C10_user_function_arity {D : Type} (A : Arith D)
    (parse : List Char → Res (expr_t D)) :
    feenox_get_function_ptr initial_ns "T_0".toList = some ⟨"T_0".toList, 1⟩
    ∧ feenox_expression_parse_factor A initial_ns parse "T_0(1)".toList
      = ([Event.push_error_message "unknown symbol '%s'" [msg_arg.str "T".toList]], Ret.fail)
    ∧ feenox_expression_parse_factor A initial_ns parse "T_0(1,2)".toList
      = ([Event.push_error_message "unknown symbol '%s'" [msg_arg.str "T".toList]], Ret.fail)
    ∧ (∀ (ns : Namespace) (f : function_t) (args : List (List Char)) (rest : List Char),
        plain_function ns f = true → args ≠ [] → (∀ a ∈ args, is_argument a = true) →
        ((args.length : Int) ≠ f.n_arguments →
          feenox_expression_parse_factor A ns parse
              (f.name ++ '(' :: (join_arguments args ++ ')' :: rest))
            = ([Event.push_error_message
                  "function '%s' takes exactly %d argument%s instead of %d"
                  [msg_arg.str f.name, msg_arg.int f.n_arguments,
                   msg_arg.str (plural f.n_arguments), msg_arg.int args.length]], Ret.fail))
        ∧ ((args.length : Int) = f.n_arguments →
            ∀ es, List.Forall₂ (fun a e => (parse a).2 = Ret.ok e) args es →
              (feenox_expression_parse_factor A ns parse
                  (f.name ++ '(' :: (join_arguments args ++ ')' :: rest))).2
                = Ret.ok (function_factor A f
                    (f.name.length + ((join_arguments args).length + 2)) es))) :=
  ⟨rfl, rfl, rfl,
   fun ns f args rest hf hne hargs => arity_of_plain_function A ns parse f args rest hf hne hargs⟩

/-- Witness of C10: with `f` of two arguments, `f(1)` and `f(1,(2+3),4)+1` fail with
the message carrying 2 and the number of arguments met, and `f(1,2)` gives the factor
of `f` with the two parsed arguments. -/
theorem C10_user_function_arity_witness :
    plain_function sample_ns ⟨"f".toList, 2⟩ = true
    ∧ feenox_expression_parse_factor exact sample_ns (feenox_expression_parse exact sample_ns)
        "f(1)".toList
      = ([Event.push_error_message "function '%s' takes exactly %d argument%s instead of %d"
            [msg_arg.str "f".toList, msg_arg.int 2, msg_arg.str "s".toList, msg_arg.int 1]],
          Ret.fail)
    ∧ feenox_expression_parse_factor exact sample_ns (feenox_expression_parse exact sample_ns)
        "f(1,(2+3),4)+1".toList
      = ([Event.push_error_message "function '%s' takes exactly %d argument%s instead of %d"
            [msg_arg.str "f".toList, msg_arg.int 2, msg_arg.str "s".toList, msg_arg.int 3]],
          Ret.fail)
    ∧ (feenox_expression_parse_factor exact sample_ns (feenox_expression_parse exact sample_ns)
        "f(1,2)".toList).2
      = Ret.ok (function_factor exact ⟨"f".toList, 2⟩ 6
          [⟨[digits_factor exact "1".toList 1], "1".toList⟩,
           ⟨[digits_factor exact "2".toList 1], "2".toList⟩]) :=
  ⟨by decide,
   ((C10_user_function_arity exact (feenox_expression_parse exact sample_ns)).2.2.2 sample_ns
      ⟨"f".toList, 2⟩ ["1".toList] [] (by decide) (by decide) (by decide)).1 (by decide),
   ((C10_user_function_arity exact (feenox_expression_parse exact sample_ns)).2.2.2 sample_ns
      ⟨"f".toList, 2⟩ ["1".toList, "(2+3)".toList, "4".toList] "+1".toList
      (by decide) (by decide) (by decide)).1 (by decide),
   ((C10_user_function_arity exact (feenox_expression_parse exact sample_ns)).2.2.2 sample_ns
      ⟨"f".toList, 2⟩ ["1".toList, "2".toList] [] (by decide) (by decide) (by decide)).2 rfl
      [⟨[digits_factor exact "1".toList 1], "1".toList⟩,
       ⟨[digits_factor exact "2".toList 1], "2".toList⟩]
      (List.Forall₂.cons rfl (List.Forall₂.cons rfl List.Forall₂.nil))⟩

/-! ## An operator at the start of an argument -/

/-- C14 (code bug): every argument of a call or of a subindex is built by a
fresh run of the loop, which starts as if the last thing met were an operand.
So `v(*2)` and `f(*1,2)`, in which `*` is the next character after an opening
bracket, are accepted, with the operator as the first factor of the argument,
while `(*2)` is rejected.  At the loop itself, in any state in which the last
thing met was an operator, right after a binary operator and right after an
opening bracket that the loop steps on, one of `& | = ! < > * / ^` as the next
non-blank character stops the builder with "two adjacent operators"; so do the
whole sources `a o c ...` and `( c ...`. -/
theorem C14_two_adjacent_operators {D : Type} (A : Arith D) :
    feenox_expression_parse A sample_ns "v(*2)".toList
      = ([], Ret.ok ⟨[vector_factor A "v".toList EXPR_VECTOR 5 1
            [⟨[operator_factor A 1 8, digits_factor A "2".toList 1], "*2".toList⟩]],
          "v(*2)".toList⟩)
    ∧ (feenox_expression_parse A sample_ns "f(*1,2)".toList).2
      = Ret.ok ⟨[{ function_factor A ⟨"f".toList, 2⟩ 7
            [⟨[operator_factor A 1 8, digits_factor A "1".toList 1], "*1".toList⟩,
             ⟨[digits_factor A "2".toList 1], "2".toList⟩] with level := 1 }],
          "f(*1,2)".toList⟩
    ∧ feenox_expression_parse A sample_ns "(*2)".toList
      = ([Event.push_error_message "two adjacent operators" []], Ret.fail)
    ∧ (∀ (ns : Namespace) (pf : List Char → Res (expr_factor_t D)) (bs rest : List Char)
        (c : Char), (∀ b ∈ bs, isblank b = true) → c ∈ "&|=!<>*/^".toList →
        (∀ oper level fs, parse_loop A pf (bs ++ c :: rest) 0 oper true level fs
          = ([Event.push_error_message "two adjacent operators" []], Ret.fail))
        ∧ (∀ o ∈ binary_operators, ∀ oper level fs,
            parse_loop A pf (o :: (bs ++ c :: rest)) 0 oper false level fs
              = ([Event.push_error_message "two adjacent operators" []], Ret.fail))
        ∧ (∀ oper last level fs,
            parse_loop A pf ('(' :: (bs ++ c :: rest)) 0 oper last level fs
              = ([Event.push_error_message "two adjacent operators" []], Ret.fail))
        ∧ (∀ a bs1, is_digits a = true → (∀ b ∈ bs1, isblank b = true) →
            ∀ o ∈ binary_operators,
            feenox_expression_parse A ns (a ++ (bs1 ++ o :: (bs ++ c :: rest)))
              = ([Event.push_error_message "two adjacent operators" []], Ret.fail))
        ∧ feenox_expression_parse A ns ('(' :: (bs ++ c :: rest))
            = ([Event.push_error_message "two adjacent operators" []], Ret.fail)) :=
  ⟨rfl, rfl, rfl,
   fun ns pf bs rest c hbs hc => adjacent_operators_at_loop A ns pf bs rest c hbs hc⟩

/-- Witness of C14: `2+*3`, `2 * / 3` and `(*3)` are rejected with "two adjacent
operators". -/
theorem C14_two_adjacent_operators_witness :
    feenox_expression_parse exact sample_ns "2+*3".toList
      = ([Event.push_error_message "two adjacent operators" []], Ret.fail)
    ∧ feenox_expression_parse exact sample_ns "2 * / 3".toList
      = ([Event.push_error_message "two adjacent operators" []], Ret.fail)
    ∧ feenox_expression_parse exact sample_ns "(*3)".toList
      = ([Event.push_error_message "two adjacent operators" []], Ret.fail) :=
  ⟨((C14_two_adjacent_operators exact).2.2.2 sample_ns
      (feenox_expression_parse_factor exact sample_ns (feenox_expression_parse exact sample_ns))
      [] "3".toList '*' (by decide) (by decide)).2.2.2.1 "2".toList [] (by decide) (by decide)
      '+' (by decide),
   ((C14_two_adjacent_operators exact).2.2.2 sample_ns
      (feenox_expression_parse_factor exact sample_ns (feenox_expression_parse exact sample_ns))
      " ".toList " 3".toList '/' (by decide) (by decide)).2.2.2.1 "2".toList " ".toList
      (by decide) (by decide) '*' (by decide),
   ((C14_two_adjacent_operators exact).2.2.2 sample_ns
      (feenox_expression_parse_factor exact sample_ns (feenox_expression_parse exact sample_ns))
      [] "3)".toList '*' (by decide) (by decide)).2.2.2.2⟩

/-! ## Grouping brackets and the levels of the factors -/

theorem level_at_facts (d : Int) :
    (level_at d + 13) % SIZE_MAX1 = level_at (d + 1)
    ∧ (level_at d + SIZE_MAX1 - 13) % SIZE_MAX1 = level_at (d - 1)
    ∧ level_at d < SIZE_MAX1
    ∧ (0 ≤ d → 13 * d + 1 < 18446744073709551616 → (level_at d : Int) = 1 + 13 * d) := by
  have hx0 := Int.emod_nonneg (1 + 13 * d) (show (18446744073709551616 : Int) ≠ 0 by norm_num)
  have hxM := Int.emod_lt_of_pos (1 + 13 * d) (show (0 : Int) < 18446744073709551616 by norm_num)
  have hy : (1 + 13 * (d + 1)) % 18446744073709551616
      = ((1 + 13 * d) % 18446744073709551616 + 13) % 18446744073709551616 := by
    rw [Int.emod_add_emod]; ring_nf
  have hz : (1 + 13 * (d - 1)) % 18446744073709551616
      = ((1 + 13 * d) % 18446744073709551616 + 18446744073709551616 - 13)
          % 18446744073709551616 := by
    rw [add_sub_assoc, Int.emod_add_emod]
    have : 1 + 13 * d + (18446744073709551616 - 13)
        = 1 + 13 * (d - 1) + 18446744073709551616 := by ring
    rw [this, Int.add_emod_self]
  have hid : 0 ≤ d → 13 * d + 1 < 18446744073709551616 →
      (1 + 13 * d) % 18446744073709551616 = 1 + 13 * d := by
    intro h0 h1
    exact Int.emod_eq_of_lt (by omega) (by omega)
  have hlv : ∀ e : Int, ∃ n : Nat, (1 + 13 * e) % 18446744073709551616 = (n : Int)
      ∧ level_at e = n := by
    intro e
    obtain ⟨n, hn⟩ := Int.eq_ofNat_of_zero_le
      (Int.emod_nonneg (1 + 13 * e) (show (18446744073709551616 : Int) ≠ 0 by norm_num))
    exact ⟨n, hn, by unfold level_at; rw [hn]; rfl⟩
  obtain ⟨n, hn, hln⟩ := hlv d
  obtain ⟨n1, hn1, hln1⟩ := hlv (d + 1)
  obtain ⟨n2, hn2, hln2⟩ := hlv (d - 1)
  rw [hln, hln1, hln2]
  rw [hn] at hx0 hxM hy hz hid
  rw [hn1] at hy
  rw [hn2] at hz
  unfold SIZE_MAX1
  clear hn hn1 hn2 hln hln1 hln2 hlv
  refine ⟨?_, ?_, ?_, ?_⟩
  · omega
  · omega
  · omega
  · intro h0 h1
    exact hid h0 h1

theorem strchr_some_spec (table : List Char) (c : Char) :
    ∀ k, strchr table c = some k → k < table.length ∧ char_at table k = c := by
  induction table with
  | nil => intro k h; simp [strchr] at h
  | cons t ts ih =>
    intro k h
    unfold strchr at h
    split_ifs at h with ht
    · simp only [Option.some.injEq] at h
      subst h
      exact ⟨by simp, by simpa [char_at] using ht⟩
    · cases hs : strchr ts c with
      | none => rw [hs] at h; simp at h
      | some j =>
        rw [hs] at h
        simp only [Option.map_some', Option.some.injEq] at h
        subst h
        obtain ⟨h1, h2⟩ := ih j hs
        exact ⟨by simp only [List.length_cons]; omega, by simpa [char_at] using h2⟩

theorem operator_offset_bound (c : Char) (k : Nat) (h : strchr operators c = some k)
    (h1 : c ≠ '(') (h2 : c ≠ ')') : k ≤ 10 := by
  obtain ⟨hk, hc⟩ := strchr_some_spec operators c k h
  have hl : operators.length = 13 := rfl
  rw [hl] at hk
  by_contra hgt
  have : k = 11 ∨ k = 12 := by omega
  rcases this with hk | hk
  · subst hk; exact h1 hc.symm
  · subst hk; exact h2 hc.symm

/-- The factors the loop of the builder appends lie at the level of the grouping
brackets around them: an operand at `level_at d`, an operator at the level of its
factor for `level_at d`. -/
theorem parse_loop_depths {D : Type} (A : Arith D) (pf : List Char → Res (expr_factor_t D))
    (s : List Char) :
    ∀ (skip : Nat) (oper : Option Nat) (last : Bool) (d : Int) (fs : List (expr_factor_t D))
      (log : List Event) (factors : List (expr_factor_t D)),
      parse_loop A pf s skip oper last (level_at d) fs = (log, Ret.ok factors) →
      ∃ added, factors = fs ++ added
        ∧ List.Forall₂ (fun (f : expr_factor_t D) (o : Option Nat × Int) =>
            (o.1 = none → f.level = level_at o.2)
            ∧ ∀ k, o.1 = some k → k ≤ 10 ∧ f = operator_factor A (level_at o.2) k)
          added (grouping_depths pf s skip last d) := by
  induction s with
  | nil =>
    intro skip oper last d fs log factors h
    refine ⟨[], ?_, by simp [grouping_depths]⟩
    simp only [parse_loop] at h
    split_ifs at h
    · simp at h
    · split at h
      · split_ifs at h
        · simp at h
        · simp only [Prod.mk.injEq, Ret.ok.injEq] at h
          simp [h.2]
      · simp only [Prod.mk.injEq, Ret.ok.injEq] at h
        simp [h.2]
  | cons c rest ih =>
    intro skip oper last d fs log factors h
    cases skip with
    | succ n =>
      simp only [parse_loop] at h
      simp only [grouping_depths]
      exact ih _ _ _ _ _ _ _ h
    | zero =>
      rw [parse_loop] at h
      rw [grouping_depths]
      by_cases hb : isblank c = true
      · rw [if_pos hb] at h ⊢
        exact ih _ _ _ _ _ _ _ h
      · rw [if_neg hb] at h ⊢
        cases hk : strchr operators c with
        | some k =>
          simp only [hk] at h ⊢
          by_cases h1 : c = '('
          · rw [if_pos h1] at h ⊢
            have hl : operators.length = 13 := rfl
            rw [hl, (level_at_facts d).1] at h
            exact ih _ _ _ _ _ _ _ h
          · rw [if_neg h1] at h ⊢
            by_cases h2 : c = ')'
            · rw [if_pos h2] at h ⊢
              have hl : operators.length = 13 := rfl
              rw [hl, (level_at_facts d).2.1] at h
              exact ih _ _ _ _ _ _ _ h
            · rw [if_neg h2] at h ⊢
              by_cases hlast : last = true
              · rw [if_pos hlast] at h ⊢
                by_cases hs : c = '+' ∨ c = '-'
                · rw [if_pos hs] at h ⊢
                  rcases hpf : pf (c :: rest) with ⟨log1, r1⟩
                  rw [hpf] at h
                  cases r1 with
                  | ok factor =>
                    simp only at h ⊢
                    by_cases hn : factor.n_chars = 0
                    · rw [if_pos hn] at h
                      simp at h
                    · rw [if_neg hn] at h ⊢
                      simp only [Prod.mk.injEq] at h
                      rcases hr : parse_loop A pf rest (factor.n_chars - 1) (some k) false
                        (level_at d) (fs ++ [{ factor with level := level_at d }])
                        with ⟨log2, r2⟩
                      rw [hr] at h
                      simp only at h
                      obtain ⟨-, h2'⟩ := h
                      subst h2'
                      obtain ⟨added, ha, hf⟩ := ih _ _ _ _ _ _ _ hr
                      refine ⟨{ factor with level := level_at d } :: added, by simp [ha], ?_⟩
                      exact List.Forall₂.cons ⟨fun _ => rfl, fun k hk => by simp at hk⟩ hf
                  | fail => simp at h
                  | out_of_fuel => simp at h
                · rw [if_neg hs] at h
                  simp at h
              · rw [if_neg hlast] at h ⊢
                obtain ⟨added, ha, hf⟩ := ih _ _ _ _ _ _ _ h
                refine ⟨operator_factor A (level_at d) k :: added, by simp [ha], ?_⟩
                refine List.Forall₂.cons ⟨fun hx => by simp at hx, ?_⟩ hf
                intro k1 hk1
                simp only [Option.some.injEq] at hk1
                subst hk1
                exact ⟨operator_offset_bound c k hk h1 h2, rfl⟩
        | none =>
          simp only [hk] at h ⊢
          rcases hpf : pf (c :: rest) with ⟨log1, r1⟩
          rw [hpf] at h
          cases r1 with
          | ok factor =>
            simp only at h ⊢
            by_cases hn : factor.n_chars = 0
            · rw [if_pos hn] at h
              simp at h
            · rw [if_neg hn] at h ⊢
              simp only [Prod.mk.injEq] at h
              rcases hr : parse_loop A pf rest (factor.n_chars - 1) none false
                (level_at d) (fs ++ [{ factor with level := level_at d }])
                with ⟨log2, r2⟩
              rw [hr] at h
              simp only at h
              obtain ⟨-, h2'⟩ := h
              subst h2'
              obtain ⟨added, ha, hf⟩ := ih _ _ _ _ _ _ _ hr
              refine ⟨{ factor with level := level_at d } :: added, by simp [ha], ?_⟩
              exact List.Forall₂.cons ⟨fun _ => rfl, fun k hk => by simp at hk⟩ hf
          | fail => simp at h
          | out_of_fuel => simp at h

theorem forall₂_at {α β : Type} (R : α → β → Prop) (l1 : List α) (l2 : List β)
    (h : List.Forall₂ R l1 l2) :
    ∀ (i : Nat) (o : β), l2[i]? = some o → ∃ f, l1[i]? = some f ∧ R f o := by
  induction h with
  | nil => intro i o ho; simp at ho
  | cons hr _ ih =>
    intro i o ho
    cases i with
    | zero =>
      simp only [List.getElem?_cons_zero, Option.some.injEq] at ho
      subst ho
      exact ⟨_, by simp, hr⟩
    | succ j =>
      simp only [List.getElem?_cons_succ] at ho ⊢
      exact ih j o ho

/-- Counterexample to C19 as stated: in `v(1+2)^3` the operator `+` is enclosed in
one pair of brackets and the operator `^` in none, and the factor of `+` has
level 7, below the level 11 of the factor of `^`: the brackets of a subindex or
of a call belong to the text of the factor, and what they enclose is an
expression of its own whose levels start at 1 again. -/
theorem C19_subindex_brackets_do_not_raise :
    feenox_expression_parse exact sample_ns "v(1+2)^3".toList
      = ([], Ret.ok ⟨[vector_factor exact "v".toList EXPR_VECTOR 6 1
            [⟨[digits_factor exact "1".toList 1, operator_factor exact 1 6,
               digits_factor exact "2".toList 1], "1+2".toList⟩],
          operator_factor exact 1 10, digits_factor exact "3".toList 1], "v(1+2)^3".toList⟩)
    ∧ (operator_factor exact 1 6).level = 7
    ∧ (operator_factor exact 1 10).level = 11 :=
  ⟨rfl, rfl, rfl⟩

/-- C19 (corrected): the opening bracket adds the length of the operator table, 13,
to the nesting level and the closing bracket subtracts it, in the arithmetic of
`size_t`.  For every source that the builder accepts, every factor of the
expression lies at the level of the grouping brackets around it, the brackets
that the loop of the builder meets itself: an operand inside `d` of them has
level `level_at d` and an operator has the level of its factor for
`level_at d`, which is `1 + 13 d` plus an offset of at most 10 as long as this
does not wrap.  Hence an operator factor inside `d + 1` grouping brackets has a
strictly greater level than an operator factor inside `d` of them, whatever the
two operators are.  The brackets of a call or of a subindex are part of the
text of that factor and are not counted. -/
theorem C19_brackets_above_precedence {D : Type} (A : Arith D) (ns : Namespace)
    (s : List Char) (log : List Event) (e : expr_t D)
    (h : feenox_expression_parse A ns s = (log, Ret.ok e)) :
    operators.length = 13
    ∧ (∀ (pf : List Char → Res (expr_factor_t D)) rest oper last level fs,
        parse_loop A pf ('(' :: rest) 0 oper last level fs
          = parse_loop A pf rest 0 (some 11) true ((level + 13) % SIZE_MAX1) fs)
    ∧ (∀ (pf : List Char → Res (expr_factor_t D)) rest oper last level fs,
        parse_loop A pf (')' :: rest) 0 oper last level fs
          = parse_loop A pf rest 0 (some 12) false ((level + SIZE_MAX1 - 13) % SIZE_MAX1) fs)
    ∧ (∀ d : Int, (level_at d + 13) % SIZE_MAX1 = level_at (d + 1)
        ∧ (level_at d + SIZE_MAX1 - 13) % SIZE_MAX1 = level_at (d - 1)
        ∧ (0 ≤ d → 13 * d + 1 < 18446744073709551616 → (level_at d : Int) = 1 + 13 * d))
    ∧ List.Forall₂ (fun (f : expr_factor_t D) (o : Option Nat × Int) =>
          (o.1 = none → f.level = level_at o.2)
          ∧ ∀ k, o.1 = some k → k ≤ 10 ∧ f = operator_factor A (level_at o.2) k)
        e.factors
        (grouping_depths (feenox_expression_parse_factor A ns (feenox_expression_parse A ns))
          s 0 false 0)
    ∧ (∀ (i j k1 k2 : Nat) (d : Int),
        (grouping_depths (feenox_expression_parse_factor A ns (feenox_expression_parse A ns))
          s 0 false 0)[i]? = some (some k1, d + 1) →
        (grouping_depths (feenox_expression_parse_factor A ns (feenox_expression_parse A ns))
          s 0 false 0)[j]? = some (some k2, d) →
        0 ≤ d → 13 * (d + 1) + 11 < 18446744073709551616 →
        ∃ f1 f2, e.factors[i]? = some f1 ∧ e.factors[j]? = some f2
          ∧ f1.type = EXPR_OPERATOR ∧ f2.type = EXPR_OPERATOR
          ∧ f1.oper = k1 + 1 ∧ f2.oper = k2 + 1 ∧ f2.level < f1.level) := by
  have hall : List.Forall₂ (fun (f : expr_factor_t D) (o : Option Nat × Int) =>
        (o.1 = none → f.level = level_at o.2)
        ∧ ∀ k, o.1 = some k → k ≤ 10 ∧ f = operator_factor A (level_at o.2) k)
      e.factors
      (grouping_depths (feenox_expression_parse_factor A ns (feenox_expression_parse A ns))
        s 0 false 0) := by
    rw [feenox_expression_parse_unfold] at h
    by_cases hs : s = []
    · rw [if_pos hs] at h
      simp only [Prod.mk.injEq, Ret.ok.injEq] at h
      rw [← h.2, hs]
      exact List.Forall₂.nil
    · rw [if_neg hs] at h
      have h1 : (1 : Nat) = level_at 0 := by
        unfold level_at
        norm_num
      rw [h1] at h
      rcases hr : parse_loop A
          (feenox_expression_parse_factor A ns (feenox_expression_parse A ns)) s 0 none false
          (level_at 0) [] with ⟨log1, r1⟩
      rw [hr] at h
      cases r1 with
      | ok factors =>
        simp only [Prod.mk.injEq, Ret.ok.injEq] at h
        obtain ⟨added, ha, hf⟩ := parse_loop_depths A _ s 0 none false 0 [] log1 factors hr
        rw [← h.2]
        simp only [List.nil_append] at ha
        rw [ha]
        exact hf
      | fail => simp at h
      | out_of_fuel => simp at h
  refine ⟨rfl, fun pf rest oper last level fs => parse_loop_open A pf rest oper last level fs,
    fun pf rest oper last level fs => parse_loop_close A pf rest oper last level fs,
    fun d => ⟨(level_at_facts d).1, (level_at_facts d).2.1, (level_at_facts d).2.2.2⟩,
    hall, ?_⟩
  intro i j k1 k2 d hi hj hd hb
  obtain ⟨f1, hf1, -, hr1⟩ := forall₂_at _ _ _ hall i _ hi
  obtain ⟨f2, hf2, -, hr2⟩ := forall₂_at _ _ _ hall j _ hj
  obtain ⟨hk1, e1⟩ := hr1 k1 rfl
  obtain ⟨hk2, e2⟩ := hr2 k2 rfl
  refine ⟨f1, f2, hf1, hf2, by rw [e1]; rfl, by rw [e2]; rfl, by rw [e1]; rfl,
    by rw [e2]; rfl, ?_⟩
  have l1 := (level_at_facts (d + 1)).2.2.2 (by omega) (by omega)
  have l2 := (level_at_facts d).2.2.2 hd (by omega)
  rw [e1, e2]
  show (level_at d + k2 / 2 * 2) % SIZE_MAX1 < (level_at (d + 1) + k1 / 2 * 2) % SIZE_MAX1
  simp only at l1 l2
  generalize level_at (d + 1) = L1 at *
  generalize level_at d = L2 at *
  have w1 : L1 + k1 / 2 * 2 < SIZE_MAX1 := by unfold SIZE_MAX1; omega
  have w2 : L2 + k2 / 2 * 2 < SIZE_MAX1 := by unfold SIZE_MAX1; omega
  rw [Nat.mod_eq_of_lt w1, Nat.mod_eq_of_lt w2]
  omega

/-- Witness of C19: in `(2+3)^4` the operator `+` is inside one grouping bracket
and `^` inside none; the factor of `+` has level 20 and the factor of `^` has
level 11. -/
theorem C19_brackets_above_precedence_witness :
    feenox_expression_parse exact sample_ns "(2+3)^4".toList
      = ([], Ret.ok ⟨[digits_factor exact "2".toList 14, tier_factor exact 20 7,
            digits_factor exact "3".toList 14, tier_factor exact 11 11,
            digits_factor exact "4".toList 1], "(2+3)^4".toList⟩)
    ∧ grouping_depths
        (feenox_expression_parse_factor exact sample_ns (feenox_expression_parse exact sample_ns))
        "(2+3)^4".toList 0 false 0
      = [(none, 1), (some 6, 1), (none, 1), (some 10, 0), (none, 0)]
    ∧ ∃ f1 f2,
        [digits_factor exact "2".toList 14, tier_factor exact 20 7,
          digits_factor exact "3".toList 14, tier_factor exact 11 11,
          digits_factor exact "4".toList 1][1]? = some f1
        ∧ [digits_factor exact "2".toList 14, tier_factor exact 20 7,
            digits_factor exact "3".toList 14, tier_factor exact 11 11,
            digits_factor exact "4".toList 1][3]? = some f2
        ∧ f1.type = EXPR_OPERATOR ∧ f2.type = EXPR_OPERATOR
        ∧ f1.oper = 6 + 1 ∧ f2.oper = 10 + 1 ∧ f2.level < f1.level :=
  ⟨rfl, rfl,
   (C19_brackets_above_precedence exact sample_ns "(2+3)^4".toList [] _ rfl).2.2.2.2.2
     1 3 6 10 0 rfl rfl (by decide) (by decide)⟩

/-! ## The factors pass 1 visits -/

theorem pass1_visited {D : Type} (A : Arith D) (X : Externals D) (fs : List (expr_factor_t D))
    (w : World D) (r : List (expr_factor_t D) × World D × Bool)
    (h : pass1 A X fs w = some r) :
    r.1.length = fs.length
    ∧ (r.2.2 = false → ∀ f ∈ r.1, f.tmp_level = f.level)
    ∧ (r.2.2 = true → ∃ n, n < fs.length ∧ r.1.drop (n + 1) = fs.drop (n + 1)
        ∧ ∀ f ∈ r.1.take (n + 1), f.tmp_level = f.level) := by
  induction fs generalizing w r with
  | nil =>
    simp only [pass1, Option.some.injEq] at h
    rw [← h]
    simp
  | cons f fs ih =>
    rw [pass1] at h
    split at h
    · exact absurd h (by simp)
    · rename_i f1 w1 heq
      simp only [Option.some.injEq] at h
      rw [← h]
      refine ⟨by simp, by simp, ?_⟩
      intro _
      refine ⟨0, by simp, by simp, ?_⟩
      intro g hg
      simp only [zero_add, List.take_succ_cons, List.take_zero, List.mem_singleton] at hg
      rw [hg]
      exact pass1_factor_reset A X f w _ heq
    · rename_i f1 w1 heq
      split at h
      · exact absurd h (by simp)
      · rename_i fs1 w2 returned heq2
        simp only [Option.some.injEq] at h
        rw [← h]
        obtain ⟨hl, hr, ht⟩ := ih _ _ heq2
        refine ⟨by simp only [List.length_cons]; rw [hl], ?_, ?_⟩
        · intro hret g hg
          rcases List.mem_cons.mp hg with hg | hg
          · rw [hg]
            exact pass1_factor_reset A X f w _ heq
          · exact hr hret g hg
        · intro hret
          obtain ⟨n, hn, hd, htk⟩ := ht hret
          refine ⟨n + 1, by simp only [List.length_cons]; omega, ?_, ?_⟩
          · simpa using hd
          · intro g hg
            simp only [List.take_succ_cons] at hg
            rcases List.mem_cons.mp hg with hg | hg
            · rw [hg]
              exact pass1_factor_reset A X f w _ heq
            · exact htk g hg

/-- C20 (corrected): an evaluation that returns leaves every factor of the expression,
at every depth of the arguments, as it was but for the fields `value` and
`tmp_level`: the factors are the same in number and order, with the same `level`,
`type`, `oper` and `constant`.  Pass 1, the first loop of the evaluation, sets the
`tmp_level` of every factor it visits to the `level` of that factor.  When pass 1
runs to its end these are all the factors; when it executes `return 0` at a
factor (a subindex out of range), the evaluation returns 0, the factors up to
that one have been set and the factors after it are left as they were. -/
theorem C20_eval_frame {D : Type} (A : Arith D) (X : Externals D) (e : expr_t D)
    (w : World D) (r : D × expr_t D × World D)
    (h : feenox_expression_eval A X e w = some r) :
    skeleton_expr A r.2.1 = skeleton_expr A e
    ∧ r.2.1.factors.length = e.factors.length
    ∧ r.2.1.factors.map (fun f => (f.level, f.type, f.oper, f.constant))
        = e.factors.map (fun f => (f.level, f.type, f.oper, f.constant))
    ∧ ∃ p, pass1 A X e.factors w = some p
        ∧ p.1.length = e.factors.length
        ∧ (p.2.2 = false → ∀ f ∈ p.1, f.tmp_level = f.level)
        ∧ (p.2.2 = true → r.1 = A.zero ∧ r.2.1.factors = p.1
            ∧ ∃ n, n < e.factors.length ∧ p.1.drop (n + 1) = e.factors.drop (n + 1)
              ∧ ∀ f ∈ p.1.take (n + 1), f.tmp_level = f.level) := by
  have hs := eval_skeleton A X e w r h
  have hm : r.2.1.factors.map (skeleton_factor A) = e.factors.map (skeleton_factor A) := by
    cases e
    cases hr : r.2.1
    rw [hr] at hs
    simp only [skeleton_expr, expr_of.mk.injEq] at hs
    rw [← skeleton_factors_map, ← skeleton_factors_map]
    exact hs.1
  refine ⟨hs, ?_, ?_, ?_⟩
  · have := congrArg List.length hm
    simpa using this
  · have := congrArg (List.map (fun g : expr_factor_t D => (g.level, g.type, g.oper, g.constant)))
      hm
    simp only [List.map_map] at this
    have hfun : ((fun g : expr_factor_t D => (g.level, g.type, g.oper, g.constant))
        ∘ skeleton_factor A) = (fun f => (f.level, f.type, f.oper, f.constant)) := by
      funext f
      exact skeleton_factor_fields A f
    rw [hfun] at this
    exact this
  · obtain ⟨factors, string⟩ := e
    cases factors with
    | nil =>
      exact ⟨([], w, false), rfl, rfl, by simp, by simp⟩
    | cons f fs =>
      rw [eval_unfold] at h
      cases hp : pass1 A X (f :: fs) w with
      | none => rw [hp] at h; exact absurd h (by simp)
      | some p =>
        obtain ⟨hl, hf, ht⟩ := pass1_visited A X (f :: fs) w p hp
        refine ⟨p, rfl, hl, hf, ?_⟩
        intro hret
        obtain ⟨fs1, w1, returned⟩ := p
        simp only at hret
        subst hret
        rw [hp] at h
        simp only [Option.some.injEq] at h
        rw [← h]
        exact ⟨rfl, rfl, ht rfl⟩

/-- Counterexample to C20 as stated: `v(4)+2` with a vector `v` of size 3.  The
evaluation returns 0 at the subindex out of range, and the factors of `+` and of
`2`, of levels 7 and 1, keep the `tmp_level` 0 they had. -/
theorem C20_tmp_level_kept_after_early_return :
    feenox_expression_parse exact sample_ns "v(4)+2".toList
      = ([], Ret.ok ⟨[vector_factor exact "v".toList EXPR_VECTOR 4 1
            [⟨[digits_factor exact "4".toList 1], "4".toList⟩],
          operator_factor exact 1 6, digits_factor exact "2".toList 1], "v(4)+2".toList⟩)
    ∧ ∃ r, feenox_expression_eval exact sample_externals
        ⟨[vector_factor exact "v".toList EXPR_VECTOR 4 1
            [⟨[digits_factor exact "4".toList 1], "4".toList⟩],
          operator_factor exact 1 6, digits_factor exact "2".toList 1], "v(4)+2".toList⟩
        sample_world = some r
      ∧ r.1 = XReal.fin 0
      ∧ r.2.1.factors.map (fun f => (f.level, f.tmp_level)) = [(1, 1), (7, 0), (1, 0)] := by
  refine ⟨rfl, ?_⟩
  have hsub : feenox_expression_eval exact sample_externals
        ⟨[digits_factor exact "4".toList 1], "4".toList⟩
        (vector_ready sample_externals "v".toList sample_world)
      = some (literal exact "4".toList,
          ⟨[plain_factor exact 2 1 1 0 1 (literal exact "4".toList) (literal exact "4".toList)],
            "4".toList⟩, sample_world) := rfl
  have hp := pass1_factor_vector exact sample_externals sample_world "v".toList
    ⟨[digits_factor exact "4".toList 1], "4".toList⟩ 4 1 _ _ _ hsub
  rw [lrint_literal_exact] at hp
  rw [if_pos (by decide)] at hp
  rw [eval_unfold, pass1, hp]
  exact ⟨_, rfl, rfl, rfl⟩

/-- Witness of C20: the evaluation of `2+3*4` returns, pass 1 runs to its end and
every factor has its `tmp_level` set to its `level` by it. -/
theorem C20_eval_frame_witness :
    feenox_expression_parse exact sample_ns "2+3*4".toList = ([], Ret.ok sample_sum)
    ∧ ∃ r, feenox_expression_eval exact sample_externals sample_sum sample_world = some r
      ∧ skeleton_expr exact r.2.1 = skeleton_expr exact sample_sum
      ∧ r.2.1.factors.length = sample_sum.factors.length
      ∧ r.2.1.factors.map (fun f => (f.level, f.type, f.oper, f.constant))
          = sample_sum.factors.map (fun f => (f.level, f.type, f.oper, f.constant))
      ∧ ∃ p, pass1 exact sample_externals sample_sum.factors sample_world = some p
          ∧ p.2.2 = false
          ∧ p.1.map (fun f => (f.level, f.tmp_level)) = [(1, 1), (7, 7), (1, 1), (9, 9), (1, 1)]
          ∧ ∀ f ∈ p.1, f.tmp_level = f.level := by
  refine ⟨rfl, _, rfl, ?_⟩
  obtain ⟨h1, h2, h3, p, hp, hl, hf, ht⟩ :=
    C20_eval_frame exact sample_externals sample_sum sample_world _ rfl
  refine ⟨h1, h2, h3, p, hp, ?_⟩
  have hc : ∃ q, pass1 exact sample_externals sample_sum.factors sample_world
      = some (q, sample_world, false)
      ∧ q.map (fun f => (f.level, f.tmp_level)) = [(1, 1), (7, 7), (1, 1), (9, 9), (1, 1)] :=
    ⟨_, rfl, rfl⟩
  obtain ⟨q, hq, hq2⟩ := hc
  rw [hq] at hp
  simp only [Option.some.injEq] at hp
  subst hp
  exact ⟨rfl, hq2, hf rfl⟩

/-! ## The splitting pass on the text the counting pass accepts -/

end Feenox
